import Mathlib

/-!
# Corrade: plugin manager core and argument parser

A shallow embedding of `src/Corrade/PluginManager/AbstractManager.cpp` and theorems about it.

Conventions of the embedding.

* A `Plugin&` or `Plugin*` of the source is the key of the record in
  `GlobalPluginStorage::plugins` (a `std::map`, so keys are unique and equal the
  record's `metadata._name`); reading through the reference is a lookup by name.
* An `AbstractManager*` is a natural number; `World.managers` gives the object behind it.
* Function pointers, module handles and plugin instances are natural numbers.
* Calls that leave the program (`dlopen`, `dlclose`, calls through resolved
  function pointers, `delete` of an instance) are recorded in `World.log`.
  `Error()` output is the diagnostic facility and is not modelled.
* The recursion of `loadInternal` through dependencies is bounded by a fuel
  argument; `Fault.outOfFuel` stands for a recursion that did not finish.
-/

namespace Corrade
namespace PluginManager

/-! ## Data model -/

/-- Load states of a plugin, `enum class LoadState`. -/
inductive LoadState where
  | NotFound
  | WrongMetadataFile
  | WrongPluginVersion
  | WrongInterfaceVersion
  | UnresolvedDependency
  | LoadFailed
  | NotLoaded
  | Loaded
  | UnloadFailed
  | Required
  | Used
  | Static
  deriving DecidableEq, Repr

/-- Modelled from the spec: the enumerator values of `LoadState` are declared in
`AbstractManager.h`, which is not among the sources. The spec lists the states in this
order and says that the values are orthogonal bits. -/
def LoadState.bits : LoadState → Nat
  | .NotFound => 1
  | .WrongMetadataFile => 2
  | .WrongPluginVersion => 4
  | .WrongInterfaceVersion => 8
  | .UnresolvedDependency => 16
  | .LoadFailed => 32
  | .NotLoaded => 64
  | .Loaded => 128
  | .UnloadFailed => 256
  | .Required => 512
  | .Used => 1024
  | .Static => 2048

/-- The test `state & (a|b|...)` of the source, converted to `bool`. -/
def LoadState.hasAny (s : LoadState) (mask : List LoadState) : Bool :=
  (s.bits &&& mask.foldl (fun acc m => acc ||| m.bits) 0) != 0

/-- Plugin metadata: `_name`, `_provides`, `_depends` and `_usedBy` of `PluginMetadata`. -/
structure PluginMetadata where
  name : String
  provides : List String
  depends : List String
  usedBy : List String
  deriving DecidableEq, Repr

/-- An entry of the static plugin registry, `AbstractManager::StaticPlugin`. -/
structure StaticPlugin where
  plugin : String
  interface : String
  instancer : Nat
  initializer : Nat
  finalizer : Nat
  deriving DecidableEq, Repr

/-- A plugin record, `AbstractManager::Plugin`. The `configuration` member is only read
while the record is built and is left out. -/
structure Plugin where
  loadState : LoadState
  metadata : PluginMetadata
  manager : Option Nat
  instancer : Option Nat
  staticPlugin : Option StaticPlugin
  module : Option Nat
  deriving DecidableEq, Repr

/-- The members of an `AbstractManager` object: the interface string its
`pluginInterface()` returns, `_pluginDirectory` and the `instances` map. -/
structure Manager where
  pluginInterface : String
  pluginDirectory : String
  instances : List (String × List Nat)
  deriving DecidableEq, Repr

/-- The process-wide storage, `AbstractManager::GlobalPluginStorage`: `plugins` holds the
records in key order, `aliases` maps an alias to (the name of) the record it refers to. -/
structure GlobalPluginStorage where
  plugins : List Plugin
  aliases : List (String × String)
  deriving DecidableEq, Repr

/-- Calls that leave the manager, in the order they are made. -/
inductive Event where
  | dlopen (plugin filename : String) (handle : Option Nat)
  | dlclose (handle : Nat)
  | initializer (plugin : String) (fn : Nat)
  | finalizer (plugin : String) (fn : Nat)
  | instancer (fn manager : Nat) (plugin : String)
  | deleted (inst : Nat)
  | staticFinalizer (plugin : String) (fn : Nat)
  deriving DecidableEq, Repr

/-- The whole state the manager code works on. -/
structure World where
  storage : GlobalPluginStorage
  managers : Nat → Manager
  log : List Event

/-- What `dlsym` finds in an opened module: for each well-known symbol either nothing
(a null pointer) or the function behind it (for `pluginVersion` and `pluginInterface`
the value the function returns). -/
structure ModuleSymbols where
  pluginVersion : Option Int
  pluginInterface : Option String
  pluginInstancer : Option Nat
  pluginInitializer : Option Nat
  pluginFinalizer : Option Nat
  deriving DecidableEq, Repr

/-- The surroundings of the manager: build constants, `Directory::join`, the dynamic
loader and the `canBeDeleted()` answers of the live plugin instances. -/
structure Env where
  version : Int
  suffix : String
  join : String → String → String
  dlopen : String → Option Nat
  dlsym : Nat → ModuleSymbols
  dlclose : Nat → Int
  canBeDeleted : Nat → Bool

/-- Ways in which a call does not return a value. -/
inductive Fault where
  | outOfFuel
  | assertion
  | nullCall
  | undefined
  | outOfRange
  deriving DecidableEq, Repr

/-! ## Storage access -/

/-- The lookup `_plugins.plugins.find(name)`. -/
def GlobalPluginStorage.find (s : GlobalPluginStorage) (name : String) : Option Plugin :=
  s.plugins.find? (fun p => p.metadata.name == name)

/-- A write through a reference to the record stored under `name`. -/
def GlobalPluginStorage.modify (s : GlobalPluginStorage) (name : String)
    (f : Plugin → Plugin) : GlobalPluginStorage :=
  { s with plugins := s.plugins.map (fun p => if p.metadata.name = name then f p else p) }

/-- The lookup `_plugins.plugins.find(name)` in a world. -/
def World.find (w : World) (name : String) : Option Plugin :=
  w.storage.find name

/-- A write through a reference to the record stored under `name`. -/
def World.modifyPlugin (w : World) (name : String) (f : Plugin → Plugin) : World :=
  { w with storage := w.storage.modify name f }

/-- Record a call that leaves the manager. -/
def World.emit (w : World) (e : Event) : World :=
  { w with log := w.log ++ [e] }

/-- Replace the `instances` map of manager `this`. -/
def World.setInstances (w : World) (this : Nat) (instances : List (String × List Nat)) : World :=
  { w with managers := fun m =>
      if m = this then { w.managers this with instances := instances } else w.managers m }

/-- The effect of `metadata._usedBy.push_back(usedBy)` on a record. -/
def Plugin.pushUsedBy (usedBy : String) (p : Plugin) : Plugin :=
  { p with metadata := { p.metadata with usedBy := p.metadata.usedBy ++ [usedBy] } }

/-- Erase the first occurrence of `usedBy` in `metadata._usedBy`, as the loops in
`removeUsedBy` and `unloadInternal` do. -/
def Plugin.eraseUsedBy (usedBy : String) (p : Plugin) : Plugin :=
  { p with metadata := { p.metadata with usedBy := p.metadata.usedBy.erase usedBy } }

/-- The final writes of a successful `loadInternal`. -/
def Plugin.setLoaded (module instancer : Nat) (p : Plugin) : Plugin :=
  { p with loadState := .Loaded, module := some module, instancer := some instancer }

/-- The final writes of a successful `unloadInternal`. -/
def Plugin.setUnloaded (p : Plugin) : Plugin :=
  { p with loadState := .NotLoaded, module := none, instancer := none }

/-- The write of `unloadInternal` when `dlclose` fails. -/
def Plugin.setUnloadFailed (p : Plugin) : Plugin :=
  { p with loadState := .NotLoaded }

/-! ## Lookup by name or alias -/

/-- Modelled from the spec: the `aliases` container is declared in `AbstractManager.h`,
which is not among the sources; the spec calls it a multimap from alias to a reference
to a record. `find` yields the first entry stored under the key. -/
def GlobalPluginStorage.findAlias (s : GlobalPluginStorage) (name : String) :
    Option (String × String) :=
  s.aliases.find? (fun a => a.1 == name)

/-- `AbstractManager::findWithAlias`. -/
def findWithAlias (this : Nat) (plugin : String) (s : GlobalPluginStorage) : Option Plugin :=
  match s.find plugin with
  | none =>
    match s.findAlias plugin with
    | none => none
    | some aliasFound =>
      match s.find aliasFound.2 with
      | none => none
      | some p => if p.manager = some this then some p else none
  | some found => if found.manager = some this then some found else none

/-- `AbstractManager::loadState`. -/
def loadState (this : Nat) (plugin : String) (w : World) : LoadState :=
  match findWithAlias this plugin w.storage with
  | some found => found.loadState
  | none => .NotFound

/-! ## Loading -/

/-- `AbstractManager::addUsedBy`. -/
def addUsedBy (plugin usedBy : String) (w : World) : Except Fault World :=
  match w.find plugin with
  | none => .error .assertion
  | some _ => .ok (w.modifyPlugin plugin (Plugin.pushUsedBy usedBy))

/-- `AbstractManager::removeUsedBy`. -/
def removeUsedBy (plugin usedBy : String) (w : World) : Except Fault World :=
  match w.find plugin with
  | none => .error .assertion
  | some _ => .ok (w.modifyPlugin plugin (Plugin.eraseUsedBy usedBy))

/-- The first loop of `loadInternal`: load every dependency through the manager that
owns it. The result is `none` when the loop leaves with `UnresolvedDependency`, and the
`dependencies` vector otherwise. `loadRec` is the recursive call. -/
def loadDependencies (loadRec : Nat → String → World → Except Fault (LoadState × World)) :
    List String → List String → World → Except Fault (Option (List String) × World)
  | [], dependencies, w => .ok (some dependencies, w)
  | it :: rest, dependencies, w =>
    match w.find it with
    | none => .ok (none, w)
    | some dependency =>
      match dependency.manager with
      | none => .ok (none, w)
      | some manager =>
        match loadRec manager it w with
        | .error e => .error e
        | .ok (state, w1) =>
          if state.hasAny [.Loaded] then
            loadDependencies loadRec rest (dependencies ++ [it]) w1
          else .ok (none, w1)

/-- The last loop of `loadInternal`: add the plugin to the `usedBy` list of each
dependency. -/
def addToDependencies (plugin : String) : List String → World → Except Fault World
  | [], w => .ok w
  | it :: rest, w =>
    match w.find it with
    | none => .error .undefined
    | some dependency =>
      if dependency.manager.isSome then
        match addUsedBy dependency.metadata.name plugin w with
        | .error e => .error e
        | .ok w1 => addToDependencies plugin rest w1
      else addToDependencies plugin rest (w.modifyPlugin it (Plugin.pushUsedBy plugin))

/-- The part of `loadInternal` after the dependencies are loaded: open the module,
check it, initialize the plugin and update the records. -/
def loadModule (env : Env) (this : Nat) (plugin : Plugin) (dependencies : List String)
    (w : World) : Except Fault (LoadState × World) :=
  let filename :=
    env.join (w.managers this).pluginDirectory (plugin.metadata.name ++ env.suffix)
  match env.dlopen filename with
  | none => .ok (.LoadFailed, w.emit (.dlopen plugin.metadata.name filename none))
  | some module =>
    let w1 := w.emit (.dlopen plugin.metadata.name filename (some module))
    let closed := w1.emit (.dlclose module)
    match (env.dlsym module).pluginVersion with
    | none => .ok (.LoadFailed, closed)
    | some version =>
      if version ≠ env.version then .ok (.WrongPluginVersion, closed)
      else
        match (env.dlsym module).pluginInterface with
        | none => .ok (.LoadFailed, closed)
        | some interface =>
          if interface ≠ (w.managers this).pluginInterface then
            .ok (.WrongInterfaceVersion, closed)
          else
            match (env.dlsym module).pluginInstancer with
            | none => .ok (.LoadFailed, closed)
            | some instancer =>
              match (env.dlsym module).pluginInitializer with
              | none => .ok (.LoadFailed, closed)
              | some initializer =>
                let w2 := w1.emit (.initializer plugin.metadata.name initializer)
                match addToDependencies plugin.metadata.name dependencies w2 with
                | .error e => .error e
                | .ok w3 =>
                  .ok (.Loaded,
                    w3.modifyPlugin plugin.metadata.name (Plugin.setLoaded module instancer))

/-- `AbstractManager::loadInternal`, called on manager `this` with a reference to the
record stored under `name`. -/
def loadInternal (env : Env) : Nat → Nat → String → World → Except Fault (LoadState × World)
  | 0, _, _, _ => .error .outOfFuel
  | fuel + 1, this, name, w =>
    match w.find name with
    | none => .error .undefined
    | some plugin =>
      if plugin.loadState ≠ .NotLoaded then .ok (plugin.loadState, w)
      else
        match loadDependencies (loadInternal env fuel) plugin.metadata.depends [] w with
        | .error e => .error e
        | .ok (none, w1) => .ok (.UnresolvedDependency, w1)
        | .ok (some dependencies, w1) => loadModule env this plugin dependencies w1

/-- `AbstractManager::load`. -/
def load (env : Env) (fuel : Nat) (this : Nat) (plugin : String) (w : World) :
    Except Fault (LoadState × World) :=
  match findWithAlias this plugin w.storage with
  | some found => loadInternal env fuel this found.metadata.name w
  | none => .ok (.NotFound, w)

/-! ## Unloading -/

/-- The lookup `instances.find(plugin)`. -/
def Manager.findInstances (m : Manager) (plugin : String) : Option (List Nat) :=
  (m.instances.find? (fun e => e.1 == plugin)).map (fun e => e.2)

/-- `AbstractManager::unregisterInstance`. -/
def unregisterInstance (this : Nat) (plugin : String) (inst : Nat) (w : World) :
    Except Fault World :=
  match w.find plugin with
  | none => .error .assertion
  | some foundPlugin =>
    if foundPlugin.manager ≠ some this then .error .assertion
    else
      match (w.managers this).findInstances plugin with
      | none => .error .assertion
      | some instances =>
        if inst ∉ instances then .error .assertion
        else
          let erased := instances.erase inst
          if erased.isEmpty then
            .ok (w.setInstances this
              ((w.managers this).instances.filter (fun e => e.1 != plugin)))
          else
            .ok (w.setInstances this
              ((w.managers this).instances.map
                (fun e => if e.1 = plugin then (e.1, erased) else e)))

/-- Modelled from the spec: the destructor of a plugin instance is in `AbstractPlugin.cpp`,
which is not among the sources; the spec says that it calls `unregisterInstance` with the
name and the manager the instance was registered with. -/
def deleteInstance (this : Nat) (plugin : String) (inst : Nat) (w : World) :
    Except Fault World :=
  unregisterInstance this plugin inst (w.emit (.deleted inst))

/-- The loop `for(i = size; i != 0; --i) delete foundInstance->second[i-1]` of
`unloadInternal`; the first argument is `i`. -/
def deleteInstances (this : Nat) (plugin : String) : Nat → World → Except Fault World
  | 0, w => .ok w
  | i + 1, w =>
    match (w.managers this).findInstances plugin with
    | none => .error .undefined
    | some instances =>
      match instances[i]? with
      | none => .error .undefined
      | some inst =>
        match deleteInstance this plugin inst w with
        | .error e => .error e
        | .ok w1 => deleteInstances this plugin i w1

/-- The loop of `unloadInternal` that removes the plugin from the `usedBy` list of each
of its dependencies. -/
def removeFromDependencies (plugin : String) : List String → World → Except Fault World
  | [], w => .ok w
  | it :: rest, w =>
    match w.find it with
    | none => removeFromDependencies plugin rest w
    | some mit =>
      if mit.manager.isSome then
        match removeUsedBy mit.metadata.name plugin w with
        | .error e => .error e
        | .ok w1 => removeFromDependencies plugin rest w1
      else removeFromDependencies plugin rest (w.modifyPlugin it (Plugin.eraseUsedBy plugin))

/-- The end of `unloadInternal`: resolve and call the finalizer, close the module and
update the record. -/
def finalizeAndClose (env : Env) (plugin : Plugin) (w : World) :
    Except Fault (LoadState × World) :=
  match plugin.module with
  | none => .error .undefined
  | some module =>
    match (env.dlsym module).pluginFinalizer with
    | none => .error .nullCall
    | some finalizer =>
      let w1 := (w.emit (.finalizer plugin.metadata.name finalizer)).emit (.dlclose module)
      if env.dlclose module ≠ 0 then
        .ok (.UnloadFailed, w1.modifyPlugin plugin.metadata.name Plugin.setUnloadFailed)
      else
        .ok (.NotLoaded, w1.modifyPlugin plugin.metadata.name Plugin.setUnloaded)

/-- `AbstractManager::unloadInternal`, called on manager `this` with a reference to the
record stored under `name`. -/
def unloadInternal (env : Env) (this : Nat) (name : String) (w : World) :
    Except Fault (LoadState × World) :=
  match w.find name with
  | none => .error .undefined
  | some plugin =>
    if plugin.loadState ≠ .Loaded then .ok (plugin.loadState, w)
    else if !plugin.metadata.usedBy.isEmpty then .ok (.Required, w)
    else
      match (w.managers this).findInstances plugin.metadata.name with
      | some instances =>
        if instances.any (fun inst => !env.canBeDeleted inst) then .ok (.Used, w)
        else
          match deleteInstances this plugin.metadata.name instances.length w with
          | .error e => .error e
          | .ok w1 =>
            match removeFromDependencies plugin.metadata.name plugin.metadata.depends w1 with
            | .error e => .error e
            | .ok w2 => finalizeAndClose env plugin w2
      | none =>
        match removeFromDependencies plugin.metadata.name plugin.metadata.depends w with
        | .error e => .error e
        | .ok w2 => finalizeAndClose env plugin w2

/-- `AbstractManager::unload`. -/
def unload (env : Env) (this : Nat) (plugin : String) (w : World) :
    Except Fault (LoadState × World) :=
  match findWithAlias this plugin w.storage with
  | some found => unloadInternal env this found.metadata.name w
  | none => .ok (.NotFound, w)

/-! ## Instancing -/

/-- `AbstractManager::instanceInternal`: the call of the instancer is recorded in the
log with the arguments it is given. -/
def instanceInternal (this : Nat) (plugin : String) (w : World) : Except Fault World :=
  match findWithAlias this plugin w.storage with
  | none => .error .assertion
  | some found =>
    if !found.loadState.hasAny [.Loaded] then .error .assertion
    else
      match found.instancer with
      | none => .error .nullCall
      | some instancer => .ok (w.emit (.instancer instancer this found.metadata.name))

/-! ## Specification-level notions -/

/-- Append `k` copies of `usedBy` to `metadata._usedBy`. -/
def Plugin.pushMany (usedBy : String) (k : Nat) (p : Plugin) : Plugin :=
  { p with metadata := { p.metadata with usedBy := p.metadata.usedBy ++ List.replicate k usedBy } }

/-- Erase the first occurrence of `x` from a list, `k` times. -/
def eraseTimes (x : String) : Nat → List String → List String
  | 0, l => l
  | k + 1, l => eraseTimes x k (l.erase x)

/-- Erase the first occurrence of `usedBy` from `metadata._usedBy`, `k` times. -/
def Plugin.eraseMany (usedBy : String) (k : Nat) (p : Plugin) : Plugin :=
  { p with metadata := { p.metadata with usedBy := eraseTimes usedBy k p.metadata.usedBy } }

/-- All events of a list are deletions of instances. -/
def OnlyDeletions (ev : List Event) : Prop := ∀ e ∈ ev, ∃ i, e = Event.deleted i

/-- The loader verdict in the words of the specification: the first failing check decides
the state. -/
def loaderVerdict (env : Env) (manager : Manager) (name : String) : LoadState :=
  match env.dlopen (env.join manager.pluginDirectory (name ++ env.suffix)) with
  | none => .LoadFailed
  | some module =>
    if (env.dlsym module).pluginVersion = none then .LoadFailed
    else if (env.dlsym module).pluginVersion ≠ some env.version then .WrongPluginVersion
    else if (env.dlsym module).pluginInterface = none then .LoadFailed
    else if (env.dlsym module).pluginInterface ≠ some manager.pluginInterface then
      .WrongInterfaceVersion
    else if (env.dlsym module).pluginInstancer = none
        ∨ (env.dlsym module).pluginInitializer = none then .LoadFailed
    else .Loaded

/-- What a load may change in one record: nothing but `usedBy`, and `loadState`, `module`
and `instancer` when the record goes from `NotLoaded` to `Loaded`. -/
structure Plugin.LoadRel (p p' : Plugin) : Prop where
  name : p'.metadata.name = p.metadata.name
  provides : p'.metadata.provides = p.metadata.provides
  depends : p'.metadata.depends = p.metadata.depends
  manager : p'.manager = p.manager
  staticPlugin : p'.staticPlugin = p.staticPlugin
  state : (p'.loadState = p.loadState ∧ p'.module = p.module ∧ p'.instancer = p.instancer)
    ∨ (p.loadState = .NotLoaded ∧ p'.loadState = .Loaded)

/-- The plugin stored under `y` is `NotLoaded` in `w` and `Loaded` in `w'`. -/
def NewlyLoaded (w w' : World) (y : String) : Prop :=
  ∃ q q', w.find y = some q ∧ q.loadState = .NotLoaded ∧
    w'.find y = some q' ∧ q'.loadState = .Loaded

/-- The plugin stored under `x` would be accepted as a dependency without further work: it
has a record that is `Loaded` and has an owning manager. -/
def Resolved (w : World) (x : String) : Prop :=
  ∃ p, w.find x = some p ∧ p.loadState = .Loaded ∧ p.manager.isSome

/-- The load of the plugin stored under `a` is under way and has reached its dependency
`c`: the record is `NotLoaded` and owned, and the dependencies listed before `c` are
resolved. -/
def Waiting (w : World) (a c : String) : Prop :=
  ∃ p pre post, w.find a = some p ∧ p.loadState = .NotLoaded ∧ p.manager.isSome ∧
    p.metadata.depends = pre ++ c :: post ∧ ∀ x ∈ pre, Resolved w x

/-- The dependency relation of the records is acyclic: `rank` goes down along every
declared dependency. -/
def Acyclic (w : World) (rank : String → Nat) : Prop :=
  ∀ x p, w.find x = some p → ∀ d ∈ p.metadata.depends, rank d < rank x

/-- The plugin stored under a name cannot be resolved as a dependency: there is no record,
or the record has no owning manager, or its state is neither `NotLoaded` nor `Loaded`, or
it is `NotLoaded` and the loader rejects its module, or it is `NotLoaded` and one of its
own dependencies cannot be resolved. -/
inductive Unresolvable (env : Env) (w : World) : String → Prop where
  | missing (d : String) : w.find d = none → Unresolvable env w d
  | orphan (d : String) (p : Plugin) : w.find d = some p → p.manager = none →
      Unresolvable env w d
  | state (d : String) (p : Plugin) : w.find d = some p → p.loadState ≠ .NotLoaded →
      p.loadState ≠ .Loaded → Unresolvable env w d
  | rejected (d : String) (p : Plugin) (m : Nat) : w.find d = some p → p.manager = some m →
      p.loadState = .NotLoaded → loaderVerdict env (w.managers m) d ≠ .Loaded →
      Unresolvable env w d
  | dependency (d : String) (p : Plugin) (e : String) : w.find d = some p →
      p.loadState = .NotLoaded → e ∈ p.metadata.depends → Unresolvable env w e →
      Unresolvable env w d

/-- Every plugin that is `Loaded` in `w'` and was `NotLoaded` in `w` can be resolved
in `w`. -/
def LoadedOnlyResolvable (env : Env) (w w' : World) : Prop :=
  ∀ x, NewlyLoaded w w' x → ¬ Unresolvable env w x

/-- What an unload may change in one record: nothing but `usedBy`, which loses entries,
and `loadState`, `module` and `instancer` when the record goes from `Loaded` to
`NotLoaded`. -/
structure Plugin.UnloadRel (p p' : Plugin) : Prop where
  name : p'.metadata.name = p.metadata.name
  provides : p'.metadata.provides = p.metadata.provides
  depends : p'.metadata.depends = p.metadata.depends
  manager : p'.manager = p.manager
  staticPlugin : p'.staticPlugin = p.staticPlugin
  state : (p'.loadState = p.loadState ∧ p'.module = p.module ∧ p'.instancer = p.instancer)
    ∨ (p.loadState = .Loaded ∧ p'.loadState = .NotLoaded)
  usedBy : p'.metadata.usedBy.Sublist p.metadata.usedBy

/-- No event of the list is a call of a static finalizer. -/
def NoStaticFinalizer (ev : List Event) : Prop :=
  ∀ e ∈ ev, ∀ x f, e ≠ Event.staticFinalizer x f

/-- What an unload may change in the world. -/
structure UnloadExt (w w' : World) : Prop where
  aliases : w'.storage.aliases = w.storage.aliases
  names : w'.storage.plugins.map (fun p => p.metadata.name)
    = w.storage.plugins.map (fun p => p.metadata.name)
  directory : ∀ m, (w'.managers m).pluginDirectory = (w.managers m).pluginDirectory
  interface : ∀ m, (w'.managers m).pluginInterface = (w.managers m).pluginInterface
  log : ∃ ev, w'.log = w.log ++ ev ∧ NoStaticFinalizer ev
  missing : ∀ x, w.find x = none → w'.find x = none
  record : ∀ x p, w.find x = some p → ∃ p', w'.find x = some p' ∧ Plugin.UnloadRel p p'

/-- The plugin stored under `P` is `Loaded` and its `usedBy` list holds `Q`, whose record
is owned by manager `M2`. -/
def UsedAcross (M2 : Nat) (P Q : String) (w : World) : Prop :=
  ∃ p q, w.find P = some p ∧ p.loadState = .Loaded ∧ Q ∈ p.metadata.usedBy ∧
    w.find Q = some q ∧ q.manager = some M2

/-- The state of the first loop of the destructor of manager `this`, started in `w0`, when
the keys in `done` have been visited: the records of other managers are there, the static
records of the manager have been let go and finalized once if visited, and the other records
of the manager are scheduled for deletion if visited. -/
structure DestroyInv (this : Nat) (w0 w : World) (removed done : List String) : Prop where
  aliases : w.storage.aliases = w0.storage.aliases
  names : w.storage.plugins.map (fun p => p.metadata.name)
    = w0.storage.plugins.map (fun p => p.metadata.name)
  missing : ∀ x, w0.find x = none → w.find x = none
  log : ∃ ev, w.log = w0.log ++ ev ∧
    ∀ x p0, w0.find x = some p0 → p0.manager = some this → p0.loadState = .Static →
      (x ∈ done → ∃ sp, p0.staticPlugin = some sp ∧
        ev.count (.staticFinalizer x sp.finalizer) = 1) ∧
      (x ∉ done → ∀ f, ev.count (.staticFinalizer x f) = 0)
  other : ∀ x p0, w0.find x = some p0 → p0.manager ≠ some this →
    ∃ p, w.find x = some p ∧ Plugin.UnloadRel p0 p ∧ x ∉ removed
  static : ∀ x p0, w0.find x = some p0 → p0.manager = some this → p0.loadState = .Static →
    ∃ p, w.find x = some p ∧ p.loadState = .Static ∧ p.staticPlugin = p0.staticPlugin ∧
      p.manager = (if x ∈ done then none else some this) ∧ x ∉ removed
  dynamic : ∀ x p0, w0.find x = some p0 → p0.manager = some this → p0.loadState ≠ .Static →
    ∃ p, w.find x = some p ∧ p.manager = some this ∧ p.loadState ≠ .Static ∧
      (x ∈ done → x ∈ removed)

/-- What a load may change in the world. -/
structure LoadExt (w w' : World) : Prop where
  managers : w'.managers = w.managers
  aliases : w'.storage.aliases = w.storage.aliases
  log : ∃ ev, w'.log = w.log ++ ev
  missing : ∀ x, w.find x = none → w'.find x = none
  record : ∀ x p, w.find x = some p → ∃ p', w'.find x = some p' ∧ Plugin.LoadRel p p' ∧
    ∃ extra, p'.metadata.usedBy = p.metadata.usedBy ++ extra ∧ ∀ y ∈ extra, NewlyLoaded w w' y

/-! ## Insertion of records -/

/-- The key order of the containers, `std::less<std::string>`: the lexicographic order of
the characters. -/
def keyLess (a b : String) : Bool :=
  decide (a.data < b.data)

/-- The insertion `plugins.insert({name, plugin})` into the `std::map`: nothing happens
when the key is taken, otherwise the record goes to its place in key order. -/
def insertRecord (p : Plugin) : List Plugin → List Plugin
  | [] => [p]
  | q :: rest =>
    if p.metadata.name = q.metadata.name then q :: rest
    else if keyLess p.metadata.name q.metadata.name then p :: q :: rest
    else q :: insertRecord p rest

/-- Modelled from the spec: `aliases.emplace(key, plugin)` on the multimap of the spec;
the entry goes behind the entries already stored under the same key. -/
def emplaceAlias (key target : String) : List (String × String) → List (String × String)
  | [] => [(key, target)]
  | e :: rest =>
    if keyLess key e.1 then (key, target) :: e :: rest
    else e :: emplaceAlias key target rest

/-- The two steps by which `setPluginDirectory` adds a record: "Insert plugin to list" and
"Add aliases to the list". -/
def GlobalPluginStorage.insertPlugin (s : GlobalPluginStorage) (p : Plugin) :
    GlobalPluginStorage :=
  { plugins := insertRecord p s.plugins
    aliases := p.metadata.provides.foldl (fun a key => emplaceAlias key p.metadata.name a)
      s.aliases }

/-- The loader accepts the module of plugin `name` of the given manager: the module opens,
the four symbols of a load are there with the right version and interface, the finalizer
is there and `dlclose` succeeds. -/
def loaderSucceeds (env : Env) (manager : Manager) (name : String) : Bool :=
  match env.dlopen (env.join manager.pluginDirectory (name ++ env.suffix)) with
  | none => false
  | some module =>
    decide ((env.dlsym module).pluginVersion = some env.version)
    && decide ((env.dlsym module).pluginInterface = some manager.pluginInterface)
    && (env.dlsym module).pluginInstancer.isSome
    && (env.dlsym module).pluginInitializer.isSome
    && (env.dlsym module).pluginFinalizer.isSome
    && decide (env.dlclose module = 0)

/-! ## Recursive unload and destruction -/

/-- The loop `for(it = usedBy.begin(); it != usedBy.end(); ++it) unloadRecursive(*it)` of
`unloadRecursiveInternal`. The vector is the live `_usedBy` of the plugin, which the calls
shorten; `i` is the distance of `it` from `begin()`, and the first argument bounds the
number of rounds. An iterator that has moved past `end()` is dereferenced, which is
undefined. -/
def unloadDependents (unloadRec : String → World → Except Fault (LoadState × World))
    (name : String) : Nat → Nat → World → Except Fault World
  | 0, _, _ => .error .outOfFuel
  | rounds + 1, i, w =>
    match w.find name with
    | none => .error .undefined
    | some plugin =>
      if i = plugin.metadata.usedBy.length then .ok w
      else
        match plugin.metadata.usedBy[i]? with
        | none => .error .undefined
        | some dependent =>
          match unloadRec dependent w with
          | .error e => .error e
          | .ok (_, w1) => unloadDependents unloadRec name rounds (i + 1) w1

/-- `AbstractManager::unloadRecursiveInternal`, called on manager `this` with a reference
to the record stored under `name`; the recursion through `unloadRecursive` is bounded by
the fuel. -/
def unloadRecursiveInternal (env : Env) :
    Nat → Nat → String → World → Except Fault (LoadState × World)
  | 0, _, _, _ => .error .outOfFuel
  | fuel + 1, this, name, w =>
    match w.find name with
    | none => .error .undefined
    | some plugin =>
      if plugin.manager ≠ some this then .ok (.NotFound, w)
      else
        let dependents :=
          if plugin.loadState ≠ .Static then
            unloadDependents
              (fun dependent w1 =>
                match w1.find dependent with
                | none => .error .assertion
                | some _ => unloadRecursiveInternal env fuel this dependent w1)
              name (plugin.metadata.usedBy.length + 1) 0 w
          else .ok w
        match dependents with
        | .error e => .error e
        | .ok w1 =>
          match unloadInternal env this name w1 with
          | .error e => .error e
          | .ok (after, w2) =>
            if after.hasAny [.Static, .NotLoaded, .WrongMetadataFile] then .ok (after, w2)
            else .error .assertion

/-- `AbstractManager::unloadRecursive`. -/
def unloadRecursive (env : Env) (fuel this : Nat) (plugin : String) (w : World) :
    Except Fault (LoadState × World) :=
  match w.find plugin with
  | none => .error .assertion
  | some _ => unloadRecursiveInternal env fuel this plugin w

/-- One round of the first loop of `AbstractManager::~AbstractManager`, for the record
stored under `key`; `removed` collects the records scheduled for deletion. -/
def destroyRecord (env : Env) (fuel this : Nat) (key : String) (w : World)
    (removed : List String) : Except Fault (World × List String) :=
  match w.find key with
  | none => .ok (w, removed)
  | some plugin =>
    if plugin.manager ≠ some this then .ok (w, removed)
    else
      match unloadRecursiveInternal env fuel this key w with
      | .error e => .error e
      | .ok (state, w1) =>
        if state = .Static then
          match w1.find key with
          | none => .error .undefined
          | some record =>
            match record.staticPlugin with
            | none => .error .undefined
            | some staticPlugin =>
              .ok ((w1.modifyPlugin key (fun p => { p with manager := none })).emit
                (.staticFinalizer key staticPlugin.finalizer), removed)
        else .ok (w1, removed ++ [key])

/-- The first loop of the destructor, over the keys of the map. -/
def destroyRecords (env : Env) (fuel this : Nat) :
    List String → World → List String → Except Fault (World × List String)
  | [], w, removed => .ok (w, removed)
  | key :: rest, w, removed =>
    match destroyRecord env fuel this key w removed with
    | .error e => .error e
    | .ok (w1, removed1) => destroyRecords env fuel this rest w1 removed1

/-- `AbstractManager::~AbstractManager`: unload the records of the manager, let go of the
static ones, then erase the aliases and the records of the dynamic ones. -/
def destroy (env : Env) (fuel this : Nat) (w : World) : Except Fault World :=
  match destroyRecords env fuel this (w.storage.plugins.map (fun p => p.metadata.name)) w []
    with
  | .error e => .error e
  | .ok (w1, removed) =>
    .ok { w1 with storage :=
      { plugins := w1.storage.plugins.filter (fun p => !removed.contains p.metadata.name)
        aliases := w1.storage.aliases.filter (fun a =>
          match w1.storage.find a.2 with
          | none => true
          | some p => !(p.manager == some this && p.loadState != .Static)) } }

/-! ## Discovery of plugins -/

/-- Modelled from the spec: the configuration reader is an external collaborator; what the
manager takes from a parsed metadata file is whether it is valid, and the `provides` and
`depends` lists. -/
structure Configuration where
  valid : Bool
  provides : List String
  depends : List String
  deriving DecidableEq, Repr

/-- The files the manager reads: `Directory::list` with directories and dot entries
skipped, the metadata files by path, and the embedded metadata of static plugins by plugin
name. -/
structure Files where
  list : String → List String
  configuration : String → Configuration
  resource : String → Configuration

/-- Modelled from the spec: the constructor of `PluginMetadata` is in `PluginMetadata.cpp`,
which is not among the sources; the spec says that `usedBy` is never declared in the
descriptor and is maintained by the runtime only. -/
def PluginMetadata.fromConfiguration (name : String) (conf : Configuration) : PluginMetadata :=
  { name := name, provides := conf.provides, depends := conf.depends, usedBy := [] }

/-- `Plugin::Plugin(name, metadata, manager)`, the record of a dynamic plugin. -/
def Plugin.dynamic (name : String) (conf : Configuration) (manager : Nat) : Plugin :=
  { loadState := if conf.valid then .NotLoaded else .WrongMetadataFile
    metadata := PluginMetadata.fromConfiguration name conf
    manager := some manager
    instancer := none
    staticPlugin := none
    module := none }

/-- `Plugin::Plugin(name, metadata, staticPlugin)`, the record of a static plugin. -/
def Plugin.static (conf : Configuration) (staticPlugin : StaticPlugin) : Plugin :=
  { loadState := .Static
    metadata := PluginMetadata.fromConfiguration staticPlugin.plugin conf
    manager := none
    instancer := some staticPlugin.instancer
    staticPlugin := some staticPlugin
    module := none }

/-- `AbstractManager::initializeGlobalPluginStorage` on the first construction of a
manager: the registry of static plugins is drained into the empty storage. -/
def initializeGlobalPluginStorage (files : Files) :
    List StaticPlugin → GlobalPluginStorage → Except Fault GlobalPluginStorage
  | [], s => .ok s
  | staticPlugin :: rest, s =>
    if (s.find staticPlugin.plugin).isSome then .error .assertion
    else
      initializeGlobalPluginStorage files rest
        (s.insertPlugin (Plugin.static (files.resource staticPlugin.plugin) staticPlugin))

/-- The test `manager == this && loadState & (NotLoaded|WrongMetadataFile)` of the two
purge loops of `setPluginDirectory`. -/
def purged (this : Nat) (p : Plugin) : Bool :=
  p.manager == some this && p.loadState.hasAny [.NotLoaded, .WrongMetadataFile]

/-- The two purge loops of `setPluginDirectory`: first the aliases of the unloaded plugins
of the manager, then the records. -/
def purge (this : Nat) (s : GlobalPluginStorage) : GlobalPluginStorage :=
  { aliases := s.aliases.filter (fun a =>
      match s.find a.2 with
      | none => true
      | some p => !purged this p)
    plugins := s.plugins.filter (fun p => !purged this p) }

/-- One round of the scan loop of `setPluginDirectory`. `std::size_t` is taken as 64 bits
wide; `filename.substr(stop)` throws `std::out_of_range` when `stop` exceeds the length. -/
def scanFile (env : Env) (files : Files) (this : Nat) (directory filename : String)
    (s : GlobalPluginStorage) : Except Fault GlobalPluginStorage :=
  let stop := (filename.length + 2 ^ 64 - env.suffix.length) % 2 ^ 64
  if stop > filename.length then .error .outOfRange
  else if String.mk (filename.data.drop stop) ≠ env.suffix then .ok s
  else
    let name := String.mk (filename.data.take stop)
    if (s.find name).isSome then .ok s
    else
      .ok (s.insertPlugin
        (Plugin.dynamic name (files.configuration (env.join directory (name ++ ".conf"))) this))

/-- The scan loop of `setPluginDirectory` over the listed files. -/
def scanFiles (env : Env) (files : Files) (this : Nat) (directory : String) :
    List String → GlobalPluginStorage → Except Fault GlobalPluginStorage
  | [], s => .ok s
  | filename :: rest, s =>
    match scanFile env files this directory filename s with
    | .error e => .error e
    | .ok s1 => scanFiles env files this directory rest s1

/-- `AbstractManager::setPluginDirectory`. -/
def setPluginDirectory (env : Env) (files : Files) (this : Nat) (directory : String)
    (w : World) : Except Fault World :=
  match scanFiles env files this directory (files.list directory) (purge this w.storage) with
  | .error e => .error e
  | .ok s =>
    .ok { w with
      storage := s
      managers := fun m =>
        if m = this then { w.managers this with pluginDirectory := directory }
        else w.managers m }

/-- What the scan loop of `setPluginDirectory` on manager `this` may change in the storage:
records and aliases that are there stay as they are, and what is new is a record built from
a metadata file, owned by the manager, under a name that was free, with its aliases. -/
structure ScanExt (this : Nat) (s0 s : GlobalPluginStorage) : Prop where
  kept : ∀ x p, s0.find x = some p → s.find x = some p
  fresh : ∀ x, s0.find x = none →
    s.find x = none ∨ ∃ conf, s.find x = some (Plugin.dynamic x conf this)
  aliasesKept : ∀ a ∈ s0.aliases, a ∈ s.aliases
  aliasesFresh : ∀ a ∈ s.aliases, a ∈ s0.aliases ∨
    (s0.find a.2 = none ∧
      ∃ conf, s.find a.2 = some (Plugin.dynamic a.2 conf this) ∧ a.1 ∈ conf.provides)

/-! ## Registration of instances -/

/-- The insertion `instances.insert({plugin, {}})` into the `std::map` of a manager. -/
def insertInstances (plugin : String) :
    List (String × List Nat) → List (String × List Nat)
  | [] => [(plugin, [])]
  | e :: rest =>
    if plugin = e.1 then e :: rest
    else if keyLess plugin e.1 then (plugin, []) :: e :: rest
    else e :: insertInstances plugin rest

/-- `AbstractManager::registerInstance`; the metadata handed back through the reference
argument is the value returned. -/
def registerInstance (this : Nat) (plugin : String) (inst : Nat) (w : World) :
    Except Fault (PluginMetadata × World) :=
  match w.find plugin with
  | none => .error .assertion
  | some foundPlugin =>
    if foundPlugin.manager ≠ some this then .error .assertion
    else
      let instances :=
        match (w.managers this).findInstances plugin with
        | none => insertInstances plugin (w.managers this).instances
        | some _ => (w.managers this).instances
      .ok (foundPlugin.metadata,
        w.setInstances this
          (instances.map (fun e => if e.1 = plugin then (e.1, e.2 ++ [inst]) else e)))

/-- The records that `setPluginDirectory` on manager `this` is to remove, in the words of the
specification: owned by the manager, with `loadState` `NotLoaded` or `WrongMetadataFile`. -/
def Plugin.UnloadedOf (this : Nat) (p : Plugin) : Prop :=
  p.manager = some this ∧ (p.loadState = .NotLoaded ∨ p.loadState = .WrongMetadataFile)

/-! ## Reachable storages -/

/-- The `usedBy` lists mirror the `depends` lists of the loaded records: names are keys, a
name stands in `b.usedBy` as often as `b` stands in the `depends` list of the loaded record
of that name, the names in `usedBy` lists and in the `depends` lists of loaded records have
records, those of the latter loaded ones, and a record that is not static has an owner. -/
structure Mirror (s : GlobalPluginStorage) : Prop where
  names : (s.plugins.map (fun p => p.metadata.name)).Nodup
  counts : ∀ a b pa pb, s.find a = some pa → s.find b = some pb →
    pb.metadata.usedBy.count a
      = if pa.loadState = .Loaded then pa.metadata.depends.count b else 0
  known : ∀ b pb, s.find b = some pb → ∀ x ∈ pb.metadata.usedBy, (s.find x).isSome
  resolved : ∀ a pa, s.find a = some pa → pa.loadState = .Loaded →
    ∀ d ∈ pa.metadata.depends, ∃ pd, s.find d = some pd ∧ pd.loadState = .Loaded
  owned : ∀ a pa, s.find a = some pa → pa.loadState ≠ .Static → pa.manager.isSome

/-- The worlds reached from the drained registry of static plugins by calls of
`setPluginDirectory` (the rest of the construction of a manager), `load` and `unload` that
return, on any manager and with any loader and file system. -/
inductive Reachable : World → Prop where
  | init (files : Files) (registry : List StaticPlugin) (w : World) :
      initializeGlobalPluginStorage files registry { plugins := [], aliases := [] }
        = .ok w.storage → Reachable w
  | setPluginDirectory (env : Env) (files : Files) (this : Nat) (directory : String)
      (w w' : World) :
      Reachable w → setPluginDirectory env files this directory w = .ok w' → Reachable w'
  | load (env : Env) (fuel this : Nat) (plugin : String) (w w' : World) (r : LoadState) :
      Reachable w → load env fuel this plugin w = .ok (r, w') → Reachable w'
  | unload (env : Env) (this : Nat) (plugin : String) (w w' : World) (r : LoadState) :
      Reachable w → unload env this plugin w = .ok (r, w') → Reachable w'

/-! ## Example configurations

Concrete loaders and storages on which the theorems below are instantiated. -/

/-- A loader whose modules all pass every check of `loadInternal` for interface `"iface"`
and version `5`, and whose `dlclose` succeeds. -/
def exampleEnv : Env where
  version := 5
  suffix := ".so"
  join := fun directory file => directory ++ "/" ++ file
  dlopen := fun filename => some filename.length
  dlsym := fun _ => ⟨some 5, some "iface", some 100, some 101, some 102⟩
  dlclose := fun _ => 0
  canBeDeleted := fun _ => true

/-- The loader of `exampleEnv` with modules that report plugin version `6`. -/
def wrongVersionEnv : Env :=
  { exampleEnv with dlsym := fun _ => ⟨some 6, some "iface", some 100, some 101, some 102⟩ }

/-- The loader of `exampleEnv` with a `dlclose` that fails. -/
def closeFailsEnv : Env :=
  { exampleEnv with dlclose := fun _ => 1 }

/-- A dynamic record as `setPluginDirectory` creates it from a valid metadata file. -/
def exampleRecord (name : String) (provides depends : List String) (manager : Nat) : Plugin :=
  { loadState := .NotLoaded
    metadata := { name := name, provides := provides, depends := depends, usedBy := [] }
    manager := some manager
    instancer := none
    staticPlugin := none
    module := none }

/-- Managers with interface `"iface"`, manager `1` with directory `"m1"`, every other one
with directory `"m2"`, and no live instances. -/
def exampleManagers (m : Nat) : Manager :=
  { pluginInterface := "iface"
    pluginDirectory := if m = 1 then "m1" else "m2"
    instances := [] }

/-- A world with the given records (in key order) and no aliases. -/
def exampleWorld (plugins : List Plugin) : World :=
  { storage := { plugins := plugins, aliases := [] }
    managers := exampleManagers
    log := [] }

/-- Scenario A: manager `1` owns `P`, manager `2` owns `Q`, which depends on `P`. -/
def scenarioA : World :=
  exampleWorld [exampleRecord "P" [] [] 1, exampleRecord "Q" [] ["P"] 2]

/-- The state of a returned call, or `none` when the call did not return. -/
def resultState (r : Except Fault (LoadState × World)) : Option LoadState :=
  match r with
  | .ok (s, _) => some s
  | .error _ => none

/-- The world after a returned call; the given world when the call did not return. -/
def resultWorld (fallback : World) (r : Except Fault (LoadState × World)) : World :=
  match r with
  | .ok (_, w) => w
  | .error _ => fallback

/-- A world in which the loaded plugin `P` of manager `1` provides the alias `default`. -/
def aliasWorld : World :=
  { storage :=
      { plugins := [(exampleRecord "P" ["default"] [] 1).setLoaded 7 100]
        aliases := [("default", "P")] }
    managers := exampleManagers
    log := [] }

/-- A world in which the loaded plugin `P` of manager `1` is used by `Q`. -/
def requiredWorld : World :=
  exampleWorld [(exampleRecord "P" [] [] 1).pushUsedBy "Q" |>.setLoaded 7 100]

/-- Two managers that each own a plugin providing the alias `default`: the storage after
manager `1` has added `A` and manager `2` has added `B`. -/
def collisionStorage : GlobalPluginStorage :=
  (({ plugins := [], aliases := [] } : GlobalPluginStorage).insertPlugin
    (exampleRecord "A" ["default"] [] 1)).insertPlugin (exampleRecord "B" ["default"] [] 2)

/-- The `usedBy` list of the record stored under `name` (empty when there is none). -/
def usedByOf (w : World) (name : String) : List String :=
  match w.find name with
  | some p => p.metadata.usedBy
  | none => []

/-- Manager `1` owns `P`, `Q` and `R`; `Q` and `R` both depend on `P`. -/
def sharedDependency : World :=
  exampleWorld [exampleRecord "P" [] [] 1, exampleRecord "Q" [] ["P"] 1,
    exampleRecord "R" [] ["P"] 1]

/-- The world of `sharedDependency` after `load("Q")` and then `load("R")`. -/
def sharedDependencyLoaded : World :=
  resultWorld sharedDependency (load exampleEnv 2 1 "R"
    (resultWorld sharedDependency (load exampleEnv 2 1 "Q" sharedDependency)))

/-- The world of scenario A after manager `2` has loaded `Q` (and with it `P`). -/
def scenarioALoaded : World :=
  resultWorld scenarioA (load exampleEnv 2 2 "Q" scenarioA)

/-- Manager `1` owns the single plugin `P`. -/
def singleWorld : World :=
  exampleWorld [exampleRecord "P" [] [] 1]

/-- The world of `singleWorld` after `load("P")` and an `unload("P")` whose `dlclose`
fails. -/
def staleWorld : World :=
  resultWorld singleWorld (unload closeFailsEnv 1 "P"
    (resultWorld singleWorld (load exampleEnv 1 1 "P" singleWorld)))

/-- Manager `1` owns `A`, `C` and `Q`; `A` depends on `C`, and `Q` depends on `A` and on
`Missing`, which has no record. -/
def chainWorld : World :=
  exampleWorld [exampleRecord "A" [] ["C"] 1, exampleRecord "C" [] [] 1,
    exampleRecord "Q" [] ["A", "Missing"] 1]

/-- The load state, module and instancer of the record stored under `name`. -/
def recordSummary (w : World) (name : String) : Option (LoadState × Option Nat × Option Nat) :=
  (w.find name).map (fun p => (p.loadState, p.module, p.instancer))

/-- Manager `1` owns `A`, which depends on itself, and `Q`, which depends on `A` and on
`Missing`, which has no record. -/
def selfDependent : World :=
  exampleWorld [exampleRecord "A" [] ["A"] 1, exampleRecord "Q" [] ["A", "Missing"] 1]

/-- Manager `1` owns `Q`, which depends on `Missing`, which has no record (scenario B). -/
def scenarioB : World :=
  exampleWorld [exampleRecord "Q" [] ["Missing"] 1]

/-- The fault of a call that did not return, or `none` when it returned. -/
def resultFault (r : Except Fault (LoadState × World)) : Option Fault :=
  match r with
  | .ok _ => none
  | .error e => some e

/-- The loader of `exampleEnv` with modules that do not export `pluginFinalizer`. -/
def noFinalizerEnv : Env :=
  { exampleEnv with dlsym := fun _ => ⟨some 5, some "iface", some 100, some 101, none⟩ }

/-- The world of `singleWorld` after `load("P")`. -/
def singleLoaded : World :=
  resultWorld singleWorld (load exampleEnv 1 1 "P" singleWorld)

/-- The world of `sharedDependency` after `load("Q")`: `P` is used by `Q` only. -/
def oneDependentLoaded : World :=
  resultWorld sharedDependency (load exampleEnv 2 1 "Q" sharedDependency)

/-- The fault of a destruction that did not complete, or `none` when it completed. -/
def destroyFault (r : Except Fault World) : Option Fault :=
  match r with
  | .ok _ => none
  | .error e => some e

/-- The load state and the owning manager of the record stored under `name`. -/
def ownerSummary (w : World) (name : String) : Option (LoadState × Option Nat) :=
  (w.find name).map (fun p => (p.loadState, p.manager))

/-- A world for the destruction of manager `1`: it owns the loaded dynamic plugin `D`, which
provides the alias `d`, and the static plugin `S`; manager `2` owns `O`, which provides the
alias `o`. -/
def destroyScene : World :=
  { storage :=
      { plugins :=
          [(exampleRecord "D" ["d"] [] 1).setLoaded 7 100,
           exampleRecord "O" ["o"] [] 2,
           { loadState := .Static
             metadata := { name := "S", provides := [], depends := [], usedBy := [] }
             manager := some 1
             instancer := some 200
             staticPlugin := some ⟨"S", "iface", 200, 201, 202⟩
             module := none }]
        aliases := [("d", "D"), ("o", "O")] }
    managers := exampleManagers
    log := [] }

/-- The world of `destroyScene` after the destruction of manager `1`. -/
def destroyedScene : World :=
  match destroy exampleEnv 3 1 destroyScene with
  | .ok w => w
  | .error _ => destroyScene

/-- The file system of the examples: directory `short` holds the single file `a`, every
other directory holds `P.so` and `notes.txt`; every metadata file is valid and declares
nothing. -/
def exampleFiles : Files where
  list := fun directory => if directory = "short" then ["a"] else ["P.so", "notes.txt"]
  configuration := fun _ => ⟨true, [], []⟩
  resource := fun _ => ⟨true, [], []⟩

/-- The names of the records after a call that changes the world (empty when the call did
not return). -/
def namesAfter (r : Except Fault World) : List String :=
  match r with
  | .ok w => w.storage.plugins.map (fun p => p.metadata.name)
  | .error _ => []

/-- The world of `singleLoaded` with the instances `10` and `11` of `P` alive. -/
def instancesWorld : World :=
  singleLoaded.setInstances 1 [("P", [10, 11])]

/-- Manager `1` owns the loaded plugin `L` and the unloaded plugin `U`, which provides the
alias `u`; manager `2` owns the unloaded plugin `P`. -/
def rescanWorld : World :=
  { storage :=
      { plugins := [(exampleRecord "L" [] [] 1).setLoaded 7 100, exampleRecord "P" [] [] 2,
          exampleRecord "U" ["u"] [] 1]
        aliases := [("u", "U")] }
    managers := exampleManagers
    log := [] }

/-- The world after a returned call without result; the given world when the call did not
return. -/
def worldAfter (fallback : World) (r : Except Fault World) : World :=
  match r with
  | .ok w => w
  | .error _ => fallback

/-- The registry of the static plugins `A` and `B`. -/
def staticRegistry : List StaticPlugin :=
  [⟨"A", "iface", 200, 201, 202⟩, ⟨"B", "iface", 300, 301, 302⟩]

/-- A file system in which the embedded metadata of the static plugin `A` declares the
dependency `B`, and directory `plugins` holds `P.so` and `Q.so`, of which `Q` declares the
dependency `P`. -/
def dependentFiles : Files where
  list := fun _ => ["P.so", "Q.so"]
  configuration := fun path =>
    if path = "plugins/Q.conf" then ⟨true, [], ["P"]⟩ else ⟨true, [], []⟩
  resource := fun name => if name = "A" then ⟨true, [], ["B"]⟩ else ⟨true, [], []⟩

/-- The world after the static plugins `A` and `B` have been taken into the storage. -/
def staticScene : World :=
  { storage :=
      match initializeGlobalPluginStorage dependentFiles staticRegistry
          { plugins := [], aliases := [] } with
      | .ok s => s
      | .error _ => { plugins := [], aliases := [] }
    managers := exampleManagers
    log := [] }

/-- The world after manager `1` has been constructed on `staticScene` with the directory
`plugins`. -/
def constructedScene : World :=
  worldAfter staticScene (setPluginDirectory exampleEnv dependentFiles 1 "plugins" staticScene)

/-- The world after manager `1` has loaded `Q` in `constructedScene`. -/
def loadedScene : World :=
  resultWorld constructedScene (load exampleEnv 3 1 "Q" constructedScene)

/-- The record of `P` in `loadedScene`. -/
def loadedP : Plugin :=
  ((exampleRecord "P" [] [] 1).pushUsedBy "Q").setLoaded 12 100

/-- The record of `Q` in `loadedScene`. -/
def loadedQ : Plugin :=
  (exampleRecord "Q" [] ["P"] 1).setLoaded 12 100

end PluginManager

/-!
# Command-line arguments

A shallow embedding of `src/Corrade/Utility/Arguments.cpp`.

* A `char` is a `Char` and a string or an `argv` token is a `String`, read through its list
  of characters; the absent short key `'\0'` is `Char.ofNat 0`.
* An iterator into `_entries` is the index it points at together with the entry there.
* The texts of the help output (`help`, `helpKey`, `_help`) are only printed and are left
  out; `Error()` output is not modelled.
* A failed `CORRADE_ASSERT` or `CORRADE_INTERNAL_ASSERT` is `Fault.assertion`; an access
  outside a vector that no assertion guards is `Fault.undefined`.
-/

namespace Utility

/-- The kind of an entry, `enum class Type`. -/
inductive EntryType where
  | Argument
  | NamedArgument
  | Option
  | BooleanOption
  deriving DecidableEq, Repr

/-- Ways in which a call does not return a value. -/
inductive Fault where
  | assertion
  | undefined
  deriving DecidableEq, Repr

/-- An entry of the schema, `Arguments::Entry`. -/
structure Entry where
  type : EntryType
  shortKey : Char
  key : String
  defaultValue : String
  id : Nat
  deriving DecidableEq, Repr

/-- The members of an `Arguments` object: `_prefix`, `_command`, `_entries`, `_values`,
`_booleans` and the prefixes of `_skippedPrefixes`. -/
structure Arguments where
  keyPrefix : String
  command : String
  entries : List Entry
  values : List String
  booleans : List Bool
  skippedPrefixes : List String
  deriving DecidableEq, Repr

/-- `Entry::Entry`: only an `Option` may have a default value. -/
def Entry.make (type : EntryType) (shortKey : Char) (key defaultValue : String) (id : Nat) :
    Except Fault Entry :=
  if type = .Option ∨ defaultValue.data.isEmpty then
    .ok { type := type, shortKey := shortKey, key := key, defaultValue := defaultValue, id := id }
  else .error .assertion

/-- The characters of a long key, `allowed` in `verifyKey`. -/
def allowed : String :=
  "abcdefghijklmnopqrstuvwxyzABCDEFGHIJKLMNOPQRSTUVWXYZ0123456789-"

/-- The characters of a short key, `allowedShort` in `verifyKey`. -/
def allowedShort : String :=
  "abcdefghijklmnopqrstuvwxyzABCDEFGHIJKLMNOPQRSTUVWXYZ0123456789"

/-- `Arguments::verifyKey(const std::string&)`. -/
def verifyKey (key : String) : Bool :=
  decide (key.data.length > 1) && key.data.all (fun c => allowed.data.contains c)

/-- `Arguments::verifyKey(char)`. -/
def verifyShortKey (shortKey : Char) : Bool :=
  shortKey == Char.ofNat 0 || allowedShort.data.contains shortKey

/-- The helper `keyHasPrefix`. -/
def keyHasPrefix (key start : String) : Bool :=
  start.data.isPrefixOf key.data

/-- The first position at or after `i` whose entry satisfies `p`, with that entry; the list
holds the entries from position `i` on. -/
def firstIndex (p : Entry → Bool) : List Entry → Nat → Option (Nat × Entry)
  | [], _ => none
  | e :: rest, i => if p e then some (i, e) else firstIndex p rest (i + 1)

/-- `Arguments::find(const std::string&)`. -/
def Arguments.find (a : Arguments) (key : String) : Option (Nat × Entry) :=
  firstIndex (fun e => e.key == key) a.entries 0

/-- `Arguments::find(char)`. -/
def Arguments.findShort (a : Arguments) (shortKey : Char) : Option (Nat × Entry) :=
  firstIndex (fun e => e.shortKey == shortKey) a.entries 0

/-- The test `it->type == Type::Argument`. -/
def isArgument (e : Entry) : Bool :=
  e.type == .Argument

/-- `Arguments::findNextArgument`. -/
def Arguments.findNextArgument (a : Arguments) (start : Nat) : Option (Nat × Entry) :=
  firstIndex isArgument (a.entries.drop start) start

/-- `Arguments::skippedPrefix`. -/
def Arguments.skippedPrefix (a : Arguments) (key : String) : Bool :=
  a.skippedPrefixes.any (fun start => keyHasPrefix key start)

/-! ## Schema operations -/

/-- `Arguments::addArgument`. -/
def Arguments.addArgument (a : Arguments) (key : String) : Except Fault Arguments :=
  if !a.keyPrefix.data.isEmpty then .error .assertion
  else if key.data.isEmpty then .error .assertion
  else if (a.find key).isSome then .error .assertion
  else
    match Entry.make .Argument (Char.ofNat 0) key "" a.values.length with
    | .error e => .error e
    | .ok entry => .ok { a with entries := a.entries ++ [entry], values := a.values ++ [""] }

/-- `Arguments::addNamedArgument`. -/
def Arguments.addNamedArgument (a : Arguments) (shortKey : Char) (key : String) :
    Except Fault Arguments :=
  if !(verifyShortKey shortKey && verifyKey key) then .error .assertion
  else if !((shortKey == Char.ofNat 0 || (a.findShort shortKey).isNone)
      && (a.find (a.keyPrefix ++ key)).isNone) then .error .assertion
  else if !a.keyPrefix.data.isEmpty then .error .assertion
  else
    match Entry.make .NamedArgument shortKey key "" a.values.length with
    | .error e => .error e
    | .ok entry => .ok { a with entries := a.entries ++ [entry], values := a.values ++ [""] }

/-- `Arguments::addOption`. -/
def Arguments.addOption (a : Arguments) (shortKey : Char) (key defaultValue : String) :
    Except Fault Arguments :=
  if !(verifyShortKey shortKey && verifyKey key) then .error .assertion
  else if !((shortKey == Char.ofNat 0 || (a.findShort shortKey).isNone)
      && (a.find (a.keyPrefix ++ key)).isNone) then .error .assertion
  else if !(a.keyPrefix.data.isEmpty || shortKey == Char.ofNat 0) then .error .assertion
  else if a.skippedPrefix key then .error .assertion
  else
    let stored := if a.keyPrefix.data.isEmpty then key else a.keyPrefix ++ key
    match Entry.make .Option shortKey stored defaultValue a.values.length with
    | .error e => .error e
    | .ok entry => .ok { a with entries := a.entries ++ [entry], values := a.values ++ [""] }

/-- `Arguments::addBooleanOption`. -/
def Arguments.addBooleanOption (a : Arguments) (shortKey : Char) (key : String) :
    Except Fault Arguments :=
  if !(verifyShortKey shortKey && verifyKey key) then .error .assertion
  else if !((shortKey == Char.ofNat 0 || (a.findShort shortKey).isNone)
      && (a.find key).isNone) then .error .assertion
  else if !(a.keyPrefix.data.isEmpty || key == "help") then .error .assertion
  else if a.skippedPrefix key then .error .assertion
  else
    let stored := if a.keyPrefix.data.isEmpty then key else a.keyPrefix ++ key
    match Entry.make .BooleanOption shortKey stored "" a.booleans.length with
    | .error e => .error e
    | .ok entry =>
      .ok { a with entries := a.entries ++ [entry], booleans := a.booleans ++ [false] }

/-- `Arguments::addSkippedPrefix`. -/
def Arguments.addSkippedPrefix (a : Arguments) (start : String) : Except Fault Arguments :=
  if a.skippedPrefix start then .error .assertion
  else if a.entries.any (fun entry => keyHasPrefix entry.key start) then .error .assertion
  else .ok { a with skippedPrefixes := a.skippedPrefixes ++ [start ++ "-"] }

/-- `Arguments::setHelp(key, help)`, of which only the assertion is modelled. -/
def Arguments.setHelp (a : Arguments) (key : String) : Except Fault Arguments :=
  if (a.find (a.keyPrefix ++ key)).isNone then .error .assertion else .ok a

/-- The object before the body of a constructor runs. -/
def Arguments.blank (keyPrefix : String) : Arguments :=
  { keyPrefix := keyPrefix, command := "", entries := [], values := [], booleans := [],
    skippedPrefixes := [] }

/-- `Arguments::Arguments()`. -/
def Arguments.create : Except Fault Arguments :=
  match (Arguments.blank "").addBooleanOption 'h' "help" with
  | .error e => .error e
  | .ok a => a.setHelp "help"

/-- `Arguments::Arguments(std::string prefix)`. -/
def Arguments.createPrefixed (start : String) : Except Fault Arguments :=
  match (Arguments.blank (start ++ "-")).addBooleanOption (Char.ofNat 0) "help" with
  | .error e => .error e
  | .ok a => a.setHelp "help"

/-! ## Parsing -/

/-- The local variables of `tryParse` next to the two vectors it writes. -/
structure ParseState where
  values : List String
  booleans : List Bool
  valueFor : Option (Nat × Entry)
  optionsAllowed : Bool
  nextArgument : Nat
  parsedArguments : List Bool
  deriving DecidableEq, Repr

/-- What one round of the token loop of `tryParse` leads to: `return false`, or the next
round with the given state; `skip` says that the round has stepped over the token that
follows (`++i` before `continue`). -/
inductive Round where
  | fail (state : ParseState)
  | next (state : ParseState) (skip : Bool)
  deriving DecidableEq, Repr

/-- The loop "Clear previously parsed values" over the entries. -/
def clearValues : List Entry → List String → Except Fault (List String)
  | [], values => .ok values
  | entry :: rest, values =>
    if entry.type = .BooleanOption then clearValues rest values
    else if entry.id < values.length then
      clearValues rest (values.set entry.id entry.defaultValue)
    else .error .assertion

/-- The end of a round that has found an entry for an option token: a boolean option is
set, any other entry waits for its value. -/
def Arguments.dispatch (st : ParseState) (found : Option (Nat × Entry)) :
    Except Fault Round :=
  match found with
  | none => .error .assertion
  | some (index, entry) =>
    if entry.type = .BooleanOption then
      if entry.id < st.booleans.length then
        .ok (.next { st with booleans := st.booleans.set entry.id true
                             parsedArguments := st.parsedArguments.set index true } false)
      else .error .assertion
    else .ok (.next { st with valueFor := some (index, entry) } false)

/-- One round of the token loop of `tryParse`, for the token `argv[i]`. -/
def Arguments.round (a : Arguments) (st : ParseState) (token : String) : Except Fault Round :=
  match st.valueFor with
  | some (index, entry) =>
    if entry.type = .BooleanOption then .error .assertion
    else if entry.id < st.values.length then
      .ok (.next { st with values := st.values.set entry.id token
                           parsedArguments := st.parsedArguments.set index true
                           valueFor := none } false)
    else .error .assertion
  | none =>
    let len := token.data.length
    if st.optionsAllowed && len != 0 && token.data.head? == some '-' then
      if len = 2 then
        if !a.keyPrefix.data.isEmpty then .ok (.next st false)
        else
          let key := token.data.getD 1 (Char.ofNat 0)
          if key = '-' then .ok (.next { st with optionsAllowed := false } false)
          else if !verifyShortKey key then .ok (.fail st)
          else
            match a.findShort key with
            | none => .ok (.fail st)
            | some found => Arguments.dispatch st (some found)
      else if len > 2 then
        if token.data.take 2 = ['-', '-'] then
          let key := String.mk (token.data.drop 2)
          if !verifyKey key then .ok (.fail st)
          else if !a.keyPrefix.data.isEmpty && !keyHasPrefix key a.keyPrefix then
            .ok (.next st false)
          else
            match a.skippedPrefixes.find? (fun start => keyHasPrefix key start) with
            | some start =>
              if key ≠ start ++ "help" then .ok (.next st true)
              else .ok (.next st false)
            | none =>
              match a.find key with
              | none => .ok (.fail st)
              | some found => Arguments.dispatch st (some found)
        else .ok (.fail st)
      else Arguments.dispatch st none
    else
      if !a.keyPrefix.data.isEmpty then .ok (.next st false)
      else
        match a.findNextArgument st.nextArgument with
        | none => .ok (.fail st)
        | some (index, entry) =>
          if entry.id < st.values.length then
            .ok (.next { st with values := st.values.set entry.id token
                                 parsedArguments := st.parsedArguments.set index true
                                 nextArgument := index + 1 } false)
          else .error .undefined

/-- The token loop of `tryParse` over the tokens still to be read; the flag says that the
first of them has been stepped over by the round before. The result says whether the loop
ran to the end of `argv` (`true`) or left through `return false`. -/
def Arguments.rounds (a : Arguments) :
    List String → Bool → ParseState → Except Fault (Bool × ParseState)
  | [], _, st => .ok (true, st)
  | _ :: rest, true, st => Arguments.rounds a rest false st
  | token :: rest, false, st =>
    match a.round st token with
    | .error e => .error e
    | .ok (.fail st1) => .ok (false, st1)
    | .ok (.next st1 skip) => Arguments.rounds a rest skip st1

/-- The loop "Check missing options" at the end of `tryParse`. -/
def missingCheck (entries : List Entry) (parsedArguments : List Bool) : Bool :=
  (entries.zip parsedArguments).all (fun x =>
    x.1.type == .BooleanOption || x.1.type == .Option || x.2)

/-- `Arguments::tryParse`, with `argv` as the list of its `argc` tokens. -/
def Arguments.tryParse (a : Arguments) (argv : List String) : Except Fault (Bool × Arguments) :=
  let command := if a.command.data.isEmpty then argv.headD a.command else a.command
  match clearValues a.entries a.values with
  | .error e => .error e
  | .ok values =>
    let start : ParseState :=
      { values := values
        booleans := a.booleans.map (fun _ => false)
        valueFor := none
        optionsAllowed := true
        nextArgument := 0
        parsedArguments := List.replicate a.entries.length false }
    match a.rounds (argv.drop 1) false start with
    | .error e => .error e
    | .ok (finished, st) =>
      let parsed := { a with command := command, values := st.values, booleans := st.booleans }
      if !finished then .ok (false, parsed)
      else if st.valueFor.isSome then .ok (false, parsed)
      else .ok (missingCheck a.entries st.parsedArguments, parsed)

/-- `Arguments::valueInternal`, which `value()` returns for a string. -/
def Arguments.value (a : Arguments) (key : String) : Except Fault String :=
  match a.find (a.keyPrefix ++ key) with
  | none => .error .assertion
  | some (_, entry) =>
    if entry.type = .BooleanOption then .error .assertion
    else
      match a.values[entry.id]? with
      | none => .error .assertion
      | some v => .ok v

/-- `Arguments::isSet`. -/
def Arguments.isSet (a : Arguments) (key : String) : Except Fault Bool :=
  match a.find (a.keyPrefix ++ key) with
  | none => .error .assertion
  | some (_, entry) =>
    if entry.type ≠ .BooleanOption then .error .assertion
    else
      match a.booleans[entry.id]? with
      | none => .error .assertion
      | some b => .ok b

/-- How a call of `parse` ends: the process exits with a code, or the call returns to the
caller with the parsed object. -/
inductive Outcome where
  | exit (code : Nat)
  | returned (a : Arguments)
  deriving DecidableEq, Repr

/-- `Arguments::parse`; printing the help or usage text is not modelled. -/
def Arguments.parse (a : Arguments) (argv : List String) : Except Fault Outcome :=
  match a.tryParse argv with
  | .error e => .error e
  | .ok (status, parsed) =>
    match parsed.isSet "help" with
    | .error e => .error e
    | .ok true => .ok (.exit 0)
    | .ok false => if !status then .ok (.exit 1) else .ok (.returned parsed)

/-! ## Specification-level notions and examples -/

/-- The positionals of the schema in the order of their declaration. -/
def Arguments.positionals (a : Arguments) : List Entry :=
  a.entries.filter isArgument

/-- The entries of `l` have, in this order, the tokens of `tokens` as their values. -/
def Filled (values : List String) (l : List Entry) (tokens : List String) : Prop :=
  l.length = tokens.length ∧
    ∀ (i : Nat) (e : Entry) (t : String),
      l[i]? = some e → tokens[i]? = some t → values[e.id]? = some t

/-- The parser a sequence of schema operations has built (a blank one when an operation was
rejected). -/
def built (r : Except Fault Arguments) : Arguments :=
  match r with
  | .ok a => a
  | .error _ => Arguments.blank ""

/-- The parser of scenario E: `Arguments()` with `addArgument("a")` and
`addArgument("b")`. -/
def twoPositionals : Arguments :=
  built ((Arguments.create.bind (fun a => a.addArgument "a")).bind
    (fun a => a.addArgument "b"))

/-- A parser built by accepted operations: a constructor, followed by schema operations
that were not rejected and by parses that returned. -/
inductive Built : Arguments → Prop where
  | create (a : Arguments) : Arguments.create = .ok a → Built a
  | createPrefixed (start : String) (a : Arguments) :
      Arguments.createPrefixed start = .ok a → Built a
  | addArgument (a b : Arguments) (key : String) :
      Built a → a.addArgument key = .ok b → Built b
  | addNamedArgument (a b : Arguments) (shortKey : Char) (key : String) :
      Built a → a.addNamedArgument shortKey key = .ok b → Built b
  | addOption (a b : Arguments) (shortKey : Char) (key defaultValue : String) :
      Built a → a.addOption shortKey key defaultValue = .ok b → Built b
  | addBooleanOption (a b : Arguments) (shortKey : Char) (key : String) :
      Built a → a.addBooleanOption shortKey key = .ok b → Built b
  | addSkippedPrefix (a b : Arguments) (start : String) :
      Built a → a.addSkippedPrefix start = .ok b → Built b
  | tryParse (a b : Arguments) (argv : List String) (status : Bool) :
      Built a → a.tryParse argv = .ok (status, b) → Built b

/-- The object after `tryParse` (the object itself when the call did not return). -/
def parsedAfter (a : Arguments) (argv : List String) : Arguments :=
  match a.tryParse argv with
  | .ok (_, parsed) => parsed
  | .error _ => a

/-- The keys of the entries of a parser that the operations have built (nothing when an
operation was rejected). -/
def keysOf (r : Except Fault Arguments) : Option (List String) :=
  match r with
  | .ok a => some (a.entries.map (fun e => e.key))
  | .error _ => none

/-- The key under which the entry of a named argument, option or boolean option is stored:
the key given, behind `_prefix` in a prefixed parser. -/
def Arguments.stored (a : Arguments) (key : String) : String :=
  if a.keyPrefix.data.isEmpty then key else a.keyPrefix ++ key

/-- The entry at position `index` was looked up for the option token `token`: by its short
key when the token has two characters, by the key behind `--` otherwise. -/
def Arguments.LookedUp (a : Arguments) (token : String) (index : Nat) (entry : Entry) : Prop :=
  (token.data.head? = some '-' ∧ token.data.length = 2 ∧
    a.findShort (token.data.getD 1 (Char.ofNat 0)) = some (index, entry))
  ∨ (token.data.take 2 = ['-', '-'] ∧ a.find (String.mk (token.data.drop 2)) = some (index, entry))

/-- The slots of the entries are those of the two vectors: the value-taking entries have, in
the order of the entries, the slots `0, 1, ...` of `_values`, and the boolean options the
slots `0, 1, ...` of `_booleans`; a prefixed parser has options and boolean options only. -/
structure Arguments.WellFormed (a : Arguments) : Prop where
  valueIds : (a.entries.filter (fun e => e.type != .BooleanOption)).map (fun e => e.id)
    = List.range a.values.length
  booleanIds : (a.entries.filter (fun e => e.type == .BooleanOption)).map (fun e => e.id)
    = List.range a.booleans.length
  prefixed : a.keyPrefix.data.isEmpty = false →
    ∀ e ∈ a.entries, e.type = .Option ∨ e.type = .BooleanOption

/-- The entries of the list that are positionals and whose flag in the second list, the
record of the entries that have received a value, is not set; in the order of the list. -/
def unfilledFrom : List Entry → List Bool → List Entry
  | e :: es, b :: bs =>
    if isArgument e && !b then e :: unfilledFrom es bs else unfilledFrom es bs
  | _, _ => []

/-- The unfilled positionals of the specification, in declaration order: the positionals
that have not received a value in this parse, by the record `parsedArguments`. -/
def Arguments.unfilled (a : Arguments) (parsedArguments : List Bool) : List Entry :=
  unfilledFrom a.entries parsedArguments

/-- The long keys of the specification, `[A-Za-z0-9-]{2,}`: at least two characters, each of
them a letter, a digit or `-`. -/
def LongKeySyntax (key : String) : Prop :=
  2 ≤ key.data.length ∧ ∀ c ∈ key.data, c.isAlphanum = true ∨ c = '-'

/-- The short keys of the specification: a letter or a digit, or absent. -/
def ShortKeySyntax (shortKey : Char) : Prop :=
  shortKey = Char.ofNat 0 ∨ shortKey.isAlphanum = true

/-- The parser `Arguments()` with `addArgument("input")` and `addArgument("output")`. -/
def inputOutput : Arguments :=
  built ((Arguments.create.bind (fun a => a.addArgument "input")).bind
    (fun a => a.addArgument "output"))

/-- What `tryParse` returned, or `none` when it did not return. -/
def statusOf (r : Except Fault (Bool × Arguments)) : Option Bool :=
  match r with
  | .ok (status, _) => some status
  | .error _ => none

/-- The fault of a `tryParse` that did not return. -/
def faultOf (r : Except Fault (Bool × Arguments)) : Option Fault :=
  match r with
  | .ok _ => none
  | .error e => some e

/-- What `tryParse` returned on `argv`, with the values and the flags of the given keys
afterwards (`none` for a key that the accessor rejects). -/
def parseSummary (a : Arguments) (argv : List String) (valueKeys flagKeys : List String) :
    Option (Bool × List (Option String) × List (Option Bool)) :=
  match a.tryParse argv with
  | .ok (status, parsed) =>
    some (status, valueKeys.map (fun k => (parsed.value k).toOption),
      flagKeys.map (fun k => (parsed.isSet k).toOption))
  | .error _ => none

/-- The parser `Arguments("P")` with `addOption("level", "3")`. -/
def prefixedParser : Arguments :=
  built ((Arguments.createPrefixed "P").bind (fun a => a.addOption (Char.ofNat 0) "level" "3"))

/-- The parser `Arguments()` with `addSkippedPrefix("foo")` and then
`addNamedArgument("foo-bar")`. -/
def shadowedNamed : Arguments :=
  built ((Arguments.create.bind (fun a => a.addSkippedPrefix "foo")).bind
    (fun a => a.addNamedArgument (Char.ofNat 0) "foo-bar"))

/-- The parser `Arguments()` with `addNamedArgument('b', "bar")`. -/
def namedParser : Arguments :=
  built (Arguments.create.bind (fun a => a.addNamedArgument 'b' "bar"))

/-- The state of the token loop of `twoPositionals` before the first token. -/
def twoPositionalsStart : ParseState :=
  { values := ["", ""], booleans := [false], valueFor := none, optionsAllowed := true,
    nextArgument := 0, parsedArguments := [false, false, false] }

/-- The state of the token loop after the tokens of `pre`, with the flag that says whether
the next token is stepped over; `none` when the loop has left or failed before. -/
def Arguments.runTo (a : Arguments) : List String → Bool → ParseState → Option (ParseState × Bool)
  | [], skip, st => some (st, skip)
  | _ :: rest, true, st => Arguments.runTo a rest false st
  | token :: rest, false, st =>
    match a.round st token with
    | .ok (.next st1 skip) => Arguments.runTo a rest skip st1
    | _ => none

/-- The state in which `tryParse` reads the token that follows `argv[0]` and the tokens of
`pre`. -/
def Arguments.stateAfter (a : Arguments) (pre : List String) : Option (ParseState × Bool) :=
  match clearValues a.entries a.values with
  | .error _ => none
  | .ok values =>
    a.runTo pre false
      { values := values
        booleans := a.booleans.map (fun _ => false)
        valueFor := none
        optionsAllowed := true
        nextArgument := 0
        parsedArguments := List.replicate a.entries.length false }

/-- The parser `Arguments()` with `addOption('l', "level", "3")`. -/
def optionParser : Arguments :=
  built (Arguments.create.bind (fun a => a.addOption 'l' "level" "3"))

/-- The parser `Arguments()`. -/
def plainParser : Arguments :=
  built Arguments.create

/-- The parser `Arguments()` with `addArgument("a")`. -/
def onePositional : Arguments :=
  built (Arguments.create.bind (fun a => a.addArgument "a"))

/-- The parser `Arguments()` with `addArgument("input")`. -/
def oneRequired : Arguments :=
  built (Arguments.create.bind (fun a => a.addArgument "input"))

/-- The keys of the entries. -/
def Arguments.keys (a : Arguments) : List String :=
  a.entries.map (fun e => e.key)

/-- The parser `Arguments("P")` with a second `addBooleanOption("help")`. -/
def helpTwice : Arguments :=
  built ((Arguments.createPrefixed "P").bind (fun a => a.addBooleanOption (Char.ofNat 0) "help"))

/-- The parser `Arguments()` with `addArgument("x")`. -/
def shortPositional : Arguments :=
  built (Arguments.create.bind (fun a => a.addArgument "x"))

/-- The parser `twoPositionals` as an earlier parse of `prog p q -h` has left it. -/
def twoPositionalsUsed : Arguments :=
  parsedAfter twoPositionals ["prog", "p", "q", "-h"]

/-- The skipped prefixes were registered one after the other, none of them beginning with
an earlier one and its dash: the state `addSkippedPrefix` keeps. -/
def Arguments.SkippedOrdered (a : Arguments) : Prop :=
  ∃ starts : List String, a.skippedPrefixes = starts.map (fun s => s ++ "-") ∧
    starts.Pairwise (fun s t => keyHasPrefix t (s ++ "-") = false)

/-- The parser `Arguments()` with `addSkippedPrefix("magnum")`. -/
def skippedOnly : Arguments :=
  built (Arguments.create.bind (fun a => a.addSkippedPrefix "magnum"))

/-- The parser of scenario F: `Arguments()` with `addSkippedPrefix("magnum")` and
`addOption("input")`. -/
def skippedParser : Arguments :=
  built ((Arguments.create.bind (fun a => a.addSkippedPrefix "magnum")).bind
    (fun a => a.addOption (Char.ofNat 0) "input" ""))

/-- The state of the token loop of `skippedParser` before the first token. -/
def skippedParserStart : ParseState :=
  { values := [""], booleans := [false], valueFor := none, optionsAllowed := true,
    nextArgument := 0, parsedArguments := [false, false] }

/-- The parser `Arguments()` with `addSkippedPrefix("a-b")` and then
`addSkippedPrefix("a")`. -/
def nestedSkipped : Arguments :=
  built ((Arguments.create.bind (fun a => a.addSkippedPrefix "a-b")).bind
    (fun a => a.addSkippedPrefix "a"))

/-- The parser `Arguments()` with `addSkippedPrefix("x_y")`. -/
def oddSkipped : Arguments :=
  built (Arguments.create.bind (fun a => a.addSkippedPrefix "x_y"))

/-- The skipped prefixes of a parser that the operations have built (nothing when an
operation was rejected). -/
def skippedOf (r : Except Fault Arguments) : Option (List String) :=
  match r with
  | .ok a => some a.skippedPrefixes
  | .error _ => none

/-- The parser `Arguments("P")` with `addSkippedPrefix("P-a")` and then
`addOption("a-x", "d")`. -/
def prefixedShadowed : Arguments :=
  built (((Arguments.createPrefixed "P").bind (fun a => a.addSkippedPrefix "P-a")).bind
    (fun a => a.addOption (Char.ofNat 0) "a-x" "d"))

end Utility

namespace PluginManager

/-! ## Basic facts about the storage -/

theorem LoadState.hasAny_loaded (s : LoadState) : s.hasAny [.Loaded] = true ↔ s = .Loaded := by
  cases s <;> decide

theorem find?_map_name (l : List Plugin) (n x : String) (f : Plugin → Plugin)
    (hf : ∀ p, (f p).metadata.name = p.metadata.name) :
    (l.map (fun p => if p.metadata.name = n then f p else p)).find?
        (fun p => p.metadata.name == x)
      = if x = n then (l.find? (fun p => p.metadata.name == x)).map f
        else l.find? (fun p => p.metadata.name == x) := by
  induction l with
  | nil => simp
  | cons a l ih =>
    simp only [List.map_cons, List.find?_cons]
    by_cases han : a.metadata.name = n <;> by_cases ha : a.metadata.name = x
    · have hx : x = n := by rw [← ha, han]
      have hb : (f a).metadata.name == x := by simp [hf, ha]
      have hb2 : a.metadata.name == x := by simp [ha]
      simp [han, hx, hb, hb2]
      subst hx; subst han
      simp [hf]
    · have hb : ((f a).metadata.name == x) = false := by simp [hf, ha]
      have hb2 : (a.metadata.name == x) = false := by simp [ha]
      simp only [if_pos han, hb, hb2, ih]
    · have hx : ¬ x = n := by rw [← ha]; exact han
      have hb2 : a.metadata.name == x := by simp [ha]
      simp [han, hx, hb2]
    · have hb2 : (a.metadata.name == x) = false := by simp [ha]
      simp only [if_neg han, hb2, ih]

theorem World.find_name {w : World} {x : String} {p : Plugin}
    (h : w.find x = some p) : p.metadata.name = x := by
  have := List.find?_some h
  simpa using this

theorem World.find_modifyPlugin (w : World) (n x : String) (f : Plugin → Plugin)
    (hf : ∀ p, (f p).metadata.name = p.metadata.name) :
    (w.modifyPlugin n f).find x = if x = n then (w.find x).map f else w.find x :=
  find?_map_name w.storage.plugins n x f hf

@[simp] theorem World.find_emit (w : World) (e : Event) (x : String) :
    (w.emit e).find x = w.find x := rfl

@[simp] theorem World.find_setInstances (w : World) (m : Nat) (i : List (String × List Nat))
    (x : String) : (w.setInstances m i).find x = w.find x := rfl

@[simp] theorem Plugin.pushUsedBy_name (n : String) (p : Plugin) :
    (p.pushUsedBy n).metadata.name = p.metadata.name := rfl
@[simp] theorem Plugin.eraseUsedBy_name (n : String) (p : Plugin) :
    (p.eraseUsedBy n).metadata.name = p.metadata.name := rfl
@[simp] theorem Plugin.setLoaded_name (a b : Nat) (p : Plugin) :
    (p.setLoaded a b).metadata.name = p.metadata.name := rfl
@[simp] theorem Plugin.setUnloaded_name (p : Plugin) :
    p.setUnloaded.metadata.name = p.metadata.name := rfl
@[simp] theorem Plugin.setUnloadFailed_name (p : Plugin) :
    p.setUnloadFailed.metadata.name = p.metadata.name := rfl

theorem Plugin.pushMany_zero (n : String) (p : Plugin) : p.pushMany n 0 = p := by
  simp [Plugin.pushMany]

theorem Plugin.pushMany_push (n : String) (k : Nat) (p : Plugin) :
    (p.pushUsedBy n).pushMany n k = p.pushMany n (k + 1) := by
  simp [Plugin.pushMany, Plugin.pushUsedBy, List.replicate_succ]

/-- What `addToDependencies` does to the world: every record gets the plugin name
appended to `usedBy` once for each time it is listed. -/
theorem addToDependencies_ok (n : String) (deps : List String) (w w' : World)
    (h : addToDependencies n deps w = .ok w') :
    w'.managers = w.managers ∧ w'.storage.aliases = w.storage.aliases ∧ w'.log = w.log ∧
    ∀ x, w'.find x = (w.find x).map (Plugin.pushMany n (deps.count x)) := by
  induction deps generalizing w with
  | nil =>
    simp only [addToDependencies, Except.ok.injEq] at h
    subst h
    refine ⟨rfl, rfl, rfl, fun x => ?_⟩
    cases hx : w.find x <;> simp [Plugin.pushMany_zero]
  | cons it rest ih =>
    simp only [addToDependencies] at h
    cases hit : w.find it with
    | none => simp [hit] at h
    | some dep =>
      have hname := World.find_name hit
      simp only [hit] at h
      have key : addToDependencies n rest (w.modifyPlugin it (Plugin.pushUsedBy n)) = .ok w' := by
        cases hm : dep.manager.isSome
        · simpa [hm] using h
        · simp only [hm, if_true, addUsedBy, hname, hit] at h
          exact h
      obtain ⟨h1, h2, h3, h4⟩ := ih _ key
      refine ⟨h1, h2, h3, fun x => ?_⟩
      rw [h4, World.find_modifyPlugin _ _ _ _ (Plugin.pushUsedBy_name n)]
      by_cases hx : x = it
      · subst hx
        simp [hit, Plugin.pushMany_push]
      · have : ¬ it = x := fun h => hx h.symm
        simp [hx, List.count_cons, this]

/-! ## What a load changes -/

theorem Plugin.LoadRel.same (p : Plugin) : Plugin.LoadRel p p :=
  ⟨rfl, rfl, rfl, rfl, rfl, Or.inl ⟨rfl, rfl, rfl⟩⟩

theorem Plugin.LoadRel.chain {p q r : Plugin} (h1 : Plugin.LoadRel p q)
    (h2 : Plugin.LoadRel q r) : Plugin.LoadRel p r := by
  refine ⟨h2.name.trans h1.name, h2.provides.trans h1.provides, h2.depends.trans h1.depends,
    h2.manager.trans h1.manager, h2.staticPlugin.trans h1.staticPlugin, ?_⟩
  rcases h1.state with ⟨a1, a2, a3⟩ | ⟨a1, a2⟩
  · rcases h2.state with ⟨b1, b2, b3⟩ | ⟨b1, b2⟩
    · exact Or.inl ⟨b1.trans a1, b2.trans a2, b3.trans a3⟩
    · exact Or.inr ⟨a1 ▸ b1, b2⟩
  · rcases h2.state with ⟨b1, _, _⟩ | ⟨b1, _⟩
    · exact Or.inr ⟨a1, b1.trans a2⟩
    · rw [a2] at b1
      cases b1

theorem LoadExt.unchanged (w : World) : LoadExt w w :=
  ⟨rfl, rfl, ⟨[], by simp⟩, fun _ h => h,
    fun _ p h => ⟨p, h, Plugin.LoadRel.same p, [], by simp, by simp⟩⟩

/-- A record that is `Loaded` stays `Loaded` through a load. -/
theorem LoadExt.loaded_mono {w w' : World} (h : LoadExt w w') {x : String} {p : Plugin}
    (hp : w.find x = some p) (hl : p.loadState = .Loaded) :
    ∃ p', w'.find x = some p' ∧ p'.loadState = .Loaded := by
  obtain ⟨p', hp', hrel, _⟩ := h.record x p hp
  refine ⟨p', hp', ?_⟩
  rcases hrel.state with ⟨a, _, _⟩ | ⟨a, _⟩
  · rw [a, hl]
  · rw [hl] at a
    cases a

/-- A record that is `NotLoaded` after a load was `NotLoaded` before it. -/
theorem LoadExt.notLoaded_back {w w' : World} (h : LoadExt w w') {x : String} {p' : Plugin}
    (hp : w'.find x = some p') (hl : p'.loadState = .NotLoaded) :
    ∃ p, w.find x = some p ∧ p.loadState = .NotLoaded := by
  cases hx : w.find x with
  | none => rw [h.missing x hx] at hp; cases hp
  | some p =>
    obtain ⟨q, hq, hrel, _⟩ := h.record x p hx
    rw [hp] at hq
    cases hq
    refine ⟨p, rfl, ?_⟩
    rcases hrel.state with ⟨a, _, _⟩ | ⟨_, a⟩
    · rw [← a, hl]
    · rw [hl] at a
      cases a

theorem NewlyLoaded.trans_left {w w1 w2 : World} (h12 : LoadExt w1 w2) {y : String}
    (h : NewlyLoaded w w1 y) : NewlyLoaded w w2 y := by
  obtain ⟨q, q', hq, hs, hq', hs'⟩ := h
  obtain ⟨r, hr, hrs⟩ := h12.loaded_mono hq' hs'
  exact ⟨q, r, hq, hs, hr, hrs⟩

theorem NewlyLoaded.trans_right {w w1 w2 : World} (h01 : LoadExt w w1) {y : String}
    (h : NewlyLoaded w1 w2 y) : NewlyLoaded w w2 y := by
  obtain ⟨q, q', hq, hs, hq', hs'⟩ := h
  obtain ⟨r, hr, hrs⟩ := h01.notLoaded_back hq hs
  exact ⟨r, q', hr, hrs, hq', hs'⟩

theorem LoadExt.andThen {w w1 w2 : World} (h01 : LoadExt w w1) (h12 : LoadExt w1 w2) :
    LoadExt w w2 := by
  refine ⟨h12.managers.trans h01.managers, h12.aliases.trans h01.aliases, ?_,
    fun x hx => h12.missing x (h01.missing x hx), ?_⟩
  · obtain ⟨e1, he1⟩ := h01.log
    obtain ⟨e2, he2⟩ := h12.log
    exact ⟨e1 ++ e2, by rw [he2, he1, List.append_assoc]⟩
  · intro x p hp
    obtain ⟨p1, hp1, hrel1, ex1, hu1, hn1⟩ := h01.record x p hp
    obtain ⟨p2, hp2, hrel2, ex2, hu2, hn2⟩ := h12.record x p1 hp1
    refine ⟨p2, hp2, hrel1.chain hrel2, ex1 ++ ex2, by rw [hu2, hu1, List.append_assoc], ?_⟩
    intro y hy
    rcases List.mem_append.mp hy with hy | hy
    · exact (hn1 y hy).trans_left h12
    · exact (hn2 y hy).trans_right h01

/-- Recording a call changes nothing a load is not allowed to change. -/
theorem LoadExt.emit (w : World) (e : Event) : LoadExt w (w.emit e) :=
  ⟨rfl, rfl, ⟨[e], rfl⟩, fun _ h => h,
    fun _ p h => ⟨p, h, Plugin.LoadRel.same p, [], by simp, by simp⟩⟩

/-- The dependency loop changes only what the recursive calls change. -/
theorem loadDependencies_ext
    (loadRec : Nat → String → World → Except Fault (LoadState × World))
    (hrec : ∀ m x w r w', loadRec m x w = .ok (r, w') → LoadExt w w')
    (deps acc : List String) (w : World) (res : Option (List String)) (w' : World)
    (h : loadDependencies loadRec deps acc w = .ok (res, w')) : LoadExt w w' := by
  induction deps generalizing acc w with
  | nil =>
    simp only [loadDependencies, Except.ok.injEq, Prod.mk.injEq] at h
    rw [← h.2]
    exact LoadExt.unchanged w
  | cons it rest ih =>
    simp only [loadDependencies] at h
    split at h
    · simp only [Except.ok.injEq, Prod.mk.injEq] at h
      rw [← h.2]; exact LoadExt.unchanged w
    · split at h
      · simp only [Except.ok.injEq, Prod.mk.injEq] at h
        rw [← h.2]; exact LoadExt.unchanged w
      · split at h
        · cases h
        · rename_i state w1 hcall
          have h1 := hrec _ _ _ _ _ hcall
          split at h
          · exact h1.andThen (ih _ _ h)
          · simp only [Except.ok.injEq, Prod.mk.injEq] at h
            rw [← h.2]; exact h1

/-- The outcomes of `loadModule`: either the module is rejected, and then nothing but the
log changes, or it is accepted. -/
theorem loadModule_cases (env : Env) (this : Nat) (plugin : Plugin) (deps : List String)
    (w : World) (r : LoadState) (w' : World)
    (h : loadModule env this plugin deps w = .ok (r, w')) :
    r = loaderVerdict env (w.managers this) plugin.metadata.name ∧
    ((r ≠ .Loaded ∧ w'.storage = w.storage ∧ w'.managers = w.managers ∧
        (w'.log = w.log ++ [.dlopen plugin.metadata.name
            (env.join (w.managers this).pluginDirectory (plugin.metadata.name ++ env.suffix))
            none] ∨
          ∃ module, env.dlopen (env.join (w.managers this).pluginDirectory
              (plugin.metadata.name ++ env.suffix)) = some module ∧
            w'.log = w.log ++ [.dlopen plugin.metadata.name
              (env.join (w.managers this).pluginDirectory (plugin.metadata.name ++ env.suffix))
              (some module), .dlclose module])) ∨
     (r = .Loaded ∧ ∃ module instancer initializer w3,
        env.dlopen (env.join (w.managers this).pluginDirectory
          (plugin.metadata.name ++ env.suffix)) = some module ∧
        (env.dlsym module).pluginInstancer = some instancer ∧
        (env.dlsym module).pluginInitializer = some initializer ∧
        addToDependencies plugin.metadata.name deps
          ((w.emit (.dlopen plugin.metadata.name
            (env.join (w.managers this).pluginDirectory (plugin.metadata.name ++ env.suffix))
            (some module))).emit (.initializer plugin.metadata.name initializer)) = .ok w3 ∧
        w' = w3.modifyPlugin plugin.metadata.name (Plugin.setLoaded module instancer))) := by
  unfold loadModule at h
  unfold loaderVerdict
  simp only at h ⊢
  split at h
  · rename_i hopen
    simp only [Except.ok.injEq, Prod.mk.injEq] at h
    obtain ⟨rfl, rfl⟩ := h
    simp [hopen, World.emit]
  · rename_i module hopen
    simp only [hopen]
    split at h
    · rename_i hv
      simp only [Except.ok.injEq, Prod.mk.injEq] at h
      obtain ⟨rfl, rfl⟩ := h
      simp [hv, World.emit]
    · rename_i version hv
      split at h
      · rename_i hne
        simp only [Except.ok.injEq, Prod.mk.injEq] at h
        obtain ⟨rfl, rfl⟩ := h
        simp [hv, hne, World.emit]
      · rename_i heq
        have heq : version = env.version := by simpa using heq
        split at h
        · rename_i hi
          simp only [Except.ok.injEq, Prod.mk.injEq] at h
          obtain ⟨rfl, rfl⟩ := h
          simp [hv, heq, hi, World.emit]
        · rename_i interface hi
          split at h
          · rename_i hine
            simp only [Except.ok.injEq, Prod.mk.injEq] at h
            obtain ⟨rfl, rfl⟩ := h
            simp [hv, heq, hi, hine, World.emit]
          · rename_i hieq
            have hieq : interface = (w.managers this).pluginInterface := by simpa using hieq
            split at h
            · rename_i hinst
              simp only [Except.ok.injEq, Prod.mk.injEq] at h
              obtain ⟨rfl, rfl⟩ := h
              simp [hv, heq, hi, hieq, hinst, World.emit]
            · rename_i instancer hinst
              split at h
              · rename_i hinit
                simp only [Except.ok.injEq, Prod.mk.injEq] at h
                obtain ⟨rfl, rfl⟩ := h
                simp [hv, heq, hi, hieq, hinst, hinit, World.emit]
              · rename_i initializer hinit
                split at h
                · cases h
                · rename_i w3 hadd
                  simp only [Except.ok.injEq, Prod.mk.injEq] at h
                  obtain ⟨rfl, rfl⟩ := h
                  refine ⟨by simp [hv, heq, hi, hieq, hinst, hinit],
                    Or.inr ⟨rfl, module, instancer, initializer, w3, rfl, hinst,
                      hinit, hadd, rfl⟩⟩

theorem LoadExt.of_storage_eq {w w' : World} (hs : w'.storage = w.storage)
    (hm : w'.managers = w.managers) (hl : ∃ ev, w'.log = w.log ++ ev) : LoadExt w w' := by
  have hf : ∀ x, w'.find x = w.find x := fun x => by simp [World.find, hs]
  exact ⟨hm, by rw [hs], hl, fun x h => by rw [hf, h],
    fun x p h => ⟨p, by rw [hf, h], Plugin.LoadRel.same p, [], by simp, by simp⟩⟩

/-- The records after a successful `loadModule`, in terms of the records before it. -/
theorem loadModule_loaded_find {env : Env} {this : Nat} {plugin : Plugin} {deps : List String}
    {w w' : World} (h : loadModule env this plugin deps w = .ok (.Loaded, w')) :
    ∃ module instancer initializer,
      env.dlopen (env.join (w.managers this).pluginDirectory
          (plugin.metadata.name ++ env.suffix)) = some module ∧
      (env.dlsym module).pluginInstancer = some instancer ∧
      (env.dlsym module).pluginInitializer = some initializer ∧
      w'.managers = w.managers ∧ w'.storage.aliases = w.storage.aliases ∧
      w'.log = w.log ++ [.dlopen plugin.metadata.name
          (env.join (w.managers this).pluginDirectory (plugin.metadata.name ++ env.suffix))
          (some module), .initializer plugin.metadata.name initializer] ∧
      ∀ x, w'.find x = (w.find x).map (fun p =>
        if x = plugin.metadata.name then
          (p.pushMany plugin.metadata.name (deps.count x)).setLoaded module instancer
        else p.pushMany plugin.metadata.name (deps.count x)) := by
  obtain ⟨_, hc⟩ := loadModule_cases env this plugin deps w _ w' h
  rcases hc with ⟨hne, _⟩ | ⟨_, module, instancer, initializer, w3, hopen, hinst, hinit, hadd, rfl⟩
  · exact absurd rfl hne
  · obtain ⟨hm, ha, hl, hf⟩ := addToDependencies_ok _ _ _ _ hadd
    refine ⟨module, instancer, initializer, hopen, hinst, hinit, hm, ha, ?_, fun x => ?_⟩
    · show w3.log = _
      rw [hl]
      simp [World.emit]
    · rw [World.find_modifyPlugin _ _ _ _ (Plugin.setLoaded_name module instancer), hf]
      simp only [World.find_emit]
      cases hx : w.find x <;> by_cases hxn : x = plugin.metadata.name <;> simp [hxn]

/-- A load that reaches `loadModule` changes only what a load may change. -/
theorem LoadExt.loadModule_step {env : Env} {this : Nat} {w w1 w' : World} {name : String}
    {plugin : Plugin} {deps : List String} {r : LoadState} (h01 : LoadExt w w1)
    (hfind : w.find name = some plugin) (hNL : plugin.loadState = .NotLoaded)
    (hmod : loadModule env this plugin deps w1 = .ok (r, w')) : LoadExt w w' := by
  have hname : plugin.metadata.name = name := World.find_name hfind
  obtain ⟨_, hc⟩ := loadModule_cases env this plugin deps w1 r w' hmod
  rcases hc with ⟨_, hs, hm, hl⟩ | ⟨rfl, _⟩
  · refine h01.andThen (LoadExt.of_storage_eq hs hm ?_)
    rcases hl with hl | ⟨_, _, hl⟩ <;> exact ⟨_, hl⟩
  · obtain ⟨module, instancer, initializer, _, _, _, hm, ha, hl, hf⟩ :=
      loadModule_loaded_find hmod
    rw [hname] at hf
    obtain ⟨pn, hpn, _, _⟩ := h01.record name plugin hfind
    have hnew : NewlyLoaded w w' name := by
      refine ⟨plugin, (pn.pushMany name (deps.count name)).setLoaded module instancer,
        hfind, hNL, ?_, ?_⟩
      · rw [hf, hpn]; simp
      · simp [Plugin.setLoaded]
    refine ⟨hm.trans h01.managers, ha.trans h01.aliases, ?_, ?_, ?_⟩
    · obtain ⟨e1, he1⟩ := h01.log
      exact ⟨e1 ++ _, by rw [hl, he1, List.append_assoc]⟩
    · intro x hx
      rw [hf, h01.missing x hx]; rfl
    · intro x p hp
      obtain ⟨p1, hp1, hrel, ex1, hu1, hn1⟩ := h01.record x p hp
      refine ⟨_, by rw [hf, hp1]; rfl, ?_, ex1 ++ List.replicate (deps.count x) name, ?_, ?_⟩
      · by_cases hx : x = name
        · subst hx
          rw [hfind] at hp
          cases hp
          simp only [if_true]
          exact ⟨hrel.name, hrel.provides, hrel.depends, hrel.manager, hrel.staticPlugin,
            Or.inr ⟨hNL, rfl⟩⟩
        · simp only [if_neg hx]
          exact ⟨hrel.name, hrel.provides, hrel.depends, hrel.manager, hrel.staticPlugin,
            hrel.state⟩
      · by_cases hx : x = name <;>
          simp [hx, Plugin.pushMany, Plugin.setLoaded, hu1, hname]
      · intro y hy
        rcases List.mem_append.mp hy with hy | hy
        · obtain ⟨q, q', hq, hs, hq', hs'⟩ := hn1 y hy
          refine ⟨q, _, hq, hs, by rw [hf, hq']; rfl, ?_⟩
          by_cases hyn : y = name <;> simp [hyn, Plugin.pushMany, Plugin.setLoaded, hs']
        · rw [(List.mem_replicate.mp hy).2]
          exact hnew

/-- Every call of `loadInternal` that returns changes only what a load may change. -/
theorem loadInternal_ext (env : Env) (fuel : Nat) :
    ∀ (this : Nat) (name : String) (w : World) (r : LoadState) (w' : World),
      loadInternal env fuel this name w = .ok (r, w') → LoadExt w w' := by
  induction fuel with
  | zero => intro this name w r w' h; simp [loadInternal] at h
  | succ fuel ih =>
    intro this name w r w' h
    simp only [loadInternal] at h
    split at h
    · cases h
    · rename_i plugin hfind
      split at h
      · simp only [Except.ok.injEq, Prod.mk.injEq] at h
        rw [← h.2]; exact LoadExt.unchanged w
      · rename_i hNL
        have hNL : plugin.loadState = .NotLoaded := by simpa using hNL
        split at h
        · cases h
        · rename_i w1 hdeps
          simp only [Except.ok.injEq, Prod.mk.injEq] at h
          rw [← h.2]
          exact loadDependencies_ext _ ih _ _ _ _ _ hdeps
        · rename_i dependencies w1 hdeps
          exact (loadDependencies_ext _ ih _ _ _ _ _ hdeps).loadModule_step hfind hNL h

/-- A load that returns `Loaded` leaves the record `Loaded`. -/
theorem loadInternal_loaded {env : Env} {fuel this : Nat} {name : String} {w w' : World}
    (h : loadInternal env fuel this name w = .ok (.Loaded, w')) :
    ∃ p', w'.find name = some p' ∧ p'.loadState = .Loaded := by
  cases fuel with
  | zero => simp [loadInternal] at h
  | succ fuel =>
    simp only [loadInternal] at h
    split at h
    · cases h
    · rename_i plugin hfind
      split at h
      · simp only [Except.ok.injEq, Prod.mk.injEq] at h
        obtain ⟨h1, rfl⟩ := h
        exact ⟨plugin, hfind, h1⟩
      · split at h
        · cases h
        · cases h
        · rename_i dependencies w1 hdeps
          have hname : plugin.metadata.name = name := World.find_name hfind
          obtain ⟨p1, hp1, _, _⟩ :=
            (loadDependencies_ext _ (loadInternal_ext env fuel) _ _ _ _ _ hdeps).record
              name plugin hfind
          obtain ⟨module, instancer, _, _, _, _, _, _, _, hf⟩ := loadModule_loaded_find h
          refine ⟨_, by rw [hf, hp1]; rfl, ?_⟩
          simp [hname, Plugin.setLoaded]

/-! ## Lookup by name or alias -/

/-- What `findWithAlias` returns is a record of the storage, stored under its own name and
owned by the calling manager. -/
theorem findWithAlias_some {this : Nat} {q : String} {s : GlobalPluginStorage} {p : Plugin}
    (h : findWithAlias this q s = some p) :
    s.find p.metadata.name = some p ∧ p.manager = some this := by
  unfold findWithAlias at h
  split at h
  · split at h
    · cases h
    · split at h
      · cases h
      · rename_i r hr
        split at h
        · rename_i hm
          cases h
          have := List.find?_some hr
          simp only [beq_iff_eq] at this
          exact ⟨by rw [this]; exact hr, hm⟩
        · cases h
  · rename_i r hr
    split at h
    · rename_i hm
      cases h
      have := List.find?_some hr
      simp only [beq_iff_eq] at this
      exact ⟨by rw [this]; exact hr, hm⟩
    · cases h

/-- The lookup by name or alias gives the same record, up to what a load changes, after
a load. -/
theorem findWithAlias_ext {w w' : World} (h : LoadExt w w') {this : Nat} {q : String}
    {p : Plugin} (hp : findWithAlias this q w.storage = some p) :
    ∃ p', findWithAlias this q w'.storage = some p' ∧ Plugin.LoadRel p p' ∧
      w'.find p.metadata.name = some p' := by
  have hfind : ∀ x, w.storage.find x = w.find x := fun _ => rfl
  have hfind' : ∀ x, w'.storage.find x = w'.find x := fun _ => rfl
  unfold findWithAlias at hp ⊢
  simp only [hfind, hfind', GlobalPluginStorage.findAlias, h.aliases] at hp ⊢
  cases hq : w.find q with
  | none =>
    rw [hq] at hp
    rw [h.missing q hq]
    simp only at hp ⊢
    cases ha : List.find? (fun a => a.1 == q) w.storage.aliases with
    | none => rw [ha] at hp; cases hp
    | some a =>
      rw [ha] at hp
      simp only at hp ⊢
      cases hr : w.find a.2 with
      | none => rw [hr] at hp; cases hp
      | some r =>
        rw [hr] at hp
        simp only at hp
        obtain ⟨r', hr', hrel, _⟩ := h.record _ r hr
        split at hp
        · rename_i hm
          cases hp
          have hn : p.metadata.name = a.2 := World.find_name hr
          refine ⟨r', ?_, hrel, by rw [hn]; exact hr'⟩
          rw [hr']
          simp [hrel.manager, hm]
        · cases hp
  | some r =>
    rw [hq] at hp
    simp only at hp
    obtain ⟨r', hr', hrel, _⟩ := h.record _ r hq
    split at hp
    · rename_i hm
      cases hp
      have hn : p.metadata.name = q := World.find_name hq
      refine ⟨r', ?_, hrel, by rw [hn]; exact hr'⟩
      rw [hr']
      simp [hrel.manager, hm]
    · cases hp

/-! ## The dependency loop -/

/-- When the dependency loop resolves every dependency, the vector it returns lists all of
them, and each has a record that is `Loaded` with an owning manager. -/
theorem loadDependencies_some
    (loadRec : Nat → String → World → Except Fault (LoadState × World))
    (hrec : ∀ m x w r w', loadRec m x w = .ok (r, w') → LoadExt w w')
    (hrec2 : ∀ m x w w', loadRec m x w = .ok (.Loaded, w') →
      ∃ p', w'.find x = some p' ∧ p'.loadState = .Loaded)
    (deps acc : List String) (w : World) (ds : List String) (w' : World)
    (h : loadDependencies loadRec deps acc w = .ok (some ds, w')) :
    ds = acc ++ deps ∧
    ∀ d ∈ deps, ∃ p, w'.find d = some p ∧ p.loadState = .Loaded ∧ p.manager.isSome := by
  induction deps generalizing acc w with
  | nil =>
    simp only [loadDependencies, Except.ok.injEq, Prod.mk.injEq, Option.some.injEq] at h
    simp [h.1]
  | cons it rest ih =>
    simp only [loadDependencies] at h
    split at h
    · cases h
    · rename_i dep hdep
      split at h
      · cases h
      · rename_i manager hman
        split at h
        · cases h
        · rename_i state w1 hcall
          split at h
          · rename_i hst
            have hst : state = .Loaded := (LoadState.hasAny_loaded state).mp hst
            subst hst
            obtain ⟨h1, h2⟩ := ih _ _ h
            have hext : LoadExt w1 w' := loadDependencies_ext loadRec hrec _ _ _ _ _ h
            refine ⟨by rw [h1, List.append_assoc]; rfl, ?_⟩
            intro d hd
            rcases List.mem_cons.mp hd with rfl | hd
            · obtain ⟨p1, hp1, hl1⟩ := hrec2 _ _ _ _ hcall
              obtain ⟨p0, hp0, hrel0, _⟩ := (hrec _ _ _ _ _ hcall).record _ dep hdep
              rw [hp1] at hp0
              cases hp0
              obtain ⟨p2, hp2, hrel2, _⟩ := hext.record _ p1 hp1
              obtain ⟨p3, hp3, hl3⟩ := hext.loaded_mono hp1 hl1
              rw [hp2] at hp3
              cases hp3
              refine ⟨p2, hp2, hl3, ?_⟩
              rw [hrel2.manager, hrel0.manager, hman]
              rfl
            · exact h2 d hd
          · cases h

/-- The last loop of `loadInternal` finishes when every dependency has a record. -/
theorem addToDependencies_total (n : String) (deps : List String) (w : World)
    (h : ∀ d ∈ deps, (w.find d).isSome) : ∃ w', addToDependencies n deps w = .ok w' := by
  induction deps generalizing w with
  | nil => exact ⟨w, rfl⟩
  | cons it rest ih =>
    simp only [addToDependencies]
    obtain ⟨dep, hdep⟩ := Option.isSome_iff_exists.mp (h it (List.mem_cons_self _ _))
    have hname := World.find_name hdep
    have hrest : ∀ d ∈ rest,
        ((w.modifyPlugin it (Plugin.pushUsedBy n)).find d).isSome := by
      intro d hd
      rw [World.find_modifyPlugin _ _ _ _ (Plugin.pushUsedBy_name n)]
      have := h d (List.mem_cons_of_mem _ hd)
      split <;> simp [this]
    rw [hdep]
    simp only
    cases hm : dep.manager.isSome
    · simpa using ih _ hrest
    · simp only [if_true, addUsedBy, hname, hdep]
      exact ih _ hrest

/-- `loadModule` returns, with the verdict of the loader, when every dependency has a
record. -/
theorem loadModule_total (env : Env) (this : Nat) (plugin : Plugin) (deps : List String)
    (w : World) (h : ∀ d ∈ deps, (w.find d).isSome) :
    ∃ w', loadModule env this plugin deps w
      = .ok (loaderVerdict env (w.managers this) plugin.metadata.name, w') := by
  have key : ∃ r w', loadModule env this plugin deps w = .ok (r, w') := by
    unfold loadModule
    simp only
    split
    · exact ⟨_, _, rfl⟩
    · split
      · exact ⟨_, _, rfl⟩
      · split
        · exact ⟨_, _, rfl⟩
        · split
          · exact ⟨_, _, rfl⟩
          · split
            · exact ⟨_, _, rfl⟩
            · split
              · exact ⟨_, _, rfl⟩
              · split
                · exact ⟨_, _, rfl⟩
                · split
                  · rename_i e heq
                    obtain ⟨w3, hw3⟩ := addToDependencies_total plugin.metadata.name deps _
                      (show ∀ d ∈ deps, (World.find _ d).isSome from
                        fun d hd => (World.find_emit _ _ d).symm ▸
                          (World.find_emit _ _ d).symm ▸ h d hd)
                    rw [hw3] at heq
                    cases heq
                  · exact ⟨_, _, rfl⟩
  obtain ⟨r, w', hr⟩ := key
  obtain ⟨h1, _⟩ := loadModule_cases env this plugin deps w r w' hr
  exact ⟨w', by rw [hr, h1]⟩

/-! ## The loader verdict, idempotence, instancing and refused unloads -/

/-- C3: for a `NotLoaded` plugin whose dependencies all resolve (the dependency loop of
the call resolves every one of them), `load` returns, and the state it returns is the
verdict of the loader, decided in the order open, `pluginVersion` symbol, version,
`pluginInterface` symbol, interface string, `pluginInstancer` and `pluginInitializer`
symbols, and `Loaded` when every check passes. -/
theorem load_returns_loader_verdict (env : Env) (fuel this : Nat) (name : String)
    (w w1 : World) (plugin : Plugin) (dependencies : List String)
    (hfound : findWithAlias this name w.storage = some plugin)
    (hstate : plugin.loadState = .NotLoaded)
    (hdeps : loadDependencies (loadInternal env fuel) plugin.metadata.depends [] w
      = .ok (some dependencies, w1)) :
    ∃ w', load env (fuel + 1) this name w
      = .ok (loaderVerdict env (w.managers this) plugin.metadata.name, w') := by
  obtain ⟨hfind, _⟩ := findWithAlias_some hfound
  have hfind : w.find plugin.metadata.name = some plugin := hfind
  have hext := loadDependencies_ext _ (loadInternal_ext env fuel) _ _ _ _ _ hdeps
  obtain ⟨hds, hall⟩ := loadDependencies_some _ (loadInternal_ext env fuel)
    (fun _ _ _ _ h => loadInternal_loaded h) _ _ _ _ _ hdeps
  have hfoundAll : ∀ d ∈ dependencies, (w1.find d).isSome := by
    intro d hd
    rw [hds] at hd
    obtain ⟨p, hp, _⟩ := hall d (by simpa using hd)
    simp [hp]
  obtain ⟨w', hw'⟩ := loadModule_total env this plugin dependencies w1 hfoundAll
  refine ⟨w', ?_⟩
  simp only [load, hfound, loadInternal, hfind, hstate, hdeps]
  rw [← hext.managers]
  simpa using hw'

/-- C3 at a concrete input: `Q` of scenario A, whose dependency `P` loads. -/
theorem load_returns_loader_verdict_witness :
    ∃ w', load exampleEnv 2 2 "Q" scenarioA
      = .ok (loaderVerdict exampleEnv (scenarioA.managers 2) "Q", w') :=
  load_returns_loader_verdict exampleEnv 1 2 "Q" scenarioA _ (exampleRecord "Q" [] ["P"] 2)
    ["P"] rfl rfl rfl

/-- C6: when `load(n)` returns `Loaded`, a `load(n)` that follows it returns `Loaded`
again and leaves the whole world as it is: no record changes and nothing is added to the
log of loader calls. -/
theorem load_idempotent (env : Env) (fuel this : Nat) (n : String) (w w' : World)
    (h : load env fuel this n w = .ok (.Loaded, w')) (env2 : Env) (fuel2 : Nat) :
    load env2 (fuel2 + 1) this n w' = .ok (.Loaded, w') := by
  unfold load at h
  split at h
  · rename_i found hfound
    have hext := loadInternal_ext env fuel _ _ _ _ _ h
    obtain ⟨p', hp', _, hfind'⟩ := findWithAlias_ext hext hfound
    obtain ⟨p2, hp2, hl2⟩ := loadInternal_loaded h
    rw [hfind'] at hp2
    cases hp2
    have hname : p'.metadata.name = found.metadata.name := World.find_name hfind'
    simp [load, hp', loadInternal, hname, hfind', hl2]
  · cases h

/-- C6 at a concrete input: loading `Q` of scenario A twice. -/
theorem load_idempotent_witness :
    load exampleEnv 1 2 "Q" (resultWorld scenarioA (load exampleEnv 2 2 "Q" scenarioA))
      = .ok (.Loaded, resultWorld scenarioA (load exampleEnv 2 2 "Q" scenarioA)) :=
  load_idempotent exampleEnv 2 2 "Q" scenarioA _ rfl exampleEnv 0

/-- C8: when the query `q` resolves through `findWithAlias` to a loaded record `r`,
`instance(q)` calls the instancer of `r` with the calling manager and with the name in the
metadata of `r`; when `q` is an alias (not the name of a record), that name is not `q`. -/
theorem instance_gets_record_name (this : Nat) (q : String) (w : World) (r : Plugin)
    (instancer : Nat) (hfound : findWithAlias this q w.storage = some r)
    (hloaded : r.loadState.hasAny [.Loaded] = true) (hinst : r.instancer = some instancer) :
    instanceInternal this q w = .ok (w.emit (.instancer instancer this r.metadata.name)) ∧
    (w.find q = none → r.metadata.name ≠ q) := by
  refine ⟨by simp [instanceInternal, hfound, hloaded, hinst], ?_⟩
  intro hq hname
  obtain ⟨hfind, _⟩ := findWithAlias_some hfound
  rw [hname] at hfind
  have : w.find q = some r := hfind
  rw [hq] at this
  cases this

/-- C8 at a concrete input (scenario C): `instance("default")` calls the instancer with
`"P"`. -/
theorem instance_gets_record_name_witness :
    instanceInternal 1 "default" aliasWorld = .ok (aliasWorld.emit (.instancer 100 1 "P")) ∧
    (aliasWorld.find "default" = none → "P" ≠ "default") :=
  instance_gets_record_name 1 "default" aliasWorld
    ((exampleRecord "P" ["default"] [] 1).setLoaded 7 100) 100 rfl (by decide) rfl

/-- C10: when `unload` of a `Loaded` plugin returns `Required` or `Used`, the world is
what it was: no instance is deleted, no finalizer or `dlclose` call is made (the log is
the same), every `usedBy` list is the same and the record is still `Loaded` with its
module and instancer. -/
theorem refused_unload_changes_nothing (env : Env) (this : Nat) (q : String) (w w' : World)
    (plugin : Plugin) (r : LoadState)
    (hfound : findWithAlias this q w.storage = some plugin)
    (hloaded : plugin.loadState = .Loaded)
    (h : unload env this q w = .ok (r, w')) (hr : r = .Required ∨ r = .Used) :
    w' = w ∧ w'.find plugin.metadata.name = some plugin := by
  obtain ⟨hfind, _⟩ := findWithAlias_some hfound
  have hfind : w.find plugin.metadata.name = some plugin := hfind
  have hfin : ∀ (w2 w3 : World) (s : LoadState),
      finalizeAndClose env plugin w2 = .ok (s, w3) → s = .UnloadFailed ∨ s = .NotLoaded := by
    intro w2 w3 s hs
    unfold finalizeAndClose at hs
    split at hs
    · cases hs
    · split at hs
      · cases hs
      · simp only at hs
        split at hs <;> cases hs <;> simp
  have key : w' = w := by
    simp only [unload, hfound, unloadInternal, hfind, hloaded] at h
    simp only [ne_eq, not_true_eq_false, if_false] at h
    split at h
    · cases h; rfl
    · split at h
      · split at h
        · cases h; rfl
        · split at h
          · cases h
          · split at h
            · cases h
            · rcases hfin _ _ _ h with rfl | rfl <;> rcases hr with hr | hr <;> cases hr
      · split at h
        · cases h
        · rcases hfin _ _ _ h with rfl | rfl <;> rcases hr with hr | hr <;> cases hr
  exact ⟨key, by rw [key]; exact hfind⟩

/-- C10 at a concrete input: `P` is required by `Q`. -/
theorem refused_unload_changes_nothing_witness :
    resultWorld scenarioA (unload exampleEnv 1 "P" requiredWorld) = requiredWorld ∧
    (resultWorld scenarioA (unload exampleEnv 1 "P" requiredWorld)).find "P"
      = some ((exampleRecord "P" [] [] 1).pushUsedBy "Q" |>.setLoaded 7 100) :=
  refused_unload_changes_nothing exampleEnv 1 "P" requiredWorld _
    ((exampleRecord "P" [] [] 1).pushUsedBy "Q" |>.setLoaded 7 100) .Required rfl rfl rfl
    (Or.inl rfl)

/-! ## Alias collisions -/

/-- C9, as stated, fails: managers `1` and `2` each own a plugin providing `default` and no
record is named `default`; the lookup by manager `1` finds its plugin `A`, the lookup by
manager `2` finds nothing. -/
theorem alias_collision_second_manager_finds_nothing :
    collisionStorage.find "default" = none ∧
    collisionStorage.find "A" = some (exampleRecord "A" ["default"] [] 1) ∧
    collisionStorage.find "B" = some (exampleRecord "B" ["default"] [] 2) ∧
    findWithAlias 1 "default" collisionStorage = some (exampleRecord "A" ["default"] [] 1) ∧
    findWithAlias 2 "default" collisionStorage = none := by
  decide

/-- C9, amended: when no record is named `A`, the lookup of `A` by a manager looks at the
first alias entry stored under `A` only; it returns the record the entry refers to when
that record is owned by the manager, and nothing otherwise. So a record it returns is owned
by the caller, and no other manager finds anything under `A`. -/
theorem alias_lookup_uses_first_entry (s : GlobalPluginStorage) (this : Nat) (A : String)
    (hA : s.find A = none) :
    findWithAlias this A s
      = (s.findAlias A).bind (fun e =>
          (s.find e.2).bind (fun r => if r.manager = some this then some r else none)) ∧
    (∀ r, findWithAlias this A s = some r → r.manager = some this) ∧
    (∀ other, other ≠ this → (findWithAlias this A s).isSome →
      findWithAlias other A s = none) := by
  have hchar : ∀ m, findWithAlias m A s
      = (s.findAlias A).bind (fun e =>
          (s.find e.2).bind (fun r => if r.manager = some m then some r else none)) := by
    intro m
    unfold findWithAlias
    rw [hA]
    simp only
    cases s.findAlias A with
    | none => rfl
    | some e =>
      cases hr : s.find e.2 with
      | none => simp [hr]
      | some r => simp [hr]
  refine ⟨hchar this, fun r hr => (findWithAlias_some hr).2, ?_⟩
  intro other hne hsome
  rw [hchar] at hsome ⊢
  cases hal : s.findAlias A with
  | none => rfl
  | some e =>
    rw [hal] at hsome
    cases hr : s.find e.2 with
    | none => simp [hr]
    | some r =>
      by_cases hm : r.manager = some this
      · have : ¬ r.manager = some other := by
          rw [hm]
          intro h
          exact hne (Option.some.inj h).symm
        simp [hr, this]
      · simp [hr, hm] at hsome

/-- C9, amended, at a concrete input: the lookups of `default` in the storage of the
counterexample. -/
theorem alias_lookup_uses_first_entry_witness :
    findWithAlias 1 "default" collisionStorage
      = (collisionStorage.findAlias "default").bind (fun e =>
          (collisionStorage.find e.2).bind
            (fun r => if r.manager = some 1 then some r else none)) ∧
    (∀ r, findWithAlias 1 "default" collisionStorage = some r → r.manager = some 1) ∧
    (∀ other, other ≠ 1 → (findWithAlias 1 "default" collisionStorage).isSome →
      findWithAlias other "default" collisionStorage = none) :=
  alias_lookup_uses_first_entry collisionStorage 1 "default" (by decide)

/-! ## What an unload changes -/

theorem Plugin.eraseMany_zero (n : String) (p : Plugin) : p.eraseMany n 0 = p := rfl

theorem Plugin.eraseMany_erase (n : String) (k : Nat) (p : Plugin) :
    (p.eraseUsedBy n).eraseMany n k = p.eraseMany n (k + 1) := rfl

@[simp] theorem Plugin.eraseMany_name (n : String) (k : Nat) (p : Plugin) :
    (p.eraseMany n k).metadata.name = p.metadata.name := rfl

@[simp] theorem Plugin.pushMany_name (n : String) (k : Nat) (p : Plugin) :
    (p.pushMany n k).metadata.name = p.metadata.name := rfl

/-- What `removeFromDependencies` does to the world: it always finishes, and every record
loses the plugin name from `usedBy` once for each time it is listed. -/
theorem removeFromDependencies_ok (n : String) (deps : List String) (w : World) :
    ∃ w', removeFromDependencies n deps w = .ok w' ∧
      w'.managers = w.managers ∧ w'.storage.aliases = w.storage.aliases ∧ w'.log = w.log ∧
      ∀ x, w'.find x = (w.find x).map (Plugin.eraseMany n (deps.count x)) := by
  induction deps generalizing w with
  | nil =>
    refine ⟨w, rfl, rfl, rfl, rfl, fun x => ?_⟩
    cases hx : w.find x <;> simp [Plugin.eraseMany_zero]
  | cons it rest ih =>
    simp only [removeFromDependencies]
    cases hit : w.find it with
    | none =>
      obtain ⟨w', h0, h1, h2, h3, h4⟩ := ih w
      refine ⟨w', h0, h1, h2, h3, fun x => ?_⟩
      rw [h4]
      by_cases hx : x = it
      · subst hx; simp [hit]
      · have : ¬ it = x := fun h => hx h.symm
        simp [List.count_cons, this]
    | some mit =>
      have hname := World.find_name hit
      obtain ⟨w', h0, h1, h2, h3, h4⟩ := ih (w.modifyPlugin it (Plugin.eraseUsedBy n))
      refine ⟨w', ?_, h1, h2, h3, fun x => ?_⟩
      · simp only
        cases hm : mit.manager.isSome
        · simpa [hm] using h0
        · simp only [if_true, removeUsedBy, hname, hit]
          exact h0
      · rw [h4, World.find_modifyPlugin _ _ _ _ (Plugin.eraseUsedBy_name n)]
        by_cases hx : x = it
        · subst hx
          simp [hit, Plugin.eraseMany_erase]
        · have : ¬ it = x := fun h => hx h.symm
          simp [hx, List.count_cons, this]

theorem find?_filter_key (l : List (String × List Nat)) (x : String) :
    (l.filter (fun e => e.1 != x)).find? (fun e => e.1 == x) = none := by
  induction l with
  | nil => rfl
  | cons a l ih =>
    by_cases ha : a.1 = x
    · simp [List.filter_cons, ha, ih]
    · simp [List.filter_cons, ha, List.find?_cons, ih]

theorem find?_map_key (l : List (String × List Nat)) (x : String) (v : List Nat) :
    (l.map (fun e => if e.1 = x then (e.1, v) else e)).find? (fun e => e.1 == x)
      = (l.find? (fun e => e.1 == x)).map (fun e => (e.1, v)) := by
  induction l with
  | nil => rfl
  | cons a l ih =>
    by_cases ha : a.1 = x
    · simp [List.find?_cons, ha]
    · simp [List.find?_cons, ha, ih]

theorem World.setInstances_this (w : World) (this : Nat) (l : List (String × List Nat)) :
    (w.setInstances this l).managers this = { w.managers this with instances := l } := by
  simp [World.setInstances]

theorem World.setInstances_other (w : World) (this m : Nat) (l : List (String × List Nat))
    (h : m ≠ this) : (w.setInstances this l).managers m = w.managers m := by
  simp [World.setInstances, h]

/-- The loop that deletes the instances of a plugin finishes; it leaves the storage and
the other managers alone and adds only deletions to the log. -/
theorem deleteInstances_ok (this : Nat) (x : String) (k : Nat) :
    ∀ (w : World) (l : List Nat), (w.managers this).findInstances x = some l →
      l.length = k → (∃ p, w.find x = some p ∧ p.manager = some this) →
      ∃ w', deleteInstances this x k w = .ok w' ∧ w'.storage = w.storage ∧
        (∀ m, m ≠ this → w'.managers m = w.managers m) ∧
        (w'.managers this).pluginDirectory = (w.managers this).pluginDirectory ∧
        (w'.managers this).pluginInterface = (w.managers this).pluginInterface ∧
        ∃ ev, w'.log = w.log ++ ev ∧ OnlyDeletions ev := by
  induction k with
  | zero =>
    intro w l _ _ _
    exact ⟨w, rfl, rfl, fun _ _ => rfl, rfl, rfl, [], by simp, by simp [OnlyDeletions]⟩
  | succ k ih =>
    intro w l hl hlen hp
    obtain ⟨p, hp, hman⟩ := hp
    have hk : k < l.length := by omega
    have hget : l[k]? = some l[k] := List.getElem?_eq_getElem hk
    have hmem : l[k] ∈ l := List.getElem_mem hk
    have hlen' : (l.erase l[k]).length = k := by
      rw [List.length_erase_of_mem hmem]; omega
    simp only [deleteInstances, hl, hget, deleteInstance, unregisterInstance, World.find_emit,
      hp, hman]
    have hl' : ((w.emit (.deleted l[k])).managers this).findInstances x = some l := hl
    simp only [ne_eq, not_true_eq_false, if_false, hl', hmem]
    by_cases hempty : (l.erase l[k]).isEmpty
    · have hk0 : k = 0 := by
        have hnil : l.erase l[k] = [] := by simpa using hempty
        rw [hnil] at hlen'
        exact hlen'.symm
      subst hk0
      simp only [hempty, if_true, deleteInstances]
      refine ⟨_, rfl, rfl, fun m hm => World.setInstances_other _ _ _ _ hm, ?_, ?_,
        [.deleted l[0]], rfl, ?_⟩
      · rw [World.setInstances_this]; rfl
      · rw [World.setInstances_this]; rfl
      · intro e he
        exact ⟨l[0], by simpa using he⟩
    · simp only [hempty]
      have hfi : (((w.emit (.deleted l[k])).setInstances this
          (((w.emit (.deleted l[k])).managers this).instances.map
            (fun e => if e.1 = x then (e.1, l.erase l[k]) else e))).managers this).findInstances x
          = some (l.erase l[k]) := by
        rw [World.setInstances_this]
        simp only [Manager.findInstances, find?_map_key]
        have : (w.managers this).findInstances x = some l := hl
        simp only [Manager.findInstances, Option.map_eq_some'] at this
        obtain ⟨e, he, _⟩ := this
        show Option.map _ (Option.map _ (List.find? _ (w.managers this).instances)) = _
        rw [he]
        rfl
      obtain ⟨w', h0, h1, h2, h3, h4, ev, h5, h6⟩ := ih _ _ hfi hlen' ⟨p, hp, hman⟩
      refine ⟨w', by simpa using h0, h1, ?_, ?_, ?_, .deleted l[k] :: ev, ?_, ?_⟩
      · intro m hm
        rw [h2 m hm]
        exact World.setInstances_other _ _ _ _ hm
      · rw [h3, World.setInstances_this]; rfl
      · rw [h4, World.setInstances_this]; rfl
      · rw [h5]; simp [World.emit, World.setInstances]
      · intro e he
        rcases List.mem_cons.mp he with rfl | he
        · exact ⟨_, rfl⟩
        · exact h6 e he

theorem modifyPlugin_names (w : World) (n : String) (f : Plugin → Plugin)
    (hf : ∀ p, (f p).metadata.name = p.metadata.name) :
    (w.modifyPlugin n f).storage.plugins.map (fun p => p.metadata.name)
      = w.storage.plugins.map (fun p => p.metadata.name) := by
  simp only [World.modifyPlugin, GlobalPluginStorage.modify, List.map_map]
  apply List.map_congr_left
  intro a _
  simp only [Function.comp_apply]
  split
  · exact hf a
  · rfl

/-- `removeFromDependencies` keeps the keys of the map as they are. -/
theorem removeFromDependencies_names (n : String) (deps : List String) (w : World) :
    ∃ w', removeFromDependencies n deps w = .ok w' ∧
      w'.managers = w.managers ∧ w'.storage.aliases = w.storage.aliases ∧ w'.log = w.log ∧
      (∀ x, w'.find x = (w.find x).map (Plugin.eraseMany n (deps.count x))) ∧
      w'.storage.plugins.map (fun p => p.metadata.name)
        = w.storage.plugins.map (fun p => p.metadata.name) := by
  induction deps generalizing w with
  | nil =>
    obtain ⟨w', h0, h1, h2, h3, h4⟩ := removeFromDependencies_ok n [] w
    cases h0
    exact ⟨w, rfl, h1, h2, h3, h4, rfl⟩
  | cons it rest ih =>
    obtain ⟨w', h0, h1, h2, h3, h4⟩ := removeFromDependencies_ok n (it :: rest) w
    refine ⟨w', h0, h1, h2, h3, h4, ?_⟩
    simp only [removeFromDependencies] at h0
    cases hit : w.find it with
    | none =>
      rw [hit] at h0
      obtain ⟨w2, g0, _, _, _, _, g5⟩ := ih w
      simp only at h0
      rw [g0] at h0
      cases h0
      exact g5
    | some mit =>
      have hname := World.find_name hit
      rw [hit] at h0
      obtain ⟨w2, g0, _, _, _, _, g5⟩ := ih (w.modifyPlugin it (Plugin.eraseUsedBy n))
      have key : removeFromDependencies n rest (w.modifyPlugin it (Plugin.eraseUsedBy n))
          = .ok w' := by
        simp only at h0
        cases hm : mit.manager.isSome
        · simpa [hm] using h0
        · simpa [hm, removeUsedBy, hname, hit] using h0
      rw [g0] at key
      cases key
      rw [g5]
      exact modifyPlugin_names w it _ (Plugin.eraseUsedBy_name n)

/-- An unload that is not refused: a `Loaded` plugin that nobody uses, whose instances may
all be deleted and whose module has a finalizer. The call returns `NotLoaded` when
`dlclose` succeeds and `UnloadFailed` otherwise, and the records afterwards are the
records before with the plugin erased from the `usedBy` lists of its dependencies. -/
theorem unloadInternal_ok (env : Env) (this : Nat) (x : String) (w : World) (p : Plugin)
    (module finalizer : Nat) (hfind : w.find x = some p) (hloaded : p.loadState = .Loaded)
    (hused : p.metadata.usedBy = []) (hman : p.manager = some this)
    (hinst : ∀ l, (w.managers this).findInstances x = some l →
      ∀ i ∈ l, env.canBeDeleted i = true)
    (hmod : p.module = some module)
    (hfin : (env.dlsym module).pluginFinalizer = some finalizer) :
    ∃ w', unloadInternal env this x w
        = .ok (if env.dlclose module = 0 then .NotLoaded else .UnloadFailed, w') ∧
      (∀ m, m ≠ this → w'.managers m = w.managers m) ∧
      (w'.managers this).pluginDirectory = (w.managers this).pluginDirectory ∧
      (w'.managers this).pluginInterface = (w.managers this).pluginInterface ∧
      w'.storage.aliases = w.storage.aliases ∧
      (∃ ev, w'.log = w.log ++ ev ++ [.finalizer x finalizer, .dlclose module] ∧
        OnlyDeletions ev) ∧
      ∀ y, w'.find y = (w.find y).map (fun r =>
        if y = x then
          if env.dlclose module = 0 then (r.eraseMany x (p.metadata.depends.count y)).setUnloaded
          else (r.eraseMany x (p.metadata.depends.count y)).setUnloadFailed
        else r.eraseMany x (p.metadata.depends.count y)) := by
  have hname : p.metadata.name = x := World.find_name hfind
  -- the common tail: remove from dependencies, finalize and close
  have tail : ∀ w1 : World, w1.storage = w.storage →
      ∃ w', (match removeFromDependencies p.metadata.name p.metadata.depends w1 with
          | .error e => (Except.error e : Except Fault (LoadState × World))
          | .ok w2 => finalizeAndClose env p w2)
          = .ok (if env.dlclose module = 0 then LoadState.NotLoaded else .UnloadFailed, w') ∧
        w'.managers = w1.managers ∧ w'.storage.aliases = w.storage.aliases ∧
        w'.log = w1.log ++ [.finalizer x finalizer, .dlclose module] ∧
        ∀ y, w'.find y = (w.find y).map (fun r =>
          if y = x then
            if env.dlclose module = 0 then
              (r.eraseMany x (p.metadata.depends.count y)).setUnloaded
            else (r.eraseMany x (p.metadata.depends.count y)).setUnloadFailed
          else r.eraseMany x (p.metadata.depends.count y)) := by
    intro w1 hs
    obtain ⟨w2, h0, h1, h2, h3, h4⟩ := removeFromDependencies_ok p.metadata.name p.metadata.depends w1
    have hf1 : ∀ y, w1.find y = w.find y := fun y => by simp [World.find, hs]
    rw [h0]
    simp only [finalizeAndClose, hmod, hfin, hname]
    by_cases hc : env.dlclose module = 0
    · simp only [hc, ne_eq, not_true_eq_false, if_false, if_true]
      refine ⟨_, rfl, h1, by rw [← hs]; exact h2, ?_, fun y => ?_⟩
      · simp [World.modifyPlugin, World.emit, h3]
      · rw [World.find_modifyPlugin _ _ _ _ Plugin.setUnloaded_name]
        simp only [World.find_emit, h4, hf1, hname]
        cases w.find y <;> by_cases hy : y = x <;> simp [hy]
    · simp only [hc, ne_eq, not_false_eq_true, if_true, if_false]
      refine ⟨_, rfl, h1, by rw [← hs]; exact h2, ?_, fun y => ?_⟩
      · simp [World.modifyPlugin, World.emit, h3]
      · rw [World.find_modifyPlugin _ _ _ _ Plugin.setUnloadFailed_name]
        simp only [World.find_emit, h4, hf1, hname]
        cases w.find y <;> by_cases hy : y = x <;> simp [hy]
  simp only [unloadInternal, hfind, hloaded, hused, hname]
  simp only [ne_eq, not_true_eq_false, if_false, List.isEmpty_nil, Bool.not_true,
    Bool.false_eq_true]
  cases hl : (w.managers this).findInstances x with
  | none =>
    simp only
    obtain ⟨w', h0, h1, h2, h3, h4⟩ := tail w rfl
    rw [hname] at h0
    exact ⟨w', h0, fun m _ => by rw [h1], by rw [h1], by rw [h1], h2,
      ⟨[], by simpa using h3, by simp [OnlyDeletions]⟩, h4⟩
  | some l =>
    simp only
    have hany : l.any (fun inst => !env.canBeDeleted inst) = false := by
      rw [List.any_eq_false]
      intro i hi
      simp [hinst l hl i hi]
    simp only [hany, Bool.false_eq_true, if_false]
    obtain ⟨w1, d0, d1, d2, d3, d4, ev, d5, d6⟩ :=
      deleteInstances_ok this x l.length w l hl rfl ⟨p, hfind, hman⟩
    rw [d0]
    simp only
    obtain ⟨w', h0, h1, h2, h3, h4⟩ := tail w1 d1
    rw [hname] at h0
    refine ⟨w', h0, fun m hm => by rw [h1, d2 m hm], by rw [h1, d3], by rw [h1, d4], h2,
      ⟨ev, by rw [h3, d5], d6⟩, h4⟩

theorem loaderVerdict_of_succeeds {env : Env} {manager : Manager} {name : String}
    (h : loaderSucceeds env manager name = true) :
    loaderVerdict env manager name = .Loaded ∧
    ∃ module finalizer, env.dlopen (env.join manager.pluginDirectory (name ++ env.suffix))
        = some module ∧ (env.dlsym module).pluginFinalizer = some finalizer ∧
      env.dlclose module = 0 := by
  unfold loaderSucceeds at h
  unfold loaderVerdict
  split at h
  · cases h
  · rename_i module hopen
    simp only [Bool.and_eq_true, decide_eq_true_eq, Option.isSome_iff_exists] at h
    obtain ⟨⟨⟨⟨⟨hv, hi⟩, ⟨a, ha⟩⟩, ⟨b, hb⟩⟩, ⟨c, hc⟩⟩, hclose⟩ := h
    rw [hopen]
    refine ⟨by simp [hv, hi, ha, hb], module, c, rfl, hc, hclose⟩

/-- A load that goes through: a `NotLoaded` plugin whose dependencies the loop resolves
and whose module the loader accepts. The call returns `Loaded`, and the records afterwards
are the records after the dependency loop with the plugin appended to the `usedBy` lists of
its dependencies. -/
theorem loadInternal_success (env : Env) (fuel this : Nat) (x : String) (w w1 : World)
    (p : Plugin) (ds : List String) (hfind : w.find x = some p)
    (hstate : p.loadState = .NotLoaded)
    (hdeps : loadDependencies (loadInternal env fuel) p.metadata.depends [] w
      = .ok (some ds, w1))
    (hload : loaderSucceeds env (w.managers this) x = true) :
    ∃ w' module instancer initializer,
      loadInternal env (fuel + 1) this x w = .ok (.Loaded, w') ∧
      env.dlopen (env.join (w.managers this).pluginDirectory (x ++ env.suffix))
        = some module ∧
      w'.managers = w.managers ∧ w'.storage.aliases = w.storage.aliases ∧
      w'.log = w1.log ++ [.dlopen x
        (env.join (w.managers this).pluginDirectory (x ++ env.suffix)) (some module),
        .initializer x initializer] ∧
      ∀ y, w'.find y = (w1.find y).map (fun r =>
        if y = x then (r.pushMany x (p.metadata.depends.count y)).setLoaded module instancer
        else r.pushMany x (p.metadata.depends.count y)) := by
  have hname : p.metadata.name = x := World.find_name hfind
  have hext := loadDependencies_ext _ (loadInternal_ext env fuel) _ _ _ _ _ hdeps
  obtain ⟨hds, hall⟩ := loadDependencies_some _ (loadInternal_ext env fuel)
    (fun _ _ _ _ h => loadInternal_loaded h) _ _ _ _ _ hdeps
  have hds : ds = p.metadata.depends := by simpa using hds
  subst hds
  have hfoundAll : ∀ d ∈ p.metadata.depends, (w1.find d).isSome := by
    intro d hd
    obtain ⟨q, hq, _⟩ := hall d hd
    simp [hq]
  obtain ⟨w', hw'⟩ := loadModule_total env this p p.metadata.depends w1 hfoundAll
  rw [hext.managers, hname, (loaderVerdict_of_succeeds hload).1] at hw'
  obtain ⟨module, instancer, initializer, h1, _, _, h4, h5, h6, h7⟩ :=
    loadModule_loaded_find hw'
  rw [hext.managers, hname] at h1 h6
  simp only [hname] at h7
  refine ⟨w', module, instancer, initializer, ?_, h1, h4.trans hext.managers,
    h5.trans hext.aliases, h6, h7⟩
  simp only [loadInternal, hfind, hstate, hdeps]
  simpa using hw'

/-- A load of a plugin that is `Loaded` already returns `Loaded` and changes nothing. -/
theorem loadInternal_of_loaded (env : Env) (fuel this : Nat) (x : String) (w : World)
    (p : Plugin) (hfind : w.find x = some p) (hstate : p.loadState = .Loaded) :
    loadInternal env (fuel + 1) this x w = .ok (.Loaded, w) := by
  simp [loadInternal, hfind, hstate]

theorem findWithAlias_of_find {w : World} {this : Nat} {x : String} {p : Plugin}
    (h : w.find x = some p) (hm : p.manager = some this) :
    findWithAlias this x w.storage = some p := by
  have h' : w.storage.find x = some p := h
  simp [findWithAlias, h', hm]

/-! ## Scenario A -/

/-- C1, as stated, fails: in a storage where `P` (manager `1`, `NotLoaded`) itself depends
on a plugin that does not exist, and `Q` (manager `2`, `NotLoaded`) depends on `P`, with a
loader that accepts every module, `load("Q")` by manager `2` returns
`UnresolvedDependency`, not `Loaded`, and `P` is not `Loaded` afterwards. -/
theorem scenarioA_with_unresolved_dependency_of_P :
    resultState (load exampleEnv 3 2 "Q"
      (exampleWorld [exampleRecord "P" [] ["Missing"] 1, exampleRecord "Q" [] ["P"] 2]))
      = some .UnresolvedDependency ∧
    loadState 1 "P" (resultWorld scenarioA (load exampleEnv 3 2 "Q"
      (exampleWorld [exampleRecord "P" [] ["Missing"] 1, exampleRecord "Q" [] ["P"] 2])))
      = .NotLoaded := by
  decide

/-- C1, amended: manager `M1` owns the `NotLoaded` plugin `P`, which has no dependencies of
its own, a different manager `M2` owns the `NotLoaded` plugin `Q` with `depends = [P]`,
nobody uses `P` or `Q` yet, the loader accepts both modules and no live instance of them
refuses deletion. Then `M2.load(Q)`, `M1.unload(P)`, `M2.unload(Q)`, `M1.unload(P)` return
`Loaded`, `Required`, `NotLoaded`, `NotLoaded`, and `P` is `Loaded` after the first call. -/
theorem scenarioA_sequence (env : Env) (w : World) (M1 M2 : Nat) (P Q : String)
    (p q : Plugin) (hM : M1 ≠ M2)
    (hp : w.find P = some p) (hpm : p.manager = some M1) (hps : p.loadState = .NotLoaded)
    (hpd : p.metadata.depends = []) (hpu : p.metadata.usedBy = [])
    (hq : w.find Q = some q) (hqm : q.manager = some M2) (hqs : q.loadState = .NotLoaded)
    (hqd : q.metadata.depends = [P]) (hqu : q.metadata.usedBy = [])
    (hlp : loaderSucceeds env (w.managers M1) P = true)
    (hlq : loaderSucceeds env (w.managers M2) Q = true)
    (hip : ∀ l, (w.managers M1).findInstances P = some l → ∀ i ∈ l, env.canBeDeleted i = true)
    (hiq : ∀ l, (w.managers M2).findInstances Q = some l → ∀ i ∈ l, env.canBeDeleted i = true) :
    ∃ w1 w2 w3 w4,
      load env 2 M2 Q w = .ok (.Loaded, w1) ∧ loadState M1 P w1 = .Loaded ∧
      unload env M1 P w1 = .ok (.Required, w2) ∧
      unload env M2 Q w2 = .ok (.NotLoaded, w3) ∧
      unload env M1 P w3 = .ok (.NotLoaded, w4) := by
  have hPQ : P ≠ Q := by
    intro h
    rw [h, hq] at hp
    cases hp
    rw [hpm] at hqm
    exact hM (Option.some.inj hqm)
  have hQP : Q ≠ P := fun h => hPQ h.symm
  have hpn : p.metadata.name = P := World.find_name hp
  have hqn : q.metadata.name = Q := World.find_name hq
  -- loading P, the dependency
  obtain ⟨wP, hP, iP, jP, hloadP, hopenP, hmanP, _, _, hfP⟩ :=
    loadInternal_success env 0 M1 P w w p [] hp hps (by rw [hpd]; rfl) hlp
  rw [hpd] at hfP
  have hdepsQ : loadDependencies (loadInternal env 1) q.metadata.depends [] w
      = .ok (some [P], wP) := by
    simp only [hqd, loadDependencies, hp, hpm, hloadP]
    simp [LoadState.hasAny_loaded]
  -- loading Q
  obtain ⟨w1, hQ, iQ, jQ, hloadQ, hopenQ, hman1, _, _, hf1⟩ :=
    loadInternal_success env 1 M2 Q w wP q [P] hq hqs hdepsQ hlq
  rw [hqd] at hf1
  obtain ⟨_, mP, fP, hopenP', hfinP, hcloseP⟩ := loaderVerdict_of_succeeds hlp
  obtain ⟨_, mQ, fQ, hopenQ', hfinQ, hcloseQ⟩ := loaderVerdict_of_succeeds hlq
  rw [hopenP] at hopenP'
  rw [hopenQ] at hopenQ'
  cases hopenP'
  cases hopenQ'
  -- the records of P and Q after the load
  have hP1 : w1.find P = some ((p.setLoaded hP iP).pushUsedBy Q) := by
    rw [hf1, hfP, hp]
    simp [hPQ, Plugin.pushMany, Plugin.setLoaded, Plugin.pushUsedBy]
  have hQ1 : w1.find Q = some (q.setLoaded hQ iQ) := by
    rw [hf1, hfP, hq]
    simp [hQP, Plugin.pushMany, Plugin.setLoaded]
  -- unloading Q
  obtain ⟨w3, hun3, hoth3, _, _, _, _, hf3⟩ :=
    unloadInternal_ok env M2 Q w1 (q.setLoaded hQ iQ) hQ fQ hQ1 rfl hqu hqm
      (by rw [hman1]; exact hiq) rfl hfinQ
  rw [hcloseQ] at hun3
  have hback : ((p.setLoaded hP iP).pushUsedBy Q).eraseMany Q 1 = p.setLoaded hP iP := by
    obtain ⟨ls, ⟨n, pr, de, ub⟩, mg, ins, sp, mo⟩ := p
    simp only at hpu
    subst hpu
    simp [Plugin.eraseMany, Plugin.setLoaded, Plugin.pushUsedBy, eraseTimes]
  have hP3 : w3.find P = some (p.setLoaded hP iP) := by
    rw [hf3, hP1]
    simp only [Option.map_some', if_neg hPQ, Plugin.setLoaded, hqd, List.count_singleton,
      beq_self_eq_true, if_true]
    exact congrArg some hback
  -- unloading P
  obtain ⟨w4, hun4, _⟩ :=
    unloadInternal_ok env M1 P w3 (p.setLoaded hP iP) hP fP hP3 rfl hpu hpm
      (by rw [hoth3 M1 hM, hman1]; exact hip) rfl hfinP
  rw [hcloseP] at hun4
  refine ⟨w1, w1, w3, w4, ?_, ?_, ?_, ?_, ?_⟩
  · simp only [load, findWithAlias_of_find hq hqm, hqn]
    exact hloadQ
  · simp [loadState, findWithAlias_of_find hP1 (show ((p.setLoaded hP iP).pushUsedBy Q).manager
      = some M1 from hpm), Plugin.setLoaded, Plugin.pushUsedBy]
  · simp [unload, findWithAlias_of_find hP1 (show ((p.setLoaded hP iP).pushUsedBy Q).manager
      = some M1 from hpm), unloadInternal, Plugin.setLoaded, Plugin.pushUsedBy, hpn, hP1, hpu]
  · simp only [unload, findWithAlias_of_find hQ1 (show (q.setLoaded hQ iQ).manager
      = some M2 from hqm), Plugin.setLoaded_name, hqn]
    simpa using hun3
  · simp only [unload, findWithAlias_of_find hP3 (show (p.setLoaded hP iP).manager
      = some M1 from hpm), Plugin.setLoaded_name, hpn]
    simpa using hun4

/-- C1, amended, at a concrete input: scenario A with the loader that accepts every
module. -/
theorem scenarioA_sequence_witness :
    ∃ w1 w2 w3 w4,
      load exampleEnv 2 2 "Q" scenarioA = .ok (.Loaded, w1) ∧ loadState 1 "P" w1 = .Loaded ∧
      unload exampleEnv 1 "P" w1 = .ok (.Required, w2) ∧
      unload exampleEnv 2 "Q" w2 = .ok (.NotLoaded, w3) ∧
      unload exampleEnv 1 "P" w3 = .ok (.NotLoaded, w4) :=
  scenarioA_sequence exampleEnv scenarioA 1 2 "P" "Q" (exampleRecord "P" [] [] 1)
    (exampleRecord "Q" [] ["P"] 2) (by decide) rfl rfl rfl rfl rfl rfl rfl rfl rfl rfl
    (by decide) (by decide) (by intro l h; cases h) (by intro l h; cases h)

/-! ## Unload and load again -/

/-- The dependency loop over dependencies that are all `Loaded` and owned resolves every
one of them and changes nothing. -/
theorem loadDependencies_all_loaded (env : Env) (fuel : Nat) (deps acc : List String)
    (w : World)
    (h : ∀ d ∈ deps, ∃ r, w.find d = some r ∧ r.loadState = .Loaded ∧ r.manager.isSome) :
    loadDependencies (loadInternal env (fuel + 1)) deps acc w = .ok (some (acc ++ deps), w) := by
  induction deps generalizing acc with
  | nil => simp [loadDependencies]
  | cons it rest ih =>
    obtain ⟨r, hr, hl, hm⟩ := h it (List.mem_cons_self _ _)
    obtain ⟨m, hm⟩ := Option.isSome_iff_exists.mp hm
    simp only [loadDependencies, hr, hm, loadInternal_of_loaded env fuel m it w r hr hl]
    simp only [(LoadState.hasAny_loaded .Loaded).mpr rfl, if_true]
    rw [ih _ (fun d hd => h d (List.mem_cons_of_mem _ hd))]
    simp

/-- Erasing `k` entries `n` and appending `k` entries `n` gives the same entries, when
there are at least `k` of them. -/
theorem eraseTimes_append_perm (n : String) (k : Nat) :
    ∀ u : List String, k ≤ u.count n → (eraseTimes n k u ++ List.replicate k n).Perm u := by
  induction k with
  | zero => intro u _; simp [eraseTimes]
  | succ k ih =>
    intro u hu
    have hmem : n ∈ u := List.count_pos_iff.mp (by omega)
    have hcount : k ≤ (u.erase n).count n := by
      rw [List.count_erase_self]; omega
    have h1 := ih (u.erase n) hcount
    have h2 : (eraseTimes n (k + 1) u ++ List.replicate (k + 1) n).Perm
        (n :: (eraseTimes n k (u.erase n) ++ List.replicate k n)) := by
      simp only [eraseTimes, List.replicate_succ]
      exact List.perm_middle
    exact h2.trans ((List.Perm.cons n h1).trans (List.perm_cons_erase hmem).symm)

/-- The lookup by name or alias after a change that rewrites every record in place and
keeps owners and aliases. -/
theorem findWithAlias_map {w w' : World} {this : Nat} {q : String}
    (ha : w'.storage.aliases = w.storage.aliases) (f : String → Plugin → Plugin)
    (hf : ∀ x, w'.find x = (w.find x).map (f x))
    (hm : ∀ x r, (f x r).manager = r.manager) :
    findWithAlias this q w'.storage
      = (findWithAlias this q w.storage).map (fun r => f r.metadata.name r) := by
  have hfw : ∀ x, w.storage.find x = w.find x := fun _ => rfl
  have hfw' : ∀ x, w'.storage.find x = w'.find x := fun _ => rfl
  unfold findWithAlias
  simp only [hfw, hfw', GlobalPluginStorage.findAlias, ha, hf]
  cases hq : w.find q with
  | none =>
    simp only [Option.map_none']
    cases hal : List.find? (fun a => a.1 == q) w.storage.aliases with
    | none => rfl
    | some a =>
      simp only
      cases hr : w.find a.2 with
      | none => rfl
      | some r =>
        have hname : r.metadata.name = a.2 := World.find_name hr
        simp only [Option.map_some', hm]
        by_cases hmr : r.manager = some this <;> simp [hmr, hname]
  | some r =>
    have hname : r.metadata.name = q := World.find_name hq
    simp only [Option.map_some', hm]
    by_cases hmr : r.manager = some this <;> simp [hmr, hname]

/-- C7, as stated, fails: `P` is used by `Q` and `R`, loaded in this order, so its `usedBy`
list is `[Q, R]`. `unload("Q")` returns `NotLoaded` and `load("Q")` returns `Loaded`, and
the `usedBy` list of the dependency `P` is then `[R, Q]`, not the list before the
unload. -/
theorem roundtrip_reorders_usedBy :
    usedByOf sharedDependencyLoaded "P" = ["Q", "R"] ∧
    resultState (unload exampleEnv 1 "Q" sharedDependencyLoaded) = some .NotLoaded ∧
    resultState (load exampleEnv 2 1 "Q"
      (resultWorld sharedDependency (unload exampleEnv 1 "Q" sharedDependencyLoaded)))
      = some .Loaded ∧
    usedByOf (resultWorld sharedDependency (load exampleEnv 2 1 "Q"
      (resultWorld sharedDependency (unload exampleEnv 1 "Q" sharedDependencyLoaded)))) "P"
      = ["R", "Q"] := by
  decide

/-- C7, amended: `n` is a `Loaded` plugin with a module, an empty `usedBy` list and no
live instance that refuses deletion; its dependencies are, as those of a loaded plugin are,
`Loaded` records with an owning manager that list `n` in `usedBy`; the loader keeps
succeeding (the finalizer is there, `dlclose` succeeds, the module is accepted again).
Then `unload(n)` returns `NotLoaded`, a following `load(n)` returns `Loaded`, and
afterwards every record has the `loadState` it had before the unload and a `usedBy` list
with the same entries as before, up to their order: what was erased for `n` is appended
at the end. The `usedBy` list of a record that is not a dependency of `n` is the same
list. -/
theorem unload_load_roundtrip (env env2 : Env) (this : Nat) (q : String) (w : World)
    (p : Plugin) (module finalizer : Nat)
    (hfound : findWithAlias this q w.storage = some p)
    (hloaded : p.loadState = .Loaded) (hused : p.metadata.usedBy = [])
    (hinst : ∀ l, (w.managers this).findInstances p.metadata.name = some l →
      ∀ i ∈ l, env.canBeDeleted i = true)
    (hmod : p.module = some module)
    (hfin : (env.dlsym module).pluginFinalizer = some finalizer)
    (hclose : env.dlclose module = 0)
    (hagain : loaderSucceeds env2 (w.managers this) p.metadata.name = true)
    (hdeps : ∀ d ∈ p.metadata.depends, ∃ r, w.find d = some r ∧ r.loadState = .Loaded ∧
      r.manager.isSome ∧ p.metadata.depends.count d ≤ r.metadata.usedBy.count p.metadata.name) :
    ∃ w1 w2, unload env this q w = .ok (.NotLoaded, w1) ∧
      load env2 2 this q w1 = .ok (.Loaded, w2) ∧
      ∀ y r, w.find y = some r → ∃ r2, w2.find y = some r2 ∧
        r2.loadState = r.loadState ∧
        r2.metadata.usedBy = eraseTimes p.metadata.name (p.metadata.depends.count y)
            r.metadata.usedBy ++ List.replicate (p.metadata.depends.count y) p.metadata.name ∧
        r2.metadata.usedBy.Perm r.metadata.usedBy ∧
        (y ∉ p.metadata.depends → r2.metadata.usedBy = r.metadata.usedBy) := by
  obtain ⟨hfind, hman⟩ := findWithAlias_some hfound
  have hfind : w.find p.metadata.name = some p := hfind
  generalize hn : p.metadata.name = n at *
  -- n is not among its own dependencies
  have hself : n ∉ p.metadata.depends := by
    intro hmem
    obtain ⟨r, hr, _, _, hc⟩ := hdeps n hmem
    rw [hfind] at hr
    cases hr
    rw [hused] at hc
    have : 0 < p.metadata.depends.count n := List.count_pos_iff.mpr hmem
    simp at hc
    omega
  have hself0 : p.metadata.depends.count n = 0 := List.count_eq_zero_of_not_mem hself
  -- the unload
  obtain ⟨w1, hun, hoth, hdir, hint, hal1, _, hf1⟩ :=
    unloadInternal_ok env this n w p module finalizer hfind hloaded hused hman hinst hmod hfin
  simp only [hclose, if_true] at hun hf1
  have hp1 : w1.find n = some p.setUnloaded := by
    rw [hf1, hfind]
    simp [hself0, Plugin.eraseMany, eraseTimes]
  have hdeps1 : ∀ d ∈ p.setUnloaded.metadata.depends,
      ∃ r, w1.find d = some r ∧ r.loadState = .Loaded ∧ r.manager.isSome := by
    intro d hd
    obtain ⟨r, hr, hl, hm, _⟩ := hdeps d hd
    have hdn : d ≠ n := fun h => hself (h ▸ hd)
    refine ⟨r.eraseMany n (p.metadata.depends.count d), ?_, hl, hm⟩
    rw [hf1, hr]
    simp [hdn]
  have hloop := loadDependencies_all_loaded env2 0 p.setUnloaded.metadata.depends [] w1 hdeps1
  have hagain1 : loaderSucceeds env2 (w1.managers this) n = true := by
    unfold loaderSucceeds at hagain ⊢
    rw [hdir, hint]
    exact hagain
  obtain ⟨w2, m2, i2, j2, hload, _, _, _, _, hf2⟩ :=
    loadInternal_success env2 1 this n w1 w1 p.setUnloaded _ hp1 rfl hloop hagain1
  have hfound1 : findWithAlias this q w1.storage = some p.setUnloaded := by
    rw [findWithAlias_map hal1 _ hf1
      (fun x r => by by_cases hx : x = n <;> simp [hx, Plugin.eraseMany, Plugin.setUnloaded]),
      hfound]
    simp only [Option.map_some', hn, if_true, hself0, Plugin.eraseMany_zero]
  refine ⟨w1, w2, ?_, ?_, ?_⟩
  · simp only [unload, hfound, hn]
    exact hun
  · simp only [load, hfound1, Plugin.setUnloaded_name, hn]
    exact hload
  · intro y r hr
    have hy2 : w2.find y = some (if y = n then
        ((r.eraseMany n (p.metadata.depends.count y)).setUnloaded.pushMany n
          (p.metadata.depends.count y)).setLoaded m2 i2
        else (r.eraseMany n (p.metadata.depends.count y)).pushMany n
          (p.metadata.depends.count y)) := by
      rw [hf2, hf1, hr]
      by_cases hy : y = n <;> simp [hy, Plugin.setUnloaded]
    refine ⟨_, hy2, ?_, ?_, ?_, ?_⟩
    · by_cases hy : y = n
      · subst hy
        rw [hfind] at hr
        cases hr
        simp [Plugin.setLoaded, hloaded]
      · simp [hy, Plugin.pushMany, Plugin.eraseMany]
    · by_cases hy : y = n <;>
        simp [hy, Plugin.pushMany, Plugin.eraseMany, Plugin.setLoaded, Plugin.setUnloaded]
    · have hperm : (eraseTimes n (p.metadata.depends.count y) r.metadata.usedBy
          ++ List.replicate (p.metadata.depends.count y) n).Perm r.metadata.usedBy := by
        by_cases hyd : y ∈ p.metadata.depends
        · obtain ⟨r', hr', _, _, hc⟩ := hdeps y hyd
          rw [hr] at hr'
          cases hr'
          exact eraseTimes_append_perm n _ _ hc
        · rw [List.count_eq_zero_of_not_mem hyd]
          simp [eraseTimes]
      by_cases hy : y = n <;>
        simpa [hy, Plugin.pushMany, Plugin.eraseMany, Plugin.setLoaded, Plugin.setUnloaded]
          using hperm
    · intro hyd
      rw [List.count_eq_zero_of_not_mem hyd]
      by_cases hy : y = n <;>
        simp [hy, Plugin.pushMany, Plugin.eraseMany, Plugin.setLoaded, Plugin.setUnloaded,
          eraseTimes]

/-- C7, amended, at a concrete input: `Q` of scenario A, loaded, is unloaded and loaded
again. -/
theorem unload_load_roundtrip_witness :
    ∃ w1 w2, unload exampleEnv 2 "Q" scenarioALoaded = .ok (.NotLoaded, w1) ∧
      load exampleEnv 2 2 "Q" w1 = .ok (.Loaded, w2) ∧
      ∀ y r, scenarioALoaded.find y = some r → ∃ r2, w2.find y = some r2 ∧
        r2.loadState = r.loadState ∧
        r2.metadata.usedBy = eraseTimes "Q" (["P"].count y) r.metadata.usedBy
          ++ List.replicate (["P"].count y) "Q" ∧
        r2.metadata.usedBy.Perm r.metadata.usedBy ∧
        (y ∉ ["P"] → r2.metadata.usedBy = r.metadata.usedBy) :=
  unload_load_roundtrip exampleEnv exampleEnv 2 "Q" scenarioALoaded
    ((exampleRecord "Q" [] ["P"] 2).setLoaded 7 100) 7 102 rfl rfl rfl
    (by intro l h; cases h) rfl rfl rfl (by decide)
    (by
      intro d hd
      have hd : d = "P" := by simpa [exampleRecord, Plugin.setLoaded] using hd
      subst hd
      exact ⟨((exampleRecord "P" [] [] 1).setLoaded 7 100).pushUsedBy "Q", rfl, rfl, rfl,
        by decide⟩)

/-! ## Loads that are under way are not entered again -/

theorem Resolved.stays {w w' : World} (h : LoadExt w w') {x : String}
    (hx : Resolved w x) : Resolved w' x := by
  obtain ⟨p, hp, hl, hm⟩ := hx
  obtain ⟨p', hp', hrel, _⟩ := h.record x p hp
  obtain ⟨p2, hp2, hl2⟩ := h.loaded_mono hp hl
  rw [hp'] at hp2
  cases hp2
  exact ⟨p', hp', hl2, by rw [hrel.manager]; exact hm⟩

theorem Waiting.stays_waiting {w w' : World} (h : LoadExt w w') {a c : String}
    (hfind : w'.find a = w.find a) (hw : Waiting w a c) : Waiting w' a c := by
  obtain ⟨p, pre, post, hp, hs, hm, hd, hpre⟩ := hw
  exact ⟨p, pre, post, by rw [hfind]; exact hp, hs, hm, hd,
    fun x hx => (hpre x hx).stays h⟩

/-- A load of a resolved plugin returns `Loaded` without any change, unless the fuel is
used up. -/
theorem loadInternal_of_resolved (env : Env) (fuel this : Nat) {x : String} {w : World}
    (hx : Resolved w x) :
    loadInternal env fuel this x w = .error .outOfFuel ∨
    loadInternal env fuel this x w = .ok (.Loaded, w) := by
  obtain ⟨p, hp, hl, _⟩ := hx
  cases fuel with
  | zero => exact Or.inl rfl
  | succ fuel => exact Or.inr (loadInternal_of_loaded env fuel this x w p hp hl)

/-- The dependency loop does not return when it reaches, after resolved dependencies, a
dependency whose load does not return. -/
theorem loadDependencies_stuck (env : Env) (fuel : Nat) (w : World) (c : String)
    (post : List String) (pc : Plugin) (mc : Nat) (hc : w.find c = some pc)
    (hmc : pc.manager = some mc) (herr : ∃ e, loadInternal env fuel mc c w = .error e) :
    ∀ (pre acc : List String), (∀ x ∈ pre, Resolved w x) →
      ∃ e, loadDependencies (loadInternal env fuel) (pre ++ c :: post) acc w = .error e := by
  intro pre
  induction pre with
  | nil =>
    intro acc _
    obtain ⟨e, he⟩ := herr
    exact ⟨e, by simp [loadDependencies, hc, hmc, he]⟩
  | cons x pre ih =>
    intro acc hpre
    have hx := hpre x (List.mem_cons_self _ _)
    obtain ⟨p, hp, hl, hm⟩ := hx
    obtain ⟨m, hm⟩ := Option.isSome_iff_exists.mp hm
    simp only [List.cons_append, loadDependencies, hp, hm]
    rcases loadInternal_of_resolved env fuel m ⟨p, hp, hl, by simp [hm]⟩ with h | h
    · exact ⟨_, by rw [h]⟩
    · rw [h]
      simp only [(LoadState.hasAny_loaded .Loaded).mpr rfl, if_true]
      exact ih _ (fun y hy => hpre y (List.mem_cons_of_mem _ hy))

/-- When every plugin of a set waits for a plugin of the set, no load of a plugin of the
set returns. -/
theorem loadInternal_stuck (env : Env) (w : World) (A : String → Prop)
    (hA : ∀ a, A a → ∃ c, A c ∧ Waiting w a c) :
    ∀ (fuel this : Nat) (a : String), A a → ∃ e, loadInternal env fuel this a w = .error e := by
  intro fuel
  induction fuel with
  | zero => intro this a _; exact ⟨_, rfl⟩
  | succ fuel ih =>
    intro this a ha
    obtain ⟨c, hc, p, pre, post, hp, hs, _, hd, hpre⟩ := hA a ha
    obtain ⟨_, _, pc, _, _, hpc, _, hmc, _, _⟩ := hA c hc
    obtain ⟨mc, hmc⟩ := Option.isSome_iff_exists.mp hmc
    obtain ⟨e, he⟩ := loadDependencies_stuck env fuel w c post pc mc hpc hmc (ih mc c hc)
      pre [] hpre
    refine ⟨e, ?_⟩
    simp only [loadInternal, hp, hs, hd, he]
    simp

/-- The dependency loop of a load of `d` leaves alone the record of `d` and the records
of the plugins whose loads are under way, provided the recursive calls do. -/
theorem loadDependencies_inProgress
    (loadRec : Nat → String → World → Except Fault (LoadState × World))
    (hext : ∀ m x w r w', loadRec m x w = .ok (r, w') → LoadExt w w')
    (hloaded : ∀ m x w w', loadRec m x w = .ok (.Loaded, w') →
      ∃ p', w'.find x = some p' ∧ p'.loadState = .Loaded)
    (hN : ∀ m x w r w' (B : String → Prop), (∀ p, w.find x = some p → p.manager.isSome) →
      (∀ a, B a → ∃ c, (B c ∨ c = x) ∧ Waiting w a c) →
      loadRec m x w = .ok (r, w') → ∀ a, B a → w'.find a = w.find a)
    (A : String → Prop) (d : String) (p : Plugin) (hs : p.loadState = .NotLoaded)
    (hm : p.manager.isSome) :
    ∀ (rest done acc : List String) (w : World) (res : Option (List String)) (w1 : World),
      w.find d = some p → p.metadata.depends = done ++ rest →
      (∀ x ∈ done, Resolved w x) →
      (∀ a, A a → ∃ c, (A c ∨ c = d) ∧ Waiting w a c) →
      loadDependencies loadRec rest acc w = .ok (res, w1) →
      (∀ a, A a ∨ a = d → w1.find a = w.find a) ∧
      (res.isSome → ∀ x ∈ rest, Resolved w1 x) := by
  intro rest
  induction rest with
  | nil =>
    intro done acc w res w1 _ _ _ _ h
    simp only [loadDependencies, Except.ok.injEq, Prod.mk.injEq] at h
    obtain ⟨_, rfl⟩ := h
    exact ⟨fun _ _ => rfl, fun _ x hx => by cases hx⟩
  | cons e rest ih =>
    intro done acc w res w1 hd hdeps hdone hA h
    simp only [loadDependencies] at h
    split at h
    · simp only [Except.ok.injEq, Prod.mk.injEq] at h
      obtain ⟨rfl, rfl⟩ := h
      exact ⟨fun _ _ => rfl, fun hh => by cases hh⟩
    · rename_i dep hdep
      split at h
      · simp only [Except.ok.injEq, Prod.mk.injEq] at h
        obtain ⟨rfl, rfl⟩ := h
        exact ⟨fun _ _ => rfl, fun hh => by cases hh⟩
      · rename_i manager hman
        split at h
        · cases h
        · rename_i state w2 hcall
          have hext2 : LoadExt w w2 := hext _ _ _ _ _ hcall
          have hB : ∀ a, A a ∨ a = d → ∃ c, ((A c ∨ c = d) ∨ c = e) ∧ Waiting w a c := by
            intro a ha
            rcases ha with ha | rfl
            · obtain ⟨c, hc, hw⟩ := hA a ha
              exact ⟨c, Or.inl hc, hw⟩
            · exact ⟨e, Or.inr rfl, p, done, rest, hd, hs, hm, hdeps, hdone⟩
          have hkeep : ∀ a, A a ∨ a = d → w2.find a = w.find a :=
            hN _ _ _ _ _ (fun a => A a ∨ a = d)
              (fun q hq => by rw [hdep] at hq; cases hq; simp [hman]) hB hcall
          split at h
          · rename_i hst
            have hst : state = .Loaded := (LoadState.hasAny_loaded state).mp hst
            subst hst
            have hres : Resolved w2 e := by
              obtain ⟨p', hp', hl'⟩ := hloaded _ _ _ _ hcall
              obtain ⟨p2, hp2, hrel, _⟩ := hext2.record e dep hdep
              rw [hp'] at hp2
              cases hp2
              exact ⟨p', hp', hl', by rw [hrel.manager, hman]; rfl⟩
            have hext1 : LoadExt w2 w1 := loadDependencies_ext loadRec hext _ _ _ _ _ h
            obtain ⟨h1, h2⟩ := ih (done ++ [e]) _ w2 res w1
              (by rw [hkeep d (Or.inr rfl)]; exact hd)
              (by rw [hdeps]; simp)
              (by
                intro x hx
                rcases List.mem_append.mp hx with hx | hx
                · exact (hdone x hx).stays hext2
                · rw [List.mem_singleton.mp hx]; exact hres)
              (fun a ha => by
                obtain ⟨c, hc, hw⟩ := hA a ha
                exact ⟨c, hc, hw.stays_waiting hext2 (hkeep a (Or.inl ha))⟩)
              h
            refine ⟨fun a ha => (h1 a ha).trans (hkeep a ha), fun hsome x hx => ?_⟩
            rcases List.mem_cons.mp hx with rfl | hx
            · exact hres.stays hext1
            · exact h2 hsome x hx
          · simp only [Except.ok.injEq, Prod.mk.injEq] at h
            obtain ⟨rfl, rfl⟩ := h
            exact ⟨hkeep, fun hh => by cases hh⟩

/-- A call of `loadInternal` that returns leaves alone the records of the plugins whose
loads are under way. -/
theorem loadInternal_inProgress (env : Env) (fuel : Nat) :
    ∀ (this : Nat) (d : String) (w : World) (r : LoadState) (w' : World)
      (A : String → Prop), (∀ p, w.find d = some p → p.manager.isSome) →
      (∀ a, A a → ∃ c, (A c ∨ c = d) ∧ Waiting w a c) →
      loadInternal env fuel this d w = .ok (r, w') → ∀ a, A a → w'.find a = w.find a := by
  induction fuel with
  | zero => intro this d w r w' A _ _ h; simp [loadInternal] at h
  | succ fuel ih =>
    intro this d w r w' A hdm hA h a ha
    by_cases hAd : A d
    · have hA' : ∀ a, A a → ∃ c, A c ∧ Waiting w a c := by
        intro a ha
        obtain ⟨c, hc, hw⟩ := hA a ha
        rcases hc with hc | rfl
        · exact ⟨c, hc, hw⟩
        · exact ⟨c, hAd, hw⟩
      obtain ⟨e, he⟩ := loadInternal_stuck env w A hA' (fuel + 1) this d hAd
      rw [he] at h
      cases h
    · have had : a ≠ d := fun hh => hAd (hh ▸ ha)
      simp only [loadInternal] at h
      split at h
      · cases h
      · rename_i plugin hfind
        have hname : plugin.metadata.name = d := World.find_name hfind
        split at h
        · simp only [Except.ok.injEq, Prod.mk.injEq] at h
          rw [← h.2]
        · rename_i hNL
          have hNL : plugin.loadState = .NotLoaded := by simpa using hNL
          have hloop := loadDependencies_inProgress (loadInternal env fuel)
            (loadInternal_ext env fuel) (fun _ _ _ _ hh => loadInternal_loaded hh) ih A d
            plugin hNL (hdm plugin hfind) plugin.metadata.depends [] [] w
          split at h
          · cases h
          · rename_i w1 hdeps
            simp only [Except.ok.injEq, Prod.mk.injEq] at h
            obtain ⟨_, rfl⟩ := h
            exact (hloop _ _ hfind rfl (by simp) hA hdeps).1 a (Or.inl ha)
          · rename_i dependencies w1 hdeps
            obtain ⟨hkeep, hres⟩ := hloop _ _ hfind rfl (by simp) hA hdeps
            obtain ⟨hds, _⟩ := loadDependencies_some _ (loadInternal_ext env fuel)
              (fun _ _ _ _ hh => loadInternal_loaded hh) _ _ _ _ _ hdeps
            have hds : dependencies = plugin.metadata.depends := by simpa using hds
            obtain ⟨_, hc⟩ := loadModule_cases env this plugin dependencies w1 r w' h
            rcases hc with ⟨_, hstor, _, _⟩ | ⟨rfl, _⟩
            · rw [← hkeep a (Or.inl ha)]
              simp [World.find, hstor]
            · obtain ⟨_, _, _, _, _, _, _, _, _, hf⟩ := loadModule_loaded_find h
              rw [hf, hname, ← hkeep a (Or.inl ha)]
              have hnot : a ∉ dependencies := by
                intro hmem
                rw [hds] at hmem
                obtain ⟨q, hq, hql, _⟩ := hres rfl a hmem
                obtain ⟨_, _, q', _, _, hq', hqs, _⟩ := hA a ha
                rw [hkeep a (Or.inl ha), hq'] at hq
                cases hq
                rw [hqs] at hql
                cases hql
              rw [List.count_eq_zero_of_not_mem hnot]
              cases w1.find a <;> simp [had, Plugin.pushMany_zero]

/-- A load that does not return `Loaded` leaves the record of its plugin as it was. -/
theorem loadInternal_keeps_record (env : Env) (fuel this : Nat) (x : String) (w w' : World)
    (r : LoadState) (p : Plugin) (h : loadInternal env fuel this x w = .ok (r, w'))
    (hr : r ≠ .Loaded) (hfind : w.find x = some p) (hm : p.manager.isSome) :
    w'.find x = some p := by
  cases fuel with
  | zero => simp [loadInternal] at h
  | succ fuel =>
    simp only [loadInternal, hfind] at h
    split at h
    · simp only [Except.ok.injEq, Prod.mk.injEq] at h
      rw [← h.2]; exact hfind
    · rename_i hNL
      have hNL : p.loadState = .NotLoaded := by simpa using hNL
      have hloop := loadDependencies_inProgress (loadInternal env fuel)
        (loadInternal_ext env fuel) (fun _ _ _ _ hh => loadInternal_loaded hh)
        (loadInternal_inProgress env fuel) (fun _ => False) x p hNL hm
        p.metadata.depends [] [] w
      split at h
      · cases h
      · rename_i w1 hdeps
        simp only [Except.ok.injEq, Prod.mk.injEq] at h
        obtain ⟨_, rfl⟩ := h
        rw [(hloop _ _ hfind rfl (by simp) (fun _ hh => hh.elim) hdeps).1 x (Or.inr rfl)]
        exact hfind
      · rename_i dependencies w1 hdeps
        obtain ⟨_, hc⟩ := loadModule_cases env this p dependencies w1 r w' h
        rcases hc with ⟨_, hstor, _, _⟩ | ⟨rfl, _⟩
        · rw [← hfind,
            ← (hloop _ _ hfind rfl (by simp) (fun _ hh => hh.elim) hdeps).1 x (Or.inr rfl)]
          simp [World.find, hstor]
        · exact absurd rfl hr

/-! ## Failed loads -/

/-- C4, on the code: `P` is loaded and then unloaded with a `dlclose` that fails; the branch
of `unloadInternal` for a failed `dlclose` sets the record to `NotLoaded` and leaves its
module and instancer in place. A `load` that then opens the module and returns
`WrongPluginVersion` closes the module it opened once and calls no initializer, and the
record, which it does not write to, still has the stale module and instancer afterwards. -/
theorem failed_load_keeps_stale_module :
    resultState (load exampleEnv 1 1 "P" singleWorld) = some .Loaded ∧
    resultState (unload closeFailsEnv 1 "P"
      (resultWorld singleWorld (load exampleEnv 1 1 "P" singleWorld))) = some .UnloadFailed ∧
    recordSummary staleWorld "P" = some (.NotLoaded, some 7, some 100) ∧
    resultState (load wrongVersionEnv 1 1 "P" staleWorld) = some .WrongPluginVersion ∧
    (resultWorld singleWorld (load wrongVersionEnv 1 1 "P" staleWorld)).log
      = staleWorld.log ++ [.dlopen "P" "m1/P.so" (some 7), .dlclose 7] ∧
    recordSummary (resultWorld singleWorld (load wrongVersionEnv 1 1 "P" staleWorld)) "P"
      = some (.NotLoaded, some 7, some 100) := by
  decide

/-- A call of `load` on a `NotLoaded` plugin that resolves the dependencies, opens the module
of the plugin and then returns a state other than `Loaded` makes, after the dependency loop,
exactly two loader calls: the `dlopen` and one `dlclose` of the handle it got, and no call
of the initializer. It changes no record and no manager after the dependency loop, and the
record of the plugin is what it was before the call; when module and instancer were null
before the call, the record is `NotLoaded` with a null module and instancer afterwards. -/
theorem failed_load_rolls_back (env : Env) (fuel this : Nat) (q : String) (w w1 w' : World)
    (plugin : Plugin) (dependencies : List String) (module : Nat) (r : LoadState)
    (hfound : findWithAlias this q w.storage = some plugin)
    (hstate : plugin.loadState = .NotLoaded)
    (hdeps : loadDependencies (loadInternal env fuel) plugin.metadata.depends [] w
      = .ok (some dependencies, w1))
    (hopen : env.dlopen (env.join (w.managers this).pluginDirectory
      (plugin.metadata.name ++ env.suffix)) = some module)
    (h : load env (fuel + 1) this q w = .ok (r, w')) (hr : r ≠ .Loaded) :
    w'.log = w1.log ++ [.dlopen plugin.metadata.name
        (env.join (w.managers this).pluginDirectory (plugin.metadata.name ++ env.suffix))
        (some module), .dlclose module] ∧
    w'.storage = w1.storage ∧ w'.managers = w1.managers ∧
    w'.find plugin.metadata.name = some plugin ∧
    (plugin.module = none → plugin.instancer = none →
      recordSummary w' plugin.metadata.name = some (.NotLoaded, none, none)) := by
  obtain ⟨hfind, hman⟩ := findWithAlias_some hfound
  have hfind : w.find plugin.metadata.name = some plugin := hfind
  have hext := loadDependencies_ext _ (loadInternal_ext env fuel) _ _ _ _ _ hdeps
  simp only [load, hfound] at h
  have hkeep := loadInternal_keeps_record env (fuel + 1) this _ w w' r plugin h hr hfind
    (by simp [hman])
  simp only [loadInternal, hfind, hstate, hdeps] at h
  simp only [ne_eq, not_true_eq_false, if_false] at h
  obtain ⟨_, hc⟩ := loadModule_cases env this plugin dependencies w1 r w' h
  rw [hext.managers] at hc
  rcases hc with ⟨_, hstor, hmgr, hlog⟩ | ⟨rfl, _⟩
  · refine ⟨?_, hstor, hmgr.trans hext.managers.symm, hkeep, fun hm hi => ?_⟩
    · rcases hlog with hlog | ⟨module', hopen', hlog⟩
      · exfalso
        have := loadModule_cases env this plugin dependencies w1 r w' h
        unfold loadModule at h
        rw [hext.managers] at h
        simp only [hopen] at h
        have hlen : w'.log.length = w1.log.length + 1 := by rw [hlog]; simp
        have hlen2 : w'.log.length = w1.log.length + 2 := by
          split at h
          · cases h; simp [World.emit]
          · split at h
            · cases h; simp [World.emit]
            · split at h
              · cases h; simp [World.emit]
              · split at h
                · cases h; simp [World.emit]
                · split at h
                  · cases h; simp [World.emit]
                  · split at h
                    · cases h; simp [World.emit]
                    · split at h
                      · cases h
                      · cases h; exact absurd rfl hr
        omega
      · rw [hopen] at hopen'
        cases hopen'
        exact hlog
    · simp [recordSummary, hkeep, hstate, hm, hi]
  · exact absurd rfl hr

/-- The failed load at a concrete input: `P` of `singleWorld` with a module of the wrong
version. -/
theorem failed_load_rolls_back_witness :
    (resultWorld singleWorld (load wrongVersionEnv 1 1 "P" singleWorld)).log
      = singleWorld.log ++ [.dlopen "P" "m1/P.so" (some 7), .dlclose 7] ∧
    (resultWorld singleWorld (load wrongVersionEnv 1 1 "P" singleWorld)).storage
      = singleWorld.storage ∧
    (resultWorld singleWorld (load wrongVersionEnv 1 1 "P" singleWorld)).managers
      = singleWorld.managers ∧
    (resultWorld singleWorld (load wrongVersionEnv 1 1 "P" singleWorld)).find "P"
      = some (exampleRecord "P" [] [] 1) ∧
    ((exampleRecord "P" [] [] 1).module = none → (exampleRecord "P" [] [] 1).instancer = none →
      recordSummary (resultWorld singleWorld (load wrongVersionEnv 1 1 "P" singleWorld)) "P"
        = some (.NotLoaded, none, none)) :=
  failed_load_rolls_back wrongVersionEnv 0 1 "P" singleWorld singleWorld _
    (exampleRecord "P" [] [] 1) [] 7 .WrongPluginVersion rfl rfl rfl rfl rfl (by decide)

/-- C5, as stated, fails: `Q` depends on `A` and on `Missing`, and `A` depends on `C`.
`load("Q")` returns `UnresolvedDependency` after it has loaded `A`, and with `A` its
dependency `C`; the `usedBy` list of `C` was empty and is `[A]` afterwards. -/
theorem failed_load_changes_usedBy_of_nested_dependency :
    resultState (load exampleEnv 3 1 "Q" chainWorld) = some .UnresolvedDependency ∧
    usedByOf chainWorld "C" = [] ∧
    usedByOf (resultWorld chainWorld (load exampleEnv 3 1 "Q" chainWorld)) "C" = ["A"] := by
  decide

/-- C5, amended: when `load(n)` returns a state other than `Loaded`, the record of `n` is
what it was, and the `usedBy` list of every record is its list before the call followed
only by names of plugins that the call brought from `NotLoaded` to `Loaded` (dependencies
loaded before the failure was found); the name of `n` is appended nowhere, and a list is
unchanged when the call loaded nothing. -/
theorem failed_load_usedBy (env : Env) (fuel this : Nat) (n : String) (w w' : World)
    (r : LoadState) (h : load env fuel this n w = .ok (r, w')) (hr : r ≠ .Loaded) :
    (∀ found, findWithAlias this n w.storage = some found →
      w'.find found.metadata.name = some found) ∧
    ∀ x p, w.find x = some p → ∃ p' extra, w'.find x = some p' ∧
      p'.metadata.usedBy = p.metadata.usedBy ++ extra ∧
      (∀ y ∈ extra, NewlyLoaded w w' y) ∧
      (∀ found, findWithAlias this n w.storage = some found →
        found.metadata.name ∉ extra) ∧
      ((∀ y, ¬ NewlyLoaded w w' y) → p'.metadata.usedBy = p.metadata.usedBy) := by
  unfold load at h
  split at h
  · rename_i found hfound
    obtain ⟨hfind, hman⟩ := findWithAlias_some hfound
    have hfind : w.find found.metadata.name = some found := hfind
    have hkeep := loadInternal_keeps_record env fuel this _ w w' r found h hr hfind
      (by simp [hman])
    have hext := loadInternal_ext env fuel _ _ _ _ _ h
    refine ⟨fun f hf => by rw [hfound] at hf; cases hf; exact hkeep, fun x p hp => ?_⟩
    obtain ⟨p', hp', _, extra, hu, hnew⟩ := hext.record x p hp
    refine ⟨p', extra, hp', hu, hnew, fun f hf hmem => ?_, fun hno => ?_⟩
    · rw [hfound] at hf
      cases hf
      obtain ⟨q0, q1, hq0, hs0, hq1, hs1⟩ := hnew _ hmem
      rw [hkeep] at hq1
      rw [hfind] at hq0
      cases hq0
      cases hq1
      rw [hs0] at hs1
      cases hs1
    · cases extra with
      | nil => simpa using hu
      | cons y ys => exact absurd (hnew y (List.mem_cons_self _ _)) (hno y)
  · simp only [Except.ok.injEq, Prod.mk.injEq] at h
    obtain ⟨_, rfl⟩ := h
    refine ⟨fun f hf => (findWithAlias_some hf).1, fun x p hp => ?_⟩
    exact ⟨p, [], hp, by simp, by simp, fun _ _ => by simp, fun _ => rfl⟩

/-- C5, amended, at a concrete input: the failed `load("Q")` of the counterexample. -/
theorem failed_load_usedBy_witness :
    (∀ found, findWithAlias 1 "Q" chainWorld.storage = some found →
      (resultWorld chainWorld (load exampleEnv 3 1 "Q" chainWorld)).find found.metadata.name
        = some found) ∧
    ∀ x p, chainWorld.find x = some p → ∃ p' extra,
      (resultWorld chainWorld (load exampleEnv 3 1 "Q" chainWorld)).find x = some p' ∧
      p'.metadata.usedBy = p.metadata.usedBy ++ extra ∧
      (∀ y ∈ extra, NewlyLoaded chainWorld
        (resultWorld chainWorld (load exampleEnv 3 1 "Q" chainWorld)) y) ∧
      (∀ found, findWithAlias 1 "Q" chainWorld.storage = some found →
        found.metadata.name ∉ extra) ∧
      ((∀ y, ¬ NewlyLoaded chainWorld
        (resultWorld chainWorld (load exampleEnv 3 1 "Q" chainWorld)) y) →
        p'.metadata.usedBy = p.metadata.usedBy) :=
  failed_load_usedBy exampleEnv 3 1 "Q" chainWorld _ .UnresolvedDependency rfl (by decide)

/-! ## Loads in an acyclic storage -/

theorem LoadedOnlyResolvable.initially (env : Env) (w : World) :
    LoadedOnlyResolvable env w w := by
  intro x hx
  obtain ⟨q, q', hq, hs, hq', hs'⟩ := hx
  rw [hq] at hq'
  cases hq'
  rw [hs] at hs'
  cases hs'

theorem LoadedOnlyResolvable.of_find_eq {env : Env} {w w1 w2 : World}
    (h : LoadedOnlyResolvable env w w1)
    (hf : ∀ x p2, w2.find x = some p2 → p2.loadState = .Loaded →
      ∃ p1, w1.find x = some p1 ∧ p1.loadState = .Loaded) :
    LoadedOnlyResolvable env w w2 := by
  intro x hx
  obtain ⟨q, q', hq, hs, hq', hs'⟩ := hx
  obtain ⟨p1, hp1, hl1⟩ := hf x q' hq' hs'
  exact h x ⟨q, p1, hq, hs, hp1, hl1⟩

/-- The dependency loop in an acyclic storage: it returns, and it resolves every
dependency exactly when none of them is unresolvable. -/
theorem loadDependencies_acyclic (env : Env) (w : World) (rank : String → Nat) (n : Nat)
    (ih : ∀ (w1 : World) (d : String) (p : Plugin) (m : Nat), LoadExt w w1 →
      LoadedOnlyResolvable env w w1 → rank d < n → w.find d = some p → p.manager = some m →
      ∃ r w2, loadInternal env n m d w1 = .ok (r, w2) ∧ LoadedOnlyResolvable env w w2 ∧
        (r = .Loaded ↔ ¬ Unresolvable env w d) ∧
        ∃ ev, w2.log = w1.log ++ ev ∧ ∀ x f h, Event.dlopen x f h ∈ ev → rank x ≤ rank d)
    (bound : Nat) (hbound : bound ≤ n) :
    ∀ (rest acc : List String) (w1 : World), LoadExt w w1 →
      LoadedOnlyResolvable env w w1 → (∀ e ∈ rest, rank e < bound) →
      ∃ res w2, loadDependencies (loadInternal env n) rest acc w1 = .ok (res, w2) ∧
        LoadExt w w2 ∧ LoadedOnlyResolvable env w w2 ∧
        (res.isSome ↔ ∀ e ∈ rest, ¬ Unresolvable env w e) ∧
        ∃ ev, w2.log = w1.log ++ ev ∧ ∀ x f h, Event.dlopen x f h ∈ ev → rank x < bound := by
  intro rest
  induction rest with
  | nil =>
    intro acc w1 hext hlor _
    exact ⟨some acc, w1, rfl, hext, hlor, by simp, [], by simp, by simp⟩
  | cons e rest ihl =>
    intro acc w1 hext hlor hrank
    cases hw : w.find e with
    | none =>
      refine ⟨none, w1, by simp [loadDependencies, hext.missing e hw], hext, hlor, ?_, [],
        by simp, by simp⟩
      simp only [Option.isSome_none, Bool.false_eq_true, false_iff, not_forall]
      exact ⟨e, List.mem_cons_self _ _, fun hh => hh (Unresolvable.missing e hw)⟩
    | some p =>
      obtain ⟨p1, hp1, hrel, _⟩ := hext.record e p hw
      cases hm : p.manager with
      | none =>
        refine ⟨none, w1, by simp [loadDependencies, hp1, hrel.manager, hm], hext, hlor, ?_,
          [], by simp, by simp⟩
        simp only [Option.isSome_none, Bool.false_eq_true, false_iff, not_forall]
        exact ⟨e, List.mem_cons_self _ _, fun hh => hh (Unresolvable.orphan e p hw hm)⟩
      | some m =>
        obtain ⟨r, w2, hcall, hlor2, hiff, ev, hlog, hev⟩ :=
          ih w1 e p m hext hlor
            (lt_of_lt_of_le (hrank e (List.mem_cons_self _ _)) hbound) hw hm
        have hext2 : LoadExt w w2 := hext.andThen (loadInternal_ext env n _ _ _ _ _ hcall)
        have hre : rank e < bound := hrank e (List.mem_cons_self _ _)
        by_cases hr : r = .Loaded
        · subst hr
          obtain ⟨res, w3, hloop, hext3, hlor3, hiff3, ev3, hlog3, hev3⟩ :=
            ihl (acc ++ [e]) w2 hext2 hlor2
              (fun e' he' => hrank e' (List.mem_cons_of_mem _ he'))
          refine ⟨res, w3, ?_, hext3, hlor3, ?_, ev ++ ev3, ?_, ?_⟩
          · simp only [loadDependencies, hp1, hrel.manager, hm, hcall,
              (LoadState.hasAny_loaded .Loaded).mpr rfl, if_true]
            exact hloop
          · rw [hiff3]
            constructor
            · intro hall e' he'
              rcases List.mem_cons.mp he' with rfl | he'
              · exact hiff.mp rfl
              · exact hall e' he'
            · intro hall e' he'
              exact hall e' (List.mem_cons_of_mem _ he')
          · rw [hlog3, hlog, List.append_assoc]
          · intro x f h hx
            rcases List.mem_append.mp hx with hx | hx
            · exact lt_of_le_of_lt (hev x f h hx) hre
            · exact hev3 x f h hx
        · have hun : Unresolvable env w e := by
            by_contra hcon
            exact hr (hiff.mpr hcon)
          have hany : r.hasAny [.Loaded] = false := by
            cases hh : r.hasAny [.Loaded]
            · rfl
            · exact absurd ((LoadState.hasAny_loaded r).mp hh) hr
          refine ⟨none, w2, ?_, hext2, hlor2, ?_, ev, hlog, ?_⟩
          · simp [loadDependencies, hp1, hrel.manager, hm, hcall, hany]
          · simp only [Option.isSome_none, Bool.false_eq_true, false_iff, not_forall]
            exact ⟨e, List.mem_cons_self _ _, fun hh => hh hun⟩
          · intro x f h hx
            exact lt_of_le_of_lt (hev x f h hx) hre

/-- A load in an acyclic storage returns once the fuel exceeds the rank of the plugin. It
returns `Loaded` exactly when the plugin is not unresolvable, and it opens only modules
of plugins of at most that rank. -/
theorem loadInternal_acyclic (env : Env) (w : World) (rank : String → Nat)
    (hac : Acyclic w rank) :
    ∀ (n : Nat) (w1 : World) (d : String) (p : Plugin) (m : Nat), LoadExt w w1 →
      LoadedOnlyResolvable env w w1 → rank d < n → w.find d = some p → p.manager = some m →
      ∃ r w2, loadInternal env n m d w1 = .ok (r, w2) ∧ LoadedOnlyResolvable env w w2 ∧
        (r = .Loaded ↔ ¬ Unresolvable env w d) ∧
        ∃ ev, w2.log = w1.log ++ ev ∧ ∀ x f h, Event.dlopen x f h ∈ ev → rank x ≤ rank d := by
  intro n
  induction n with
  | zero => intro w1 d p m _ _ hrank; omega
  | succ n ih =>
    intro w1 d p m hext hlor hrank hp hm
    obtain ⟨p1, hp1, hrel, _⟩ := hext.record d p hp
    have hname : p.metadata.name = d := World.find_name hp
    have hname1 : p1.metadata.name = d := World.find_name hp1
    by_cases hNL : p1.loadState = .NotLoaded
    · -- the plugin is loaded now
      have hpNL : p.loadState = .NotLoaded := by
        rcases hrel.state with ⟨a, _, _⟩ | ⟨a, _⟩
        · rw [← a, hNL]
        · exact a
      obtain ⟨res, w2, hloop, hext2, hlor2, hiff2, ev2, hlog2, hev2⟩ :=
        loadDependencies_acyclic env w rank n ih (rank d) (by omega) p1.metadata.depends []
          w1 hext hlor (fun e he => hac d p hp e (by rw [← hrel.depends]; exact he))
      cases res with
      | none =>
        refine ⟨.UnresolvedDependency, w2, by simp [loadInternal, hp1, hNL, hloop], hlor2, ?_,
          ev2, hlog2, fun x f h hx => le_of_lt (hev2 x f h hx)⟩
        constructor
        · intro hh; cases hh
        · intro hres
          exfalso
          have : ¬ ∀ e ∈ p1.metadata.depends, ¬ Unresolvable env w e := by
            rw [← hiff2]; simp
          rw [not_forall] at this
          obtain ⟨e, he⟩ := this
          rw [Classical.not_imp, not_not] at he
          exact hres (Unresolvable.dependency d p e hp hpNL (by rw [← hrel.depends]; exact he.1)
            he.2)
      | some ds =>
        have hallres : ∀ e ∈ p1.metadata.depends, ¬ Unresolvable env w e := by
          rw [← hiff2]; rfl
        obtain ⟨hds, hall⟩ := loadDependencies_some _ (loadInternal_ext env n)
          (fun _ _ _ _ h => loadInternal_loaded h) _ _ _ _ _ hloop
        have hfoundAll : ∀ e ∈ ds, (w2.find e).isSome := by
          intro e he
          rw [hds] at he
          obtain ⟨q, hq, _⟩ := hall e (by simpa using he)
          simp [hq]
        obtain ⟨w3, hw3⟩ := loadModule_total env m p1 ds w2 hfoundAll
        rw [hext2.managers, hname1] at hw3
        have hcall : loadInternal env (n + 1) m d w1
            = .ok (loaderVerdict env (w.managers m) d, w3) := by
          simp only [loadInternal, hp1, hNL, hloop]
          simpa using hw3
        obtain ⟨_, hc⟩ := loadModule_cases env m p1 ds w2 _ w3 hw3
        rcases hc with ⟨hne, hstor, _, hlog3⟩ | ⟨heq, _⟩
        · -- the loader rejects the module
          have hf3 : ∀ x, w3.find x = w2.find x := fun x => by simp [World.find, hstor]
          refine ⟨_, w3, hcall, hlor2.of_find_eq (fun x p2 hx hl => ⟨p2, by rw [← hf3]; exact hx,
            hl⟩), ?_, ?_⟩
          · constructor
            · intro hh; exact absurd hh hne
            · intro hres
              exact absurd (Unresolvable.rejected d p m hp hm hpNL hne) hres
          · rcases hlog3 with hlog3 | ⟨module, _, hlog3⟩
            · refine ⟨ev2 ++ _, by rw [hlog3, hlog2, List.append_assoc], ?_⟩
              intro x f h hx
              rcases List.mem_append.mp hx with hx | hx
              · exact le_of_lt (hev2 x f h hx)
              · simp only [List.mem_singleton, Event.dlopen.injEq] at hx
                rw [hx.1, hname1]
            · refine ⟨ev2 ++ _, by rw [hlog3, hlog2, List.append_assoc], ?_⟩
              intro x f h hx
              rcases List.mem_append.mp hx with hx | hx
              · exact le_of_lt (hev2 x f h hx)
              · simp only [List.mem_cons, Event.dlopen.injEq, List.mem_singleton,
                  reduceCtorEq, or_false, List.not_mem_nil] at hx
                rw [hx.1, hname1]
        · -- the plugin is loaded
          rw [heq] at hw3 hcall
          obtain ⟨module, instancer, initializer, _, _, _, _, _, hlog3, hf3⟩ :=
            loadModule_loaded_find hw3
          have hres : ¬ Unresolvable env w d := by
            intro hun
            cases hun with
            | missing _ h0 => rw [hp] at h0; cases h0
            | orphan _ p' h0 h1 => rw [hp] at h0; cases h0; rw [hm] at h1; cases h1
            | state _ p' h0 h1 _ => rw [hp] at h0; cases h0; exact h1 hpNL
            | rejected _ p' m' h0 h1 _ h3 =>
              rw [hp] at h0; cases h0
              rw [hm] at h1; cases h1
              exact h3 heq
            | dependency _ p' e h0 _ h2 h3 =>
              rw [hp] at h0; cases h0
              exact hallres e (by rw [hrel.depends]; exact h2) h3
          refine ⟨.Loaded, w3, hcall, ?_, ⟨fun _ => hres, fun _ => rfl⟩, ?_⟩
          · intro x hx
            by_cases hxd : x = d
            · rw [hxd]; exact hres
            · obtain ⟨q, q', hq, hs, hq', hs'⟩ := hx
              rw [hf3] at hq'
              cases hx2 : w2.find x with
              | none => rw [hx2] at hq'; cases hq'
              | some p2 =>
                rw [hx2] at hq'
                simp only [Option.map_some', hname1, if_neg hxd, Option.some.injEq] at hq'
                refine hlor2 x ⟨q, p2, hq, hs, hx2, ?_⟩
                rw [← hs', ← hq']
                rfl
          · refine ⟨ev2 ++ _, by rw [hlog3, hlog2, List.append_assoc], ?_⟩
            intro x f h hx
            rcases List.mem_append.mp hx with hx | hx
            · exact le_of_lt (hev2 x f h hx)
            · simp only [List.mem_cons, Event.dlopen.injEq, List.mem_singleton,
                reduceCtorEq, or_false, List.not_mem_nil] at hx
              rw [hx.1, hname1]
    · -- the plugin is not ready to load
      refine ⟨p1.loadState, w1, by simp [loadInternal, hp1, hNL], hlor, ?_, [], by simp,
        by simp⟩
      by_cases hpNL : p.loadState = .NotLoaded
      · have hl1 : p1.loadState = .Loaded := by
          rcases hrel.state with ⟨a, _, _⟩ | ⟨_, a⟩
          · rw [a] at hNL; exact absurd hpNL hNL
          · exact a
        exact ⟨fun _ => hlor d ⟨p, p1, hp, hpNL, hp1, hl1⟩, fun _ => hl1⟩
      · have hsame : p1.loadState = p.loadState := by
          rcases hrel.state with ⟨a, _, _⟩ | ⟨a, _⟩
          · exact a
          · exact absurd a hpNL
        constructor
        · intro hl hun
          rw [hsame] at hl
          cases hun with
          | missing _ h0 => rw [hp] at h0; cases h0
          | orphan _ p' h0 h1 => rw [hp] at h0; cases h0; rw [hm] at h1; cases h1
          | state _ p' h0 _ h2 => rw [hp] at h0; cases h0; exact h2 hl
          | rejected _ p' m' h0 _ h2 _ => rw [hp] at h0; cases h0; exact hpNL h2
          | dependency _ p' e h0 h1 _ _ => rw [hp] at h0; cases h0; exact hpNL h1
        · intro hres
          by_contra hl
          rw [hsame] at hl
          exact hres (Unresolvable.state d p hp hpNL hl)

/-! ## Unresolved dependencies -/

/-- C2, as stated, fails: `Q` is `NotLoaded`, owned by manager `1`, and lists the
dependency `Missing`, which has no record. Its first dependency `A` depends on itself, so
the load of `A` recurses without end and `load("Q")` returns no state at all, whatever the
fuel. -/
theorem unresolved_dependency_behind_cycle_never_returns :
    selfDependent.find "Missing" = none ∧
    loadState 1 "Q" selfDependent = .NotLoaded ∧
    ∀ fuel, resultState (load exampleEnv fuel 1 "Q" selfDependent) = none := by
  refine ⟨by decide, by decide, fun fuel => ?_⟩
  have hstuck : ∀ fuel this, ∃ e, loadInternal exampleEnv fuel this "A" selfDependent
      = .error e := by
    intro fuel this
    refine loadInternal_stuck exampleEnv selfDependent (fun a => a = "A") ?_ fuel this "A" rfl
    intro a ha
    subst ha
    exact ⟨"A", rfl, exampleRecord "A" [] ["A"] 1, [], [], rfl, rfl, rfl, rfl, by simp⟩
  have hfound : findWithAlias 1 "Q" selfDependent.storage
      = some (exampleRecord "Q" [] ["A", "Missing"] 1) := by decide
  have hfindQ : selfDependent.find "Q" = some (exampleRecord "Q" [] ["A", "Missing"] 1) := by
    decide
  have hfindA : selfDependent.find "A" = some (exampleRecord "A" [] ["A"] 1) := by decide
  cases fuel with
  | zero => simp [load, hfound, loadInternal, resultState, exampleRecord]
  | succ fuel =>
    obtain ⟨e, he⟩ := hstuck fuel 1
    have hn : (exampleRecord "Q" [] ["A", "Missing"] 1).metadata.name = "Q" := rfl
    have hds : (exampleRecord "Q" [] ["A", "Missing"] 1).metadata.depends
        = ["A", "Missing"] := rfl
    have hst : (exampleRecord "Q" [] ["A", "Missing"] 1).loadState = .NotLoaded := rfl
    have hmA : (exampleRecord "A" [] ["A"] 1).manager = some 1 := rfl
    have : load exampleEnv (fuel + 1) 1 "Q" selfDependent = .error e := by
      simp only [load, hfound, loadInternal, hn, hfindQ, hst, hds, loadDependencies, hfindA,
        hmA, he]
      simp
    rw [this]
    rfl

/-- C2, amended: in a storage whose dependency relation is acyclic, for every `NotLoaded`
plugin `Q` owned by the calling manager whose `depends` list contains a name that has no
record, or whose record has a null owning manager, or whose load through its own manager
does not yield `Loaded`, `load(Q)` returns `UnresolvedDependency`, the loader is not asked
to open the module of `Q`, and `loadState(Q)` is still `NotLoaded` afterwards. -/
theorem unresolved_dependency (env : Env) (w : World) (rank : String → Nat)
    (hac : Acyclic w rank) (this : Nat) (q : String) (Q : Plugin)
    (hfound : findWithAlias this q w.storage = some Q) (hstate : Q.loadState = .NotLoaded)
    (d : String) (hd : d ∈ Q.metadata.depends)
    (hbad : w.find d = none ∨ (∃ p, w.find d = some p ∧ p.manager = none) ∨
      (∃ p m, w.find d = some p ∧ p.manager = some m ∧
        ∀ fuel r w', loadInternal env fuel m d w = .ok (r, w') → r ≠ .Loaded)) :
    ∃ fuel w', load env fuel this q w = .ok (.UnresolvedDependency, w') ∧
      (∃ ev, w'.log = w.log ++ ev ∧ ∀ f h, Event.dlopen Q.metadata.name f h ∉ ev) ∧
      loadState this q w' = .NotLoaded := by
  obtain ⟨hfind, hman⟩ := findWithAlias_some hfound
  have hfind : w.find Q.metadata.name = some Q := hfind
  have hun : Unresolvable env w d := by
    rcases hbad with h | ⟨p, hp, hm⟩ | ⟨p, m, hp, hm, hno⟩
    · exact Unresolvable.missing d h
    · exact Unresolvable.orphan d p hp hm
    · obtain ⟨r, w2, hcall, _, hiff, _⟩ :=
        loadInternal_acyclic env w rank hac (rank d + 1) w d p m (LoadExt.unchanged w)
          (LoadedOnlyResolvable.initially env w) (Nat.lt_succ_self _) hp hm
      by_contra hcon
      exact hno _ _ _ hcall (hiff.mpr hcon)
  obtain ⟨res, w', hloop, hext, _, hiff, ev, hlog, hev⟩ :=
    loadDependencies_acyclic env w rank (rank Q.metadata.name)
      (loadInternal_acyclic env w rank hac (rank Q.metadata.name)) (rank Q.metadata.name)
      (le_refl _) Q.metadata.depends [] w (LoadExt.unchanged w)
      (LoadedOnlyResolvable.initially env w) (fun e he => hac _ Q hfind e he)
  have hres : res = none := by
    cases res with
    | none => rfl
    | some ds =>
      exact absurd hun ((hiff.mp rfl) d hd)
  subst hres
  have hcall : loadInternal env (rank Q.metadata.name + 1) this Q.metadata.name w
      = .ok (.UnresolvedDependency, w') := by
    simp [loadInternal, hfind, hstate, hloop]
  refine ⟨rank Q.metadata.name + 1, w', by simp only [load, hfound]; exact hcall,
    ⟨ev, hlog, fun f h hmem => absurd (hev _ f h hmem) (lt_irrefl _)⟩, ?_⟩
  have hkeep := loadInternal_keeps_record env _ this _ w w' _ Q hcall (by simp) hfind
    (by simp [hman])
  obtain ⟨Q', hQ', _, hfind'⟩ := findWithAlias_ext hext hfound
  rw [hkeep] at hfind'
  cases hfind'
  simp [loadState, hQ', hstate]

/-- C2, amended, at a concrete input (scenario B): `Q` depends on `Missing`. -/
theorem unresolved_dependency_witness :
    ∃ fuel w', load exampleEnv fuel 1 "Q" scenarioB = .ok (.UnresolvedDependency, w') ∧
      (∃ ev, w'.log = scenarioB.log ++ ev ∧ ∀ f h, Event.dlopen "Q" f h ∉ ev) ∧
      loadState 1 "Q" w' = .NotLoaded :=
  unresolved_dependency exampleEnv scenarioB (fun x => if x = "Q" then 1 else 0)
    (by
      intro x p hx d hd
      have hx' : x = "Q" ∧ p = exampleRecord "Q" [] ["Missing"] 1 := by
        have h1 := World.find_name hx
        have h2 := List.mem_of_find?_eq_some hx
        simp only [scenarioB, exampleWorld, List.mem_singleton] at h2
        subst h2
        exact ⟨h1.symm, rfl⟩
      obtain ⟨rfl, rfl⟩ := hx'
      have hd' : d = "Missing" := by simpa [exampleRecord] using hd
      subst hd'
      decide)
    1 "Q" (exampleRecord "Q" [] ["Missing"] 1) rfl rfl "Missing" (by decide)
    (Or.inl (by decide))

/-! ## The finalizer and the module handle in unload -/

/-- C11, on the code: for a `Loaded` plugin with an empty `usedBy` list and no live
instances whose module does not export `pluginFinalizer`, `unloadInternal` calls the null
pointer it got from `dlsym` and does not return; the module is not closed and the record
is not updated. -/
theorem unload_calls_missing_finalizer (env : Env) (this : Nat) (x : String) (w : World)
    (p : Plugin) (module : Nat) (hfind : w.find x = some p) (hloaded : p.loadState = .Loaded)
    (hused : p.metadata.usedBy = [])
    (hinst : (w.managers this).findInstances x = none)
    (hmod : p.module = some module)
    (hfin : (env.dlsym module).pluginFinalizer = none) :
    unloadInternal env this x w = .error .nullCall := by
  have hname : p.metadata.name = x := World.find_name hfind
  obtain ⟨w2, h0, _⟩ := removeFromDependencies_ok x p.metadata.depends w
  simp only [unloadInternal, hfind, hloaded, hused, hname, hinst, h0]
  simp [finalizeAndClose, hmod, hfin]

/-- C11 at a concrete input: `P` is loaded from a module without `pluginFinalizer`. -/
theorem unload_calls_missing_finalizer_witness :
    unloadInternal noFinalizerEnv 1 "P" singleLoaded = .error .nullCall :=
  unload_calls_missing_finalizer noFinalizerEnv 1 "P" singleLoaded
    ((exampleRecord "P" [] [] 1).setLoaded 7 100) 7 rfl rfl rfl rfl rfl rfl

/-- C16, on the code: when `dlclose` fails, an unload that is not refused returns
`UnloadFailed` and leaves the record `NotLoaded` with the module handle and the instancer
it had. -/
theorem unload_failed_keeps_module (env : Env) (this : Nat) (x : String) (w : World)
    (p : Plugin) (module finalizer : Nat) (hfind : w.find x = some p)
    (hloaded : p.loadState = .Loaded) (hused : p.metadata.usedBy = [])
    (hman : p.manager = some this)
    (hinst : ∀ l, (w.managers this).findInstances x = some l →
      ∀ i ∈ l, env.canBeDeleted i = true)
    (hmod : p.module = some module)
    (hfin : (env.dlsym module).pluginFinalizer = some finalizer)
    (hclose : env.dlclose module ≠ 0) :
    ∃ w', unloadInternal env this x w = .ok (.UnloadFailed, w') ∧
      recordSummary w' x = some (.NotLoaded, some module, p.instancer) := by
  obtain ⟨w', h0, _, _, _, _, _, hf⟩ :=
    unloadInternal_ok env this x w p module finalizer hfind hloaded hused hman hinst hmod hfin
  simp only [hclose, if_false] at h0 hf
  refine ⟨w', h0, ?_⟩
  simp [recordSummary, hf, hfind, Plugin.setUnloadFailed, Plugin.eraseMany, hmod]

/-- C16 at a concrete input: `P` is loaded and unloaded with a `dlclose` that fails. -/
theorem unload_failed_keeps_module_witness :
    ∃ w', unloadInternal closeFailsEnv 1 "P" singleLoaded = .ok (.UnloadFailed, w') ∧
      recordSummary w' "P" = some (.NotLoaded, some 7, some 100) :=
  unload_failed_keeps_module closeFailsEnv 1 "P" singleLoaded
    ((exampleRecord "P" [] [] 1).setLoaded 7 100) 7 102 rfl rfl rfl rfl
    (by intro l h; cases h) rfl rfl (by decide)

/-! ## Recursive unload -/

/-- C12, on the code: with no dependent `unloadRecursive("P")` returns `NotLoaded`. With
one dependent `Q` the loop over `usedBy` steps past the end of the list, which the unload
of `Q` has emptied, and reads there. With two dependents `Q` and `R` the loop ends after
`Q`, because the unload of `Q` moved `R` to the place the iterator has left; `R` is never
unloaded, `unloadInternal` then returns `Required` for `P` and the assertion on the state
fails. -/
theorem unloadRecursive_with_dependents :
    resultState (unloadRecursive exampleEnv 3 1 "P" singleLoaded) = some .NotLoaded ∧
    usedByOf oneDependentLoaded "P" = ["Q"] ∧
    resultFault (unloadRecursive exampleEnv 3 1 "P" oneDependentLoaded) = some .undefined ∧
    usedByOf sharedDependencyLoaded "P" = ["Q", "R"] ∧
    resultFault (unloadRecursive exampleEnv 3 1 "P" sharedDependencyLoaded)
      = some .assertion := by
  decide

/-! ## What an unload changes, whatever its outcome -/

theorem unregisterInstance_inv {this : Nat} {x : String} {i : Nat} {w w' : World}
    (h : unregisterInstance this x i w = .ok w') : ∃ l, w' = w.setInstances this l := by
  unfold unregisterInstance at h
  split at h
  · cases h
  · split at h
    · cases h
    · split at h
      · cases h
      · split at h
        · cases h
        · simp only at h
          split at h <;> cases h <;> exact ⟨_, rfl⟩

/-- The loop that deletes the instances of a plugin, when it finishes, has left the
storage and the other managers alone and has added only deletions to the log. -/
theorem deleteInstances_inv (this : Nat) (x : String) (k : Nat) :
    ∀ (w w' : World), deleteInstances this x k w = .ok w' →
      w'.storage = w.storage ∧
      (∀ m, (w'.managers m).pluginDirectory = (w.managers m).pluginDirectory) ∧
      (∀ m, (w'.managers m).pluginInterface = (w.managers m).pluginInterface) ∧
      ∃ ev, w'.log = w.log ++ ev ∧ OnlyDeletions ev := by
  induction k with
  | zero =>
    intro w w' h
    cases h
    exact ⟨rfl, fun _ => rfl, fun _ => rfl, [], by simp, by simp [OnlyDeletions]⟩
  | succ k ih =>
    intro w w' h
    simp only [deleteInstances] at h
    split at h
    · cases h
    · split at h
      · cases h
      · rename_i inst _
        split at h
        · cases h
        · rename_i w1 hdel
          obtain ⟨l, rfl⟩ := unregisterInstance_inv hdel
          obtain ⟨h1, h2, h3, ev, h4, h5⟩ := ih _ _ h
          refine ⟨h1, fun m => ?_, fun m => ?_, .deleted inst :: ev, ?_, ?_⟩
          · rw [h2]
            by_cases hm : m = this <;> simp [World.setInstances, World.emit, hm]
          · rw [h3]
            by_cases hm : m = this <;> simp [World.setInstances, World.emit, hm]
          · rw [h4]; simp [World.setInstances, World.emit]
          · intro e he
            rcases List.mem_cons.mp he with rfl | he
            · exact ⟨_, rfl⟩
            · exact h5 e he

/-- Every call of `unloadInternal` that returns either changes nothing, or is an unload
that was not refused: then the plugin was `Loaded` with a module and nobody used it, the
state returned tells whether `dlclose` succeeded, and the records afterwards are the
records before with the plugin erased from the `usedBy` lists of its dependencies. -/
theorem unloadInternal_inv (env : Env) (this : Nat) (x : String) (w w' : World)
    (r : LoadState) (p : Plugin) (hfind : w.find x = some p)
    (h : unloadInternal env this x w = .ok (r, w')) :
    (w' = w ∧ ((p.loadState ≠ .Loaded ∧ r = p.loadState) ∨
      (p.loadState = .Loaded ∧ (r = .Required ∨ r = .Used)))) ∨
    (p.loadState = .Loaded ∧ p.metadata.usedBy = [] ∧ ∃ module finalizer,
      p.module = some module ∧ (env.dlsym module).pluginFinalizer = some finalizer ∧
      r = (if env.dlclose module = 0 then .NotLoaded else .UnloadFailed) ∧
      w'.storage.aliases = w.storage.aliases ∧
      (∀ m, (w'.managers m).pluginDirectory = (w.managers m).pluginDirectory) ∧
      (∀ m, (w'.managers m).pluginInterface = (w.managers m).pluginInterface) ∧
      (∃ ev, w'.log = w.log ++ ev ++ [.finalizer x finalizer, .dlclose module] ∧
        OnlyDeletions ev) ∧
      w'.storage.plugins.map (fun q => q.metadata.name)
        = w.storage.plugins.map (fun q => q.metadata.name) ∧
      ∀ y, w'.find y = (w.find y).map (fun q =>
        if y = x then
          if env.dlclose module = 0 then (q.eraseMany x (p.metadata.depends.count y)).setUnloaded
          else (q.eraseMany x (p.metadata.depends.count y)).setUnloadFailed
        else q.eraseMany x (p.metadata.depends.count y))) := by
  have hname : p.metadata.name = x := World.find_name hfind
  -- the common tail: remove from dependencies, finalize and close
  have tail : ∀ w1 : World, w1.storage = w.storage →
      (match removeFromDependencies p.metadata.name p.metadata.depends w1 with
          | .error e => (Except.error e : Except Fault (LoadState × World))
          | .ok w2 => finalizeAndClose env p w2) = .ok (r, w') →
      ∃ module finalizer, p.module = some module ∧
        (env.dlsym module).pluginFinalizer = some finalizer ∧
        r = (if env.dlclose module = 0 then .NotLoaded else .UnloadFailed) ∧
        w'.managers = w1.managers ∧ w'.storage.aliases = w.storage.aliases ∧
        w'.log = w1.log ++ [.finalizer x finalizer, .dlclose module] ∧
        w'.storage.plugins.map (fun q => q.metadata.name)
          = w.storage.plugins.map (fun q => q.metadata.name) ∧
        ∀ y, w'.find y = (w.find y).map (fun q =>
          if y = x then
            if env.dlclose module = 0 then
              (q.eraseMany x (p.metadata.depends.count y)).setUnloaded
            else (q.eraseMany x (p.metadata.depends.count y)).setUnloadFailed
          else q.eraseMany x (p.metadata.depends.count y)) := by
    intro w1 hs ht
    obtain ⟨w2, h0, h1, h2, h3, h4, h5⟩ :=
      removeFromDependencies_names p.metadata.name p.metadata.depends w1
    have hf1 : ∀ y, w1.find y = w.find y := fun y => by simp [World.find, hs]
    rw [h0] at ht
    simp only [finalizeAndClose] at ht
    split at ht
    · cases ht
    · rename_i module hmod
      split at ht
      · cases ht
      · rename_i finalizer hfin
        simp only [hname] at ht
        refine ⟨module, finalizer, hmod, hfin, ?_⟩
        by_cases hc : env.dlclose module = 0
        · simp only [hc, ne_eq, not_true_eq_false, if_false, if_true, Except.ok.injEq,
            Prod.mk.injEq] at ht ⊢
          obtain ⟨rfl, rfl⟩ := ht
          refine ⟨rfl, h1, by rw [← hs]; exact h2, ?_, ?_, fun y => ?_⟩
          · simp [World.modifyPlugin, World.emit, h3]
          · rw [← hs, ← h5]
            simp [World.modifyPlugin, World.emit, GlobalPluginStorage.modify, List.map_map,
              Function.comp_def]
            intro a _
            split <;> rfl
          · rw [World.find_modifyPlugin _ _ _ _ Plugin.setUnloaded_name]
            simp only [World.find_emit, h4, hf1, hname]
            cases w.find y <;> by_cases hy : y = x <;> simp [hy]
        · simp only [hc, ne_eq, not_false_eq_true, if_true, if_false, Except.ok.injEq,
            Prod.mk.injEq] at ht ⊢
          obtain ⟨rfl, rfl⟩ := ht
          refine ⟨rfl, h1, by rw [← hs]; exact h2, ?_, ?_, fun y => ?_⟩
          · simp [World.modifyPlugin, World.emit, h3]
          · rw [← hs, ← h5]
            simp [World.modifyPlugin, World.emit, GlobalPluginStorage.modify, List.map_map,
              Function.comp_def]
            intro a _
            split <;> rfl
          · rw [World.find_modifyPlugin _ _ _ _ Plugin.setUnloadFailed_name]
            simp only [World.find_emit, h4, hf1, hname]
            cases w.find y <;> by_cases hy : y = x <;> simp [hy]
  simp only [unloadInternal, hfind] at h
  split at h
  · rename_i hne
    simp only [Except.ok.injEq, Prod.mk.injEq] at h
    obtain ⟨rfl, rfl⟩ := h
    exact Or.inl ⟨rfl, Or.inl ⟨hne, rfl⟩⟩
  · rename_i hl
    have hl : p.loadState = .Loaded := by simpa using hl
    split at h
    · simp only [Except.ok.injEq, Prod.mk.injEq] at h
      obtain ⟨rfl, rfl⟩ := h
      exact Or.inl ⟨rfl, Or.inr ⟨hl, Or.inl rfl⟩⟩
    · rename_i hu
      have hu : p.metadata.usedBy = [] := by simpa using hu
      split at h
      · rename_i l hl'
        split at h
        · simp only [Except.ok.injEq, Prod.mk.injEq] at h
          obtain ⟨rfl, rfl⟩ := h
          exact Or.inl ⟨rfl, Or.inr ⟨hl, Or.inr rfl⟩⟩
        · split at h
          · cases h
          · rename_i w1 hdel
            obtain ⟨d1, d2, d3, ev, d4, d5⟩ := deleteInstances_inv this _ _ _ _ hdel
            obtain ⟨module, finalizer, t1, t2, t3, t4, t5, t6, t7, t8⟩ := tail w1 d1 h
            refine Or.inr ⟨hl, hu, module, finalizer, t1, t2, t3, t5,
              fun m => by rw [t4]; exact d2 m, fun m => by rw [t4]; exact d3 m,
              ⟨ev, by rw [t6, d4], d5⟩, t7, t8⟩
      · obtain ⟨module, finalizer, t1, t2, t3, t4, t5, t6, t7, t8⟩ := tail w rfl h
        exact Or.inr ⟨hl, hu, module, finalizer, t1, t2, t3, t5,
          fun m => by rw [t4], fun m => by rw [t4],
          ⟨[], by simpa using t6, by simp [OnlyDeletions]⟩, t7, t8⟩

/-! ## The frame of an unload -/

theorem eraseTimes_sublist (x : String) (k : Nat) :
    ∀ l : List String, (eraseTimes x k l).Sublist l := by
  induction k with
  | zero => intro l; exact List.Sublist.refl l
  | succ k ih => intro l; exact (ih _).trans (List.erase_sublist x l)

theorem mem_eraseTimes_of_ne {a x : String} (h : a ≠ x) (k : Nat) :
    ∀ l : List String, a ∈ eraseTimes x k l ↔ a ∈ l := by
  induction k with
  | zero => intro l; exact Iff.rfl
  | succ k ih =>
    intro l
    simp only [eraseTimes]
    rw [ih, List.mem_erase_of_ne h]

theorem Plugin.UnloadRel.keep (p : Plugin) : Plugin.UnloadRel p p :=
  ⟨rfl, rfl, rfl, rfl, rfl, Or.inl ⟨rfl, rfl, rfl⟩, List.Sublist.refl _⟩

theorem Plugin.UnloadRel.compose {p q r : Plugin} (h1 : Plugin.UnloadRel p q)
    (h2 : Plugin.UnloadRel q r) : Plugin.UnloadRel p r := by
  refine ⟨h2.name.trans h1.name, h2.provides.trans h1.provides, h2.depends.trans h1.depends,
    h2.manager.trans h1.manager, h2.staticPlugin.trans h1.staticPlugin, ?_,
    h2.usedBy.trans h1.usedBy⟩
  rcases h1.state with ⟨a1, a2, a3⟩ | ⟨a1, a2⟩
  · rcases h2.state with ⟨b1, b2, b3⟩ | ⟨b1, b2⟩
    · exact Or.inl ⟨b1.trans a1, b2.trans a2, b3.trans a3⟩
    · exact Or.inr ⟨a1 ▸ b1, b2⟩
  · rcases h2.state with ⟨b1, _, _⟩ | ⟨b1, b2⟩
    · exact Or.inr ⟨a1, b1.trans a2⟩
    · exact Or.inr ⟨a1, b2⟩

theorem Plugin.UnloadRel.static_iff {p q : Plugin} (h : Plugin.UnloadRel p q) :
    q.loadState = .Static ↔ p.loadState = .Static := by
  rcases h.state with ⟨a1, _, _⟩ | ⟨a1, a2⟩
  · rw [a1]
  · rw [a1, a2]; simp

theorem Plugin.UnloadRel.eraseMany (x : String) (k : Nat) (p : Plugin) :
    Plugin.UnloadRel p (p.eraseMany x k) :=
  ⟨rfl, rfl, rfl, rfl, rfl, Or.inl ⟨rfl, rfl, rfl⟩, eraseTimes_sublist x k _⟩

theorem UnloadExt.nothing (w : World) : UnloadExt w w :=
  ⟨rfl, rfl, fun _ => rfl, fun _ => rfl, ⟨[], by simp, by simp [NoStaticFinalizer]⟩,
    fun _ h => h, fun _ p h => ⟨p, h, Plugin.UnloadRel.keep p⟩⟩

theorem UnloadExt.followedBy {w w1 w2 : World} (h01 : UnloadExt w w1) (h12 : UnloadExt w1 w2) :
    UnloadExt w w2 := by
  obtain ⟨ev1, hl1, hn1⟩ := h01.log
  obtain ⟨ev2, hl2, hn2⟩ := h12.log
  refine ⟨h12.aliases.trans h01.aliases, h12.names.trans h01.names,
    fun m => (h12.directory m).trans (h01.directory m),
    fun m => (h12.interface m).trans (h01.interface m),
    ⟨ev1 ++ ev2, by rw [hl2, hl1, List.append_assoc], ?_⟩,
    fun x h => h12.missing x (h01.missing x h), fun x p h => ?_⟩
  · intro e he
    rcases List.mem_append.mp he with he | he
    · exact hn1 e he
    · exact hn2 e he
  · obtain ⟨p1, hp1, r1⟩ := h01.record x p h
    obtain ⟨p2, hp2, r2⟩ := h12.record x p1 hp1
    exact ⟨p2, hp2, r1.compose r2⟩

/-- Whatever `unloadInternal` returns, the world afterwards extends the world before in
the way of an unload. -/
theorem unloadInternal_ext {env : Env} {this : Nat} {x : String} {w w' : World}
    {r : LoadState} (h : unloadInternal env this x w = .ok (r, w')) : UnloadExt w w' := by
  cases hfind : w.find x with
  | none => simp [unloadInternal, hfind] at h
  | some p =>
    rcases unloadInternal_inv env this x w w' r p hfind h with ⟨rfl, _⟩ |
      ⟨hl, _, module, finalizer, _, _, _, hal, hdir, hint, ⟨ev, hlog, hdel⟩, hnames, hf⟩
    · exact UnloadExt.nothing _
    · refine ⟨hal, hnames, hdir, hint,
        ⟨ev ++ [.finalizer x finalizer, .dlclose module], by rw [hlog, List.append_assoc], ?_⟩,
        fun y hy => by rw [hf, hy]; rfl, fun y q hq => ?_⟩
      · intro e he a f
        rcases List.mem_append.mp he with he | he
        · obtain ⟨i, rfl⟩ := hdel e he
          simp
        · simp only [List.mem_cons, List.mem_singleton, List.not_mem_nil, or_false] at he
          rcases he with rfl | rfl <;> simp
      · rw [hf, hq]
        refine ⟨_, rfl, ?_⟩
        by_cases hy : y = x
        · subst hy
          have hqp : q = p := by rw [hfind] at hq; exact (Option.some.inj hq).symm
          subst hqp
          have hbase := Plugin.UnloadRel.eraseMany y (q.metadata.depends.count y) q
          by_cases hc : env.dlclose module = 0
          · simp only [if_true, hc]
            exact ⟨hbase.name, hbase.provides, hbase.depends, hbase.manager, hbase.staticPlugin,
              Or.inr ⟨hl, rfl⟩, hbase.usedBy⟩
          · simp only [if_true, hc, if_false]
            exact ⟨hbase.name, hbase.provides, hbase.depends, hbase.manager, hbase.staticPlugin,
              Or.inr ⟨hl, rfl⟩, hbase.usedBy⟩
        · simp only [hy, if_false]
          exact Plugin.UnloadRel.eraseMany _ _ _

theorem unloadDependents_ext
    (unloadRec : String → World → Except Fault (LoadState × World))
    (hrec : ∀ d w r w', unloadRec d w = .ok (r, w') → UnloadExt w w') (name : String)
    (rounds : Nat) : ∀ (i : Nat) (w w' : World),
      unloadDependents unloadRec name rounds i w = .ok w' → UnloadExt w w' := by
  induction rounds with
  | zero => intro i w w' h; simp [unloadDependents] at h
  | succ rounds ih =>
    intro i w w' h
    simp only [unloadDependents] at h
    split at h
    · cases h
    · split at h
      · cases h; exact UnloadExt.nothing _
      · split at h
        · cases h
        · split at h
          · cases h
          · rename_i hstep
            exact (hrec _ _ _ _ hstep).followedBy (ih _ _ _ h)

/-- Whatever `unloadRecursiveInternal` returns, the world afterwards extends the world
before in the way of an unload. -/
theorem unloadRecursiveInternal_ext (env : Env) (fuel : Nat) :
    ∀ (this : Nat) (name : String) (w w' : World) (r : LoadState),
      unloadRecursiveInternal env fuel this name w = .ok (r, w') → UnloadExt w w' := by
  induction fuel with
  | zero => intro this name w w' r h; simp [unloadRecursiveInternal] at h
  | succ fuel ih =>
    intro this name w w' r h
    simp only [unloadRecursiveInternal] at h
    split at h
    · cases h
    · split at h
      · cases h; exact UnloadExt.nothing _
      · split at h
        · cases h
        · rename_i w1 hloop
          have h1 : UnloadExt w w1 := by
            split at hloop
            · refine unloadDependents_ext _ ?_ _ _ _ _ _ hloop
              intro d wa ra wb hd
              split at hd
              · cases hd
              · exact ih _ _ _ _ _ hd
            · cases hloop; exact UnloadExt.nothing _
          split at h
          · cases h
          · rename_i hun
            split at h
            · cases h
              exact h1.followedBy (unloadInternal_ext hun)
            · cases h

/-- The state `unloadRecursiveInternal` returns for a record of the manager is `Static`
exactly for a record that is `Static`, and then nothing has changed. -/
theorem unloadRecursiveInternal_static (env : Env) (fuel this : Nat) (name : String)
    (w w' : World) (r : LoadState) (p : Plugin) (hfind : w.find name = some p)
    (hman : p.manager = some this)
    (h : unloadRecursiveInternal env fuel this name w = .ok (r, w')) :
    (p.loadState = .Static → r = .Static ∧ w' = w) ∧ (p.loadState ≠ .Static → r ≠ .Static) := by
  cases fuel with
  | zero => simp [unloadRecursiveInternal] at h
  | succ fuel =>
    simp only [unloadRecursiveInternal, hfind, hman, ne_eq, not_true_eq_false, if_false] at h
    constructor
    · intro hs
      simp only [hs, not_true_eq_false, if_false] at h
      simp only [unloadInternal, hfind, hs] at h
      simp at h
      split at h
      · cases h; exact ⟨rfl, rfl⟩
      · cases h
    · intro hs
      simp only [hs, not_false_eq_true, if_true] at h
      split at h
      · cases h
      · rename_i w1 hloop
        have h1 : UnloadExt w w1 := by
          refine unloadDependents_ext _ ?_ _ _ _ _ _ hloop
          intro d wa ra wb hd
          split at hd
          · cases hd
          · exact unloadRecursiveInternal_ext env fuel _ _ _ _ _ hd
        obtain ⟨p1, hp1, rel⟩ := h1.record name p hfind
        have hs1 : p1.loadState ≠ .Static := fun hc => hs (rel.static_iff.mp hc)
        split at h
        · cases h
        · rename_i after w2 hun
          split at h
          · cases h
            rcases unloadInternal_inv env this name w1 _ _ p1 hp1 hun with
              ⟨_, ⟨_, hr⟩ | ⟨_, hr | hr⟩⟩ | ⟨_, _, module, _, _, _, hr, _⟩
            · rw [hr]; exact hs1
            · rw [hr]; simp
            · rw [hr]; simp
            · rw [hr]; split <;> simp
          · cases h

/-! ## Recursive unload across managers -/

theorem UsedAcross.unloadInternal_step {env : Env} {M1 M2 : Nat} {P Q x : String}
    {w w' : World} {r : LoadState} {px : Plugin} (hne : M2 ≠ M1) (hk : UsedAcross M2 P Q w)
    (hx : w.find x = some px) (hm : px.manager = some M1)
    (h : unloadInternal env M1 x w = .ok (r, w')) : UsedAcross M2 P Q w' := by
  obtain ⟨p, q, hP, hl, hu, hQ, hq⟩ := hk
  rcases unloadInternal_inv env M1 x w w' r px hx h with ⟨rfl, _⟩ |
    ⟨_, hempty, _, _, _, _, _, _, _, _, _, _, hf⟩
  · exact ⟨p, q, hP, hl, hu, hQ, hq⟩
  · have hxP : P ≠ x := by
      intro hc
      subst hc
      rw [hP] at hx
      cases hx
      rw [hempty] at hu
      cases hu
    have hxQ : Q ≠ x := by
      intro hc
      subst hc
      rw [hQ] at hx
      cases hx
      rw [hq] at hm
      exact hne (Option.some.inj hm)
    refine ⟨_, _, by rw [hf, hP]; rfl, ?_, ?_, by rw [hf, hQ]; rfl, ?_⟩
    · simp only [hxP, if_false]; exact hl
    · simp only [hxP, if_false, Plugin.eraseMany]
      exact (mem_eraseTimes_of_ne hxQ _ _).mpr hu
    · simp only [hxQ, if_false]; exact hq

theorem UsedAcross.unloadDependents_step {M2 : Nat} {P Q : String}
    (unloadRec : String → World → Except Fault (LoadState × World))
    (hrec : ∀ d w r w', UsedAcross M2 P Q w → unloadRec d w = .ok (r, w') →
      UsedAcross M2 P Q w')
    (name : String) (rounds : Nat) : ∀ (i : Nat) (w w' : World), UsedAcross M2 P Q w →
      unloadDependents unloadRec name rounds i w = .ok w' → UsedAcross M2 P Q w' := by
  induction rounds with
  | zero => intro i w w' _ h; simp [unloadDependents] at h
  | succ rounds ih =>
    intro i w w' hk h
    simp only [unloadDependents] at h
    split at h
    · cases h
    · split at h
      · cases h; exact hk
      · split at h
        · cases h
        · split at h
          · cases h
          · rename_i hstep
            exact ih _ _ _ (hrec _ _ _ _ hk hstep) h

/-- A plugin that is `Loaded` and used by a plugin of another manager stays so through
every recursive unload of the manager that returns. -/
theorem UsedAcross.unloadRecursive_step (env : Env) {M1 M2 : Nat} {P Q : String}
    (hne : M2 ≠ M1) (fuel : Nat) : ∀ (x : String) (w w' : World) (r : LoadState),
      UsedAcross M2 P Q w → unloadRecursiveInternal env fuel M1 x w = .ok (r, w') →
      UsedAcross M2 P Q w' := by
  induction fuel with
  | zero => intro x w w' r _ h; simp [unloadRecursiveInternal] at h
  | succ fuel ih =>
    intro x w w' r hk h
    simp only [unloadRecursiveInternal] at h
    split at h
    · cases h
    · rename_i plugin hfind
      split at h
      · cases h; exact hk
      · rename_i hman
        have hman : plugin.manager = some M1 := by simpa using hman
        split at h
        · cases h
        · rename_i w1 hloop
          have hrec : ∀ d wa ra wb, UsedAcross M2 P Q wa →
              (match wa.find d with
                | none => (Except.error Fault.assertion : Except Fault (LoadState × World))
                | some _ => unloadRecursiveInternal env fuel M1 d wa) = .ok (ra, wb) →
              UsedAcross M2 P Q wb := by
            intro d wa ra wb hka hd
            split at hd
            · cases hd
            · exact ih _ _ _ _ hka hd
          have hext : UnloadExt w w1 := by
            split at hloop
            · refine unloadDependents_ext _ ?_ _ _ _ _ _ hloop
              intro d wa ra wb hd
              split at hd
              · cases hd
              · exact unloadRecursiveInternal_ext env fuel _ _ _ _ _ hd
            · cases hloop; exact UnloadExt.nothing _
          have hk1 : UsedAcross M2 P Q w1 := by
            split at hloop
            · exact UsedAcross.unloadDependents_step _ hrec _ _ _ _ _ hk hloop
            · cases hloop; exact hk
          obtain ⟨p1, hp1, rel⟩ := hext.record x plugin hfind
          split at h
          · cases h
          · rename_i hun
            split at h
            · cases h
              exact UsedAcross.unloadInternal_step hne hk1 hp1 (rel.manager.trans hman) hun
            · cases h

/-- C13, counterexample: in scenario A with `Q` loaded (and `P` with it), `P` of manager `1`
is `Loaded` and used by the `Loaded` plugin `Q` of manager `2`; `unloadRecursive("P")` on
manager `1` and the destruction of manager `1` both end in the failed assertion. -/
theorem unloadRecursive_across_managers_asserts :
    ownerSummary scenarioALoaded "P" = some (.Loaded, some 1) ∧
    ownerSummary scenarioALoaded "Q" = some (.Loaded, some 2) ∧
    usedByOf scenarioALoaded "P" = ["Q"] ∧
    resultFault (unloadRecursive exampleEnv 3 1 "P" scenarioALoaded) = some .assertion ∧
    destroyFault (destroy exampleEnv 3 1 scenarioALoaded) = some .assertion := by
  decide

/-- C13, amended: when a `Loaded` plugin `P` of manager `M1` is used by a plugin `Q` of another
manager `M2`, `unloadRecursive(Q)` on `M1` returns `NotFound` and changes nothing, and
`unloadRecursive(P)` on `M1` never returns a state; when `Q` is the only user of `P` it ends in
the failed assertion on the state `Required`. -/
theorem unloadRecursive_across_managers (env : Env) (M1 M2 : Nat) (P Q : String) (w : World)
    (p q : Plugin) (hP : w.find P = some p) (hl : p.loadState = .Loaded)
    (hm : p.manager = some M1) (hQ : w.find Q = some q) (hq : q.manager = some M2)
    (hne : M2 ≠ M1) (hu : Q ∈ p.metadata.usedBy) :
    (∀ fuel, unloadRecursive env (fuel + 1) M1 Q w = .ok (.NotFound, w)) ∧
    (∀ fuel r w', unloadRecursive env fuel M1 P w ≠ .ok (r, w')) ∧
    (p.metadata.usedBy = [Q] →
      ∀ fuel, unloadRecursive env (fuel + 2) M1 P w = .error .assertion) := by
  have hqm : q.manager ≠ some M1 := by
    rw [hq]; intro hc; exact hne (Option.some.inj hc)
  have hQrec : ∀ fuel, unloadRecursiveInternal env (fuel + 1) M1 Q w = .ok (.NotFound, w) := by
    intro fuel
    simp [unloadRecursiveInternal, hQ, hqm]
  refine ⟨fun fuel => by simp only [unloadRecursive, hQ]; exact hQrec fuel, ?_, ?_⟩
  · intro fuel r w' h
    simp only [unloadRecursive, hP] at h
    cases fuel with
    | zero => simp [unloadRecursiveInternal] at h
    | succ fuel =>
      have hk : UsedAcross M2 P Q w := ⟨p, q, hP, hl, hu, hQ, hq⟩
      simp only [unloadRecursiveInternal, hP, hm, ne_eq, not_true_eq_false, if_false, hl] at h
      simp only [reduceCtorEq, not_false_eq_true, if_true] at h
      split at h
      · cases h
      · rename_i w1 hloop
        have hrec : ∀ d wa ra wb, UsedAcross M2 P Q wa →
            (match wa.find d with
              | none => (Except.error Fault.assertion : Except Fault (LoadState × World))
              | some _ => unloadRecursiveInternal env fuel M1 d wa) = .ok (ra, wb) →
            UsedAcross M2 P Q wb := by
          intro d wa ra wb hka hd
          split at hd
          · cases hd
          · exact UsedAcross.unloadRecursive_step env hne fuel _ _ _ _ hka hd
        obtain ⟨p1, q1, hP1, hl1, hu1, _, _⟩ :=
          UsedAcross.unloadDependents_step _ hrec _ _ _ _ _ hk hloop
        have hne1 : p1.metadata.usedBy ≠ [] := by
          intro hc; rw [hc] at hu1; cases hu1
        have hreq : LoadState.hasAny .Required [.Static, .NotLoaded, .WrongMetadataFile]
            = false := by decide
        simp only [unloadInternal, hP1, hl1, ne_eq, not_true_eq_false, if_false] at h
        simp [hne1, hreq] at h
  · intro hone fuel
    have hreq : LoadState.hasAny .Required [.Static, .NotLoaded, .WrongMetadataFile]
        = false := by decide
    have hloop : ∀ f : String → World → Except Fault (LoadState × World),
        f Q w = .ok (.NotFound, w) → unloadDependents f P 2 0 w = .ok w := by
      intro f hf
      simp only [unloadDependents, hP, hone, List.length_singleton]
      simp [hf, hP, hone]
    simp only [unloadRecursive, hP]
    rw [unloadRecursiveInternal]
    simp only [hP, hm, ne_eq, not_true_eq_false, if_false, hl, reduceCtorEq, not_false_eq_true,
      if_true, hone, List.length_singleton, Nat.reduceAdd]
    rw [hloop _ (by simp only [hQ]; exact hQrec fuel)]
    simp [unloadInternal, hP, hl, hone, hreq]

/-- C13, amended, at a concrete input: scenario A after manager `2` has loaded `Q`. -/
theorem unloadRecursive_across_managers_witness :
    (∀ fuel, unloadRecursive exampleEnv (fuel + 1) 1 "Q" scenarioALoaded
      = .ok (.NotFound, scenarioALoaded)) ∧
    (∀ fuel r w', unloadRecursive exampleEnv fuel 1 "P" scenarioALoaded ≠ .ok (r, w')) ∧
    (((exampleRecord "P" [] [] 1).pushUsedBy "Q" |>.setLoaded 7 100).metadata.usedBy = ["Q"] →
      ∀ fuel, unloadRecursive exampleEnv (fuel + 2) 1 "P" scenarioALoaded
        = .error .assertion) :=
  unloadRecursive_across_managers exampleEnv 1 2 "P" "Q" scenarioALoaded
    ((exampleRecord "P" [] [] 1).pushUsedBy "Q" |>.setLoaded 7 100)
    ((exampleRecord "Q" [] ["P"] 2).setLoaded 7 100) rfl rfl rfl rfl rfl (by decide)
    (by decide)

/-! ## Destruction of a manager -/

theorem find?_filter_removed (l : List Plugin) (removed : List String) (x : String) :
    (l.filter (fun p => !removed.contains p.metadata.name)).find?
        (fun p => p.metadata.name == x)
      = if x ∈ removed then none else l.find? (fun p => p.metadata.name == x) := by
  induction l with
  | nil => simp
  | cons a l ih =>
    by_cases hr : a.metadata.name ∈ removed
    · have hc : removed.contains a.metadata.name = true := by simpa using hr
      simp only [List.filter_cons, hc, Bool.not_true, Bool.false_eq_true, if_false, ih,
        List.find?_cons]
      by_cases hx : x ∈ removed
      · simp [hx]
      · have hne : (a.metadata.name == x) = false := by
          simp only [beq_eq_false_iff_ne, ne_eq]
          intro hc; rw [hc] at hr; exact hx hr
        simp [hx, hne]
    · have hc : removed.contains a.metadata.name = false := by simpa using hr
      simp only [List.filter_cons, hc, Bool.not_false, if_true, List.find?_cons, ih]
      by_cases ha : a.metadata.name = x
      · have hb : (a.metadata.name == x) = true := by simp [ha]
        have hx : x ∉ removed := by rw [← ha]; exact hr
        simp [hb, hx]
      · have hb : (a.metadata.name == x) = false := by simp [ha]
        simp [hb]

theorem World.find_mem_names {w : World} {x : String} {p : Plugin} (h : w.find x = some p) :
    x ∈ w.storage.plugins.map (fun q => q.metadata.name) := by
  have hm := List.mem_of_find?_eq_some h
  have hn := World.find_name h
  exact List.mem_map.mpr ⟨p, hm, hn⟩

theorem find?_of_mem_nodup (l : List Plugin)
    (hnd : (l.map (fun q => q.metadata.name)).Nodup) (p : Plugin) (hp : p ∈ l) :
    l.find? (fun q => q.metadata.name == p.metadata.name) = some p := by
  induction l with
  | nil => cases hp
  | cons a l ih =>
    simp only [List.map_cons, List.nodup_cons] at hnd
    rcases List.mem_cons.mp hp with rfl | hp
    · simp
    · have hne : a.metadata.name ≠ p.metadata.name := by
        intro hc
        exact hnd.1 (hc ▸ List.mem_map.mpr ⟨p, hp, rfl⟩)
      have hb : (a.metadata.name == p.metadata.name) = false := by simp [hne]
      simp only [List.find?_cons, hb]
      exact ih hnd.2 hp

theorem DestroyInv.start (this : Nat) (w : World) : DestroyInv this w w [] [] :=
  ⟨rfl, rfl, fun _ h => h,
    ⟨[], by simp, fun x p0 _ _ _ => ⟨fun h => (by cases h), fun _ f => by simp⟩⟩,
    fun x p0 h _ => ⟨p0, h, Plugin.UnloadRel.keep p0, by simp⟩,
    fun x p0 h hm hs => ⟨p0, h, hs, rfl, by simpa using hm, by simp⟩,
    fun x p0 h hm hs => ⟨p0, h, hm, hs, fun hc => by cases hc⟩⟩

/-- A key whose record is not owned by the manager is passed over. -/
theorem DestroyInv.skip {this : Nat} {w0 w : World} {removed done : List String}
    (inv : DestroyInv this w0 w removed done) (k : String)
    (hk : ∀ p, w.find k = some p → p.manager ≠ some this) :
    DestroyInv this w0 w removed (k :: done) := by
  obtain ⟨ev, hlog, hcount⟩ := inv.log
  have hstatic : ∀ x p0, w0.find x = some p0 → p0.manager = some this →
      p0.loadState = .Static → (x ∈ k :: done ↔ x ∈ done) := by
    intro x p0 h0 hm hs
    obtain ⟨p, hp, _, _, hman, _⟩ := inv.static x p0 h0 hm hs
    constructor
    · intro hx
      rcases List.mem_cons.mp hx with rfl | hx
      · by_contra hnd
        rw [if_neg hnd] at hman
        exact hk p hp hman
      · exact hx
    · exact fun hx => List.mem_cons_of_mem _ hx
  refine ⟨inv.aliases, inv.names, inv.missing, ⟨ev, hlog, ?_⟩, inv.other, ?_, ?_⟩
  · intro x p0 h0 hm hs
    obtain ⟨c1, c2⟩ := hcount x p0 h0 hm hs
    have hiff := hstatic x p0 h0 hm hs
    exact ⟨fun hx => c1 (hiff.mp hx), fun hx => c2 (fun hc => hx (hiff.mpr hc))⟩
  · intro x p0 h0 hm hs
    obtain ⟨p, hp, a, b, hman, c⟩ := inv.static x p0 h0 hm hs
    have hiff := hstatic x p0 h0 hm hs
    refine ⟨p, hp, a, b, ?_, c⟩
    by_cases hx : x ∈ done
    · rw [if_pos (hiff.mpr hx)]; rw [if_pos hx] at hman; exact hman
    · rw [if_neg (fun hc => hx (hiff.mp hc))]; rw [if_neg hx] at hman; exact hman
  · intro x p0 h0 hm hs
    obtain ⟨p, hp, hman, a, b⟩ := inv.dynamic x p0 h0 hm hs
    refine ⟨p, hp, hman, a, fun hx => ?_⟩
    rcases List.mem_cons.mp hx with rfl | hx
    · exact absurd hman (hk p hp)
    · exact b hx

/-- The record found under a key that is owned by the manager belongs, in the world the
destructor started in, to the manager as well, and has not been visited if it is static. -/
theorem DestroyInv.classify {this : Nat} {w0 w : World} {removed done : List String}
    (inv : DestroyInv this w0 w removed done) {k : String} {p : Plugin}
    (hp : w.find k = some p) (hm : p.manager = some this) :
    ∃ p0, w0.find k = some p0 ∧ p0.manager = some this ∧
      (p0.loadState = .Static ↔ p.loadState = .Static) ∧
      (p.loadState = .Static → k ∉ done ∧ p.staticPlugin = p0.staticPlugin) := by
  cases h0 : w0.find k with
  | none => rw [inv.missing k h0] at hp; cases hp
  | some p0 =>
    by_cases hm0 : p0.manager = some this
    · refine ⟨p0, rfl, hm0, ?_, ?_⟩
      · by_cases hs : p0.loadState = .Static
        · obtain ⟨q, hq, a, _⟩ := inv.static k p0 h0 hm0 hs
          rw [hp] at hq; cases hq
          simp [hs, a]
        · obtain ⟨q, hq, _, a, _⟩ := inv.dynamic k p0 h0 hm0 hs
          rw [hp] at hq; cases hq
          simp [hs, a]
      · intro hsp
        by_cases hs : p0.loadState = .Static
        · obtain ⟨q, hq, _, b, hman, _⟩ := inv.static k p0 h0 hm0 hs
          rw [hp] at hq; cases hq
          refine ⟨fun hd => ?_, b⟩
          rw [if_pos hd, hm] at hman
          cases hman
        · obtain ⟨q, hq, _, a, _⟩ := inv.dynamic k p0 h0 hm0 hs
          rw [hp] at hq; cases hq
          exact absurd hsp a
    · obtain ⟨q, hq, rel, _⟩ := inv.other k p0 h0 hm0
      rw [hp] at hq; cases hq
      exact absurd (rel.manager ▸ hm) hm0

/-- A static record of the manager is let go and finalized. -/
theorem DestroyInv.release {this : Nat} {w0 w : World} {removed done : List String}
    (inv : DestroyInv this w0 w removed done) {k : String} {plugin : Plugin}
    {sp : StaticPlugin} (hfind : w.find k = some plugin) (hman : plugin.manager = some this)
    (hps : plugin.loadState = .Static) (hsp : plugin.staticPlugin = some sp) :
    DestroyInv this w0
      ((w.modifyPlugin k (fun p => { p with manager := none })).emit
        (.staticFinalizer k sp.finalizer)) removed (k :: done) := by
  obtain ⟨p0, h0, hm0, hsiff, hsd⟩ := inv.classify hfind hman
  obtain ⟨hkd, hspeq⟩ := hsd hps
  have hs0 : p0.loadState = .Static := hsiff.mpr hps
  obtain ⟨ev, hlog, hcount⟩ := inv.log
  have hfind' : ∀ x, ((w.modifyPlugin k (fun p => { p with manager := none })).emit
      (.staticFinalizer k sp.finalizer)).find x
      = if x = k then (w.find x).map (fun p => { p with manager := none }) else w.find x := by
    intro x
    rw [World.find_emit]
    exact World.find_modifyPlugin w k x _ (fun _ => rfl)
  refine ⟨inv.aliases, ?_, ?_, ⟨ev ++ [.staticFinalizer k sp.finalizer], ?_, ?_⟩, ?_, ?_, ?_⟩
  · exact (modifyPlugin_names w k (fun p => { p with manager := none })
      (fun _ => rfl)).trans inv.names
  · intro x hx
    rw [hfind', inv.missing x hx]
    simp
  · simp [World.emit, World.modifyPlugin, hlog]
  · intro x q0 hq0 hqm hqs
    obtain ⟨c1, c2⟩ := hcount x q0 hq0 hqm hqs
    by_cases hxk : x = k
    · subst hxk
      rw [h0] at hq0; cases hq0
      refine ⟨fun _ => ⟨sp, hspeq.symm.trans hsp, ?_⟩, fun hc => absurd (List.mem_cons_self _ _) hc⟩
      rw [List.count_append, c2 hkd sp.finalizer]
      simp
    · have hne : ∀ f, (Event.staticFinalizer k sp.finalizer == Event.staticFinalizer x f)
          = false := by
        intro f
        simp only [beq_eq_false_iff_ne, ne_eq, Event.staticFinalizer.injEq, not_and]
        intro hc; exact absurd hc.symm hxk
      refine ⟨fun hx => ?_, fun hx f => ?_⟩
      · have hxd : x ∈ done := by
          rcases List.mem_cons.mp hx with hx | hx
          · exact absurd hx hxk
          · exact hx
        obtain ⟨sp1, a, b⟩ := c1 hxd
        refine ⟨sp1, a, ?_⟩
        rw [List.count_append, b]
        simp [List.count_cons, hne]
      · have hxd : x ∉ done := fun hc => hx (List.mem_cons_of_mem _ hc)
        rw [List.count_append, c2 hxd f]
        simp [List.count_cons, hne]
  · intro x q0 hq0 hqm
    have hxk : x ≠ k := by
      intro hc; subst hc
      rw [h0] at hq0; cases hq0
      exact hqm hm0
    rw [hfind', if_neg hxk]
    exact inv.other x q0 hq0 hqm
  · intro x q0 hq0 hqm hqs
    obtain ⟨p, hp, a, b, c, d⟩ := inv.static x q0 hq0 hqm hqs
    by_cases hxk : x = k
    · subst hxk
      rw [hfind', if_pos rfl, hp]
      exact ⟨_, rfl, a, b, by simp, d⟩
    · rw [hfind', if_neg hxk]
      refine ⟨p, hp, a, b, ?_, d⟩
      rw [c]
      simp [hxk]
  · intro x q0 hq0 hqm hqs
    have hxk : x ≠ k := by
      intro hc; subst hc
      rw [h0] at hq0; cases hq0
      exact hqs hs0
    rw [hfind', if_neg hxk]
    obtain ⟨p, hp, a, b, c⟩ := inv.dynamic x q0 hq0 hqm hqs
    refine ⟨p, hp, a, b, fun hx => c ?_⟩
    rcases List.mem_cons.mp hx with hx | hx
    · exact absurd hx hxk
    · exact hx

/-- A record of the manager that is not static is unloaded and scheduled for deletion. -/
theorem DestroyInv.schedule {this : Nat} {w0 w w1 : World} {removed done : List String}
    (inv : DestroyInv this w0 w removed done) {k : String} {plugin : Plugin}
    (hfind : w.find k = some plugin) (hman : plugin.manager = some this)
    (hps : plugin.loadState ≠ .Static) (hext : UnloadExt w w1) :
    DestroyInv this w0 w1 (removed ++ [k]) (k :: done) := by
  obtain ⟨p0, h0, hm0, hsiff, _⟩ := inv.classify hfind hman
  have hs0 : p0.loadState ≠ .Static := fun hc => hps (hsiff.mp hc)
  obtain ⟨ev, hlog, hcount⟩ := inv.log
  obtain ⟨ev1, hlog1, hn1⟩ := hext.log
  have hzero : ∀ x f, ev1.count (Event.staticFinalizer x f) = 0 := by
    intro x f
    exact List.count_eq_zero.mpr (fun hc => hn1 _ hc x f rfl)
  have hstat : ∀ x q0, w0.find x = some q0 → q0.loadState = .Static → x ≠ k := by
    intro x q0 hq0 hqs hc
    subst hc
    rw [h0] at hq0; cases hq0
    exact hs0 hqs
  refine ⟨hext.aliases.trans inv.aliases, hext.names.trans inv.names,
    fun x hx => hext.missing x (inv.missing x hx),
    ⟨ev ++ ev1, by rw [hlog1, hlog, List.append_assoc], ?_⟩, ?_, ?_, ?_⟩
  · intro x q0 hq0 hqm hqs
    have hxk := hstat x q0 hq0 hqs
    obtain ⟨c1, c2⟩ := hcount x q0 hq0 hqm hqs
    refine ⟨fun hx => ?_, fun hx f => ?_⟩
    · have hxd : x ∈ done := by
        rcases List.mem_cons.mp hx with hx | hx
        · exact absurd hx hxk
        · exact hx
      obtain ⟨sp1, a, b⟩ := c1 hxd
      exact ⟨sp1, a, by rw [List.count_append, b, hzero]⟩
    · have hxd : x ∉ done := fun hc => hx (List.mem_cons_of_mem _ hc)
      rw [List.count_append, c2 hxd f, hzero]
  · intro x q0 hq0 hqm
    obtain ⟨p, hp, rel, hr⟩ := inv.other x q0 hq0 hqm
    obtain ⟨p', hp', rel'⟩ := hext.record x p hp
    refine ⟨p', hp', rel.compose rel', ?_⟩
    intro hc
    rcases List.mem_append.mp hc with hc | hc
    · exact hr hc
    · have hxk : x = k := by simpa using hc
      subst hxk
      rw [h0] at hq0; cases hq0
      exact hqm hm0
  · intro x q0 hq0 hqm hqs
    have hxk := hstat x q0 hq0 hqs
    obtain ⟨p, hp, a, b, c, d⟩ := inv.static x q0 hq0 hqm hqs
    obtain ⟨p', hp', rel'⟩ := hext.record x p hp
    refine ⟨p', hp', rel'.static_iff.mpr a, rel'.staticPlugin.trans b, ?_, ?_⟩
    · rw [rel'.manager, c]
      simp [hxk]
    · intro hc
      rcases List.mem_append.mp hc with hc | hc
      · exact d hc
      · exact hxk (by simpa using hc)
  · intro x q0 hq0 hqm hqs
    obtain ⟨p, hp, a, b, c⟩ := inv.dynamic x q0 hq0 hqm hqs
    obtain ⟨p', hp', rel'⟩ := hext.record x p hp
    refine ⟨p', hp', rel'.manager.trans a, fun hc => b (rel'.static_iff.mp hc), fun hx => ?_⟩
    rcases List.mem_cons.mp hx with hx | hx
    · subst hx
      exact List.mem_append.mpr (Or.inr (List.mem_singleton.mpr rfl))
    · exact List.mem_append.mpr (Or.inl (c hx))

/-- One round of the first loop of the destructor. -/
theorem DestroyInv.destroyRecord_step {env : Env} {fuel this : Nat} {w0 w w1 : World}
    {removed removed1 done : List String} {k : String}
    (inv : DestroyInv this w0 w removed done)
    (h : destroyRecord env fuel this k w removed = .ok (w1, removed1)) :
    DestroyInv this w0 w1 removed1 (k :: done) := by
  simp only [destroyRecord] at h
  split at h
  · rename_i hfind
    cases h
    exact inv.skip k (fun p hp => by rw [hfind] at hp; cases hp)
  · rename_i plugin hfind
    split at h
    · rename_i hman
      cases h
      exact inv.skip k (fun p hp => by rw [hfind] at hp; cases hp; exact hman)
    · rename_i hman
      have hman : plugin.manager = some this := by simpa using hman
      split at h
      · cases h
      · rename_i state w2 hrec
        have hst := unloadRecursiveInternal_static env fuel this k w w2 state plugin hfind
          hman hrec
        have hext := unloadRecursiveInternal_ext env fuel this k w w2 state hrec
        split at h
        · rename_i hstate
          have hps : plugin.loadState = .Static := by
            by_contra hc
            exact hst.2 hc hstate
          obtain ⟨_, hw⟩ := hst.1 hps
          subst hw
          rw [hfind] at h
          simp only at h
          split at h
          · cases h
          · rename_i sp hsp
            cases h
            exact inv.release hfind hman hps hsp
        · rename_i hstate
          cases h
          have hps : plugin.loadState ≠ .Static := fun hc => hstate (hst.1 hc).1
          exact inv.schedule hfind hman hps hext

/-- The first loop of the destructor. -/
theorem DestroyInv.destroyRecords_loop {env : Env} {fuel this : Nat} {w0 : World}
    (keys : List String) : ∀ (w w1 : World) (removed removed1 done : List String),
      DestroyInv this w0 w removed done →
      destroyRecords env fuel this keys w removed = .ok (w1, removed1) →
      ∃ done1, DestroyInv this w0 w1 removed1 done1 ∧
        ∀ x, (x ∈ keys ∨ x ∈ done) → x ∈ done1 := by
  induction keys with
  | nil =>
    intro w w1 removed removed1 done inv h
    cases h
    exact ⟨done, inv, fun x hx => hx.elim (fun hc => by cases hc) id⟩
  | cons k rest ih =>
    intro w w1 removed removed1 done inv h
    simp only [destroyRecords] at h
    split at h
    · cases h
    · rename_i w2 removed2 hstep
      obtain ⟨done1, inv1, hall⟩ := ih _ _ _ _ _ (inv.destroyRecord_step hstep) h
      refine ⟨done1, inv1, fun x hx => hall x ?_⟩
      rcases hx with hx | hx
      · rcases List.mem_cons.mp hx with hx | hx
        · exact Or.inr (hx ▸ List.mem_cons_self _ _)
        · exact Or.inl hx
      · exact Or.inr (List.mem_cons_of_mem _ hx)

/-- C14: when the destruction of manager `this` completes, no record has the manager as
owner; every static record it owned is still there, without owner, and its static finalizer
has been called once; every other record it owned is gone from the map and no alias refers to
it; and every record of another manager is still there. -/
theorem destroy_releases_records (env : Env) (fuel this : Nat) (w w' : World)
    (h : destroy env fuel this w = .ok w') :
    (∀ x p, w'.find x = some p → p.manager ≠ some this) ∧
    ((w.storage.plugins.map (fun p => p.metadata.name)).Nodup →
      ∀ p ∈ w'.storage.plugins, p.manager ≠ some this) ∧
    (∀ x p0, w.find x = some p0 → p0.manager = some this → p0.loadState = .Static →
      ∃ p sp ev, w'.find x = some p ∧ p.manager = none ∧ p.loadState = .Static ∧
        p0.staticPlugin = some sp ∧ w'.log = w.log ++ ev ∧
        ev.count (.staticFinalizer x sp.finalizer) = 1) ∧
    (∀ x p0, w.find x = some p0 → p0.manager = some this → p0.loadState ≠ .Static →
      w'.find x = none ∧ ∀ a ∈ w'.storage.aliases, a.2 ≠ x) ∧
    (∀ x p0, w.find x = some p0 → p0.manager ≠ some this →
      ∃ p, w'.find x = some p ∧ Plugin.UnloadRel p0 p) := by
  simp only [destroy] at h
  split at h
  · cases h
  · rename_i w1 removed hloop
    obtain ⟨done1, inv, hall⟩ :=
      DestroyInv.destroyRecords_loop _ _ _ _ _ _ (DestroyInv.start this w) hloop
    have hdone : ∀ x p0, w.find x = some p0 → x ∈ done1 :=
      fun x p0 h0 => hall x (Or.inl (World.find_mem_names h0))
    cases h
    have hfind' : ∀ (al : List (String × String)) (x : String), World.find
        { w1 with storage :=
          { plugins := w1.storage.plugins.filter (fun p => !removed.contains p.metadata.name)
            aliases := al } } x
        = if x ∈ removed then none else w1.find x :=
      fun _ x => find?_filter_removed w1.storage.plugins removed x
    have hown : ∀ x p, (if x ∈ removed then none else w1.find x) = some p →
        p.manager ≠ some this := by
      intro x p hp
      by_cases hr : x ∈ removed
      · rw [if_pos hr] at hp; cases hp
      · rw [if_neg hr] at hp
        cases h0 : w.find x with
        | none => rw [inv.missing x h0] at hp; cases hp
        | some p0 =>
          by_cases hm : p0.manager = some this
          · by_cases hs : p0.loadState = .Static
            · obtain ⟨q, hq, _, _, hman, _⟩ := inv.static x p0 h0 hm hs
              rw [hp] at hq; cases hq
              rw [if_pos (hdone x p0 h0)] at hman
              rw [hman]; simp
            · obtain ⟨q, hq, _, _, c⟩ := inv.dynamic x p0 h0 hm hs
              exact absurd (c (hdone x p0 h0)) hr
          · obtain ⟨q, hq, rel, _⟩ := inv.other x p0 h0 hm
            rw [hp] at hq; cases hq
            rw [rel.manager]; exact hm
    refine ⟨fun x p hp => hown x p ((hfind' _ x).symm.trans hp), ?_, ?_, ?_, ?_⟩
    · intro hnd p hp
      have hnd1 : ((w1.storage.plugins.filter
          (fun p => !removed.contains p.metadata.name)).map (fun q => q.metadata.name)).Nodup := by
        refine List.Nodup.sublist ?_ (inv.names ▸ hnd)
        exact List.Sublist.map _ (List.filter_sublist _)
      have hf := find?_of_mem_nodup _ hnd1 p hp
      exact hown p.metadata.name p
        ((find?_filter_removed w1.storage.plugins removed p.metadata.name).symm.trans hf)
    · intro x p0 h0 hm hs
      obtain ⟨q, hq, a, b, hman, c⟩ := inv.static x p0 h0 hm hs
      obtain ⟨ev, hlog, hcount⟩ := inv.log
      obtain ⟨sp, hsp, hone⟩ := (hcount x p0 h0 hm hs).1 (hdone x p0 h0)
      rw [if_pos (hdone x p0 h0)] at hman
      refine ⟨q, sp, ev, ?_, hman, a, hsp, hlog, hone⟩
      rw [hfind', if_neg c]; exact hq
    · intro x p0 h0 hm hs
      obtain ⟨q, hq, a, b, c⟩ := inv.dynamic x p0 h0 hm hs
      refine ⟨by rw [hfind', if_pos (c (hdone x p0 h0))], ?_⟩
      intro e he hex
      have hpred := (List.mem_filter.mp he).2
      have hq' : w1.storage.find e.2 = some q := by rw [hex]; exact hq
      rw [hq'] at hpred
      simp [a, b] at hpred
    · intro x p0 h0 hm
      obtain ⟨q, hq, rel, c⟩ := inv.other x p0 h0 hm
      exact ⟨q, by rw [hfind', if_neg c]; exact hq, rel⟩

/-- C14 at a concrete input: manager `1` with the loaded dynamic plugin `D` and the static
plugin `S` is destroyed next to manager `2` with the plugin `O`. -/
theorem destroy_releases_records_witness :
    (∀ x p, destroyedScene.find x = some p → p.manager ≠ some 1) ∧
    ((destroyScene.storage.plugins.map (fun p => p.metadata.name)).Nodup →
      ∀ p ∈ destroyedScene.storage.plugins, p.manager ≠ some 1) ∧
    (∀ x p0, destroyScene.find x = some p0 → p0.manager = some 1 → p0.loadState = .Static →
      ∃ p sp ev, destroyedScene.find x = some p ∧ p.manager = none ∧ p.loadState = .Static ∧
        p0.staticPlugin = some sp ∧ destroyedScene.log = destroyScene.log ++ ev ∧
        ev.count (.staticFinalizer x sp.finalizer) = 1) ∧
    (∀ x p0, destroyScene.find x = some p0 → p0.manager = some 1 → p0.loadState ≠ .Static →
      destroyedScene.find x = none ∧ ∀ a ∈ destroyedScene.storage.aliases, a.2 ≠ x) ∧
    (∀ x p0, destroyScene.find x = some p0 → p0.manager ≠ some 1 →
      ∃ p, destroyedScene.find x = some p ∧ Plugin.UnloadRel p0 p) :=
  destroy_releases_records exampleEnv 3 1 destroyScene destroyedScene rfl

/-! ## Discovery of plugins in a directory -/

theorem scanFile_fault {env : Env} {files : Files} {this : Nat} {directory filename : String}
    {s : GlobalPluginStorage} {e : Fault}
    (h : scanFile env files this directory filename s = .error e) : e = .outOfRange := by
  simp only [scanFile] at h
  split at h
  · cases h; rfl
  · split at h
    · cases h
    · split at h <;> cases h

/-- C18, on the code: a listed file whose name is shorter than the module suffix makes
`filename.length() - suffixSize` wrap around, and `filename.substr` throws
`std::out_of_range`; `setPluginDirectory` does not return for a listing with such a file. -/
theorem scan_short_file_name (env : Env) (files : Files) (this : Nat)
    (directory filename : String) (hshort : filename.length < env.suffix.length)
    (hsize : env.suffix.length < 2 ^ 64) :
    (∀ s, scanFile env files this directory filename s = .error .outOfRange) ∧
    (filename ∈ files.list directory →
      ∀ w, setPluginDirectory env files this directory w = .error .outOfRange) := by
  have hone : ∀ s, scanFile env files this directory filename s = .error .outOfRange := by
    intro s
    have hstop : (filename.length + 2 ^ 64 - env.suffix.length) % 2 ^ 64 > filename.length := by
      norm_num at hsize ⊢
      omega
    simp only [scanFile, hstop, if_true]
  refine ⟨hone, fun hmem w => ?_⟩
  have hloop : ∀ (l : List String), filename ∈ l → ∀ s,
      scanFiles env files this directory l s = .error .outOfRange := by
    intro l
    induction l with
    | nil => intro hm; cases hm
    | cons f rest ih =>
      intro hm s
      simp only [scanFiles]
      cases hf : scanFile env files this directory f s with
      | error e => rw [scanFile_fault hf]
      | ok s1 =>
        rcases List.mem_cons.mp hm with rfl | hm
        · rw [hone s] at hf; cases hf
        · exact ih hm s1
  simp only [setPluginDirectory, hloop _ hmem]

/-- C18 at a concrete input: the directory `short` holds the file `a`, and the suffix is
`.so`. -/
theorem scan_short_file_name_witness :
    (∀ s, scanFile exampleEnv exampleFiles 1 "short" "a" s = .error .outOfRange) ∧
    ("a" ∈ exampleFiles.list "short" →
      ∀ w, setPluginDirectory exampleEnv exampleFiles 1 "short" w = .error .outOfRange) :=
  scan_short_file_name exampleEnv exampleFiles 1 "short" "a" (by decide) (by decide)

/-! ## Registration of instances -/

theorem find?_map_keep_key (l : List (String × List Nat)) (y : String)
    (f : String × List Nat → String × List Nat) (hf : ∀ e, (f e).1 = e.1) :
    (l.map f).find? (fun e => e.1 == y) = (l.find? (fun e => e.1 == y)).map f := by
  induction l with
  | nil => rfl
  | cons a l ih =>
    by_cases ha : a.1 = y
    · simp [List.find?_cons, ha, hf]
    · simp [List.find?_cons, ha, hf, ih]

theorem appendInstance_key (n : String) (i : Nat) (e : String × List Nat) :
    (if e.1 = n then (e.1, e.2 ++ [i]) else e).1 = e.1 := by
  split <;> rfl

theorem find?_insertInstances (n : String) (l : List (String × List Nat))
    (hno : ∀ e ∈ l, e.1 ≠ n) (y : String) :
    (insertInstances n l).find? (fun e => e.1 == y)
      = if y = n then some (n, []) else l.find? (fun e => e.1 == y) := by
  induction l with
  | nil =>
    by_cases hy : y = n
    · simp [insertInstances, hy]
    · have : ¬ n = y := fun h => hy h.symm
      simp [insertInstances, hy, this]
  | cons a l ih =>
    have ha : a.1 ≠ n := hno a (List.mem_cons_self _ _)
    have ha' : ¬ n = a.1 := fun h => ha h.symm
    have hl : ∀ e ∈ l, e.1 ≠ n := fun e he => hno e (List.mem_cons_of_mem _ he)
    simp only [insertInstances, ha', if_false]
    by_cases hk : keyLess n a.1 = true
    · simp only [hk, if_true]
      by_cases hy : y = n
      · subst hy
        simp
      · have hb : ((n, ([] : List Nat)).1 == y) = false := by
          simp only [beq_eq_false_iff_ne, ne_eq]
          exact fun h => hy h.symm
        rw [List.find?_cons, hb, if_neg hy]
    · simp only [hk, if_false, Bool.false_eq_true]
      by_cases hay : a.1 = y
      · have hy : ¬ y = n := by rw [← hay]; exact ha
        have hb : (a.1 == y) = true := by simp [hay]
        rw [List.find?_cons, hb, if_neg hy, List.find?_cons, hb]
      · have hb : (a.1 == y) = false := by simp [hay]
        rw [List.find?_cons, hb, ih hl, List.find?_cons, hb]

theorem map_key_of_absent (n : String) (g : String × List Nat → String × List Nat)
    (l : List (String × List Nat)) (hno : ∀ e ∈ l, e.1 ≠ n) :
    l.map (fun e => if e.1 = n then g e else e) = l := by
  induction l with
  | nil => rfl
  | cons a l ih =>
    have ha : a.1 ≠ n := hno a (List.mem_cons_self _ _)
    simp only [List.map_cons, ha, if_false]
    rw [ih (fun e he => hno e (List.mem_cons_of_mem _ he))]

theorem filter_key_of_absent (n : String) (l : List (String × List Nat))
    (hno : ∀ e ∈ l, e.1 ≠ n) : l.filter (fun e => e.1 != n) = l := by
  apply List.filter_eq_self.mpr
  intro e he
  simpa using hno e he

/-- Adding an entry for a new key, appending an instance to it and erasing the entry
again gives back the map. -/
theorem filter_map_insertInstances (n : String) (i : Nat) (l : List (String × List Nat))
    (hno : ∀ e ∈ l, e.1 ≠ n) :
    ((insertInstances n l).map (fun e => if e.1 = n then (e.1, e.2 ++ [i]) else e)).filter
      (fun e => e.1 != n) = l := by
  induction l with
  | nil => simp [insertInstances]
  | cons a l ih =>
    have ha : a.1 ≠ n := hno a (List.mem_cons_self _ _)
    have ha' : ¬ n = a.1 := fun h => ha h.symm
    have hl : ∀ e ∈ l, e.1 ≠ n := fun e he => hno e (List.mem_cons_of_mem _ he)
    simp only [insertInstances, ha', if_false]
    by_cases hk : keyLess n a.1 = true
    · simp only [hk, if_true, List.map_cons, ha, if_false]
      rw [map_key_of_absent n (fun e => (e.1, e.2 ++ [i])) l hl]
      simp only [List.filter_cons]
      simp [ha, filter_key_of_absent n l hl]
    · simp only [hk, Bool.false_eq_true, if_false, List.map_cons, ha, List.filter_cons]
      simp [ha, ih hl]

theorem mem_insertInstances (n : String) (l : List (String × List Nat))
    (e : String × List Nat) (he : e ∈ insertInstances n l) : e = (n, []) ∨ e ∈ l := by
  induction l with
  | nil => simpa [insertInstances] using he
  | cons a l ih =>
    simp only [insertInstances] at he
    split at he
    · exact Or.inr he
    · split at he
      · rcases List.mem_cons.mp he with h | h
        · exact Or.inl h
        · exact Or.inr h
      · rcases List.mem_cons.mp he with h | h
        · exact Or.inr (h ▸ List.mem_cons_self _ _)
        · rcases ih h with h | h
          · exact Or.inl h
          · exact Or.inr (List.mem_cons_of_mem _ h)

/-- In a map with unique keys the entry found under a key is the only one with that key,
so that rewriting the value of the key to the value found changes nothing. -/
theorem map_restore_of_nodup (n : String) (v : List Nat) (l : List (String × List Nat))
    (hkeys : (l.map Prod.fst).Nodup) (hfound : l.find? (fun e => e.1 == n) = some (n, v)) :
    l.map (fun e => if e.1 = n then (e.1, v) else e) = l := by
  induction l with
  | nil => rfl
  | cons a l ih =>
    simp only [List.map_cons, List.nodup_cons] at hkeys
    by_cases ha : a.1 = n
    · have hb : (a.1 == n) = true := by simp [ha]
      simp only [List.find?_cons, hb] at hfound
      have hav : a = (n, v) := Option.some.inj hfound
      have hl : ∀ e ∈ l, e.1 ≠ n := by
        intro e he hc
        exact hkeys.1 (List.mem_map.mpr ⟨e, he, hc.trans ha.symm⟩)
      have hmap : l.map (fun e => if e.1 = n then (e.1, v) else e) = l :=
        map_key_of_absent n (fun e => (e.1, v)) l hl
      rw [List.map_cons, hmap, hav]
      simp
    · have hb : (a.1 == n) = false := by simp [ha]
      simp only [List.find?_cons, hb] at hfound
      simp only [List.map_cons, ha, if_false]
      rw [ih hkeys.2 hfound]

theorem World.setInstances_restore (w : World) (this : Nat) (l : List (String × List Nat)) :
    (w.setInstances this l).setInstances this (w.managers this).instances = w := by
  obtain ⟨storage, managers, log⟩ := w
  simp only [World.setInstances, World.mk.injEq, true_and, and_true]
  funext m
  by_cases hm : m = this
  · subst hm; simp
  · simp [hm]

/-- C19: for a plugin `n` of the manager and an instance `i` that is not registered under
`n`, `registerInstance` returns the metadata of `n` and puts `i` at the end of the instances
of `n` (in a new entry when there was none), other entries stay as they are and no entry is
empty; the `unregisterInstance` that follows gives back the world as it was. -/
theorem register_unregister_roundtrip (this : Nat) (n : String) (i : Nat) (w : World)
    (p : Plugin) (hfind : w.find n = some p) (hman : p.manager = some this)
    (hfresh : ∀ l, (w.managers this).findInstances n = some l → i ∉ l)
    (hkeys : ((w.managers this).instances.map Prod.fst).Nodup)
    (hfull : ∀ e ∈ (w.managers this).instances, e.2 ≠ []) :
    ∃ w1, registerInstance this n i w = .ok (p.metadata, w1) ∧
      (w1.managers this).findInstances n
        = some (((w.managers this).findInstances n).getD [] ++ [i]) ∧
      (∀ m, m ≠ n → (w1.managers this).findInstances m = (w.managers this).findInstances m) ∧
      (∀ e ∈ (w1.managers this).instances, e.2 ≠ []) ∧
      w1.storage = w.storage ∧ w1.log = w.log ∧
      (∀ m, m ≠ this → w1.managers m = w.managers m) ∧
      unregisterInstance this n i w1 = .ok w := by
  have hmanager : ¬ p.manager ≠ some this := fun h => h hman
  cases hfi : (w.managers this).findInstances n with
  | none =>
    have hnone : (w.managers this).instances.find? (fun e => e.1 == n) = none := by
      simpa [Manager.findInstances] using hfi
    have hno : ∀ e ∈ (w.managers this).instances, e.1 ≠ n := by
      intro e he hc
      have := List.find?_eq_none.mp hnone e he
      simp [hc] at this
    have hf1 : ∀ y, ((insertInstances n (w.managers this).instances).map
        (fun e => if e.1 = n then (e.1, e.2 ++ [i]) else e)).find? (fun e => e.1 == y)
        = if y = n then some (n, [i])
          else (w.managers this).instances.find? (fun e => e.1 == y) := by
      intro y
      rw [find?_map_keep_key _ _ _ (appendInstance_key n i), find?_insertInstances n _ hno]
      by_cases hy : y = n
      · simp [hy]
      · simp only [hy, if_false]
        cases hfy : (w.managers this).instances.find? (fun e => e.1 == y) with
        | none => rfl
        | some e =>
          have hey : e.1 = y := by simpa using List.find?_some hfy
          have hen : ¬ e.1 = n := by rw [hey]; exact hy
          simp [hen]
    have hreg : registerInstance this n i w = .ok (p.metadata, w.setInstances this
        ((insertInstances n (w.managers this).instances).map
          (fun e => if e.1 = n then (e.1, e.2 ++ [i]) else e))) := by
      simp only [registerInstance, hfind, hmanager, if_false, hfi]
    refine ⟨_, hreg, ?_, ?_, ?_, rfl, rfl, fun m hm => World.setInstances_other _ _ _ _ hm, ?_⟩
    · simp only [World.setInstances_this, Manager.findInstances, hf1, if_true]
      rfl
    · intro m hm
      simp only [World.setInstances_this, Manager.findInstances, hf1, hm, if_false]
    · intro e he
      simp only [World.setInstances_this, List.mem_map] at he
      obtain ⟨e0, he0, rfl⟩ := he
      rcases mem_insertInstances n _ e0 he0 with rfl | hmem
      · simp
      · simp only [hno e0 hmem, if_false]
        exact hfull e0 hmem
    · have hfind1 : World.find (w.setInstances this
          ((insertInstances n (w.managers this).instances).map
            (fun e => if e.1 = n then (e.1, e.2 ++ [i]) else e))) n = some p := hfind
      simp only [unregisterInstance, hfind1, hmanager, if_false, World.setInstances_this,
        Manager.findInstances, hf1, if_true, Option.map_some']
      simp only [List.mem_singleton, not_true_eq_false, if_false, List.erase_cons_head,
        List.isEmpty_nil, if_true, filter_map_insertInstances n i _ hno]
      exact congrArg Except.ok (World.setInstances_restore w this _)
  | some l =>
    have hfound : ∃ e, (w.managers this).instances.find? (fun e => e.1 == n) = some e
        ∧ e.2 = l := by
      simpa [Manager.findInstances] using hfi
    obtain ⟨e0, he0, hl0⟩ := hfound
    have hkey0 : e0.1 = n := by simpa using List.find?_some he0
    have he0' : (w.managers this).instances.find? (fun e => e.1 == n) = some (n, l) := by
      rw [he0]; congr 1; exact Prod.ext hkey0 hl0
    have hil : i ∉ l := hfresh l hfi
    have hlne : l ≠ [] := by
      have := hfull e0 (List.mem_of_find?_eq_some he0)
      rwa [hl0] at this
    have hf1 : ∀ y, ((w.managers this).instances.map
        (fun e => if e.1 = n then (e.1, e.2 ++ [i]) else e)).find? (fun e => e.1 == y)
        = ((w.managers this).instances.find? (fun e => e.1 == y)).map
          (fun e => if e.1 = n then (e.1, e.2 ++ [i]) else e) :=
      fun y => find?_map_keep_key _ _ _ (appendInstance_key n i)
    have hreg : registerInstance this n i w = .ok (p.metadata, w.setInstances this
        ((w.managers this).instances.map
          (fun e => if e.1 = n then (e.1, e.2 ++ [i]) else e))) := by
      simp only [registerInstance, hfind, hmanager, if_false, hfi]
    refine ⟨_, hreg, ?_, ?_, ?_, rfl, rfl, fun m hm => World.setInstances_other _ _ _ _ hm, ?_⟩
    · simp only [World.setInstances_this, Manager.findInstances, hf1, he0']
      simp
    · intro m hm
      simp only [World.setInstances_this, Manager.findInstances, hf1]
      cases hfy : (w.managers this).instances.find? (fun e => e.1 == m) with
      | none => rfl
      | some e =>
        have hey : e.1 = m := by simpa using List.find?_some hfy
        have hen : ¬ e.1 = n := by rw [hey]; exact hm
        simp [hen]
    · intro e he
      simp only [World.setInstances_this, List.mem_map] at he
      obtain ⟨e1, he1, rfl⟩ := he
      split
      · simp
      · exact hfull e1 he1
    · have hfind1 : World.find (w.setInstances this
          ((w.managers this).instances.map
            (fun e => if e.1 = n then (e.1, e.2 ++ [i]) else e))) n = some p := hfind
      have herase : (l ++ [i]).erase i = l := by
        rw [List.erase_append_right _ hil]
        simp
      have hempty : l.isEmpty = false := by
        cases l with
        | nil => exact absurd rfl hlne
        | cons _ _ => rfl
      simp only [unregisterInstance, hfind1, hmanager, if_false, World.setInstances_this,
        Manager.findInstances, hf1, he0', Option.map_some', if_true]
      simp only [List.mem_append, List.mem_singleton, or_true, not_true_eq_false, if_false,
        hempty, Bool.false_eq_true, herase, List.map_map]
      have hcomp : (fun e : String × List Nat => if e.1 = n then (e.1, l) else e) ∘
          (fun e => if e.1 = n then (e.1, e.2 ++ [i]) else e)
          = fun e => if e.1 = n then (e.1, l) else e := by
        funext e
        by_cases he : e.1 = n <;> simp [he]
      rw [hcomp, map_restore_of_nodup n l _ hkeys he0']
      exact congrArg Except.ok (World.setInstances_restore w this _)

/-- C19 at a concrete input: a third instance of `P` is registered and unregistered. -/
theorem register_unregister_roundtrip_witness :
    ∃ w1, registerInstance 1 "P" 12 instancesWorld
        = .ok (((exampleRecord "P" [] [] 1).setLoaded 7 100).metadata, w1) ∧
      (w1.managers 1).findInstances "P"
        = some (((instancesWorld.managers 1).findInstances "P").getD [] ++ [12]) ∧
      (∀ m, m ≠ "P" →
        (w1.managers 1).findInstances m = (instancesWorld.managers 1).findInstances m) ∧
      (∀ e ∈ (w1.managers 1).instances, e.2 ≠ []) ∧
      w1.storage = instancesWorld.storage ∧ w1.log = instancesWorld.log ∧
      (∀ m, m ≠ 1 → w1.managers m = instancesWorld.managers m) ∧
      unregisterInstance 1 "P" 12 w1 = .ok instancesWorld :=
  register_unregister_roundtrip 1 "P" 12 instancesWorld
    ((exampleRecord "P" [] [] 1).setLoaded 7 100) rfl rfl
    (by intro l hl; cases hl; decide) (by decide) (by decide)

/-! ## The frame of a directory scan -/

theorem find?_insertRecord (p : Plugin) (l : List Plugin)
    (hno : ∀ q ∈ l, q.metadata.name ≠ p.metadata.name) (x : String) :
    (insertRecord p l).find? (fun q => q.metadata.name == x)
      = if x = p.metadata.name then some p else l.find? (fun q => q.metadata.name == x) := by
  induction l with
  | nil =>
    by_cases hx : x = p.metadata.name
    · simp [insertRecord, hx]
    · have hb : (p.metadata.name == x) = false := by
        simp only [beq_eq_false_iff_ne, ne_eq]; exact fun h => hx h.symm
      simp only [insertRecord, List.find?_cons, hb, if_neg hx, List.find?_nil]
  | cons a l ih =>
    have ha : a.metadata.name ≠ p.metadata.name := hno a (List.mem_cons_self _ _)
    have ha' : ¬ p.metadata.name = a.metadata.name := fun h => ha h.symm
    have hl : ∀ q ∈ l, q.metadata.name ≠ p.metadata.name :=
      fun q hq => hno q (List.mem_cons_of_mem _ hq)
    simp only [insertRecord, ha', if_false]
    by_cases hk : keyLess p.metadata.name a.metadata.name = true
    · simp only [hk, if_true]
      by_cases hx : x = p.metadata.name
      · subst hx
        simp
      · have hb : (p.metadata.name == x) = false := by
          simp only [beq_eq_false_iff_ne, ne_eq]; exact fun h => hx h.symm
        rw [List.find?_cons, hb, if_neg hx]
    · simp only [hk, if_false, Bool.false_eq_true]
      by_cases hax : a.metadata.name = x
      · have hx : ¬ x = p.metadata.name := by rw [← hax]; exact ha
        have hb : (a.metadata.name == x) = true := by simp [hax]
        rw [List.find?_cons, hb, if_neg hx, List.find?_cons, hb]
      · have hb : (a.metadata.name == x) = false := by simp [hax]
        rw [List.find?_cons, hb, ih hl, List.find?_cons, hb]

theorem mem_emplaceAlias (key target : String) (l : List (String × String))
    (a : String × String) : a ∈ emplaceAlias key target l ↔ a = (key, target) ∨ a ∈ l := by
  induction l with
  | nil => simp [emplaceAlias]
  | cons e l ih =>
    simp only [emplaceAlias]
    split
    · simp
    · simp only [List.mem_cons, ih]
      tauto

theorem mem_foldl_emplaceAlias (target : String) (keys : List String) :
    ∀ (l : List (String × String)) (a : String × String),
      a ∈ keys.foldl (fun acc key => emplaceAlias key target acc) l
        ↔ a ∈ l ∨ (a.2 = target ∧ a.1 ∈ keys) := by
  induction keys with
  | nil => intro l a; simp
  | cons k keys ih =>
    intro l a
    simp only [List.foldl_cons, ih, mem_emplaceAlias, List.mem_cons]
    constructor
    · rintro ((rfl | h) | ⟨h1, h2⟩)
      · exact Or.inr ⟨rfl, Or.inl rfl⟩
      · exact Or.inl h
      · exact Or.inr ⟨h1, Or.inr h2⟩
    · rintro (h | ⟨h1, rfl | h2⟩)
      · exact Or.inl (Or.inr h)
      · exact Or.inl (Or.inl (Prod.ext rfl h1))
      · exact Or.inr ⟨h1, h2⟩

theorem GlobalPluginStorage.find_insertPlugin (s : GlobalPluginStorage) (p : Plugin)
    (hfree : s.find p.metadata.name = none) (x : String) :
    (s.insertPlugin p).find x = if x = p.metadata.name then some p else s.find x := by
  have hno : ∀ q ∈ s.plugins, q.metadata.name ≠ p.metadata.name := by
    intro q hq hc
    have := List.find?_eq_none.mp hfree q hq
    simp [hc] at this
  exact find?_insertRecord p s.plugins hno x

theorem ScanExt.stay (this : Nat) (s : GlobalPluginStorage) : ScanExt this s s :=
  ⟨fun _ _ h => h, fun _ h => Or.inl h, fun _ h => h, fun _ h => Or.inl h⟩

theorem ScanExt.next {this : Nat} {s0 s1 s2 : GlobalPluginStorage}
    (h01 : ScanExt this s0 s1) (h12 : ScanExt this s1 s2) : ScanExt this s0 s2 := by
  refine ⟨fun x p h => h12.kept x p (h01.kept x p h), fun x h => ?_,
    fun a h => h12.aliasesKept a (h01.aliasesKept a h), fun a h => ?_⟩
  · rcases h01.fresh x h with h1 | ⟨conf, h1⟩
    · exact h12.fresh x h1
    · exact Or.inr ⟨conf, h12.kept x _ h1⟩
  · rcases h12.aliasesFresh a h with h1 | ⟨h1, conf, h2, h3⟩
    · rcases h01.aliasesFresh a h1 with h0 | ⟨h0, conf, h2, h3⟩
      · exact Or.inl h0
      · exact Or.inr ⟨h0, conf, h12.kept _ _ h2, h3⟩
    · refine Or.inr ⟨?_, conf, h2, h3⟩
      cases h0 : s0.find a.2 with
      | none => rfl
      | some p => rw [h01.kept _ _ h0] at h1; cases h1

theorem ScanExt.insert (this : Nat) (s : GlobalPluginStorage) (name : String)
    (conf : Configuration) (hfree : s.find name = none) :
    ScanExt this s (s.insertPlugin (Plugin.dynamic name conf this)) := by
  have hf := GlobalPluginStorage.find_insertPlugin s (Plugin.dynamic name conf this) hfree
  have hname : (Plugin.dynamic name conf this).metadata.name = name := rfl
  simp only [hname] at hf
  refine ⟨fun x p h => ?_, fun x h => ?_, fun a h => ?_, fun a h => ?_⟩
  · have hx : x ≠ name := by
      intro hc; subst hc; rw [hfree] at h; cases h
    rw [hf, if_neg hx]; exact h
  · by_cases hx : x = name
    · subst hx
      exact Or.inr ⟨conf, by rw [hf, if_pos rfl]⟩
    · exact Or.inl (by rw [hf, if_neg hx]; exact h)
  · exact (mem_foldl_emplaceAlias _ _ _ _).mpr (Or.inl h)
  · rcases (mem_foldl_emplaceAlias _ _ _ _).mp h with h | ⟨h1, h2⟩
    · exact Or.inl h
    · have h1 : a.2 = name := h1
      refine Or.inr ⟨by rw [h1]; exact hfree, conf, ?_, h2⟩
      rw [hf, if_pos h1, h1]

theorem scanFile_ext {env : Env} {files : Files} {this : Nat} {directory filename : String}
    {s s1 : GlobalPluginStorage}
    (h : scanFile env files this directory filename s = .ok s1) : ScanExt this s s1 := by
  simp only [scanFile] at h
  split at h
  · cases h
  · split at h
    · cases h; exact ScanExt.stay this s
    · split at h
      · cases h; exact ScanExt.stay this s
      · rename_i hfree
        cases h
        refine ScanExt.insert this s _ _ ?_
        simpa using hfree

theorem scanFiles_ext {env : Env} {files : Files} {this : Nat} {directory : String}
    (l : List String) : ∀ (s s1 : GlobalPluginStorage),
      scanFiles env files this directory l s = .ok s1 → ScanExt this s s1 := by
  induction l with
  | nil => intro s s1 h; cases h; exact ScanExt.stay this s
  | cons f rest ih =>
    intro s s1 h
    simp only [scanFiles] at h
    split at h
    · cases h
    · rename_i hstep
      exact (scanFile_ext hstep).next (ih _ _ h)

/-- The scan loop finishes when no listed name is shorter than the suffix. -/
theorem scanFiles_total (env : Env) (files : Files) (this : Nat) (directory : String)
    (l : List String)
    (hlen : ∀ f ∈ l, env.suffix.length ≤ f.length ∧ f.length < 2 ^ 64) :
    ∀ s, ∃ s1, scanFiles env files this directory l s = .ok s1 := by
  induction l with
  | nil => intro s; exact ⟨s, rfl⟩
  | cons f rest ih =>
    intro s
    obtain ⟨h1, h2⟩ := hlen f (List.mem_cons_self _ _)
    have hstop : ¬ (f.length + 2 ^ 64 - env.suffix.length) % 2 ^ 64 > f.length := by
      norm_num at h2 ⊢
      omega
    have hstep : ∃ s1, scanFile env files this directory f s = .ok s1 := by
      simp only [scanFile, hstop, if_false]
      split
      · exact ⟨_, rfl⟩
      · split <;> exact ⟨_, rfl⟩
    obtain ⟨s1, hs1⟩ := hstep
    obtain ⟨s2, hs2⟩ := ih (fun g hg => hlen g (List.mem_cons_of_mem _ hg)) s1
    exact ⟨s2, by simp only [scanFiles, hs1, hs2]⟩

theorem find?_filter_kept (l : List Plugin) (q : Plugin → Bool) (x : String) (p : Plugin)
    (h : l.find? (fun r => r.metadata.name == x) = some p) (hq : q p = true) :
    (l.filter q).find? (fun r => r.metadata.name == x) = some p := by
  induction l with
  | nil => cases h
  | cons a l ih =>
    by_cases ha : a.metadata.name = x
    · have hb : (a.metadata.name == x) = true := by simp [ha]
      simp only [List.find?_cons, hb] at h
      cases h
      simp only [List.filter_cons, hq, if_true, List.find?_cons, hb]
    · have hb : (a.metadata.name == x) = false := by simp [ha]
      simp only [List.find?_cons, hb] at h
      simp only [List.filter_cons]
      split
      · simp only [List.find?_cons, hb]; exact ih h
      · exact ih h

theorem find?_filter_none (l : List Plugin) (q : Plugin → Bool) (x : String)
    (h : l.find? (fun r => r.metadata.name == x) = none) :
    (l.filter q).find? (fun r => r.metadata.name == x) = none := by
  rw [List.find?_eq_none] at h ⊢
  exact fun r hr => h r (List.mem_filter.mp hr).1

theorem find?_filter_dropped (l : List Plugin) (q : Plugin → Bool) (x : String) (p : Plugin)
    (hnd : (l.map (fun r => r.metadata.name)).Nodup)
    (h : l.find? (fun r => r.metadata.name == x) = some p) (hq : q p = false) :
    (l.filter q).find? (fun r => r.metadata.name == x) = none := by
  rw [List.find?_eq_none]
  intro r hr
  obtain ⟨hrl, hqr⟩ := List.mem_filter.mp hr
  intro hrx
  have hrx : r.metadata.name = x := by simpa using hrx
  have hpx : p.metadata.name = x := by simpa using List.find?_some h
  have hfr := find?_of_mem_nodup l hnd r hrl
  rw [hrx, h] at hfr
  cases hfr
  rw [hq] at hqr
  cases hqr

/-- The test of the two purge loops selects the records the specification names: those owned
by the manager whose `loadState` is `NotLoaded` or `WrongMetadataFile`. -/
theorem purged_iff (this : Nat) (p : Plugin) : purged this p = true ↔ p.UnloadedOf this := by
  simp only [purged, Plugin.UnloadedOf, Bool.and_eq_true, beq_iff_eq]
  constructor
  · rintro ⟨h1, h2⟩
    refine ⟨h1, ?_⟩
    cases hs : p.loadState <;> rw [hs] at h2 <;> first | exact Or.inl rfl | exact Or.inr rfl | (exact absurd h2 (by decide))
  · rintro ⟨h1, h2⟩
    refine ⟨h1, ?_⟩
    rcases h2 with h2 | h2 <;> rw [h2] <;> decide

theorem purged_false_iff (this : Nat) (p : Plugin) :
    purged this p = false ↔ ¬ p.UnloadedOf this := by
  rw [← purged_iff]
  cases purged this p <;> simp

/-- What a call of `setPluginDirectory` that returns has done, in terms of the test of the
purge loops. -/
theorem setPluginDirectory_inv (env : Env) (files : Files) (this : Nat) (directory : String)
    (w w' : World) (hnodup : (w.storage.plugins.map (fun p => p.metadata.name)).Nodup)
    (h : setPluginDirectory env files this directory w = .ok w') :
    scanFiles env files this directory (files.list directory) (purge this w.storage)
      = .ok w'.storage ∧
    (∀ x p, w.find x = some p → purged this p = false → w'.find x = some p) ∧
    (∀ x p, w.find x = some p → purged this p = true →
      w'.find x = none ∨ ∃ conf, w'.find x = some (Plugin.dynamic x conf this)) ∧
    (∀ x, w.find x = none →
      w'.find x = none ∨ ∃ conf, w'.find x = some (Plugin.dynamic x conf this)) ∧
    (∀ a ∈ w.storage.aliases, ∀ p, w.find a.2 = some p → purged this p = false →
      a ∈ w'.storage.aliases) ∧
    (∀ a ∈ w'.storage.aliases,
      (a ∈ w.storage.aliases ∧ ∀ p, w.find a.2 = some p → purged this p = false) ∨
      ∃ conf, w'.find a.2 = some (Plugin.dynamic a.2 conf this) ∧ a.1 ∈ conf.provides) ∧
    (w'.managers this).pluginDirectory = directory ∧
    (w'.managers this).pluginInterface = (w.managers this).pluginInterface ∧
    (w'.managers this).instances = (w.managers this).instances ∧
    (∀ m, m ≠ this → w'.managers m = w.managers m) ∧ w'.log = w.log := by
  simp only [setPluginDirectory] at h
  split at h
  · cases h
  · rename_i s1 hs1
    cases h
    have ext := scanFiles_ext _ _ _ hs1
    refine ⟨hs1, ?_, ?_, ?_, ?_, ?_, by simp, by simp, by simp, fun m hm => by simp [hm],
      rfl⟩
    · intro x p hp hq
      refine ext.kept x p ?_
      exact find?_filter_kept w.storage.plugins _ x p hp (by simp [hq])
    · intro x p hp hq
      refine ext.fresh x ?_
      exact find?_filter_dropped w.storage.plugins _ x p hnodup hp (by simp [hq])
    · intro x hx
      refine ext.fresh x ?_
      exact find?_filter_none w.storage.plugins _ x hx
    · intro a ha p hp hq
      refine ext.aliasesKept a ?_
      refine List.mem_filter.mpr ⟨ha, ?_⟩
      have hp' : w.storage.find a.2 = some p := hp
      simp [hp', hq]
    · intro a ha
      rcases ext.aliasesFresh a ha with h | ⟨_, conf, h1, h2⟩
      · obtain ⟨h1, h2⟩ := List.mem_filter.mp h
        refine Or.inl ⟨h1, fun p hp => ?_⟩
        have hp' : w.storage.find a.2 = some p := hp
        simpa [hp'] using h2
      · exact Or.inr ⟨conf, h1, h2⟩

/-- C17: `setPluginDirectory` on manager `this` scans the listing on the storage from which
exactly the records owned by the manager whose `loadState` is `NotLoaded` or
`WrongMetadataFile` have been removed, with the aliases that refer to them. When the call
returns, every other record (every record of another manager, and every record of the
manager that is `Loaded` or `Static`) is found unchanged under its name, also when a listed
file has that name; under the name of a removed record, as under a name that was free, there
is nothing or a record newly built from a metadata file; the aliases of the kept records
stay, and every alias is such an alias or belongs to a newly built record; no other manager
and no log entry is touched. The call returns when no listed name is shorter than the
suffix. -/
theorem setPluginDirectory_frame (env : Env) (files : Files) (this : Nat) (directory : String)
    (w : World) (hnodup : (w.storage.plugins.map (fun p => p.metadata.name)).Nodup) :
    ∃ s0 : GlobalPluginStorage,
      (∀ p, p ∈ s0.plugins ↔ p ∈ w.storage.plugins ∧ ¬ p.UnloadedOf this) ∧
      (∀ a, a ∈ s0.aliases ↔
        a ∈ w.storage.aliases ∧ ∀ p, w.find a.2 = some p → ¬ p.UnloadedOf this) ∧
      (∀ w', setPluginDirectory env files this directory w = .ok w' →
        scanFiles env files this directory (files.list directory) s0 = .ok w'.storage ∧
        (∀ x p, w.find x = some p → ¬ p.UnloadedOf this → w'.find x = some p) ∧
        (∀ x p, w.find x = some p →
          (p.manager ≠ some this ∨ p.loadState = .Loaded ∨ p.loadState = .Static) →
          w'.find x = some p) ∧
        (∀ x p, w.find x = some p → p.UnloadedOf this →
          w'.find x = none ∨ ∃ conf, w'.find x = some (Plugin.dynamic x conf this)) ∧
        (∀ x, w.find x = none →
          w'.find x = none ∨ ∃ conf, w'.find x = some (Plugin.dynamic x conf this)) ∧
        (∀ a ∈ w.storage.aliases, ∀ p, w.find a.2 = some p → ¬ p.UnloadedOf this →
          a ∈ w'.storage.aliases) ∧
        (∀ a ∈ w'.storage.aliases,
          (a ∈ w.storage.aliases ∧ ∀ p, w.find a.2 = some p → ¬ p.UnloadedOf this) ∨
          ∃ conf, w'.find a.2 = some (Plugin.dynamic a.2 conf this) ∧ a.1 ∈ conf.provides) ∧
        (w'.managers this).pluginDirectory = directory ∧
        (w'.managers this).pluginInterface = (w.managers this).pluginInterface ∧
        (w'.managers this).instances = (w.managers this).instances ∧
        (∀ m, m ≠ this → w'.managers m = w.managers m) ∧ w'.log = w.log) ∧
      ((∀ f ∈ files.list directory, env.suffix.length ≤ f.length ∧ f.length < 2 ^ 64) →
        ∃ w', setPluginDirectory env files this directory w = .ok w') := by
  refine ⟨purge this w.storage, fun p => ?_, fun a => ?_, fun w' h => ?_, fun hlen => ?_⟩
  · simp only [purge, List.mem_filter, Bool.not_eq_true', purged_false_iff]
  · simp only [purge, List.mem_filter]
    constructor
    · rintro ⟨h1, h2⟩
      refine ⟨h1, fun p hp => ?_⟩
      have hp' : w.storage.find a.2 = some p := hp
      rw [hp'] at h2
      simp only [Bool.not_eq_true'] at h2
      exact (purged_false_iff this p).mp h2
    · rintro ⟨h1, h2⟩
      refine ⟨h1, ?_⟩
      cases hp : w.storage.find a.2 with
      | none => rfl
      | some p =>
        simp only [Bool.not_eq_true']
        exact (purged_false_iff this p).mpr (h2 p hp)
  · obtain ⟨h0, h1, h2, h3, h4, h5, h6, h7, h8, h9, h10⟩ :=
      setPluginDirectory_inv env files this directory w w' hnodup h
    refine ⟨h0, fun x p hp hq => h1 x p hp ((purged_false_iff this p).mpr hq),
      fun x p hp hq => h1 x p hp ((purged_false_iff this p).mpr ?_),
      fun x p hp hq => h2 x p hp ((purged_iff this p).mpr hq), h3,
      fun a ha p hp hq => h4 a ha p hp ((purged_false_iff this p).mpr hq),
      fun a ha => ?_, h6, h7, h8, h9, h10⟩
    · rintro ⟨hm, hs⟩
      rcases hq with hq | hq | hq
      · exact hq hm
      · rw [hq] at hs
        rcases hs with hs | hs <;> cases hs
      · rw [hq] at hs
        rcases hs with hs | hs <;> cases hs
    · rcases h5 a ha with ⟨ha1, ha2⟩ | hnew
      · exact Or.inl ⟨ha1, fun p hp => (purged_false_iff this p).mp (ha2 p hp)⟩
      · exact Or.inr hnew
  · obtain ⟨s1, hs1⟩ := scanFiles_total env files this directory (files.list directory) hlen
      (purge this w.storage)
    have hret : setPluginDirectory env files this directory w = .ok
        { w with
          storage := s1
          managers := fun m =>
            if m = this then { w.managers this with pluginDirectory := directory }
            else w.managers m } := by
      simp only [setPluginDirectory, hs1]
    exact ⟨_, hret⟩

/-- C17 at a concrete input: manager `1`, owner of the loaded `L` and the unloaded `U`, scans
a directory that holds `P.so` while manager `2` owns a record `P`. -/
theorem setPluginDirectory_frame_witness :
    ∃ s0 : GlobalPluginStorage,
      (∀ p, p ∈ s0.plugins ↔ p ∈ rescanWorld.storage.plugins ∧ ¬ p.UnloadedOf 1) ∧
      (∀ a, a ∈ s0.aliases ↔
        a ∈ rescanWorld.storage.aliases ∧
          ∀ p, rescanWorld.find a.2 = some p → ¬ p.UnloadedOf 1) ∧
      (∀ w', setPluginDirectory exampleEnv exampleFiles 1 "plugins" rescanWorld = .ok w' →
        scanFiles exampleEnv exampleFiles 1 "plugins" (exampleFiles.list "plugins") s0
          = .ok w'.storage ∧
        (∀ x p, rescanWorld.find x = some p → ¬ p.UnloadedOf 1 → w'.find x = some p) ∧
        (∀ x p, rescanWorld.find x = some p →
          (p.manager ≠ some 1 ∨ p.loadState = .Loaded ∨ p.loadState = .Static) →
          w'.find x = some p) ∧
        (∀ x p, rescanWorld.find x = some p → p.UnloadedOf 1 →
          w'.find x = none ∨ ∃ conf, w'.find x = some (Plugin.dynamic x conf 1)) ∧
        (∀ x, rescanWorld.find x = none →
          w'.find x = none ∨ ∃ conf, w'.find x = some (Plugin.dynamic x conf 1)) ∧
        (∀ a ∈ rescanWorld.storage.aliases, ∀ p, rescanWorld.find a.2 = some p →
          ¬ p.UnloadedOf 1 → a ∈ w'.storage.aliases) ∧
        (∀ a ∈ w'.storage.aliases,
          (a ∈ rescanWorld.storage.aliases ∧
            ∀ p, rescanWorld.find a.2 = some p → ¬ p.UnloadedOf 1) ∨
          ∃ conf, w'.find a.2 = some (Plugin.dynamic a.2 conf 1) ∧ a.1 ∈ conf.provides) ∧
        (w'.managers 1).pluginDirectory = "plugins" ∧
        (w'.managers 1).pluginInterface = (rescanWorld.managers 1).pluginInterface ∧
        (w'.managers 1).instances = (rescanWorld.managers 1).instances ∧
        (∀ m, m ≠ 1 → w'.managers m = rescanWorld.managers m) ∧ w'.log = rescanWorld.log) ∧
      ((∀ f ∈ exampleFiles.list "plugins",
          exampleEnv.suffix.length ≤ f.length ∧ f.length < 2 ^ 64) →
        ∃ w', setPluginDirectory exampleEnv exampleFiles 1 "plugins" rescanWorld = .ok w') :=
  setPluginDirectory_frame exampleEnv exampleFiles 1 "plugins" rescanWorld (by decide)

end PluginManager

namespace Utility

/-! ## Lookup in the entries -/

theorem firstIndex_none (p : Entry → Bool) (l : List Entry) (s : Nat)
    (h : ∀ e ∈ l, p e = false) : firstIndex p l s = none := by
  induction l generalizing s with
  | nil => rfl
  | cons a l ih =>
    simp only [firstIndex, h a (List.mem_cons_self _ _), Bool.false_eq_true, if_false]
    exact ih _ (fun e he => h e (List.mem_cons_of_mem _ he))

theorem firstIndex_append (p : Entry → Bool) (mid : List Entry) (e : Entry) (post : List Entry)
    (s : Nat) (hmid : ∀ x ∈ mid, p x = false) (he : p e = true) :
    firstIndex p (mid ++ e :: post) s = some (s + mid.length, e) := by
  induction mid generalizing s with
  | nil => simp [firstIndex, he]
  | cons a mid ih =>
    have h1 := ih (s + 1) (fun x hx => hmid x (List.mem_cons_of_mem _ hx))
    have ha : ¬ p a = true := by simp [hmid a (List.mem_cons_self _ _)]
    rw [List.cons_append, firstIndex, if_neg ha, h1, List.length_cons]
    congr 2
    omega

/-- A list either has no entry with the property or splits at the first one that has it. -/
theorem split_at_first (p : Entry → Bool) (l : List Entry) :
    (∀ e ∈ l, p e = false) ∨
    ∃ mid e post, l = mid ++ e :: post ∧ (∀ x ∈ mid, p x = false) ∧ p e = true := by
  induction l with
  | nil => exact Or.inl (fun e he => (by cases he))
  | cons a l ih =>
    by_cases ha : p a = true
    · exact Or.inr ⟨[], a, l, rfl, fun x hx => (by cases hx), ha⟩
    · have ha : p a = false := by simpa using ha
      rcases ih with h | ⟨mid, e, post, h1, h2, h3⟩
      · refine Or.inl (fun e he => ?_)
        rcases List.mem_cons.mp he with rfl | he
        · exact ha
        · exact h e he
      · refine Or.inr ⟨a :: mid, e, post, by rw [h1]; rfl, fun x hx => ?_, h3⟩
        rcases List.mem_cons.mp hx with rfl | hx
        · exact ha
        · exact h2 x hx

/-- With pairwise distinct keys the lookup of the key of an entry finds that entry. -/
theorem firstIndex_key (l : List Entry) (hkeys : (l.map (fun e => e.key)).Nodup) (e : Entry)
    (he : e ∈ l) (s : Nat) : ∃ i, firstIndex (fun x => x.key == e.key) l s = some (i, e) := by
  induction l generalizing s with
  | nil => cases he
  | cons a l ih =>
    simp only [List.map_cons, List.nodup_cons] at hkeys
    rcases List.mem_cons.mp he with rfl | he
    · exact ⟨s, by simp [firstIndex]⟩
    · have hne : a.key ≠ e.key := by
        intro hc
        exact hkeys.1 (hc ▸ List.mem_map.mpr ⟨e, he, rfl⟩)
      have hb : (a.key == e.key) = false := by simp [hne]
      simp only [firstIndex, hb, Bool.false_eq_true, if_false]
      exact ih hkeys.2 he _

theorem set_at_length (A C : List Bool) (x y : Bool) :
    (A ++ x :: C).set A.length y = A ++ y :: C := by
  induction A with
  | nil => rfl
  | cons a A ih => simp [List.set, ih]

/-! ## Clearing the values -/

theorem clearValues_ok (l : List Entry) : ∀ (values : List String),
    (∀ e ∈ l, e.type ≠ .BooleanOption → e.id < values.length) →
    ∃ v, clearValues l values = .ok v ∧ v.length = values.length := by
  induction l with
  | nil => intro values _; exact ⟨values, rfl, rfl⟩
  | cons a l ih =>
    intro values h
    have hl : ∀ (v : List String), v.length = values.length →
        ∀ e ∈ l, e.type ≠ .BooleanOption → e.id < v.length :=
      fun v hv e he ht => hv ▸ h e (List.mem_cons_of_mem _ he) ht
    by_cases ha : a.type = .BooleanOption
    · simp only [clearValues, ha, if_true]
      exact ih values (hl values rfl)
    · have hid := h a (List.mem_cons_self _ _) ha
      simp only [clearValues, ha, if_false, hid, if_true]
      obtain ⟨v, hv, hlen⟩ := ih (values.set a.id a.defaultValue)
        (hl _ (List.length_set _ _ _))
      exact ⟨v, hv, by rw [hlen, List.length_set]⟩

/-! ## Positionals fill in declaration order -/

theorem round_positional_none (a : Arguments) (st : ParseState) (t : String)
    (hplain : a.keyPrefix = "") (hvf : st.valueFor = none)
    (ht : t.data.head? ≠ some '-') (hnext : a.findNextArgument st.nextArgument = none) :
    a.round st t = .ok (.fail st) := by
  have hhead : (t.data.head? == some '-') = false := by
    simpa using ht
  simp [Arguments.round, hvf, hhead, hplain, hnext]

theorem round_positional_some (a : Arguments) (st : ParseState) (t : String)
    (hplain : a.keyPrefix = "") (hvf : st.valueFor = none)
    (ht : t.data.head? ≠ some '-') (index : Nat) (entry : Entry)
    (hnext : a.findNextArgument st.nextArgument = some (index, entry))
    (hid : entry.id < st.values.length) :
    a.round st t = .ok (.next { st with values := st.values.set entry.id t,
                                         parsedArguments := st.parsedArguments.set index true,
                                         nextArgument := index + 1 } false) := by
  have hhead : (t.data.head? == some '-') = false := by
    simpa using ht
  simp [Arguments.round, hvf, hhead, hplain, hnext, hid]

theorem parsed_step (pre mid post : List Entry) (e : Entry)
    (hmid : ∀ x ∈ mid, isArgument x = false) (he : isArgument e = true) :
    (pre.map isArgument ++ List.replicate (mid ++ e :: post).length false).set
        (pre.length + mid.length) true
      = (pre ++ mid ++ [e]).map isArgument ++ List.replicate post.length false := by
  have hmap : mid.map isArgument = List.replicate mid.length false := by
    apply List.eq_replicate_iff.mpr
    refine ⟨by simp, fun b hb => ?_⟩
    obtain ⟨x, hx, rfl⟩ := List.mem_map.mp hb
    exact hmid x hx
  have hsplit : pre.map isArgument ++ List.replicate (mid ++ e :: post).length false
      = (pre.map isArgument ++ mid.map isArgument) ++ false :: List.replicate post.length false := by
    rw [hmap, List.length_append, List.length_cons, List.replicate_add, List.replicate_succ,
      List.append_assoc]
  have hlen : pre.length + mid.length = (pre.map isArgument ++ mid.map isArgument).length := by
    simp
  rw [hsplit, hlen, set_at_length]
  simp [he]

theorem Filled.step {values : List String} {l : List Entry} {done : List String} {e : Entry}
    (t : String) (h : Filled values l done) (hid : e.id < values.length)
    (hne : ∀ x ∈ l, x.id ≠ e.id) : Filled (values.set e.id t) (l ++ [e]) (done ++ [t]) := by
  obtain ⟨hlen, hval⟩ := h
  refine ⟨by simp [hlen], fun i x y hx hy => ?_⟩
  by_cases hi : i < l.length
  · rw [List.getElem?_append_left hi] at hx
    rw [List.getElem?_append_left (hlen ▸ hi)] at hy
    rw [List.getElem?_set_ne (fun hc => hne x (List.getElem?_mem hx) hc.symm)]
    exact hval i x y hx hy
  · have hi : l.length ≤ i := Nat.le_of_not_lt hi
    rw [List.getElem?_append_right hi] at hx
    rw [List.getElem?_append_right (hlen ▸ hi)] at hy
    by_cases hz : i - l.length = 0
    · rw [hz] at hx
      rw [← hlen, hz] at hy
      simp only [List.getElem?_cons_zero, Option.some.injEq] at hx hy
      subst hx; subst hy
      exact List.getElem?_set_self hid
    · obtain ⟨k, hk⟩ := Nat.exists_eq_succ_of_ne_zero hz
      rw [hk] at hx
      simp at hx

/-- The token loop on tokens that do not begin with `-`, in an unprefixed parser that is
not waiting for a value: each token goes to the next positional; the loop runs to the end
exactly when there are enough positionals left. -/
theorem rounds_positionals (a : Arguments) (hplain : a.keyPrefix = "")
    (hids : ((a.entries.filter (fun e => e.type != .BooleanOption)).map (fun e => e.id)).Nodup)
    (hrange : ∀ e ∈ a.entries, e.type ≠ .BooleanOption → e.id < a.values.length) :
    ∀ (tokens done : List String) (pre post : List Entry) (st : ParseState),
      (∀ t ∈ tokens, t.data.head? ≠ some '-') →
      a.entries = pre ++ post → st.valueFor = none → st.nextArgument = pre.length →
      st.parsedArguments = pre.map isArgument ++ List.replicate post.length false →
      st.values.length = a.values.length →
      Filled st.values (pre.filter isArgument) done →
      ∃ st' pre' post',
        a.rounds tokens false st
          = .ok (decide (tokens.length ≤ (post.filter isArgument).length), st') ∧
        a.entries = pre' ++ post' ∧ st'.valueFor = none ∧
        st'.parsedArguments = pre'.map isArgument ++ List.replicate post'.length false ∧
        (post'.filter isArgument).length = (post.filter isArgument).length - tokens.length ∧
        Filled st'.values (pre'.filter isArgument)
          (done ++ tokens.take (post.filter isArgument).length) := by
  intro tokens
  induction tokens with
  | nil =>
    intro done pre post st _ hent hvf _ hparsed _ hfilled
    exact ⟨st, pre, post, by simp [Arguments.rounds], hent, hvf, hparsed, by simp,
      by simpa using hfilled⟩
  | cons t ts ih =>
    intro done pre post st htok hent hvf hnext hparsed hlen hfilled
    have ht := htok t (List.mem_cons_self _ _)
    have hts : ∀ x ∈ ts, x.data.head? ≠ some '-' :=
      fun x hx => htok x (List.mem_cons_of_mem _ hx)
    have hfind : a.findNextArgument st.nextArgument = firstIndex isArgument post pre.length := by
      simp only [Arguments.findNextArgument, hnext, hent, List.drop_left]
    rcases split_at_first isArgument post with hnone | ⟨mid, e, post2, hpost, hmid, he⟩
    · have hfilter : post.filter isArgument = [] := by
        apply List.filter_eq_nil_iff.mpr
        intro x hx
        simp [hnone x hx]
      have hround := round_positional_none a st t hplain hvf ht
        (hfind.trans (firstIndex_none _ post _ hnone))
      refine ⟨st, pre, post, ?_, hent, hvf, hparsed, by simp [hfilter], ?_⟩
      · simp [Arguments.rounds, hround, hfilter]
      · simpa [hfilter] using hfilled
    · have hf : a.findNextArgument st.nextArgument = some (pre.length + mid.length, e) := by
        rw [hfind, hpost]
        exact firstIndex_append _ mid e post2 _ hmid he
      have hemem : e ∈ a.entries := by rw [hent, hpost]; simp
      have hetype : e.type = .Argument := by simpa [isArgument] using he
      have heid : e.id < st.values.length := by
        rw [hlen]
        exact hrange e hemem (by rw [hetype]; decide)
      have hround := round_positional_some a st t hplain hvf ht _ e hf heid
      have hmidf : mid.filter isArgument = [] := by
        apply List.filter_eq_nil_iff.mpr
        intro x hx
        simp [hmid x hx]
      have hfilter : post.filter isArgument = e :: post2.filter isArgument := by
        rw [hpost, List.filter_append, hmidf, List.filter_cons_of_pos he]
        rfl
      have hpre : (pre ++ mid ++ [e]).filter isArgument = pre.filter isArgument ++ [e] := by
        rw [List.filter_append, List.filter_append, hmidf, List.append_nil,
          List.filter_cons_of_pos he]
        rfl
      have hdistinct : ∀ x ∈ pre.filter isArgument, x.id ≠ e.id := by
        intro x hx hc
        obtain ⟨hxpre, hxarg⟩ := List.mem_filter.mp hx
        have hxtype : x.type = .Argument := by simpa [isArgument] using hxarg
        rw [hent, hpost, List.filter_append, List.map_append] at hids
        have hdisj := (List.nodup_append.mp hids).2.2
        refine hdisj (List.mem_map.mpr ⟨x, List.mem_filter.mpr ⟨hxpre, ?_⟩, rfl⟩)
          (List.mem_map.mpr ⟨e, List.mem_filter.mpr ⟨by simp, ?_⟩, hc.symm⟩)
        · simp [hxtype]
        · simp [hetype]
      obtain ⟨st', pre', post', h1, h2, h3, h4, h5, h6⟩ :=
        ih (done ++ [t]) (pre ++ mid ++ [e]) post2
          { st with values := st.values.set e.id t,
                    parsedArguments := st.parsedArguments.set (pre.length + mid.length) true,
                    nextArgument := pre.length + mid.length + 1 }
          hts (by rw [hent, hpost]; simp) hvf (by simp; omega)
          (by rw [hparsed, hpost]; exact parsed_step pre mid post2 e hmid he)
          (by simp [hlen])
          (by rw [hpre]; exact hfilled.step t heid hdistinct)
      refine ⟨st', pre', post', ?_, h2, h3, h4, ?_, ?_⟩
      · simp only [Arguments.rounds, hround]
        rw [h1, hfilter]
        simp
      · rw [h5, hfilter]
        simp
      · rw [hfilter]
        simpa [List.append_assoc] using h6

theorem missingCheck_filled (pre : List Entry)
    (hnamed : ∀ e ∈ pre, e.type ≠ .NamedArgument) :
    (pre.zip (pre.map isArgument)).all
      (fun x => x.1.type == .BooleanOption || x.1.type == .Option || x.2) = true := by
  induction pre with
  | nil => rfl
  | cons e pre ih =>
    have he := hnamed e (List.mem_cons_self _ _)
    simp only [List.map_cons, List.zip_cons_cons, List.all_cons,
      ih (fun x hx => hnamed x (List.mem_cons_of_mem _ hx)), Bool.and_true]
    cases hty : e.type <;> simp [isArgument, hty] at he ⊢

theorem missingCheck_open (post : List Entry)
    (hnamed : ∀ e ∈ post, e.type ≠ .NamedArgument) :
    (post.zip (List.replicate post.length false)).all
      (fun x => x.1.type == .BooleanOption || x.1.type == .Option || x.2)
      = decide ((post.filter isArgument).length = 0) := by
  induction post with
  | nil => rfl
  | cons e post ih =>
    have he := hnamed e (List.mem_cons_self _ _)
    simp only [List.length_cons, List.replicate_succ, List.zip_cons_cons, List.all_cons,
      ih (fun x hx => hnamed x (List.mem_cons_of_mem _ hx))]
    cases hty : e.type <;> simp [isArgument, hty, List.filter_cons] at he ⊢

theorem missingCheck_split (pre post : List Entry)
    (hnamed : ∀ e ∈ pre ++ post, e.type ≠ .NamedArgument) :
    missingCheck (pre ++ post) (pre.map isArgument ++ List.replicate post.length false)
      = decide ((post.filter isArgument).length = 0) := by
  simp only [missingCheck]
  rw [List.zip_append (by simp), List.all_append,
    missingCheck_filled pre (fun e he => hnamed e (List.mem_append_left _ he)),
    missingCheck_open post (fun e he => hnamed e (List.mem_append_right _ he))]
  simp

/-- C20: in an unprefixed parser without named arguments, on an `argv` whose tokens after
`argv[0]` do not begin with `-`, `tryParse` returns, and returns `true` exactly when there
are as many tokens as positionals; the value of the `i`-th positional is the `i`-th token
wherever both exist. -/
theorem positionals_fill_in_order (a : Arguments) (arg0 : String) (tokens : List String)
    (hplain : a.keyPrefix = "")
    (hkeys : (a.entries.map (fun e => e.key)).Nodup)
    (hids : ((a.entries.filter (fun e => e.type != .BooleanOption)).map (fun e => e.id)).Nodup)
    (hrange : ∀ e ∈ a.entries, e.type ≠ .BooleanOption → e.id < a.values.length)
    (hnamed : ∀ e ∈ a.entries, e.type ≠ .NamedArgument)
    (htokens : ∀ t ∈ tokens, t.data.head? ≠ some '-') :
    ∃ a', a.tryParse (arg0 :: tokens)
        = .ok (decide (tokens.length = a.positionals.length), a') ∧
      ∀ (i : Nat) (e : Entry) (t : String),
        a.positionals[i]? = some e → tokens[i]? = some t → a'.value e.key = .ok t := by
  obtain ⟨v, hv, hvlen⟩ := clearValues_ok a.entries a.values hrange
  obtain ⟨st', pre', post', h1, h2, h3, h4, h5, h6⟩ :=
    rounds_positionals a hplain hids hrange tokens [] [] a.entries
      { values := v
        booleans := a.booleans.map (fun _ => false)
        valueFor := none
        optionsAllowed := true
        nextArgument := 0
        parsedArguments := List.replicate a.entries.length false }
      htokens rfl rfl rfl rfl hvlen ⟨rfl, fun i e t h => by simp at h⟩
  have hpos : a.positionals = pre'.filter isArgument ++ post'.filter isArgument := by
    simp only [Arguments.positionals, h2, List.filter_append]
  have hpos0 : (a.entries.filter isArgument).length = a.positionals.length := rfl
  have hprelen : (pre'.filter isArgument).length
      = min a.positionals.length tokens.length := by
    have := h6.1
    simp only [List.nil_append, List.length_take, hpos0] at this
    exact this
  have hnamed' : ∀ e ∈ pre' ++ post', e.type ≠ .NamedArgument := h2 ▸ hnamed
  have hcheck := missingCheck_split pre' post' hnamed'
  rw [← h2, ← h4] at hcheck
  have hpostlen : (post'.filter isArgument).length
      = a.positionals.length - tokens.length := h5
  refine ⟨{ a with
      command := if a.command.data.isEmpty then (arg0 :: tokens).headD a.command
        else a.command
      values := st'.values
      booleans := st'.booleans }, ?_, ?_⟩
  · simp only [Arguments.tryParse, hv, List.drop_succ_cons, List.drop_zero, h1, hpos0]
    by_cases hle : tokens.length ≤ a.positionals.length
    · simp only [hle, decide_True, Bool.not_true, Bool.false_eq_true, if_false, h3,
        Option.isSome_none, hcheck, hpostlen]
      congr 2
      simp only [decide_eq_decide]
      omega
    · simp only [hle, decide_False, Bool.not_false, if_true]
      congr 2
      symm
      simp only [decide_eq_false_iff_not]
      omega
  · intro i e t he ht
    have hi1 : i < a.positionals.length := (List.getElem?_eq_some.mp he).1
    have hi2 : i < tokens.length := (List.getElem?_eq_some.mp ht).1
    have hi3 : i < (pre'.filter isArgument).length := by rw [hprelen]; omega
    have he' : (pre'.filter isArgument)[i]? = some e := by
      rw [hpos, List.getElem?_append_left hi3] at he
      exact he
    have ht' : ([] ++ tokens.take (a.entries.filter isArgument).length)[i]? = some t := by
      rw [List.nil_append, List.getElem?_take_of_lt (hpos0 ▸ hi1)]
      exact ht
    have hval := h6.2 i e t he' ht'
    have hmem : e ∈ a.entries := by
      have := List.getElem?_mem he
      exact (List.mem_filter.mp this).1
    have htype : e.type = .Argument := by
      have := (List.mem_filter.mp (List.getElem?_mem he)).2
      simpa [isArgument] using this
    obtain ⟨idx, hidx⟩ := firstIndex_key a.entries hkeys e hmem 0
    simp only [Arguments.value, Arguments.find, hplain, String.empty_append, hidx, htype,
      hval]
    simp

/-- C20 at a concrete input: scenario E, `prog x y` on the schema with the positionals `a`
and `b`. -/
theorem positionals_fill_in_order_witness :
    ∃ a', twoPositionals.tryParse ("prog" :: ["x", "y"])
        = .ok (decide (["x", "y"].length = twoPositionals.positionals.length), a') ∧
      ∀ (i : Nat) (e : Entry) (t : String),
        twoPositionals.positionals[i]? = some e → ["x", "y"][i]? = some t →
        a'.value e.key = .ok t :=
  positionals_fill_in_order twoPositionals "prog" ["x", "y"] rfl (by decide) (by decide)
    (by decide) (by decide) (by decide)

/-! ## Exit behaviour of parse -/

/-- C28: once `tryParse` has run, `parse` exits with code `0` when the help flag is set,
whatever `tryParse` returned; otherwise it exits with code `1` when `tryParse` returned
`false`, and it returns to the caller exactly when `tryParse` returned `true` and the help
flag is not set. -/
theorem parse_exit (a parsed : Arguments) (argv : List String) (status help : Bool)
    (hparse : a.tryParse argv = .ok (status, parsed))
    (hhelp : parsed.isSet "help" = .ok help) :
    a.parse argv = .ok (if help then .exit 0 else if status then .returned parsed else .exit 1) ∧
    (a.parse argv = .ok (.returned parsed) ↔ status = true ∧ help = false) := by
  have h : a.parse argv
      = .ok (if help then .exit 0 else if status then .returned parsed else .exit 1) := by
    simp only [Arguments.parse, hparse, hhelp]
    cases help <;> cases status <;> rfl
  refine ⟨h, ?_⟩
  rw [h]
  cases help <;> cases status <;> simp

/-- C28 at a concrete input: `prog -h` on a schema with a required positional; `tryParse`
returns `false`, the help flag is set, and `parse` exits with code `0`. -/
theorem parse_exit_witness :
    oneRequired.parse ["prog", "-h"]
      = .ok (if true then .exit 0
          else if false then .returned (parsedAfter oneRequired ["prog", "-h"]) else .exit 1) ∧
    (oneRequired.parse ["prog", "-h"]
        = .ok (.returned (parsedAfter oneRequired ["prog", "-h"]))
      ↔ false = true ∧ true = false) :=
  parse_exit oneRequired (parsedAfter oneRequired ["prog", "-h"])
    ["prog", "-h"] false true rfl rfl

/-! ## What the schema operations accept -/

theorem addArgument_inv {a b : Arguments} {key : String} (h : a.addArgument key = .ok b) :
    a.keyPrefix.data.isEmpty = true ∧ key.data.isEmpty = false ∧ a.find key = none ∧
    b = { a with entries := a.entries ++ [⟨.Argument, Char.ofNat 0, key, "", a.values.length⟩],
                 values := a.values ++ [""] } := by
  simp only [Arguments.addArgument] at h
  split at h
  · cases h
  · rename_i h1
    split at h
    · cases h
    · rename_i h2
      split at h
      · cases h
      · rename_i h3
        have hmake : Entry.make .Argument (Char.ofNat 0) key "" a.values.length
            = .ok ⟨.Argument, Char.ofNat 0, key, "", a.values.length⟩ := rfl
        rw [hmake] at h
        simp only [Except.ok.injEq] at h
        refine ⟨by simpa using h1, by simpa using h2, by simpa using h3, h.symm⟩

theorem addNamedArgument_inv {a b : Arguments} {shortKey : Char} {key : String}
    (h : a.addNamedArgument shortKey key = .ok b) :
    verifyShortKey shortKey = true ∧ verifyKey key = true ∧
    (shortKey = Char.ofNat 0 ∨ a.findShort shortKey = none) ∧
    a.find (a.keyPrefix ++ key) = none ∧ a.keyPrefix.data.isEmpty = true ∧
    b = { a with entries := a.entries ++ [⟨.NamedArgument, shortKey, key, "", a.values.length⟩],
                 values := a.values ++ [""] } := by
  simp only [Arguments.addNamedArgument] at h
  split at h
  · cases h
  · rename_i h1
    split at h
    · cases h
    · rename_i h2
      split at h
      · cases h
      · rename_i h3
        have hmake : Entry.make .NamedArgument shortKey key "" a.values.length
            = .ok ⟨.NamedArgument, shortKey, key, "", a.values.length⟩ := rfl
        rw [hmake] at h
        simp only [Except.ok.injEq] at h
        have h1' : verifyShortKey shortKey = true ∧ verifyKey key = true := by simpa using h1
        have h2' : (shortKey = Char.ofNat 0 ∨ a.findShort shortKey = none) ∧
            a.find (a.keyPrefix ++ key) = none := by
            simpa [or_iff_not_imp_left] using h2
        exact ⟨h1'.1, h1'.2, h2'.1, h2'.2, by simpa using h3, h.symm⟩

theorem addOption_inv {a b : Arguments} {shortKey : Char} {key defaultValue : String}
    (h : a.addOption shortKey key defaultValue = .ok b) :
    verifyShortKey shortKey = true ∧ verifyKey key = true ∧
    (shortKey = Char.ofNat 0 ∨ a.findShort shortKey = none) ∧
    a.find (a.keyPrefix ++ key) = none ∧
    (a.keyPrefix.data.isEmpty = true ∨ shortKey = Char.ofNat 0) ∧
    a.skippedPrefix key = false ∧
    b = { a with entries := a.entries ++
                   [⟨.Option, shortKey, a.stored key, defaultValue, a.values.length⟩],
                 values := a.values ++ [""] } := by
  simp only [Arguments.addOption] at h
  split at h
  · cases h
  · rename_i h1
    split at h
    · cases h
    · rename_i h2
      split at h
      · cases h
      · rename_i h3
        split at h
        · cases h
        · rename_i h4
          simp only [Entry.make, true_or, if_true, Except.ok.injEq] at h
          have h1' : verifyShortKey shortKey = true ∧ verifyKey key = true := by
            simpa using h1
          have h2' : (shortKey = Char.ofNat 0 ∨ a.findShort shortKey = none) ∧
              a.find (a.keyPrefix ++ key) = none := by
            simpa [or_iff_not_imp_left] using h2
          have h3' : a.keyPrefix.data.isEmpty = true ∨ shortKey = Char.ofNat 0 := by
            simpa [or_iff_not_imp_left] using h3
          exact ⟨h1'.1, h1'.2, h2'.1, h2'.2, h3', by simpa using h4, h.symm⟩

theorem addBooleanOption_inv {a b : Arguments} {shortKey : Char} {key : String}
    (h : a.addBooleanOption shortKey key = .ok b) :
    verifyShortKey shortKey = true ∧ verifyKey key = true ∧
    (shortKey = Char.ofNat 0 ∨ a.findShort shortKey = none) ∧
    a.find key = none ∧
    (a.keyPrefix.data.isEmpty = true ∨ key = "help") ∧
    a.skippedPrefix key = false ∧
    b = { a with entries := a.entries ++
                   [⟨.BooleanOption, shortKey, a.stored key, "", a.booleans.length⟩],
                 booleans := a.booleans ++ [false] } := by
  simp only [Arguments.addBooleanOption] at h
  split at h
  · cases h
  · rename_i h1
    split at h
    · cases h
    · rename_i h2
      split at h
      · cases h
      · rename_i h3
        split at h
        · cases h
        · rename_i h4
          have hmake : ∀ k, Entry.make .BooleanOption shortKey k "" a.booleans.length
              = .ok ⟨.BooleanOption, shortKey, k, "", a.booleans.length⟩ := fun _ => rfl
          rw [hmake] at h
          simp only [Except.ok.injEq] at h
          have h1' : verifyShortKey shortKey = true ∧ verifyKey key = true := by
            simpa using h1
          have h2' : (shortKey = Char.ofNat 0 ∨ a.findShort shortKey = none) ∧
              a.find key = none := by
            simpa [or_iff_not_imp_left] using h2
          have h3' : a.keyPrefix.data.isEmpty = true ∨ key = "help" := by
            simpa [or_iff_not_imp_left] using h3
          exact ⟨h1'.1, h1'.2, h2'.1, h2'.2, h3', by simpa using h4, h.symm⟩

theorem addSkippedPrefix_inv {a b : Arguments} {start : String}
    (h : a.addSkippedPrefix start = .ok b) :
    a.skippedPrefix start = false ∧
    (∀ e ∈ a.entries, keyHasPrefix e.key start = false) ∧
    b = { a with skippedPrefixes := a.skippedPrefixes ++ [start ++ "-"] } := by
  simp only [Arguments.addSkippedPrefix] at h
  split at h
  · cases h
  · rename_i h1
    split at h
    · cases h
    · rename_i h2
      simp only [Except.ok.injEq] at h
      refine ⟨by simpa using h1, ?_, h.symm⟩
      simpa using h2

theorem tryParse_schema {a b : Arguments} {argv : List String} {status : Bool}
    (h : a.tryParse argv = .ok (status, b)) :
    b.keyPrefix = a.keyPrefix ∧ b.entries = a.entries ∧
    b.skippedPrefixes = a.skippedPrefixes := by
  simp only [Arguments.tryParse] at h
  split at h
  · cases h
  · split at h
    · cases h
    · split at h
      · cases h; exact ⟨rfl, rfl, rfl⟩
      · split at h <;> cases h <;> exact ⟨rfl, rfl, rfl⟩

theorem setHelp_inv {a b : Arguments} {key : String} (h : a.setHelp key = .ok b) : b = a := by
  simp only [Arguments.setHelp] at h
  split at h
  · cases h
  · cases h; rfl

/-! ## Uniqueness and syntax of keys -/

/-- C29, on the code: in a prefixed parser `addBooleanOption("help")` looks for the key
`help`, while the entry of the constructor is stored under `P-help`; the operation is
accepted and a second entry with the key `P-help` is stored. The unprefixed parser rejects
the same operation, and the prefixed parser rejects `addOption("help")`, which looks for
`P-help`. -/
theorem prefixed_help_added_twice :
    keysOf ((Arguments.createPrefixed "P").bind
      (fun a => a.addBooleanOption (Char.ofNat 0) "help")) = some ["P-help", "P-help"] ∧
    keysOf (Arguments.create.bind (fun a => a.addBooleanOption (Char.ofNat 0) "help")) = none ∧
    keysOf ((Arguments.createPrefixed "P").bind
      (fun a => a.addOption (Char.ofNat 0) "help" "")) = none := by
  decide

/-- C30, counterexample: `addArgument("x")` and `addArgument("in put")` are accepted on
`Arguments()`, although neither key passes `verifyKey`. -/
theorem addArgument_accepts_unverified_key :
    verifyKey "x" = false ∧ verifyKey "in put" = false ∧
    keysOf (Arguments.create.bind (fun a => a.addArgument "x")) = some ["help", "x"] ∧
    keysOf (Arguments.create.bind (fun a => a.addArgument "in put"))
      = some ["help", "in put"] := by
  decide

theorem stored_congr {a b : Arguments} (h : b.keyPrefix = a.keyPrefix) (k : String) :
    b.stored k = a.stored k := by
  simp only [Arguments.stored, h]

/-- In every parser built by accepted operations a positional has a non-empty key, and
every other entry has a short key that passes `verifyKey(char)` and, behind the prefix of the
parser, a key that passes `verifyKey`; the operations other than `addArgument` reject every
key that does not pass, and `addArgument` rejects the empty key. -/
theorem keys_verified (a : Arguments) (h : Built a) :
    (∀ e ∈ a.entries,
      (e.type = .Argument → e.key.data.isEmpty = false) ∧
      (e.type ≠ .Argument → verifyShortKey e.shortKey = true ∧
        ∃ k, verifyKey k = true ∧ e.key = a.stored k)) ∧
    (∀ s k, (verifyShortKey s && verifyKey k) = false → ∀ d,
      a.addNamedArgument s k = .error .assertion ∧ a.addOption s k d = .error .assertion ∧
      a.addBooleanOption s k = .error .assertion) ∧
    a.addArgument "" = .error .assertion := by
  refine ⟨?_, ?_, ?_⟩
  · induction h with
    | create a h =>
      have ha : a = ⟨"", "", [⟨.BooleanOption, 'h', "help", "", 0⟩], [], [false], []⟩ := by
        have : Arguments.create
            = .ok ⟨"", "", [⟨.BooleanOption, 'h', "help", "", 0⟩], [], [false], []⟩ := rfl
        rw [this] at h
        exact (Except.ok.inj h).symm
      subst ha
      intro e he
      simp only [List.mem_singleton] at he
      subst he
      exact ⟨fun hc => (by cases hc), fun _ => ⟨by decide, "help", by decide, rfl⟩⟩
    | createPrefixed start a h =>
      simp only [Arguments.createPrefixed] at h
      split at h
      · cases h
      · rename_i a1 h1
        have h2 := setHelp_inv h
        subst h2
        obtain ⟨_, hk, _, _, _, _, hb⟩ := addBooleanOption_inv h1
        subst hb
        intro e he
        simp only [Arguments.blank, List.nil_append, List.mem_singleton] at he
        subst he
        exact ⟨fun hc => (by cases hc),
          fun _ => ⟨(by decide : verifyShortKey (Char.ofNat 0) = true), "help", hk, rfl⟩⟩
    | addArgument a b key _ hop ih =>
      obtain ⟨_, hne, _, hb⟩ := addArgument_inv hop
      subst hb
      intro e he
      rcases List.mem_append.mp he with he | he
      · exact ih e he
      · simp only [List.mem_singleton] at he
        subst he
        exact ⟨fun _ => hne, fun hc => absurd rfl hc⟩
    | addNamedArgument a b shortKey key _ hop ih =>
      obtain ⟨hs, hk, _, _, hempty, hb⟩ := addNamedArgument_inv hop
      subst hb
      intro e he
      rcases List.mem_append.mp he with he | he
      · exact ih e he
      · simp only [List.mem_singleton] at he
        subst he
        exact ⟨fun hc => (by cases hc), fun _ => ⟨hs, key, hk, by simp [Arguments.stored, hempty]⟩⟩
    | addOption a b shortKey key defaultValue _ hop ih =>
      obtain ⟨hs, hk, _, _, _, _, hb⟩ := addOption_inv hop
      subst hb
      intro e he
      rcases List.mem_append.mp he with he | he
      · exact ih e he
      · simp only [List.mem_singleton] at he
        subst he
        exact ⟨fun hc => (by cases hc), fun _ => ⟨hs, key, hk, rfl⟩⟩
    | addBooleanOption a b shortKey key _ hop ih =>
      obtain ⟨hs, hk, _, _, _, _, hb⟩ := addBooleanOption_inv hop
      subst hb
      intro e he
      rcases List.mem_append.mp he with he | he
      · exact ih e he
      · simp only [List.mem_singleton] at he
        subst he
        exact ⟨fun hc => (by cases hc), fun _ => ⟨hs, key, hk, rfl⟩⟩
    | addSkippedPrefix a b start _ hop ih =>
      obtain ⟨_, _, hb⟩ := addSkippedPrefix_inv hop
      subst hb
      exact ih
    | tryParse a b argv status _ hop ih =>
      obtain ⟨h1, h2, _⟩ := tryParse_schema hop
      intro e he
      rw [h2] at he
      obtain ⟨c1, c2⟩ := ih e he
      refine ⟨c1, fun ht => ?_⟩
      obtain ⟨c3, k, c4, c5⟩ := c2 ht
      exact ⟨c3, k, c4, by rw [c5, stored_congr h1]⟩
  · intro s k hsk d
    have hcond : (!(verifyShortKey s && verifyKey k)) = true := by simp [hsk]
    simp only [Arguments.addNamedArgument, Arguments.addOption, Arguments.addBooleanOption,
      hcond, if_true, and_self]
  · simp only [Arguments.addArgument]
    split
    · rfl
    · rfl

theorem alphanum_bounds (c : Char) (h : c.isAlphanum = true) :
    (65 ≤ c.toNat ∧ c.toNat ≤ 90) ∨ (97 ≤ c.toNat ∧ c.toNat ≤ 122) ∨
    (48 ≤ c.toNat ∧ c.toNat ≤ 57) := by
  simp only [Char.isAlphanum, Char.isAlpha, Char.isUpper, Char.isLower, Char.isDigit,
    Bool.or_eq_true, Bool.and_eq_true, decide_eq_true_eq] at h
  simp only [UInt32.le_def, Fin.le_def] at h
  have e : c.toNat = c.val.val.val := rfl
  rw [e]
  rcases h with (h | h) | h
  · exact Or.inl ⟨h.1, h.2⟩
  · exact Or.inr (Or.inl ⟨h.1, h.2⟩)
  · exact Or.inr (Or.inr ⟨h.1, h.2⟩)

/-- The letters and digits are the characters of `allowedShort`. -/
theorem allowedShort_iff (c : Char) :
    allowedShort.data.contains c = true ↔ c.isAlphanum = true := by
  constructor
  · intro h
    have hall : ∀ x ∈ allowedShort.data, x.isAlphanum = true := by decide
    exact hall c (by simpa using h)
  · intro h
    have hb := alphanum_bounds c h
    have hc : c = Char.ofNat c.toNat := (Char.ofNat_toNat c).symm
    generalize c.toNat = n at hb hc
    subst hc
    rcases hb with ⟨h1, h2⟩ | ⟨h1, h2⟩ | ⟨h1, h2⟩ <;> interval_cases n <;> rfl

/-- The letters, the digits and `-` are the characters of `allowed`. -/
theorem allowed_iff (c : Char) :
    allowed.data.contains c = true ↔ (c.isAlphanum = true ∨ c = '-') := by
  constructor
  · intro h
    have hall : ∀ x ∈ allowed.data, x.isAlphanum = true ∨ x = '-' := by decide
    exact hall c (by simpa using h)
  · intro h
    rcases h with h | h
    · have hb := alphanum_bounds c h
      have hc : c = Char.ofNat c.toNat := (Char.ofNat_toNat c).symm
      generalize c.toNat = n at hb hc
      subst hc
      rcases hb with ⟨h1, h2⟩ | ⟨h1, h2⟩ | ⟨h1, h2⟩ <;> interval_cases n <;> rfl
    · subst h
      rfl

/-- The test `verifyKey` accepts the long keys of the specification and no others. -/
theorem verifyKey_iff (key : String) : verifyKey key = true ↔ LongKeySyntax key := by
  simp only [verifyKey, LongKeySyntax, Bool.and_eq_true, decide_eq_true_eq, List.all_eq_true,
    allowed_iff]
  constructor
  · intro h
    exact ⟨h.1, h.2⟩
  · intro h
    exact ⟨h.1, h.2⟩

/-- The test `verifyKey(char)` accepts the short keys of the specification and no
others. -/
theorem verifyShortKey_iff (c : Char) : verifyShortKey c = true ↔ ShortKeySyntax c := by
  simp only [verifyShortKey, ShortKeySyntax, Bool.or_eq_true, beq_iff_eq, allowedShort_iff]

/-- C30, amended: `addNamedArgument`, `addOption` and `addBooleanOption` reject a long key
that is not at least two characters drawn from letters, digits and `-`, and a short key that
is neither absent nor a letter or digit; `addArgument` rejects the empty key only. In every
parser built by accepted operations a positional has a non-empty key, and every other entry
has a short key that is absent, a letter or a digit and, behind the prefix of the parser, a
long key of at least two characters drawn from letters, digits and `-`. -/
theorem key_syntax (a : Arguments) (h : Built a) :
    (∀ e ∈ a.entries,
      (e.type = .Argument → e.key.data.isEmpty = false) ∧
      (e.type ≠ .Argument → ShortKeySyntax e.shortKey ∧
        ∃ k, LongKeySyntax k ∧ e.key = a.stored k)) ∧
    (∀ s k, ¬ (ShortKeySyntax s ∧ LongKeySyntax k) → ∀ d,
      a.addNamedArgument s k = .error .assertion ∧ a.addOption s k d = .error .assertion ∧
      a.addBooleanOption s k = .error .assertion) ∧
    a.addArgument "" = .error .assertion := by
  obtain ⟨h1, h2, h3⟩ := keys_verified a h
  refine ⟨fun e he => ⟨(h1 e he).1, fun hty => ?_⟩, fun s k hbad d => ?_, h3⟩
  · obtain ⟨hs, k, hk, hkey⟩ := (h1 e he).2 hty
    exact ⟨(verifyShortKey_iff _).mp hs, k, (verifyKey_iff k).mp hk, hkey⟩
  · refine h2 s k ?_ d
    cases hv : (verifyShortKey s && verifyKey k)
    · rfl
    · exfalso
      simp only [Bool.and_eq_true] at hv
      exact hbad ⟨(verifyShortKey_iff s).mp hv.1, (verifyKey_iff k).mp hv.2⟩

/-- C30, amended, at a concrete input: the parser with the positionals `a` and `b`. -/
theorem key_syntax_witness :
    (∀ e ∈ twoPositionals.entries,
      (e.type = .Argument → e.key.data.isEmpty = false) ∧
      (e.type ≠ .Argument → ShortKeySyntax e.shortKey ∧
        ∃ k, LongKeySyntax k ∧ e.key = twoPositionals.stored k)) ∧
    (∀ s k, ¬ (ShortKeySyntax s ∧ LongKeySyntax k) → ∀ d,
      twoPositionals.addNamedArgument s k = .error .assertion ∧
      twoPositionals.addOption s k d = .error .assertion ∧
      twoPositionals.addBooleanOption s k = .error .assertion) ∧
    twoPositionals.addArgument "" = .error .assertion :=
  key_syntax twoPositionals
    (Built.addArgument onePositional twoPositionals "b"
      (Built.addArgument plainParser onePositional "a" (Built.create plainParser rfl) rfl) rfl)

/-! ## The rounds of the token loop -/

theorem dispatch_cases {st : ParseState} {index : Nat} {entry : Entry} {r : Round}
    (h : Arguments.dispatch st (some (index, entry)) = .ok r) :
    (entry.type = .BooleanOption ∧ entry.id < st.booleans.length ∧
      r = .next { st with booleans := st.booleans.set entry.id true,
                          parsedArguments := st.parsedArguments.set index true } false) ∨
    (entry.type ≠ .BooleanOption ∧
      r = .next { st with valueFor := some (index, entry) } false) := by
  simp only [Arguments.dispatch] at h
  split at h
  · rename_i hb
    split at h
    · rename_i hid
      cases h
      exact Or.inl ⟨hb, hid, rfl⟩
    · cases h
  · rename_i hb
    cases h
    exact Or.inr ⟨hb, rfl⟩

/-- Every round of the token loop that returns does one of seven things: it leaves through
`return false`; it ignores the token (and perhaps the one after it); it reads the separator
`--`; it stores the token as the value that was waited for; it sets a boolean option; it
starts waiting for the value of an entry; or it stores the token in the next positional. -/
theorem round_cases (a : Arguments) (st : ParseState) (t : String) (r : Round)
    (h : a.round st t = .ok r) :
    r = .fail st ∨
    (st.valueFor = none ∧ ∃ skip, r = .next st skip) ∨
    (st.valueFor = none ∧ st.optionsAllowed = true ∧ a.keyPrefix.data.isEmpty = true ∧
      t.data = ['-', '-'] ∧ r = .next { st with optionsAllowed := false } false) ∨
    (∃ index entry, st.valueFor = some (index, entry) ∧ entry.type ≠ .BooleanOption ∧
      entry.id < st.values.length ∧
      r = .next { st with values := st.values.set entry.id t,
                          parsedArguments := st.parsedArguments.set index true,
                          valueFor := none } false) ∨
    (∃ index entry, st.valueFor = none ∧ st.optionsAllowed = true ∧
      a.LookedUp t index entry ∧ entry.type = .BooleanOption ∧
      entry.id < st.booleans.length ∧
      r = .next { st with booleans := st.booleans.set entry.id true,
                          parsedArguments := st.parsedArguments.set index true } false) ∨
    (∃ index entry, st.valueFor = none ∧ st.optionsAllowed = true ∧
      a.LookedUp t index entry ∧ entry.type ≠ .BooleanOption ∧
      r = .next { st with valueFor := some (index, entry) } false) ∨
    (∃ index entry, st.valueFor = none ∧ a.keyPrefix.data.isEmpty = true ∧
      a.findNextArgument st.nextArgument = some (index, entry) ∧
      entry.id < st.values.length ∧
      r = .next { st with values := st.values.set entry.id t,
                          parsedArguments := st.parsedArguments.set index true,
                          nextArgument := index + 1 } false) := by
  simp only [Arguments.round] at h
  split at h
  · rename_i index entry hvf
    split at h
    · cases h
    · rename_i hb
      split at h
      · rename_i hid
        cases h
        exact Or.inr (Or.inr (Or.inr (Or.inl ⟨index, entry, hvf, hb, hid, rfl⟩)))
      · cases h
  · rename_i hvf
    split at h
    · rename_i hcond
      have hopt : st.optionsAllowed = true := by
        simp only [Bool.and_eq_true] at hcond
        exact hcond.1.1
      have hhead : t.data.head? = some '-' := by
        simp only [Bool.and_eq_true, beq_iff_eq] at hcond
        exact hcond.2
      split at h
      · rename_i hlen
        split at h
        · cases h
          exact Or.inr (Or.inl ⟨hvf, false, rfl⟩)
        · rename_i hplain
          have hplain : a.keyPrefix.data.isEmpty = true := by simpa using hplain
          split at h
          · rename_i hkey
            cases h
            refine Or.inr (Or.inr (Or.inl ⟨hvf, hopt, hplain, ?_, rfl⟩))
            match hd : t.data, hlen, hhead, hkey with
            | [c1, c2], _, hh, hk =>
              simp only [List.head?_cons, Option.some.injEq] at hh
              simp only [List.getD_cons_succ, List.getD_cons_zero] at hk
              rw [hh, hk]
          · split at h
            · cases h; exact Or.inl rfl
            · split at h
              · cases h; exact Or.inl rfl
              · rename_i found hfound
                obtain ⟨index, entry⟩ := found
                rcases dispatch_cases h with ⟨hb, hid, hr⟩ | ⟨hb, hr⟩
                · exact Or.inr (Or.inr (Or.inr (Or.inr (Or.inl
                    ⟨index, entry, hvf, hopt, Or.inl ⟨hhead, hlen, hfound⟩, hb, hid, hr⟩))))
                · exact Or.inr (Or.inr (Or.inr (Or.inr (Or.inr (Or.inl
                    ⟨index, entry, hvf, hopt, Or.inl ⟨hhead, hlen, hfound⟩, hb, hr⟩)))))
      · split at h
        · split at h
          · rename_i hdashes
            split at h
            · cases h; exact Or.inl rfl
            · split at h
              · cases h
                exact Or.inr (Or.inl ⟨hvf, false, rfl⟩)
              · split at h
                · split at h
                  · cases h; exact Or.inr (Or.inl ⟨hvf, true, rfl⟩)
                  · cases h; exact Or.inr (Or.inl ⟨hvf, false, rfl⟩)
                · split at h
                  · cases h; exact Or.inl rfl
                  · rename_i found hfound
                    obtain ⟨index, entry⟩ := found
                    rcases dispatch_cases h with ⟨hb, hid, hr⟩ | ⟨hb, hr⟩
                    · exact Or.inr (Or.inr (Or.inr (Or.inr (Or.inl
                        ⟨index, entry, hvf, hopt, Or.inr ⟨hdashes, hfound⟩, hb, hid, hr⟩))))
                    · exact Or.inr (Or.inr (Or.inr (Or.inr (Or.inr (Or.inl
                        ⟨index, entry, hvf, hopt, Or.inr ⟨hdashes, hfound⟩, hb, hr⟩)))))
          · cases h; exact Or.inl rfl
        · simp [Arguments.dispatch] at h
    · split at h
      · cases h
        exact Or.inr (Or.inl ⟨hvf, false, rfl⟩)
      · rename_i hplain
        have hplain : a.keyPrefix.data.isEmpty = true := by simpa using hplain
        split at h
        · cases h; exact Or.inl rfl
        · rename_i index entry hnext
          split at h
          · rename_i hid
            cases h
            exact Or.inr (Or.inr (Or.inr (Or.inr (Or.inr (Or.inr
              ⟨index, entry, hvf, hplain, hnext, hid, rfl⟩)))))
          · cases h

/-! ## Invariants of the token loop and of the schema -/

/-- A property of the parse state that every round keeps holds when the token loop has
ended. -/
theorem rounds_invariant (a : Arguments) (I : ParseState → Prop) (M : String → Prop)
    (hstep : ∀ st t st1, I st → M t →
      (a.round st t = .ok (.fail st1) ∨ ∃ skip, a.round st t = .ok (.next st1 skip)) → I st1) :
    ∀ (tokens : List String) (skip : Bool) (st : ParseState) (b : Bool) (st' : ParseState),
      (∀ t ∈ tokens, M t) → I st → a.rounds tokens skip st = .ok (b, st') → I st' := by
  intro tokens
  induction tokens with
  | nil =>
    intro skip st b st' _ hI h
    simp only [Arguments.rounds, Except.ok.injEq, Prod.mk.injEq] at h
    exact h.2 ▸ hI
  | cons t ts ih =>
    intro skip st b st' hM hI h
    have hts : ∀ x ∈ ts, M x := fun x hx => hM x (List.mem_cons_of_mem _ hx)
    cases skip with
    | true =>
      simp only [Arguments.rounds] at h
      exact ih false st b st' hts hI h
    | false =>
      simp only [Arguments.rounds] at h
      split at h
      · cases h
      · rename_i st1 hr
        simp only [Except.ok.injEq, Prod.mk.injEq] at h
        exact h.2 ▸ hstep st t st1 hI (hM t (List.mem_cons_self _ _)) (Or.inl hr)
      · rename_i st1 skip1 hr
        exact ih skip1 st1 b st' hts
          (hstep st t st1 hI (hM t (List.mem_cons_self _ _)) (Or.inr ⟨skip1, hr⟩)) h

theorem round_lengths (a : Arguments) (st st1 : ParseState) (t : String)
    (h : a.round st t = .ok (.fail st1) ∨ ∃ skip, a.round st t = .ok (.next st1 skip)) :
    st1.values.length = st.values.length ∧ st1.booleans.length = st.booleans.length ∧
    st1.parsedArguments.length = st.parsedArguments.length := by
  have key : ∀ r, a.round st t = .ok r → (r = .fail st1 ∨ ∃ skip, r = .next st1 skip) →
      st1.values.length = st.values.length ∧ st1.booleans.length = st.booleans.length ∧
      st1.parsedArguments.length = st.parsedArguments.length := by
    intro r hr hshape
    rcases round_cases a st t r hr with h1 | ⟨_, _, h1⟩ | ⟨_, _, _, _, h1⟩ |
      ⟨_, _, _, _, _, h1⟩ | ⟨_, _, _, _, _, _, _, h1⟩ | ⟨_, _, _, _, _, _, h1⟩ |
      ⟨_, _, _, _, _, _, h1⟩ <;>
    · subst h1
      (rcases hshape with hs | ⟨_, hs⟩ <;> cases hs)
      simp
  rcases h with h | ⟨skip, h⟩
  · exact key _ h (Or.inl rfl)
  · exact key _ h (Or.inr ⟨skip, rfl⟩)

theorem rounds_lengths (a : Arguments) (tokens : List String) (skip : Bool)
    (st st' : ParseState) (b : Bool) (h : a.rounds tokens skip st = .ok (b, st')) :
    st'.values.length = st.values.length ∧ st'.booleans.length = st.booleans.length ∧
    st'.parsedArguments.length = st.parsedArguments.length := by
  refine rounds_invariant a
    (fun s => s.values.length = st.values.length ∧ s.booleans.length = st.booleans.length ∧
      s.parsedArguments.length = st.parsedArguments.length) (fun _ => True) ?_
    tokens skip st b st' (fun _ _ => trivial) ⟨rfl, rfl, rfl⟩ h
  intro s t s1 hI _ hr
  obtain ⟨h1, h2, h3⟩ := round_lengths a s s1 t hr
  exact ⟨h1.trans hI.1, h2.trans hI.2.1, h3.trans hI.2.2⟩

theorem clearValues_length (l : List Entry) : ∀ (values v : List String),
    clearValues l values = .ok v → v.length = values.length := by
  induction l with
  | nil => intro values v h; cases h; rfl
  | cons e l ih =>
    intro values v h
    simp only [clearValues] at h
    split at h
    · exact ih _ _ h
    · split at h
      · rw [ih _ _ h, List.length_set]
      · cases h

theorem tryParse_inv {a b : Arguments} {argv : List String} {status : Bool}
    (h : a.tryParse argv = .ok (status, b)) :
    ∃ v finished st, clearValues a.entries a.values = .ok v ∧
      a.rounds (argv.drop 1) false
        { values := v, booleans := a.booleans.map (fun _ => false), valueFor := none,
          optionsAllowed := true, nextArgument := 0,
          parsedArguments := List.replicate a.entries.length false } = .ok (finished, st) ∧
      b = { a with command := if a.command.data.isEmpty then argv.headD a.command
                              else a.command,
                   values := st.values, booleans := st.booleans } ∧
      status = (finished && !st.valueFor.isSome &&
        missingCheck a.entries st.parsedArguments) := by
  simp only [Arguments.tryParse] at h
  split at h
  · cases h
  · rename_i v hv
    split at h
    · cases h
    · rename_i finished st hr
      refine ⟨v, finished, st, hv, hr, ?_, ?_⟩
      · split at h
        · cases h; rfl
        · split at h <;> cases h <;> rfl
      · split at h
        · rename_i hf
          cases h
          simp only [Bool.not_eq_true'] at hf
          simp [hf]
        · rename_i hf
          have hf : finished = true := by simpa using hf
          split at h
          · rename_i hw
            cases h
            simp [hw]
          · rename_i hw
            cases h
            simp [hf, hw]

theorem tryParse_lengths {a b : Arguments} {argv : List String} {status : Bool}
    (h : a.tryParse argv = .ok (status, b)) :
    b.values.length = a.values.length ∧ b.booleans.length = a.booleans.length := by
  obtain ⟨v, finished, st, hv, hr, hb, _⟩ := tryParse_inv h
  obtain ⟨h1, h2, _⟩ := rounds_lengths a _ _ _ _ _ hr
  subst hb
  exact ⟨h1.trans (clearValues_length _ _ _ hv), h2.trans (by simp)⟩

/-- Every parser built by accepted operations is well formed. -/
theorem Built.wellFormed {a : Arguments} (h : Built a) : a.WellFormed := by
  induction h with
  | create a h =>
    have ha : a = ⟨"", "", [⟨.BooleanOption, 'h', "help", "", 0⟩], [], [false], []⟩ := by
      have : Arguments.create
          = .ok ⟨"", "", [⟨.BooleanOption, 'h', "help", "", 0⟩], [], [false], []⟩ := rfl
      rw [this] at h
      exact (Except.ok.inj h).symm
    subst ha
    exact ⟨by decide, by decide, fun hc => by cases hc⟩
  | createPrefixed start a h =>
    simp only [Arguments.createPrefixed] at h
    split at h
    · cases h
    · rename_i a1 h1
      have h2 := setHelp_inv h
      subst h2
      obtain ⟨_, _, _, _, _, _, hb⟩ := addBooleanOption_inv h1
      subst hb
      refine ⟨by simp [Arguments.blank], by simp [Arguments.blank, List.range_succ], ?_⟩
      intro _ e he
      simp only [Arguments.blank, List.nil_append, List.mem_singleton] at he
      subst he
      exact Or.inr rfl
  | addArgument a b key _ hop ih =>
    obtain ⟨hplain, _, _, hb⟩ := addArgument_inv hop
    subst hb
    refine ⟨?_, ?_, fun hc => ?_⟩
    · simp [List.filter_append, ih.valueIds, List.range_succ]
    · simp [List.filter_append, ih.booleanIds]
    · simp only at hc
      rw [hplain] at hc
      cases hc
  | addNamedArgument a b shortKey key _ hop ih =>
    obtain ⟨_, _, _, _, hplain, hb⟩ := addNamedArgument_inv hop
    subst hb
    refine ⟨?_, ?_, fun hc => ?_⟩
    · simp [List.filter_append, ih.valueIds, List.range_succ]
    · simp [List.filter_append, ih.booleanIds]
    · simp only at hc
      rw [hplain] at hc
      cases hc
  | addOption a b shortKey key defaultValue _ hop ih =>
    obtain ⟨_, _, _, _, _, _, hb⟩ := addOption_inv hop
    subst hb
    refine ⟨?_, ?_, fun hc e he => ?_⟩
    · simp [List.filter_append, ih.valueIds, List.range_succ]
    · simp [List.filter_append, ih.booleanIds]
    · rcases List.mem_append.mp he with he | he
      · exact ih.prefixed hc e he
      · simp only [List.mem_singleton] at he
        subst he
        exact Or.inl rfl
  | addBooleanOption a b shortKey key _ hop ih =>
    obtain ⟨_, _, _, _, _, _, hb⟩ := addBooleanOption_inv hop
    subst hb
    refine ⟨?_, ?_, fun hc e he => ?_⟩
    · simp [List.filter_append, ih.valueIds]
    · simp [List.filter_append, ih.booleanIds, List.range_succ]
    · rcases List.mem_append.mp he with he | he
      · exact ih.prefixed hc e he
      · simp only [List.mem_singleton] at he
        subst he
        exact Or.inr rfl
  | addSkippedPrefix a b start _ hop ih =>
    obtain ⟨_, _, hb⟩ := addSkippedPrefix_inv hop
    subst hb
    exact ⟨ih.valueIds, ih.booleanIds, ih.prefixed⟩
  | tryParse a b argv status _ hop ih =>
    obtain ⟨h1, h2, _⟩ := tryParse_schema hop
    obtain ⟨h3, h4⟩ := tryParse_lengths hop
    exact ⟨by rw [h2, h3]; exact ih.valueIds, by rw [h2, h4]; exact ih.booleanIds,
      fun hc => by rw [h2]; exact ih.prefixed (h1 ▸ hc)⟩

theorem Arguments.WellFormed.valueRange {a : Arguments} (h : a.WellFormed) :
    ∀ e ∈ a.entries, e.type ≠ .BooleanOption → e.id < a.values.length := by
  intro e he ht
  have hm : e.id ∈ (a.entries.filter (fun e => e.type != .BooleanOption)).map (fun e => e.id) :=
    List.mem_map.mpr ⟨e, List.mem_filter.mpr ⟨he, by simpa using ht⟩, rfl⟩
  rw [h.valueIds] at hm
  exact List.mem_range.mp hm

theorem Arguments.WellFormed.valueNodup {a : Arguments} (h : a.WellFormed) :
    ((a.entries.filter (fun e => e.type != .BooleanOption)).map (fun e => e.id)).Nodup := by
  rw [h.valueIds]
  exact List.nodup_range _

theorem Arguments.WellFormed.booleanRange {a : Arguments} (h : a.WellFormed) :
    ∀ e ∈ a.entries, e.type = .BooleanOption → e.id < a.booleans.length := by
  intro e he ht
  have hm : e.id ∈ (a.entries.filter (fun e => e.type == .BooleanOption)).map (fun e => e.id) :=
    List.mem_map.mpr ⟨e, List.mem_filter.mpr ⟨he, by simpa using ht⟩, rfl⟩
  rw [h.booleanIds] at hm
  exact List.mem_range.mp hm

theorem Arguments.WellFormed.booleanNodup {a : Arguments} (h : a.WellFormed) :
    ((a.entries.filter (fun e => e.type == .BooleanOption)).map (fun e => e.id)).Nodup := by
  rw [h.booleanIds]
  exact List.nodup_range _

/-! ## Cleared values -/

theorem clearValues_get (l : List Entry) : ∀ (values v : List String),
    clearValues l values = .ok v →
    ((l.filter (fun e => e.type != .BooleanOption)).map (fun e => e.id)).Nodup →
    (∀ e ∈ l, e.type ≠ .BooleanOption → v[e.id]? = some e.defaultValue) ∧
    (∀ i, (∀ e ∈ l, e.type ≠ .BooleanOption → e.id ≠ i) → v[i]? = values[i]?) := by
  induction l with
  | nil =>
    intro values v h _
    cases h
    exact ⟨fun e he => (by cases he), fun _ _ => rfl⟩
  | cons a l ih =>
    intro values v h hnd
    simp only [clearValues] at h
    by_cases ha : a.type = .BooleanOption
    · simp only [ha, if_true] at h
      have hnd' : ((l.filter (fun e => e.type != .BooleanOption)).map (fun e => e.id)).Nodup := by
        simpa [List.filter_cons, ha] using hnd
      obtain ⟨h1, h2⟩ := ih values v h hnd'
      refine ⟨fun e he ht => ?_, fun i hi => h2 i (fun e he => hi e (List.mem_cons_of_mem _ he))⟩
      rcases List.mem_cons.mp he with rfl | he
      · exact absurd ha ht
      · exact h1 e he ht
    · simp only [ha, if_false] at h
      split at h
      · rename_i hid
        have hnd' : a.id ∉ (l.filter (fun e => e.type != .BooleanOption)).map (fun e => e.id) ∧
            ((l.filter (fun e => e.type != .BooleanOption)).map (fun e => e.id)).Nodup := by
          simpa [List.filter_cons, ha] using hnd
        obtain ⟨h1, h2⟩ := ih _ v h hnd'.2
        refine ⟨fun e he ht => ?_, fun i hi => ?_⟩
        · rcases List.mem_cons.mp he with rfl | he
          · rw [h2 e.id]
            · exact List.getElem?_set_self hid
            · intro e' he' ht' hc
              exact hnd'.1 (List.mem_map.mpr
                ⟨e', List.mem_filter.mpr ⟨he', by simpa using ht'⟩, hc⟩)
          · exact h1 e he ht
        · rw [h2 i (fun e he => hi e (List.mem_cons_of_mem _ he))]
          exact List.getElem?_set_ne (hi a (List.mem_cons_self _ _) ha)
      · cases h

theorem missingCheck_optional (l : List Entry) (parsed : List Bool)
    (h : ∀ e ∈ l, e.type = .Option ∨ e.type = .BooleanOption) :
    missingCheck l parsed = true := by
  simp only [missingCheck, List.all_eq_true]
  intro x hx
  have hmem : x.1 ∈ l := (List.of_mem_zip hx).1
  rcases h x.1 hmem with ht | ht <;> simp [ht]

/-! ## A prefixed parser and foreign tokens -/

/-- C22, counterexample: the parser `Arguments("P")` with the option `level` returns `false`
for `prog -abc` and for `prog --x`, in which no token begins with `--P-`, and fails the
internal assertion for `prog -`. -/
theorem prefixed_parser_rejects_foreign_tokens :
    statusOf (prefixedParser.tryParse ["prog", "-abc"]) = some false ∧
    statusOf (prefixedParser.tryParse ["prog", "--x"]) = some false ∧
    faultOf (prefixedParser.tryParse ["prog", "-"]) = some .assertion := by
  decide

theorem round_foreign (a : Arguments) (st : ParseState) (t : String)
    (hpre : a.keyPrefix.data.isEmpty = false) (hvf : st.valueFor = none)
    (ht : t.data.head? ≠ some '-' ∨ t.data.length = 2 ∨
      (t.data.take 2 = ['-', '-'] ∧ 2 < t.data.length ∧
        verifyKey (String.mk (t.data.drop 2)) = true ∧
        keyHasPrefix (String.mk (t.data.drop 2)) a.keyPrefix = false)) :
    a.round st t = .ok (.next st false) := by
  simp only [Arguments.round, hvf]
  split
  · rename_i hcond
    have hhead : t.data.head? = some '-' := by
      simp only [Bool.and_eq_true, beq_iff_eq] at hcond
      exact hcond.2
    split
    · split
      · rfl
      · rename_i hc
        simp [hpre] at hc
    · rename_i hne
      rcases ht with ht | ht | ⟨h1, h2, h3, h4⟩
      · exact absurd hhead ht
      · exact absurd ht hne
      · rw [if_pos h2, if_pos h1]
        simp only [h3, Bool.not_true, Bool.false_eq_true, if_false, hpre, h4, Bool.not_false,
          Bool.and_self, if_true]
  · split
    · rfl
    · rename_i hc
      simp [hpre] at hc

/-- C22, amended: on a prefixed parser `tryParse` returns `true`, with every value at its
default and every flag `false`, for every `argv` in which each token after `argv[0]` either
does not begin with `-`, or has two characters, or is `--` followed by a key that passes
`verifyKey` and does not begin with the prefix of the parser. -/
theorem prefixed_ignores_foreign (a : Arguments) (hwf : a.WellFormed)
    (hpre : a.keyPrefix.data.isEmpty = false) (arg0 : String) (tokens : List String)
    (hforeign : ∀ t ∈ tokens, t.data.head? ≠ some '-' ∨ t.data.length = 2 ∨
      (t.data.take 2 = ['-', '-'] ∧ 2 < t.data.length ∧
        verifyKey (String.mk (t.data.drop 2)) = true ∧
        keyHasPrefix (String.mk (t.data.drop 2)) a.keyPrefix = false)) :
    ∃ a', a.tryParse (arg0 :: tokens) = .ok (true, a') ∧
      (∀ e ∈ a.entries, e.type ≠ .BooleanOption → a'.values[e.id]? = some e.defaultValue) ∧
      (∀ b ∈ a'.booleans, b = false) := by
  obtain ⟨v, hv, _⟩ := clearValues_ok a.entries a.values hwf.valueRange
  have hloop : ∀ (ts : List String) (st : ParseState), st.valueFor = none →
      (∀ t ∈ ts, t.data.head? ≠ some '-' ∨ t.data.length = 2 ∨
        (t.data.take 2 = ['-', '-'] ∧ 2 < t.data.length ∧
          verifyKey (String.mk (t.data.drop 2)) = true ∧
          keyHasPrefix (String.mk (t.data.drop 2)) a.keyPrefix = false)) →
      a.rounds ts false st = .ok (true, st) := by
    intro ts
    induction ts with
    | nil => intro st _ _; rfl
    | cons t ts ih =>
      intro st hvf hts
      simp only [Arguments.rounds,
        round_foreign a st t hpre hvf (hts t (List.mem_cons_self _ _))]
      exact ih st hvf (fun x hx => hts x (List.mem_cons_of_mem _ hx))
  refine ⟨{ a with
      command := if a.command.data.isEmpty then (arg0 :: tokens).headD a.command
        else a.command
      values := v
      booleans := a.booleans.map (fun _ => false) }, ?_, ?_, ?_⟩
  · have hrun := hloop tokens
      { values := v, booleans := a.booleans.map (fun _ => false), valueFor := none,
        optionsAllowed := true, nextArgument := 0,
        parsedArguments := List.replicate a.entries.length false } rfl hforeign
    simp only [Arguments.tryParse, hv, List.drop_succ_cons, List.drop_zero, hrun,
      Bool.not_true, Bool.false_eq_true, if_false, Option.isSome_none,
      missingCheck_optional a.entries _ (hwf.prefixed hpre)]
  · exact (clearValues_get a.entries a.values v hv hwf.valueNodup).1
  · intro b hb
    simp only [List.mem_map] at hb
    obtain ⟨_, _, rfl⟩ := hb
    rfl

/-- C22, amended, at a concrete input: short options, positionals, the separator and long
options of others on the parser `Arguments("P")` with the option `level`. -/
theorem prefixed_ignores_foreign_witness :
    ∃ a', prefixedParser.tryParse ("prog" :: ["-v", "file", "--other", "--", "--Q-level"])
        = .ok (true, a') ∧
      (∀ e ∈ prefixedParser.entries, e.type ≠ .BooleanOption →
        a'.values[e.id]? = some e.defaultValue) ∧
      (∀ b ∈ a'.booleans, b = false) :=
  prefixed_ignores_foreign prefixedParser ⟨by decide, by decide, by decide⟩ (by decide) "prog"
    ["-v", "file", "--other", "--", "--Q-level"] (by decide)

/-! ## The separator and the value of a key -/

theorem round_separator (a : Arguments) (st : ParseState) (hplain : a.keyPrefix = "")
    (hvf : st.valueFor = none) (hopt : st.optionsAllowed = true) :
    a.round st "--" = .ok (.next { st with optionsAllowed := false } false) := by
  have hlen : "--".data.length = 2 := rfl
  have hhead : "--".data.head? = some '-' := rfl
  have hkey : "--".data.getD 1 (Char.ofNat 0) = '-' := rfl
  simp only [Arguments.round, hvf, hopt, hlen, hhead, hkey, hplain]
  rfl

/-- C24, on the code: `addNamedArgument("foo-bar")` is accepted after
`addSkippedPrefix("foo")`, and `prog --foo-bar v` is then skipped as an option of the prefix
`foo`: `v` is not stored and `tryParse` returns `false`. Without the skipped prefix the token
after `--bar` or `-b` is stored whatever it is. -/
theorem named_argument_behind_skipped_key :
    keysOf ((Arguments.create.bind (fun a => a.addSkippedPrefix "foo")).bind
      (fun a => a.addNamedArgument (Char.ofNat 0) "foo-bar")) = some ["help", "foo-bar"] ∧
    parseSummary shadowedNamed ["prog", "--foo-bar", "v"] ["foo-bar"] ["help"]
      = some (false, [some ""], [some false]) ∧
    parseSummary namedParser ["prog", "--bar", "--help"] ["bar"] ["help"]
      = some (true, [some "--help"], [some false]) ∧
    parseSummary namedParser ["prog", "-b", "--"] ["bar"] ["help"]
      = some (true, [some "--"], [some false]) :=
  ⟨rfl, rfl, rfl, rfl⟩

/-! ## What a lookup finds -/

theorem firstIndex_some {p : Entry → Bool} {l : List Entry} {s i : Nat} {e : Entry}
    (h : firstIndex p l s = some (i, e)) : s ≤ i ∧ l[i - s]? = some e ∧ p e = true := by
  induction l generalizing s with
  | nil => cases h
  | cons a l ih =>
    simp only [firstIndex] at h
    split at h
    · rename_i ha
      simp only [Option.some.injEq, Prod.mk.injEq] at h
      obtain ⟨rfl, rfl⟩ := h
      exact ⟨Nat.le_refl _, by simp, ha⟩
    · obtain ⟨h1, h2, h3⟩ := ih h
      refine ⟨by omega, ?_, h3⟩
      have : i - s = (i - (s + 1)) + 1 := by omega
      rw [this, List.getElem?_cons_succ]
      exact h2

theorem Arguments.find_some {a : Arguments} {key : String} {i : Nat} {e : Entry}
    (h : a.find key = some (i, e)) : a.entries[i]? = some e ∧ e ∈ a.entries ∧ e.key = key := by
  obtain ⟨_, h2, h3⟩ := firstIndex_some h
  exact ⟨h2, List.getElem?_mem h2, by simpa using h3⟩

theorem Arguments.findShort_some {a : Arguments} {c : Char} {i : Nat} {e : Entry}
    (h : a.findShort c = some (i, e)) :
    a.entries[i]? = some e ∧ e ∈ a.entries ∧ e.shortKey = c := by
  obtain ⟨_, h2, h3⟩ := firstIndex_some h
  exact ⟨h2, List.getElem?_mem h2, by simpa using h3⟩

theorem Arguments.findNextArgument_some {a : Arguments} {start i : Nat} {e : Entry}
    (h : a.findNextArgument start = some (i, e)) :
    a.entries[i]? = some e ∧ e ∈ a.entries ∧ e.type = .Argument ∧ start ≤ i := by
  obtain ⟨h1, h2, h3⟩ := firstIndex_some h
  have h2' : a.entries[i]? = some e := by
    rw [List.getElem?_drop] at h2
    have : start + (i - start) = i := by omega
    rwa [this] at h2
  exact ⟨h2', List.getElem?_mem h2', by simpa [isArgument] using h3, h1⟩

/-- The entry an option token has led to is an entry of the schema, and the token is the
long or the short form of its key. -/
theorem Arguments.LookedUp.token {a : Arguments} {t : String} {i : Nat} {e : Entry}
    (h : a.LookedUp t i e) :
    a.entries[i]? = some e ∧ e ∈ a.entries ∧ (t = "--" ++ e.key ∨ t.data = ['-', e.shortKey]) := by
  rcases h with ⟨hhead, hlen, hf⟩ | ⟨hdash, hf⟩
  · obtain ⟨h1, h2, h3⟩ := Arguments.findShort_some hf
    refine ⟨h1, h2, Or.inr ?_⟩
    match hd : t.data, hlen, hhead, h3 with
    | [c1, c2], _, hh, hk =>
      simp only [List.head?_cons, Option.some.injEq] at hh
      simp only [List.getD_cons_succ, List.getD_cons_zero] at hk
      rw [hh, hk]
  · obtain ⟨h1, h2, h3⟩ := Arguments.find_some hf
    refine ⟨h1, h2, Or.inl ?_⟩
    apply String.ext
    have : ("--" ++ e.key).data = ['-', '-'] ++ e.key.data := by
      rw [String.data_append]
    rw [this, ← hdash, h3]
    simp

/-- Entries that share a slot of the same kind are the same entry. -/
theorem same_slot {l : List Entry} {p : Entry → Bool}
    (hnd : ((l.filter p).map (fun e => e.id)).Nodup) {i j : Nat} {e f : Entry}
    (hi : l[i]? = some e) (hj : l[j]? = some f) (he : p e = true) (hf : p f = true)
    (hid : e.id = f.id) : i = j := by
  induction l generalizing i j with
  | nil => simp at hi
  | cons a l ih =>
    by_cases ha : p a = true
    · simp only [List.filter_cons, ha, if_true, List.map_cons, List.nodup_cons] at hnd
      cases i with
      | zero =>
        cases j with
        | zero => rfl
        | succ j =>
          simp only [List.getElem?_cons_zero, Option.some.injEq] at hi
          simp only [List.getElem?_cons_succ] at hj
          subst hi
          exact absurd (List.mem_map.mpr
            ⟨f, List.mem_filter.mpr ⟨List.getElem?_mem hj, hf⟩, hid.symm⟩) hnd.1
      | succ i =>
        simp only [List.getElem?_cons_succ] at hi
        cases j with
        | zero =>
          simp only [List.getElem?_cons_zero, Option.some.injEq] at hj
          subst hj
          exact absurd (List.mem_map.mpr
            ⟨e, List.mem_filter.mpr ⟨List.getElem?_mem hi, he⟩, hid⟩) hnd.1
        | succ j =>
          simp only [List.getElem?_cons_succ] at hj
          rw [ih hnd.2 hi hj]
    · simp only [List.filter_cons, ha, if_false] at hnd
      cases i with
      | zero =>
        simp only [List.getElem?_cons_zero, Option.some.injEq] at hi
        subst hi
        exact absurd he ha
      | succ i =>
        simp only [List.getElem?_cons_succ] at hi
        cases j with
        | zero =>
          simp only [List.getElem?_cons_zero, Option.some.injEq] at hj
          subst hj
          exact absurd hf ha
        | succ j =>
          simp only [List.getElem?_cons_succ] at hj
          rw [ih hnd hi hj]

theorem same_slot_entry {l : List Entry} {p : Entry → Bool}
    (hnd : ((l.filter p).map (fun e => e.id)).Nodup) {e f : Entry}
    (he : e ∈ l) (hf : f ∈ l) (hpe : p e = true) (hpf : p f = true)
    (hid : e.id = f.id) : e = f := by
  obtain ⟨i, hi⟩ := List.mem_iff_getElem?.mp he
  obtain ⟨j, hj⟩ := List.mem_iff_getElem?.mp hf
  have := same_slot hnd hi hj hpe hpf hid
  subst this
  rw [hi] at hj
  exact Option.some.inj hj

/-! ## Keys that the command line does not name -/

/-- The state after a round that returns, in terms of the state before it. -/
theorem round_state_cases (a : Arguments) (st st1 : ParseState) (t : String)
    (h : a.round st t = .ok (.fail st1) ∨ ∃ skip, a.round st t = .ok (.next st1 skip)) :
    st1 = st ∨
    st1 = { st with optionsAllowed := false } ∨
    (∃ index entry, st.valueFor = some (index, entry) ∧ entry.type ≠ .BooleanOption ∧
      entry.id < st.values.length ∧
      st1 = { st with values := st.values.set entry.id t,
                      parsedArguments := st.parsedArguments.set index true,
                      valueFor := none }) ∨
    (∃ index entry, st.valueFor = none ∧ a.LookedUp t index entry ∧
      entry.type = .BooleanOption ∧ entry.id < st.booleans.length ∧
      st1 = { st with booleans := st.booleans.set entry.id true,
                      parsedArguments := st.parsedArguments.set index true }) ∨
    (∃ index entry, st.valueFor = none ∧ a.LookedUp t index entry ∧
      entry.type ≠ .BooleanOption ∧ st1 = { st with valueFor := some (index, entry) }) ∨
    (∃ index entry, st.valueFor = none ∧
      a.findNextArgument st.nextArgument = some (index, entry) ∧
      entry.id < st.values.length ∧
      st1 = { st with values := st.values.set entry.id t,
                      parsedArguments := st.parsedArguments.set index true,
                      nextArgument := index + 1 }) := by
  obtain ⟨r, hr, hshape⟩ : ∃ r, a.round st t = .ok r ∧
      (r = .fail st1 ∨ ∃ skip, r = .next st1 skip) := by
    rcases h with h | ⟨skip, h⟩
    · exact ⟨_, h, Or.inl rfl⟩
    · exact ⟨_, h, Or.inr ⟨skip, rfl⟩⟩
  · rcases round_cases a st t r hr with h1 | ⟨_, _, h1⟩ | ⟨_, _, _, _, h1⟩ |
      ⟨i, e, c1, c2, c3, h1⟩ | ⟨i, e, c1, _, c2, c3, c4, h1⟩ | ⟨i, e, c1, _, c2, c3, h1⟩ |
      ⟨i, e, c1, _, c2, c3, h1⟩
    · subst h1
      rcases hshape with hs | ⟨_, hs⟩
      · cases hs; exact Or.inl rfl
      · cases hs
    · subst h1
      rcases hshape with hs | ⟨_, hs⟩
      · cases hs
      · cases hs; exact Or.inl rfl
    · subst h1
      rcases hshape with hs | ⟨_, hs⟩
      · cases hs
      · cases hs; exact Or.inr (Or.inl rfl)
    · subst h1
      rcases hshape with hs | ⟨_, hs⟩
      · cases hs
      · cases hs; exact Or.inr (Or.inr (Or.inl ⟨i, e, c1, c2, c3, rfl⟩))
    · subst h1
      rcases hshape with hs | ⟨_, hs⟩
      · cases hs
      · cases hs; exact Or.inr (Or.inr (Or.inr (Or.inl ⟨i, e, c1, c2, c3, c4, rfl⟩)))
    · subst h1
      rcases hshape with hs | ⟨_, hs⟩
      · cases hs
      · cases hs; exact Or.inr (Or.inr (Or.inr (Or.inr (Or.inl ⟨i, e, c1, c2, c3, rfl⟩))))
    · subst h1
      rcases hshape with hs | ⟨_, hs⟩
      · cases hs
      · cases hs; exact Or.inr (Or.inr (Or.inr (Or.inr (Or.inr ⟨i, e, c1, c2, c3, rfl⟩))))

/-- A value-taking entry that no token names keeps its cleared value through the token
loop. -/
theorem rounds_keep_value (a : Arguments) (hwf : a.WellFormed) (e : Entry) (he : e ∈ a.entries)
    (hty : e.type = .Option) (tokens : List String)
    (habsent : ∀ t ∈ tokens, t ≠ "--" ++ e.key ∧ t.data ≠ ['-', e.shortKey])
    (skip : Bool) (st st' : ParseState) (b : Bool) (d : String)
    (hstart : st.values[e.id]? = some d) (hvf : st.valueFor = none)
    (h : a.rounds tokens skip st = .ok (b, st')) : st'.values[e.id]? = some d := by
  have hpe : (fun x : Entry => x.type != .BooleanOption) e = true := by simp [hty]
  have hdiff : ∀ f ∈ a.entries, f.type ≠ .BooleanOption → f ≠ e → f.id ≠ e.id := by
    intro f hf hft hne hid
    exact hne (same_slot_entry hwf.valueNodup hf he (by simpa using hft) hpe hid)
  have hinv := rounds_invariant a
    (fun s => s.values[e.id]? = some d ∧
      ∀ i f, s.valueFor = some (i, f) → f ∈ a.entries ∧ f ≠ e)
    (fun t => t ≠ "--" ++ e.key ∧ t.data ≠ ['-', e.shortKey]) ?_
    tokens skip st b st' habsent ⟨hstart, fun i f hc => by rw [hvf] at hc; cases hc⟩ h
  · exact hinv.1
  · intro s t s1 hI hM hr
    obtain ⟨hval, hwait⟩ := hI
    rcases round_state_cases a s s1 t hr with h1 | h1 | ⟨i, f, c1, c2, _, h1⟩ |
      ⟨i, f, c1, _, _, _, h1⟩ | ⟨i, f, c1, c2, c3, h1⟩ | ⟨i, f, c1, c2, _, h1⟩
    · subst h1; exact ⟨hval, hwait⟩
    · subst h1; exact ⟨hval, hwait⟩
    · subst h1
      obtain ⟨hf, hne⟩ := hwait i f c1
      refine ⟨?_, fun _ _ hc => by cases hc⟩
      simp only
      rw [List.getElem?_set_ne (hdiff f hf c2 hne)]
      exact hval
    · subst h1
      exact ⟨hval, fun j g hc => by simp only [c1] at hc; cases hc⟩
    · subst h1
      refine ⟨hval, fun j g hc => ?_⟩
      simp only [Option.some.injEq, Prod.mk.injEq] at hc
      obtain ⟨_, rfl⟩ := hc
      obtain ⟨_, hmem, htok⟩ := c2.token
      refine ⟨hmem, fun heq => ?_⟩
      subst heq
      rcases htok with htok | htok
      · exact hM.1 htok
      · exact hM.2 htok
    · subst h1
      obtain ⟨_, hmem, hft, _⟩ := Arguments.findNextArgument_some c2
      refine ⟨?_, fun j g hc => by simp only [c1] at hc; cases hc⟩
      simp only
      have hne : f ≠ e := by
        intro heq; subst heq; rw [hty] at hft; cases hft
      rw [List.getElem?_set_ne (hdiff f hmem (by rw [hft]; decide) hne)]
      exact hval

/-- A boolean option that no token names stays `false` through the token loop. -/
theorem rounds_keep_flag (a : Arguments) (hwf : a.WellFormed) (e : Entry) (he : e ∈ a.entries)
    (hty : e.type = .BooleanOption) (tokens : List String)
    (habsent : ∀ t ∈ tokens, t ≠ "--" ++ e.key ∧ t.data ≠ ['-', e.shortKey])
    (skip : Bool) (st st' : ParseState) (b : Bool)
    (hstart : st.booleans[e.id]? = some false)
    (h : a.rounds tokens skip st = .ok (b, st')) : st'.booleans[e.id]? = some false := by
  have hpe : (fun x : Entry => x.type == .BooleanOption) e = true := by simp [hty]
  refine rounds_invariant a (fun s => s.booleans[e.id]? = some false)
    (fun t => t ≠ "--" ++ e.key ∧ t.data ≠ ['-', e.shortKey]) ?_
    tokens skip st b st' habsent hstart h
  intro s t s1 hI hM hr
  rcases round_state_cases a s s1 t hr with h1 | h1 | ⟨i, f, _, _, _, h1⟩ |
    ⟨i, f, _, c2, c3, _, h1⟩ | ⟨i, f, _, _, _, h1⟩ | ⟨i, f, _, _, _, h1⟩
  · subst h1; exact hI
  · subst h1; exact hI
  · subst h1; exact hI
  · subst h1
    obtain ⟨_, hmem, htok⟩ := c2.token
    have hne : f ≠ e := by
      intro heq
      subst heq
      rcases htok with htok | htok
      · exact hM.1 htok
      · exact hM.2 htok
    have hid : f.id ≠ e.id := fun hid =>
      hne (same_slot_entry hwf.booleanNodup hmem he (by simp [c3]) hpe hid)
    simp only
    rw [List.getElem?_set_ne hid]
    exact hI
  · subst h1; exact hI
  · subst h1; exact hI

/-- C26: after a `tryParse` that returns, with `true` or with `false`, an option whose long
form `--key` and short form `-c` are not among the tokens has its default as value, and a
boolean option whose forms are not among the tokens is not set. -/
theorem absent_keys_keep_defaults (a : Arguments) (hwf : a.WellFormed) (argv : List String)
    (status : Bool) (parsed : Arguments) (h : a.tryParse argv = .ok (status, parsed))
    (k : String) (index : Nat) (e : Entry)
    (hfound : a.find (a.keyPrefix ++ k) = some (index, e))
    (habsent : ∀ t ∈ argv.drop 1, t ≠ "--" ++ e.key ∧ t.data ≠ ['-', e.shortKey]) :
    (e.type = .Option → parsed.value k = .ok e.defaultValue) ∧
    (e.type = .BooleanOption → parsed.isSet k = .ok false) := by
  obtain ⟨v, finished, st, hv, hr, hb, _⟩ := tryParse_inv h
  obtain ⟨_, hmem, _⟩ := Arguments.find_some hfound
  have hfound' : parsed.find (parsed.keyPrefix ++ k) = some (index, e) := by
    subst hb; exact hfound
  constructor
  · intro hty
    have hstart := (clearValues_get a.entries a.values v hv hwf.valueNodup).1 e hmem
      (by rw [hty]; decide)
    have hfin := rounds_keep_value a hwf e hmem hty _ habsent _ _ _ _ _ hstart rfl hr
    have hvals : parsed.values = st.values := by subst hb; rfl
    simp only [Arguments.value, hfound', hty, hvals, hfin]
    simp
  · intro hty
    have hlt := hwf.booleanRange e hmem hty
    have hstart : (a.booleans.map (fun _ => false))[e.id]? = some false := by
      rw [List.getElem?_map, List.getElem?_eq_getElem hlt]
      rfl
    have hfin := rounds_keep_flag a hwf e hmem hty _ habsent _ _ _ _ hstart hr
    have hbools : parsed.booleans = st.booleans := by subst hb; rfl
    simp only [Arguments.isSet, hfound', hty, hbools, hfin]
    simp

/-- C26 at a concrete input: `prog --bogus` on the parser with the option `level`;
`tryParse` returns `false` and the value of `level` is its default. -/
theorem absent_keys_keep_defaults_witness :
    ((⟨.Option, 'l', "level", "3", 0⟩ : Entry).type = .Option →
      (parsedAfter optionParser ["prog", "--bogus"]).value "level"
        = .ok (⟨.Option, 'l', "level", "3", 0⟩ : Entry).defaultValue) ∧
    ((⟨.Option, 'l', "level", "3", 0⟩ : Entry).type = .BooleanOption →
      (parsedAfter optionParser ["prog", "--bogus"]).isSet "level" = .ok false) :=
  absent_keys_keep_defaults optionParser ⟨by decide, by decide, by decide⟩ ["prog", "--bogus"]
    false (parsedAfter optionParser ["prog", "--bogus"]) rfl "level" 1
    ⟨.Option, 'l', "level", "3", 0⟩ rfl (by decide)

/-! ## The state of the loop after some tokens -/

theorem rounds_append (a : Arguments) (pre post : List String) :
    ∀ (skip : Bool) (st st1 : ParseState) (skip1 : Bool),
      a.runTo pre skip st = some (st1, skip1) →
      a.rounds (pre ++ post) skip st = a.rounds post skip1 st1 := by
  induction pre with
  | nil =>
    intro skip st st1 skip1 h
    simp only [Arguments.runTo, Option.some.injEq, Prod.mk.injEq] at h
    obtain ⟨rfl, rfl⟩ := h
    rfl
  | cons t ts ih =>
    intro skip st st1 skip1 h
    cases skip with
    | true =>
      simp only [Arguments.runTo] at h
      simp only [List.cons_append, Arguments.rounds]
      exact ih _ _ _ _ h
    | false =>
      simp only [Arguments.runTo] at h
      simp only [List.cons_append, Arguments.rounds]
      split at h
      · rename_i st2 skip2 hr
        rw [hr]
        exact ih _ _ _ _ h
      · cases h

theorem runTo_of_rounds (a : Arguments) (tokens : List String) :
    ∀ (skip : Bool) (st st' : ParseState),
      a.rounds tokens skip st = .ok (true, st') → ∃ skip', a.runTo tokens skip st = some (st', skip') := by
  induction tokens with
  | nil =>
    intro skip st st' h
    simp only [Arguments.rounds, Except.ok.injEq, Prod.mk.injEq, true_and] at h
    exact ⟨skip, by rw [h]; rfl⟩
  | cons t ts ih =>
    intro skip st st' h
    cases skip with
    | true =>
      simp only [Arguments.rounds] at h
      simp only [Arguments.runTo]
      exact ih _ _ _ h
    | false =>
      simp only [Arguments.rounds] at h
      simp only [Arguments.runTo]
      split at h
      · cases h
      · cases h
      · rename_i st1 skip1 hr
        rw [hr]
        exact ih _ _ _ h

theorem missingCheck_get (l : List Entry) : ∀ (parsed : List Bool) (i : Nat) (e : Entry),
    missingCheck l parsed = true → parsed.length = l.length → l[i]? = some e →
    (e.type = .Argument ∨ e.type = .NamedArgument) → parsed[i]? = some true := by
  induction l with
  | nil => intro parsed i e _ _ h; simp at h
  | cons a l ih =>
    intro parsed i e hc hlen hi hty
    cases parsed with
    | nil => simp at hlen
    | cons b bs =>
      simp only [missingCheck, List.zip_cons_cons, List.all_cons, Bool.and_eq_true] at hc
      cases i with
      | zero =>
        simp only [List.getElem?_cons_zero, Option.some.injEq] at hi
        subst hi
        have h1 := hc.1
        rcases hty with hty | hty <;> simp [hty] at h1 <;> simp [h1]
      | succ i =>
        simp only [List.getElem?_cons_succ] at hi ⊢
        exact ih bs i e hc.2 (by simpa using hlen) hi hty

/-- Through the token loop every value-taking entry that is marked as parsed has a token as
its value. -/
theorem rounds_parsed_has_token (a : Arguments) (hwf : a.WellFormed) (tokens : List String)
    (skip : Bool) (st st' : ParseState) (b : Bool)
    (hstart : ∀ i : Nat, st.parsedArguments[i]? ≠ some true) (hvf : st.valueFor = none)
    (h : a.rounds tokens skip st = .ok (b, st')) :
    ∀ (i : Nat) (f : Entry), a.entries[i]? = some f → f.type ≠ .BooleanOption →
      st'.parsedArguments[i]? = some true → ∃ t ∈ tokens, st'.values[f.id]? = some t := by
  have hinv := rounds_invariant a
    (fun s => (∀ (i : Nat) (f : Entry), s.valueFor = some (i, f) → a.entries[i]? = some f) ∧
      ∀ (i : Nat) (f : Entry), a.entries[i]? = some f → f.type ≠ .BooleanOption →
        s.parsedArguments[i]? = some true → ∃ t ∈ tokens, s.values[f.id]? = some t)
    (fun t => t ∈ tokens) ?_ tokens skip st b st' (fun _ ht => ht)
    ⟨fun i f hc => (by rw [hvf] at hc; cases hc), fun i f _ _ hc => absurd hc (hstart i)⟩ h
  · exact hinv.2
  · intro s t s1 hI hM hr
    obtain ⟨hwait, hval⟩ := hI
    have store : ∀ (i0 : Nat) (e0 : Entry), a.entries[i0]? = some e0 →
        e0.type ≠ .BooleanOption → e0.id < s.values.length →
        ∀ (i : Nat) (f : Entry), a.entries[i]? = some f → f.type ≠ .BooleanOption →
          (s.parsedArguments.set i0 true)[i]? = some true →
          ∃ t' ∈ tokens, (s.values.set e0.id t)[f.id]? = some t' := by
      intro i0 e0 h0 ht0 hid0 i f hf hft hbit
      by_cases hi : i0 = i
      · subst hi
        rw [h0] at hf
        cases hf
        exact ⟨t, hM, List.getElem?_set_self hid0⟩
      · rw [List.getElem?_set_ne hi] at hbit
        obtain ⟨t', ht', hv'⟩ := hval i f hf hft hbit
        refine ⟨t', ht', ?_⟩
        have hne : e0.id ≠ f.id := fun hc =>
          hi (same_slot hwf.valueNodup h0 hf (by simpa using ht0) (by simpa using hft) hc)
        rw [List.getElem?_set_ne hne]
        exact hv'
    rcases round_state_cases a s s1 t hr with h1 | h1 | ⟨i0, e0, c1, c2, c3, h1⟩ |
      ⟨i0, e0, c1, c2, c3, _, h1⟩ | ⟨i0, e0, c1, c2, c3, h1⟩ | ⟨i0, e0, c1, c2, c3, h1⟩
    · subst h1; exact ⟨hwait, hval⟩
    · subst h1; exact ⟨hwait, hval⟩
    · subst h1
      exact ⟨fun _ _ hc => (by cases hc), store i0 e0 (hwait i0 e0 c1) c2 c3⟩
    · subst h1
      obtain ⟨h0, _, _⟩ := c2.token
      refine ⟨fun i f hc => (by simp only [c1] at hc; cases hc), fun i f hf hft hbit => ?_⟩
      have hi : i0 ≠ i := by
        intro hc
        subst hc
        rw [h0] at hf
        cases hf
        exact hft c3
      simp only at hbit
      rw [List.getElem?_set_ne hi] at hbit
      exact hval i f hf hft hbit
    · subst h1
      obtain ⟨h0, _, _⟩ := c2.token
      refine ⟨fun i f hc => ?_, hval⟩
      simp only [Option.some.injEq, Prod.mk.injEq] at hc
      obtain ⟨rfl, rfl⟩ := hc
      exact h0
    · subst h1
      obtain ⟨h0, _, hty, _⟩ := Arguments.findNextArgument_some c2
      exact ⟨fun i f hc => (by simp only [c1] at hc; cases hc),
        store i0 e0 h0 (by rw [hty]; decide) c3⟩

/-- When `tryParse` returns `true`, every positional and every named argument has a token
of `argv` as its value, and the token loop has read all tokens and is not waiting for a
value; and when the round of the last token leaves the loop waiting for a value, `tryParse`
returns `false`. -/
theorem end_of_input_validation (a : Arguments) (hwf : a.WellFormed) (arg0 : String)
    (tokens : List String) :
    (∀ parsed, a.tryParse (arg0 :: tokens) = .ok (true, parsed) →
      (∀ e ∈ a.entries, (e.type = .Argument ∨ e.type = .NamedArgument) →
        ∃ t ∈ tokens, parsed.values[e.id]? = some t) ∧
      ∃ st skip, a.stateAfter tokens = some (st, skip) ∧ st.valueFor = none) ∧
    (∀ pre t st found, tokens = pre ++ [t] → a.stateAfter pre = some (st, false) →
      a.round st t = .ok (.next { st with valueFor := some found } false) →
      ∃ parsed, a.tryParse (arg0 :: tokens) = .ok (false, parsed)) := by
  constructor
  · intro parsed h
    obtain ⟨v, finished, st, hv, hr, hb, hstatus⟩ := tryParse_inv h
    simp only [List.drop_succ_cons, List.drop_zero] at hr
    have hfin : finished = true ∧ st.valueFor = none ∧
        missingCheck a.entries st.parsedArguments = true := by
      have := hstatus.symm
      simp only [Bool.and_eq_true, Bool.not_eq_true'] at this
      refine ⟨this.1.1, ?_, this.2⟩
      cases hw : st.valueFor with
      | none => rfl
      | some x => rw [hw] at this; simp at this
    obtain ⟨hf1, hf2, hf3⟩ := hfin
    subst hf1
    have hlen := (rounds_lengths a _ _ _ _ _ hr).2.2
    simp only [List.length_replicate] at hlen
    constructor
    · intro e he hty
      obtain ⟨i, hi⟩ := List.mem_iff_getElem?.mp he
      have hbit := missingCheck_get a.entries st.parsedArguments i e hf3 hlen hi hty
      have hnb : e.type ≠ .BooleanOption := by
        rcases hty with hty | hty <;> rw [hty] <;> decide
      have := rounds_parsed_has_token a hwf tokens false _ st true
        (fun j => by
          simp only [List.getElem?_replicate]
          split <;> simp) rfl hr i e hi hnb hbit
      subst hb
      exact this
    · obtain ⟨skip', hrun⟩ := runTo_of_rounds a tokens false _ st hr
      exact ⟨st, skip', by simp only [Arguments.stateAfter, hv, hrun], hf2⟩
  · intro pre t st found htok hstate hround
    simp only [Arguments.stateAfter] at hstate
    split at hstate
    · cases hstate
    · rename_i v hv
      have hrun := rounds_append a pre [t] _ _ _ _ hstate
      have hlast : a.rounds [t] false st
          = .ok (true, { st with valueFor := some found }) := by
        simp only [Arguments.rounds, hround]
      refine ⟨{ a with
        command := if a.command.data.isEmpty then (arg0 :: tokens).headD a.command
          else a.command
        values := st.values
        booleans := st.booleans }, ?_⟩
      simp only [Arguments.tryParse, hv, List.drop_succ_cons, List.drop_zero, htok, hrun,
        hlast, Bool.not_true, Bool.false_eq_true, if_false, Option.isSome_some, if_true]

/-- The validation at the end of the input at a concrete input: `prog --bar` on the parser
with the named argument `bar`. -/
theorem end_of_input_validation_witness :
    (∀ parsed, namedParser.tryParse ("prog" :: ["--bar"]) = .ok (true, parsed) →
      (∀ e ∈ namedParser.entries, (e.type = .Argument ∨ e.type = .NamedArgument) →
        ∃ t ∈ ["--bar"], parsed.values[e.id]? = some t) ∧
      ∃ st skip, namedParser.stateAfter ["--bar"] = some (st, skip) ∧ st.valueFor = none) ∧
    (∀ pre t st found, ["--bar"] = pre ++ [t] → namedParser.stateAfter pre = some (st, false) →
      namedParser.round st t = .ok (.next { st with valueFor := some found } false) →
      ∃ parsed, namedParser.tryParse ("prog" :: ["--bar"]) = .ok (false, parsed)) :=
  end_of_input_validation namedParser ⟨by decide, by decide, by decide⟩ "prog" ["--bar"]

/-! ## Parsing reads the schema and the command line only -/

theorem clearValues_agree (l : List Entry) : ∀ (v1 v2 : List String),
    v1.length = v2.length →
    (∀ i : Nat, v1[i]? ≠ v2[i]? → ∃ e ∈ l, e.type ≠ .BooleanOption ∧ e.id = i) →
    clearValues l v1 = clearValues l v2 := by
  induction l with
  | nil =>
    intro v1 v2 _ hcov
    have : v1 = v2 := by
      apply List.ext_getElem?
      intro i
      by_contra hc
      obtain ⟨e, he, _⟩ := hcov i hc
      cases he
    rw [this]
  | cons a l ih =>
    intro v1 v2 hlen hcov
    simp only [clearValues]
    by_cases ha : a.type = .BooleanOption
    · simp only [ha, if_true]
      refine ih v1 v2 hlen (fun i hi => ?_)
      obtain ⟨e, he, ht, hid⟩ := hcov i hi
      rcases List.mem_cons.mp he with rfl | he
      · exact absurd ha ht
      · exact ⟨e, he, ht, hid⟩
    · simp only [ha, if_false, hlen]
      split
      · rename_i hid
        refine ih _ _ (by simp [hlen]) (fun i hi => ?_)
        by_cases hai : a.id = i
        · subst hai
          rw [List.getElem?_set_self (hlen ▸ hid), List.getElem?_set_self hid] at hi
          exact absurd rfl hi
        · rw [List.getElem?_set_ne hai, List.getElem?_set_ne hai] at hi
          obtain ⟨e, he, ht, hid'⟩ := hcov i hi
          rcases List.mem_cons.mp he with rfl | he
          · exact absurd hid' hai
          · exact ⟨e, he, ht, hid'⟩
      · rfl

theorem round_congr (a1 a2 : Arguments) (hp : a2.keyPrefix = a1.keyPrefix)
    (he : a2.entries = a1.entries) (hs : a2.skippedPrefixes = a1.skippedPrefixes)
    (st : ParseState) (t : String) : a2.round st t = a1.round st t := by
  simp only [Arguments.round, Arguments.find, Arguments.findShort, Arguments.findNextArgument,
    hp, he, hs]

theorem rounds_congr (a1 a2 : Arguments) (hp : a2.keyPrefix = a1.keyPrefix)
    (he : a2.entries = a1.entries) (hs : a2.skippedPrefixes = a1.skippedPrefixes)
    (tokens : List String) : ∀ (skip : Bool) (st : ParseState),
      a2.rounds tokens skip st = a1.rounds tokens skip st := by
  induction tokens with
  | nil => intro skip st; rfl
  | cons t ts ih =>
    intro skip st
    cases skip with
    | true => simp only [Arguments.rounds]; exact ih _ _
    | false =>
      simp only [Arguments.rounds, round_congr a1 a2 hp he hs]
      split
      · rfl
      · rfl
      · exact ih _ _

/-- C27: two parser objects with the same schema, whatever values and flags earlier parses
have left in them, give on the same `argv` the same result of `tryParse` (or fail alike),
and afterwards hold the same values and flags, so that `value` and `isSet` agree on every
key. -/
theorem parse_depends_on_schema_only (a1 a2 : Arguments) (hwf1 : a1.WellFormed)
    (hwf2 : a2.WellFormed) (hp : a2.keyPrefix = a1.keyPrefix) (he : a2.entries = a1.entries)
    (hs : a2.skippedPrefixes = a1.skippedPrefixes) (argv : List String) :
    (∀ e, a1.tryParse argv = .error e → a2.tryParse argv = .error e) ∧
    (∀ status p1, a1.tryParse argv = .ok (status, p1) →
      ∃ p2, a2.tryParse argv = .ok (status, p2) ∧
        p2.values = p1.values ∧ p2.booleans = p1.booleans ∧
        (∀ k, p2.value k = p1.value k) ∧ (∀ k, p2.isSet k = p1.isSet k)) := by
  have hvlen : a2.values.length = a1.values.length := by
    have h1 := hwf1.valueIds
    have h2 := hwf2.valueIds
    rw [he, h1] at h2
    have := congrArg List.length h2
    simpa using this.symm
  have hblen : a2.booleans.length = a1.booleans.length := by
    have h1 := hwf1.booleanIds
    have h2 := hwf2.booleanIds
    rw [he, h1] at h2
    have := congrArg List.length h2
    simpa using this.symm
  have hclear : clearValues a1.entries a2.values = clearValues a1.entries a1.values := by
    refine clearValues_agree a1.entries a2.values a1.values hvlen (fun i hi => ?_)
    have hlt : i < a1.values.length := by
      by_contra hc
      have hc : a1.values.length ≤ i := Nat.le_of_not_lt hc
      rw [List.getElem?_eq_none hc, List.getElem?_eq_none (hvlen ▸ hc)] at hi
      exact hi rfl
    have hm : i ∈ (a1.entries.filter (fun e => e.type != .BooleanOption)).map (fun e => e.id) := by
      rw [hwf1.valueIds]
      exact List.mem_range.mpr hlt
    obtain ⟨e, hmem, hid⟩ := List.mem_map.mp hm
    obtain ⟨h1, h2⟩ := List.mem_filter.mp hmem
    exact ⟨e, h1, by simpa using h2, hid⟩
  have hbools : a2.booleans.map (fun _ => false) = a1.booleans.map (fun _ => false) := by
    apply List.ext_getElem?
    intro i
    simp only [List.getElem?_map]
    by_cases hi : i < a1.booleans.length
    · rw [List.getElem?_eq_getElem hi, List.getElem?_eq_getElem (hblen ▸ hi)]
      rfl
    · have hc : a1.booleans.length ≤ i := Nat.le_of_not_lt hi
      rw [List.getElem?_eq_none hc, List.getElem?_eq_none (hblen ▸ hc)]
  constructor
  · intro e h
    simp only [Arguments.tryParse, hclear, hbools, he, rounds_congr a1 a2 hp he hs] at h ⊢
    split at h
    · exact h
    · split at h
      · exact h
      · split at h
        · cases h
        · split at h <;> cases h
  · intro status p1 h
    obtain ⟨v, finished, st, hv, hr, hb, hstatus⟩ := tryParse_inv h
    have h2 : a2.tryParse argv = .ok (status,
        { a2 with command := if a2.command.data.isEmpty then argv.headD a2.command
                             else a2.command,
                  values := st.values, booleans := st.booleans }) := by
      simp only [Arguments.tryParse, hclear, hv, hbools, he, rounds_congr a1 a2 hp he hs, hr]
      rw [hstatus]
      cases finished
      · simp
      · cases hw : st.valueFor.isSome <;> simp [hw]
    refine ⟨_, h2, by rw [hb], by rw [hb], fun k => ?_, fun k => ?_⟩
    · subst hb
      simp only [Arguments.value, Arguments.find, hp, he]
    · subst hb
      simp only [Arguments.isSet, Arguments.find, hp, he]

/-- C27 at a concrete input: the fresh parser with two positionals and the same parser after
an earlier parse. -/
theorem parse_depends_on_schema_only_witness :
    (∀ e, twoPositionals.tryParse ["prog", "x"] = .error e →
      twoPositionalsUsed.tryParse ["prog", "x"] = .error e) ∧
    (∀ status p1, twoPositionals.tryParse ["prog", "x"] = .ok (status, p1) →
      ∃ p2, twoPositionalsUsed.tryParse ["prog", "x"] = .ok (status, p2) ∧
        p2.values = p1.values ∧ p2.booleans = p1.booleans ∧
        (∀ k, p2.value k = p1.value k) ∧ (∀ k, p2.isSet k = p1.isSet k)) :=
  parse_depends_on_schema_only twoPositionals twoPositionalsUsed
    ⟨by decide, by decide, by decide⟩ ⟨by decide, by decide, by decide⟩ rfl rfl rfl
    ["prog", "x"]

/-! ## Skipped prefixes -/

theorem prefix_of_help (x y : List Char)
    (h : x ++ ['-'] <+: y ++ ['-', 'h', 'e', 'l', 'p']) : x ++ ['-'] <+: y ∨ x = y := by
  have e : y ++ ['-', 'h', 'e', 'l', 'p']
      = ((((y ++ ['-']) ++ ['h']) ++ ['e']) ++ ['l']) ++ ['p'] := by simp
  rw [e] at h
  rcases List.prefix_concat_iff.mp h with h | h
  · have := List.append_inj_right' h rfl
    cases this
  rcases List.prefix_concat_iff.mp h with h | h
  · have := List.append_inj_right' h rfl
    cases this
  rcases List.prefix_concat_iff.mp h with h | h
  · have := List.append_inj_right' h rfl
    cases this
  rcases List.prefix_concat_iff.mp h with h | h
  · have := List.append_inj_right' h rfl
    cases this
  rcases List.prefix_concat_iff.mp h with h | h
  · exact Or.inr (List.append_inj_left' h rfl)
  · exact Or.inl h

theorem string_dash_inj {s t : String} (h : s ++ "-" = t ++ "-") : s = t := by
  have h1 : (s ++ "-").data = (t ++ "-").data := by rw [h]
  simp only [String.data_append] at h1
  have h2 : s.data = t.data := List.append_inj_left' h1 rfl
  cases s
  cases t
  simp only at h2
  rw [h2]

theorem Built.skippedOrdered {a : Arguments} (h : Built a) : a.SkippedOrdered := by
  induction h with
  | create a h =>
    have ha : a = ⟨"", "", [⟨.BooleanOption, 'h', "help", "", 0⟩], [], [false], []⟩ := by
      have : Arguments.create
          = .ok ⟨"", "", [⟨.BooleanOption, 'h', "help", "", 0⟩], [], [false], []⟩ := rfl
      rw [this] at h
      exact (Except.ok.inj h).symm
    subst ha
    exact ⟨[], rfl, List.Pairwise.nil⟩
  | createPrefixed start a h =>
    simp only [Arguments.createPrefixed] at h
    split at h
    · cases h
    · rename_i a1 h1
      obtain ⟨_, _, _, _, _, _, hb⟩ := addBooleanOption_inv h1
      have h2 := setHelp_inv h
      refine ⟨[], ?_, List.Pairwise.nil⟩
      rw [h2, hb]
      rfl
  | addArgument a b key _ h ih =>
    obtain ⟨_, _, _, hb⟩ := addArgument_inv h
    obtain ⟨starts, h1, h2⟩ := ih
    exact ⟨starts, by rw [hb]; exact h1, h2⟩
  | addNamedArgument a b shortKey key _ h ih =>
    obtain ⟨_, _, _, _, _, hb⟩ := addNamedArgument_inv h
    obtain ⟨starts, h1, h2⟩ := ih
    exact ⟨starts, by rw [hb]; exact h1, h2⟩
  | addOption a b shortKey key defaultValue _ h ih =>
    obtain ⟨_, _, _, _, _, _, hb⟩ := addOption_inv h
    obtain ⟨starts, h1, h2⟩ := ih
    exact ⟨starts, by rw [hb]; exact h1, h2⟩
  | addBooleanOption a b shortKey key _ h ih =>
    obtain ⟨_, _, _, _, _, _, hb⟩ := addBooleanOption_inv h
    obtain ⟨starts, h1, h2⟩ := ih
    exact ⟨starts, by rw [hb]; exact h1, h2⟩
  | addSkippedPrefix a b start _ h ih =>
    obtain ⟨hnot, _, hb⟩ := addSkippedPrefix_inv h
    obtain ⟨starts, h1, h2⟩ := ih
    refine ⟨starts ++ [start], by rw [hb]; simp [h1], ?_⟩
    rw [List.pairwise_append]
    refine ⟨h2, List.pairwise_singleton _ _, fun s hs t ht => ?_⟩
    rw [List.mem_singleton] at ht
    subst ht
    simp only [Arguments.skippedPrefix, h1, List.any_map] at hnot
    have := List.any_eq_false.mp hnot s hs
    simpa using this
  | tryParse a b argv status _ h ih =>
    obtain ⟨_, _, hs⟩ := tryParse_schema h
    obtain ⟨starts, h1, h2⟩ := ih
    exact ⟨starts, by rw [hs]; exact h1, h2⟩

theorem find_help_prefix (S : String) : ∀ (starts : List String),
    starts.Pairwise (fun s t => keyHasPrefix t (s ++ "-") = false) → S ∈ starts →
    (starts.map (fun s => s ++ "-")).find? (fun start => keyHasPrefix (S ++ "-help") start)
      = some (S ++ "-") := by
  intro starts
  induction starts with
  | nil => intro _ h; cases h
  | cons s rest ih =>
    intro hp hS
    rw [List.pairwise_cons] at hp
    have hself : keyHasPrefix (S ++ "-help") (S ++ "-") = true := by
      simp only [keyHasPrefix, String.data_append, List.isPrefixOf_iff_prefix]
      exact ⟨['h', 'e', 'l', 'p'], by rw [List.append_assoc]; rfl⟩
    simp only [List.map_cons, List.find?_cons]
    by_cases hm : keyHasPrefix (S ++ "-help") (s ++ "-") = true
    · rw [hm]
      simp only [Option.some.injEq]
      rcases List.mem_cons.mp hS with rfl | hS
      · rfl
      · have hpre : s.data ++ ['-'] <+: S.data ++ ['-', 'h', 'e', 'l', 'p'] := by
          simp only [keyHasPrefix, String.data_append, List.isPrefixOf_iff_prefix] at hm
          exact hm
        rcases prefix_of_help _ _ hpre with h | h
        · have := hp.1 S hS
          simp only [keyHasPrefix, String.data_append] at this
          have h3 : (s.data ++ "-".data).isPrefixOf S.data = true :=
            List.isPrefixOf_iff_prefix.mpr h
          rw [h3] at this
          cases this
        · have : s = S := by
            cases s
            cases S
            simp only at h
            rw [h]
          rw [this]
    · have hm : keyHasPrefix (S ++ "-help") (s ++ "-") = false := by
        cases hk : keyHasPrefix (S ++ "-help") (s ++ "-")
        · rfl
        · exact absurd hk hm
      rw [hm]
      rcases List.mem_cons.mp hS with rfl | hS
      · rw [hself] at hm
        cases hm
      · exact ih hp.2 hS

theorem round_skipped (a : Arguments) (st : ParseState) (K p : String)
    (hplain : a.keyPrefix = "") (hvf : st.valueFor = none) (hopt : st.optionsAllowed = true)
    (hK : verifyKey K = true)
    (hfind : a.skippedPrefixes.find? (fun start => keyHasPrefix K start) = some p) :
    a.round st ("--" ++ K)
      = if K ≠ p ++ "help" then .ok (.next st true) else .ok (.next st false) := by
  have hdata : ("--" ++ K).data = '-' :: '-' :: K.data := by
    rw [String.data_append]
    rfl
  have hlen : 1 < K.data.length := by
    simp only [verifyKey, Bool.and_eq_true, decide_eq_true_eq] at hK
    exact hK.1
  have hkey : String.mk K.data = K := rfl
  have hempty : ("" : String).data.isEmpty = true := rfl
  have h2 : ¬ (K.data.length + 1 + 1 = 2) := by omega
  have h3 : K.data.length + 1 + 1 > 2 := by omega
  simp only [Arguments.round, hvf, hopt, hdata, hplain, List.length_cons, List.head?_cons,
    Bool.true_and, h2, h3, if_true, if_false, List.take_succ_cons, List.take_zero,
    List.drop_succ_cons, List.drop_zero, hkey, hK, hempty, Bool.not_true, Bool.false_and,
    Bool.false_eq_true, hfind, bne_iff_ne, ne_eq, Nat.add_one_ne_zero, not_false_eq_true,
    beq_self_eq_true, Bool.and_self, Bool.not_false]
  rw [if_pos]
  simp

theorem tryParse_insert (a : Arguments) (arg0 : String) (pre front back : List String)
    (st : ParseState) (h : a.stateAfter pre = some (st, false))
    (hsame : a.rounds front false st = a.rounds back false st) :
    a.tryParse (arg0 :: (pre ++ front)) = a.tryParse (arg0 :: (pre ++ back)) := by
  simp only [Arguments.stateAfter] at h
  split at h
  · cases h
  · rename_i values hv
    simp only [Arguments.tryParse, hv, List.drop_succ_cons, List.drop_zero, List.headD_cons]
    rw [rounds_append a pre front _ _ _ _ h, rounds_append a pre back _ _ _ _ h, hsame]

theorem verifyKey_help {S key : String} (h : verifyKey (S ++ "-" ++ key) = true) :
    verifyKey (S ++ "-help") = true := by
  simp only [verifyKey, String.data_append, List.all_append, Bool.and_eq_true,
    decide_eq_true_eq, List.length_append] at h ⊢
  refine ⟨?_, h.2.1.1, by decide⟩
  have : ['-', 'h', 'e', 'l', 'p'].length = 5 := rfl
  omega

/-- C21, counterexample: with the skipped prefixes `a-b` and `a` registered in this order,
`--a-b-help` is the help option of the prefix `a-b` and the token after it is read as a
positional, so that `tryParse` returns `false` where it returned `true` without the two
tokens; with the skipped prefix `x_y` the token `--x_y-key` does not pass `verifyKey` and
`tryParse` returns `false`. -/
theorem skipped_prefix_changes_result :
    nestedSkipped.skippedPrefixes = ["a-b-", "a-"] ∧
    statusOf (nestedSkipped.tryParse ["prog"]) = some true ∧
    statusOf (nestedSkipped.tryParse ["prog", "--a-b-help", "v"]) = some false ∧
    oddSkipped.skippedPrefixes = ["x_y-"] ∧
    statusOf (oddSkipped.tryParse ["prog"]) = some true ∧
    statusOf (oddSkipped.tryParse ["prog", "--x_y-key", "v"]) = some false := by
  decide

/-- C21, amended: on an unprefixed parser built through the interface, with the skipped
prefix `S` registered, at a position of `argv` where the token loop starts a round with no
value awaited and options still allowed, inserting `--S-<key>` and a value token, where
`S-<key>` passes `verifyKey` and is not `T-help` for any registered skipped prefix `T`, leaves
what `tryParse` returns and the object it leaves unchanged; so does inserting the single
token `--S-help`, after which the following token is read as before. -/
theorem skipped_prefix_transparent (a : Arguments) (hb : Built a) (hplain : a.keyPrefix = "")
    (S : String) (hS : (S ++ "-") ∈ a.skippedPrefixes) (arg0 : String)
    (pre post : List String) (st : ParseState) (hidle : a.stateAfter pre = some (st, false))
    (hvf : st.valueFor = none) (hopt : st.optionsAllowed = true) (key value : String)
    (hkey : verifyKey (S ++ "-" ++ key) = true)
    (hne : ∀ T ∈ a.skippedPrefixes, S ++ "-" ++ key ≠ T ++ "help") :
    a.tryParse (arg0 :: (pre ++ ("--" ++ (S ++ "-" ++ key)) :: value :: post))
      = a.tryParse (arg0 :: (pre ++ post)) ∧
    a.tryParse (arg0 :: (pre ++ ("--" ++ (S ++ "-help")) :: post))
      = a.tryParse (arg0 :: (pre ++ post)) := by
  constructor
  · apply tryParse_insert a arg0 pre _ _ st hidle
    have hmatch : keyHasPrefix (S ++ "-" ++ key) (S ++ "-") = true := by
      simp only [keyHasPrefix, String.data_append, List.isPrefixOf_iff_prefix]
      exact List.prefix_append _ _
    cases hf : a.skippedPrefixes.find? (fun start => keyHasPrefix (S ++ "-" ++ key) start) with
    | none =>
      have := List.find?_eq_none.mp hf (S ++ "-") hS
      exact absurd hmatch this
    | some p =>
      have hp : p ∈ a.skippedPrefixes := List.mem_of_find?_eq_some hf
      have hr := round_skipped a st (S ++ "-" ++ key) p hplain hvf hopt hkey hf
      rw [if_pos (hne p hp)] at hr
      simp only [Arguments.rounds, hr]
  · apply tryParse_insert a arg0 pre _ _ st hidle
    obtain ⟨starts, h1, h2⟩ := hb.skippedOrdered
    have hmem : S ∈ starts := by
      rw [h1] at hS
      obtain ⟨s, hs, he⟩ := List.mem_map.mp hS
      have : s = S := string_dash_inj he
      rw [← this]
      exact hs
    have hf := find_help_prefix S starts h2 hmem
    rw [← h1] at hf
    have hr := round_skipped a st (S ++ "-help") (S ++ "-") hplain hvf hopt
      (verifyKey_help hkey) hf
    have heq : S ++ "-help" = S ++ "-" ++ "help" := by
      rw [String.append_assoc]
      rfl
    rw [if_neg (fun hc => hc heq)] at hr
    simp only [Arguments.rounds, hr]

/-- C21 at a concrete input: scenario F, `--magnum-log on` and `--magnum-help` before
`--input foo`. -/
theorem skipped_prefix_transparent_witness :
    skippedParser.tryParse ("prog" :: ([] ++ ("--" ++ ("magnum" ++ "-" ++ "log")) :: "on" ::
        ["--input", "foo"]))
      = skippedParser.tryParse ("prog" :: ([] ++ ["--input", "foo"])) ∧
    skippedParser.tryParse ("prog" :: ([] ++ ("--" ++ ("magnum" ++ "-help")) ::
        ["--input", "foo"]))
      = skippedParser.tryParse ("prog" :: ([] ++ ["--input", "foo"])) :=
  skipped_prefix_transparent skippedParser
    (Built.addOption skippedOnly skippedParser (Char.ofNat 0) "input" ""
      (Built.addSkippedPrefix plainParser skippedOnly "magnum"
        (Built.create plainParser rfl) rfl) rfl)
    rfl "magnum" (by decide) "prog" [] ["--input", "foo"] skippedParserStart rfl rfl rfl
    "log" "on" (by decide) (by decide)

end Utility

namespace PluginManager

/-! ## The mirror of `depends` in `usedBy` -/

theorem count_eraseTimes (x a : String) : ∀ (k : Nat) (l : List String),
    (eraseTimes x k l).count a = if a = x then l.count a - k else l.count a := by
  intro k
  induction k with
  | zero => intro l; simp [eraseTimes]
  | succ k ih =>
    intro l
    rw [eraseTimes, ih]
    by_cases h : a = x
    · subst h
      simp only [if_true, List.count_erase_self]
      omega
    · simp only [h, if_false]
      exact List.count_erase_of_ne h l

theorem insertRecord_names_perm (p : Plugin) (l : List Plugin)
    (hno : ∀ q ∈ l, q.metadata.name ≠ p.metadata.name) :
    ((insertRecord p l).map (fun q => q.metadata.name)).Perm
      (p.metadata.name :: l.map (fun q => q.metadata.name)) := by
  induction l with
  | nil => simp [insertRecord]
  | cons q rest ih =>
    have hq : p.metadata.name ≠ q.metadata.name := fun hc => hno q (List.mem_cons_self _ _) hc.symm
    simp only [insertRecord, if_neg hq]
    split
    · exact List.Perm.refl _
    · simp only [List.map_cons]
      exact (List.Perm.cons _ (ih (fun r hr => hno r (List.mem_cons_of_mem _ hr)))).trans
        (List.Perm.swap _ _ _)

theorem Mirror.empty : Mirror { plugins := [], aliases := [] } where
  names := List.nodup_nil
  counts := fun a b pa pb h _ => by cases h
  known := fun b pb h => by cases h
  resolved := fun a pa h => by cases h
  owned := fun a pa h => by cases h

theorem GlobalPluginStorage.find_free_iff (s : GlobalPluginStorage) (x : String) :
    s.find x = none ↔ ∀ q ∈ s.plugins, q.metadata.name ≠ x := by
  simp [GlobalPluginStorage.find, List.find?_eq_none]

theorem Mirror.insert_fresh {s : GlobalPluginStorage} (hM : Mirror s) (p : Plugin)
    (hfree : s.find p.metadata.name = none) (hu : p.metadata.usedBy = [])
    (hst : p.loadState ≠ .Loaded) (hown : p.loadState ≠ .Static → p.manager.isSome) :
    Mirror (s.insertPlugin p) := by
  have hfind := GlobalPluginStorage.find_insertPlugin s p hfree
  have hno := (GlobalPluginStorage.find_free_iff s _).mp hfree
  have hold : ∀ x q, s.find x = some q → x ≠ p.metadata.name := by
    intro x q hq hx
    rw [hx, hfree] at hq
    cases hq
  refine ⟨?_, ?_, ?_, ?_, ?_⟩
  · have hperm := insertRecord_names_perm p s.plugins hno
    show ((insertRecord p s.plugins).map (fun q => q.metadata.name)).Nodup
    rw [hperm.nodup_iff, List.nodup_cons]
    refine ⟨?_, hM.names⟩
    intro hmem
    obtain ⟨q, hq, hqn⟩ := List.mem_map.mp hmem
    exact hno q hq hqn
  · intro a b pa pb ha hb
    rw [hfind] at ha hb
    by_cases hae : a = p.metadata.name
    · rw [if_pos hae] at ha
      cases ha
      rw [if_neg hst]
      by_cases hbe : b = p.metadata.name
      · rw [if_pos hbe] at hb
        cases hb
        rw [hu]
        rfl
      · rw [if_neg hbe] at hb
        rw [List.count_eq_zero]
        intro hmem
        have := hM.known b pb hb a hmem
        rw [hae, hfree] at this
        cases this
    · rw [if_neg hae] at ha
      by_cases hbe : b = p.metadata.name
      · rw [if_pos hbe] at hb
        cases hb
        rw [hu]
        split
        · rename_i hl
          rw [List.count_nil, eq_comm, List.count_eq_zero]
          intro hmem
          obtain ⟨pd, hpd, _⟩ := hM.resolved a pa ha hl b hmem
          rw [hbe, hfree] at hpd
          cases hpd
        · rfl
      · rw [if_neg hbe] at hb
        exact hM.counts a b pa pb ha hb
  · intro b pb hb x hx
    rw [hfind] at hb ⊢
    by_cases hbe : b = p.metadata.name
    · rw [if_pos hbe] at hb
      cases hb
      rw [hu] at hx
      cases hx
    · rw [if_neg hbe] at hb
      have := hM.known b pb hb x hx
      split
      · rfl
      · exact this
  · intro a pa ha hl d hd
    rw [hfind] at ha
    by_cases hae : a = p.metadata.name
    · rw [if_pos hae] at ha
      cases ha
      exact absurd hl hst
    · rw [if_neg hae] at ha
      obtain ⟨pd, hpd, hpl⟩ := hM.resolved a pa ha hl d hd
      refine ⟨pd, ?_, hpl⟩
      rw [hfind, if_neg (hold d pd hpd)]
      exact hpd
  · intro a pa ha hns
    rw [hfind] at ha
    by_cases hae : a = p.metadata.name
    · rw [if_pos hae] at ha
      cases ha
      exact hown hns
    · rw [if_neg hae] at ha
      exact hM.owned a pa ha hns

theorem purged_loaded {this : Nat} {p : Plugin} (h : p.loadState = .Loaded) :
    purged this p = false := by
  have : p.loadState.hasAny [.NotLoaded, .WrongMetadataFile] = false := by
    rw [h]
    decide
  simp [purged, this]

theorem purge_find (this : Nat) (s : GlobalPluginStorage)
    (hnd : (s.plugins.map (fun p => p.metadata.name)).Nodup) (x : String) :
    (purge this s).find x
      = match s.find x with
        | none => none
        | some p => if purged this p then none else some p := by
  cases h : s.find x with
  | none => exact find?_filter_none s.plugins _ x h
  | some p =>
    simp only
    cases hp : purged this p
    · simp only [Bool.false_eq_true, if_false]
      exact find?_filter_kept s.plugins _ x p h (by simp [hp])
    · simp only [if_true]
      exact find?_filter_dropped s.plugins _ x p hnd h (by simp [hp])

theorem purge_find_some {this : Nat} {s : GlobalPluginStorage}
    (hnd : (s.plugins.map (fun p => p.metadata.name)).Nodup) {x : String} {p : Plugin}
    (h : (purge this s).find x = some p) : s.find x = some p ∧ purged this p = false := by
  rw [purge_find this s hnd] at h
  cases hs : s.find x with
  | none => rw [hs] at h; cases h
  | some q =>
    rw [hs] at h
    simp only at h
    cases hq : purged this q
    · rw [hq] at h
      simp only [Bool.false_eq_true, if_false, Option.some.injEq] at h
      subst h
      exact ⟨rfl, hq⟩
    · rw [hq] at h
      simp at h

theorem purge_find_loaded {this : Nat} {s : GlobalPluginStorage}
    (hnd : (s.plugins.map (fun p => p.metadata.name)).Nodup) {x : String} {p : Plugin}
    (h : s.find x = some p) (hl : p.loadState = .Loaded) : (purge this s).find x = some p := by
  rw [purge_find this s hnd, h]
  simp [purged_loaded hl]

theorem Mirror.purge {s : GlobalPluginStorage} (hM : Mirror s) (this : Nat) :
    Mirror (purge this s) := by
  refine ⟨?_, ?_, ?_, ?_, ?_⟩
  · exact List.Nodup.sublist (List.Sublist.map _ (List.filter_sublist _)) hM.names
  · intro a b pa pb ha hb
    exact hM.counts a b pa pb (purge_find_some hM.names ha).1 (purge_find_some hM.names hb).1
  · intro b pb hb x hx
    have hb' := (purge_find_some hM.names hb).1
    have hsome := hM.known b pb hb' x hx
    cases hx' : s.find x with
    | none => rw [hx'] at hsome; cases hsome
    | some px =>
      have hc := hM.counts x b px pb hx' hb'
      have hpos : 0 < pb.metadata.usedBy.count x := List.count_pos_iff.mpr hx
      have hl : px.loadState = .Loaded := by
        by_contra hne
        rw [if_neg hne] at hc
        omega
      rw [purge_find_loaded hM.names hx' hl]
      rfl
  · intro a pa ha hl d hd
    obtain ⟨pd, hpd, hpl⟩ := hM.resolved a pa (purge_find_some hM.names ha).1 hl d hd
    exact ⟨pd, purge_find_loaded hM.names hpd hpl, hpl⟩
  · intro a pa ha hns
    exact hM.owned a pa (purge_find_some hM.names ha).1 hns

theorem scanFile_mirror {env : Env} {files : Files} {this : Nat} {directory filename : String}
    {s s1 : GlobalPluginStorage} (hM : Mirror s)
    (h : scanFile env files this directory filename s = .ok s1) : Mirror s1 := by
  simp only [scanFile] at h
  split at h
  · cases h
  · split at h
    · cases h
      exact hM
    · split at h
      · cases h
        exact hM
      · rename_i hfree
        cases h
        have hfree' : s.find (String.mk (List.take
            ((filename.length + 2 ^ 64 - env.suffix.length) % 2 ^ 64) filename.data)) = none := by
          cases hf : s.find (String.mk (List.take
            ((filename.length + 2 ^ 64 - env.suffix.length) % 2 ^ 64) filename.data)) with
          | none => rfl
          | some q => rw [hf] at hfree; simp at hfree
        refine hM.insert_fresh _ hfree' rfl ?_ (fun _ => rfl)
        simp only [Plugin.dynamic]
        split <;> decide

theorem scanFiles_mirror {env : Env} {files : Files} {this : Nat} {directory : String}
    (l : List String) : ∀ (s s1 : GlobalPluginStorage), Mirror s →
      scanFiles env files this directory l s = .ok s1 → Mirror s1 := by
  induction l with
  | nil =>
    intro s s1 hM h
    simp only [scanFiles, Except.ok.injEq] at h
    subst h
    exact hM
  | cons f rest ih =>
    intro s s1 hM h
    simp only [scanFiles] at h
    split at h
    · cases h
    · rename_i s2 h2
      exact ih s2 s1 (scanFile_mirror hM h2) h

theorem setPluginDirectory_mirror {env : Env} {files : Files} {this : Nat}
    {directory : String} {w w' : World} (hM : Mirror w.storage)
    (h : setPluginDirectory env files this directory w = .ok w') : Mirror w'.storage := by
  simp only [setPluginDirectory] at h
  split at h
  · cases h
  · rename_i s hs
    cases h
    exact scanFiles_mirror _ _ _ (hM.purge this) hs

theorem initializeGlobalPluginStorage_mirror (files : Files) (registry : List StaticPlugin) :
    ∀ (s s1 : GlobalPluginStorage), Mirror s →
      initializeGlobalPluginStorage files registry s = .ok s1 → Mirror s1 := by
  induction registry with
  | nil =>
    intro s s1 hM h
    simp only [initializeGlobalPluginStorage, Except.ok.injEq] at h
    subst h
    exact hM
  | cons sp rest ih =>
    intro s s1 hM h
    simp only [initializeGlobalPluginStorage] at h
    split at h
    · cases h
    · rename_i hfree
      have hfree' : s.find sp.plugin = none := by
        cases hf : s.find sp.plugin with
        | none => rfl
        | some q => rw [hf] at hfree; simp at hfree
      refine ih _ s1 (hM.insert_fresh _ hfree' rfl (by simp [Plugin.static]) ?_) h
      intro hc
      exact absurd rfl hc

theorem Mirror.unload_step {s s' : GlobalPluginStorage} (hM : Mirror s) (x : String)
    (p : Plugin) (g : Plugin → Plugin)
    (hg : ∀ q, (g q).metadata = q.metadata ∧ (g q).manager = q.manager ∧
      (g q).loadState = .NotLoaded)
    (hp : s.find x = some p) (hl : p.loadState = .Loaded) (hu : p.metadata.usedBy = [])
    (hnames : s'.plugins.map (fun q => q.metadata.name)
      = s.plugins.map (fun q => q.metadata.name))
    (hfind : ∀ y, s'.find y = (s.find y).map (fun q =>
      if y = x then g (q.eraseMany x (p.metadata.depends.count y))
      else q.eraseMany x (p.metadata.depends.count y))) : Mirror s' := by
  have hinv : ∀ y q', s'.find y = some q' → ∃ q, s.find y = some q ∧
      q'.metadata.depends = q.metadata.depends ∧ q'.manager = q.manager ∧
      q'.metadata.usedBy = eraseTimes x (p.metadata.depends.count y) q.metadata.usedBy ∧
      (y = x → q'.loadState = .NotLoaded) ∧ (y ≠ x → q'.loadState = q.loadState) := by
    intro y q' hq'
    rw [hfind] at hq'
    cases hq : s.find y with
    | none => rw [hq] at hq'; cases hq'
    | some q =>
      rw [hq] at hq'
      simp only [Option.map_some', Option.some.injEq] at hq'
      refine ⟨q, rfl, ?_⟩
      by_cases hy : y = x
      · rw [if_pos hy] at hq'
        subst hq'
        obtain ⟨h1, h2, h3⟩ := hg (q.eraseMany x (p.metadata.depends.count y))
        refine ⟨by rw [h1]; rfl, by rw [h2]; rfl, by rw [h1]; rfl, fun _ => h3,
          fun hc => absurd hy hc⟩
      · rw [if_neg hy] at hq'
        subst hq'
        exact ⟨rfl, rfl, rfl, fun hc => absurd hc hy, fun _ => rfl⟩
  have hfwd : ∀ y q, s.find y = some q → ∃ q', s'.find y = some q' := by
    intro y q hq
    rw [hfind, hq]
    exact ⟨_, rfl⟩
  refine ⟨by rw [hnames]; exact hM.names, ?_, ?_, ?_, ?_⟩
  · intro a b pa' pb' ha hb
    obtain ⟨pa, hpa, hdep, _, _, hax, hane⟩ := hinv a pa' ha
    obtain ⟨pb, hpb, _, _, hub, _, _⟩ := hinv b pb' hb
    rw [hub, count_eraseTimes, hdep]
    by_cases hae : a = x
    · rw [if_pos hae, hax hae]
      simp only [reduceCtorEq, if_false]
      subst hae
      rw [hp] at hpa
      cases hpa
      have := hM.counts a b p pb hp hpb
      rw [if_pos hl] at this
      omega
    · rw [if_neg hae, hane hae]
      exact hM.counts a b pa pb hpa hpb
  · intro b pb' hb y hy
    obtain ⟨pb, hpb, _, _, hub, _, _⟩ := hinv b pb' hb
    rw [hub] at hy
    have hy' : y ∈ pb.metadata.usedBy := (eraseTimes_sublist x _ _).subset hy
    have := hM.known b pb hpb y hy'
    cases hq : s.find y with
    | none => rw [hq] at this; cases this
    | some q =>
      obtain ⟨q', hq'⟩ := hfwd y q hq
      rw [hq']
      rfl
  · intro a pa' ha hla d hd
    obtain ⟨pa, hpa, hdep, _, _, hax, hane⟩ := hinv a pa' ha
    have hae : a ≠ x := by
      intro hc
      rw [hax hc] at hla
      cases hla
    rw [hane hae] at hla
    rw [hdep] at hd
    obtain ⟨pd, hpd, hpl⟩ := hM.resolved a pa hpa hla d hd
    obtain ⟨pd', hpd'⟩ := hfwd d pd hpd
    obtain ⟨q, hq, _, _, _, _, hqne⟩ := hinv d pd' hpd'
    rw [hpd] at hq
    cases hq
    have hdx : d ≠ x := by
      intro hc
      subst hc
      rw [hp] at hpd
      cases hpd
      have hc := hM.counts a d pa p hpa hp
      rw [if_pos hla, hu, List.count_nil] at hc
      have : 0 < pa.metadata.depends.count d := List.count_pos_iff.mpr hd
      omega
    exact ⟨pd', hpd', by rw [hqne hdx]; exact hpl⟩
  · intro a pa' ha hns
    obtain ⟨pa, hpa, _, hman, _, hax, hane⟩ := hinv a pa' ha
    rw [hman]
    by_cases hae : a = x
    · subst hae
      rw [hp] at hpa
      cases hpa
      exact hM.owned a p hp (by rw [hl]; decide)
    · rw [hane hae] at hns
      exact hM.owned a pa hpa hns

theorem unloadInternal_mirror {env : Env} {this : Nat} {x : String} {w w' : World}
    {r : LoadState} {p : Plugin} (hM : Mirror w.storage) (hfind : w.find x = some p)
    (h : unloadInternal env this x w = .ok (r, w')) : Mirror w'.storage := by
  rcases unloadInternal_inv env this x w w' r p hfind h with ⟨hw, _⟩ |
    ⟨hl, hu, module, finalizer, _, _, _, _, _, _, _, hnames, hf⟩
  · rw [hw]
    exact hM
  · refine hM.unload_step x p
      (fun q => if env.dlclose module = 0 then q.setUnloaded else q.setUnloadFailed)
      (fun q => ?_) hfind hl hu hnames hf
    split <;> exact ⟨rfl, rfl, rfl⟩

theorem unload_mirror {env : Env} {this : Nat} {plugin : String} {w w' : World}
    {r : LoadState} (hM : Mirror w.storage)
    (h : unload env this plugin w = .ok (r, w')) : Mirror w'.storage := by
  simp only [unload] at h
  split at h
  · rename_i found hfound
    exact unloadInternal_mirror hM (findWithAlias_some hfound).1 h
  · cases h
    exact hM

theorem Mirror.load_step {s s' : GlobalPluginStorage} (hM : Mirror s) (x : String)
    (p : Plugin) (g : Plugin → Plugin)
    (hg : ∀ q, (g q).metadata = q.metadata ∧ (g q).manager = q.manager ∧
      (g q).loadState = .Loaded)
    (hp : s.find x = some p) (hs : p.loadState = .NotLoaded)
    (hdeps : ∀ d ∈ p.metadata.depends, ∃ pd, s.find d = some pd ∧ pd.loadState = .Loaded)
    (hnames : s'.plugins.map (fun q => q.metadata.name)
      = s.plugins.map (fun q => q.metadata.name))
    (hfind : ∀ y, s'.find y = (s.find y).map (fun q =>
      if y = x then g (q.pushMany x (p.metadata.depends.count y))
      else q.pushMany x (p.metadata.depends.count y))) : Mirror s' := by
  have hinv : ∀ y q', s'.find y = some q' → ∃ q, s.find y = some q ∧
      q'.metadata.depends = q.metadata.depends ∧ q'.manager = q.manager ∧
      q'.metadata.usedBy
        = q.metadata.usedBy ++ List.replicate (p.metadata.depends.count y) x ∧
      (y = x → q'.loadState = .Loaded) ∧ (y ≠ x → q'.loadState = q.loadState) := by
    intro y q' hq'
    rw [hfind] at hq'
    cases hq : s.find y with
    | none => rw [hq] at hq'; cases hq'
    | some q =>
      rw [hq] at hq'
      simp only [Option.map_some', Option.some.injEq] at hq'
      refine ⟨q, rfl, ?_⟩
      by_cases hy : y = x
      · rw [if_pos hy] at hq'
        subst hq'
        obtain ⟨h1, h2, h3⟩ := hg (q.pushMany x (p.metadata.depends.count y))
        refine ⟨by rw [h1]; rfl, by rw [h2]; rfl, by rw [h1]; rfl, fun _ => h3,
          fun hc => absurd hy hc⟩
      · rw [if_neg hy] at hq'
        subst hq'
        exact ⟨rfl, rfl, rfl, fun hc => absurd hc hy, fun _ => rfl⟩
  have hfwd : ∀ y q, s.find y = some q → ∃ q', s'.find y = some q' := by
    intro y q hq
    rw [hfind, hq]
    exact ⟨_, rfl⟩
  have hstate : ∀ y q q', s.find y = some q → s'.find y = some q' →
      q.loadState = .Loaded → q'.loadState = .Loaded := by
    intro y q q' hq hq' hql
    obtain ⟨q0, hq0, _, _, _, hyx, hyne⟩ := hinv y q' hq'
    rw [hq] at hq0
    cases hq0
    by_cases hy : y = x
    · exact hyx hy
    · rw [hyne hy]
      exact hql
  refine ⟨by rw [hnames]; exact hM.names, ?_, ?_, ?_, ?_⟩
  · intro a b pa' pb' ha hb
    obtain ⟨pa, hpa, hdep, _, _, hax, hane⟩ := hinv a pa' ha
    obtain ⟨pb, hpb, _, _, hub, _, _⟩ := hinv b pb' hb
    rw [hub, List.count_append, List.count_replicate, hdep]
    by_cases hae : a = x
    · rw [hax hae]
      subst hae
      rw [hp] at hpa
      cases hpa
      have := hM.counts a b p pb hp hpb
      rw [if_neg (by rw [hs]; decide)] at this
      simp [this]
    · rw [hane hae]
      have hxa : ¬ (x == a) = true := by
        simp only [beq_iff_eq]
        exact fun hc => hae hc.symm
      rw [if_neg hxa, Nat.add_zero]
      exact hM.counts a b pa pb hpa hpb
  · intro b pb' hb y hy
    obtain ⟨pb, hpb, _, _, hub, _, _⟩ := hinv b pb' hb
    rw [hub, List.mem_append] at hy
    have hex : ∃ q, s.find y = some q := by
      rcases hy with hy | hy
      · have := hM.known b pb hpb y hy
        cases hq : s.find y with
        | none => rw [hq] at this; cases this
        | some q => exact ⟨q, rfl⟩
      · rw [List.eq_of_mem_replicate hy]
        exact ⟨p, hp⟩
    obtain ⟨q, hq⟩ := hex
    obtain ⟨q', hq'⟩ := hfwd y q hq
    rw [hq']
    rfl
  · intro a pa' ha hla d hd
    obtain ⟨pa, hpa, hdep, _, _, hax, hane⟩ := hinv a pa' ha
    rw [hdep] at hd
    have hold : ∃ pd, s.find d = some pd ∧ pd.loadState = .Loaded := by
      by_cases hae : a = x
      · subst hae
        rw [hp] at hpa
        cases hpa
        exact hdeps d hd
      · rw [hane hae] at hla
        exact hM.resolved a pa hpa hla d hd
    obtain ⟨pd, hpd, hpl⟩ := hold
    obtain ⟨pd', hpd'⟩ := hfwd d pd hpd
    exact ⟨pd', hpd', hstate d pd pd' hpd hpd' hpl⟩
  · intro a pa' ha hns
    obtain ⟨pa, hpa, _, hman, _, hax, hane⟩ := hinv a pa' ha
    rw [hman]
    by_cases hae : a = x
    · subst hae
      rw [hp] at hpa
      cases hpa
      exact hM.owned a p hp (by rw [hs]; decide)
    · rw [hane hae] at hns
      exact hM.owned a pa hpa hns

theorem addToDependencies_names (n : String) (deps : List String) :
    ∀ (w w' : World), addToDependencies n deps w = .ok w' →
      w'.storage.plugins.map (fun p => p.metadata.name)
        = w.storage.plugins.map (fun p => p.metadata.name) := by
  induction deps with
  | nil =>
    intro w w' h
    simp only [addToDependencies, Except.ok.injEq] at h
    subst h
    rfl
  | cons it rest ih =>
    intro w w' h
    simp only [addToDependencies] at h
    cases hit : w.find it with
    | none => simp [hit] at h
    | some dep =>
      have hname := World.find_name hit
      simp only [hit] at h
      have key : addToDependencies n rest (w.modifyPlugin it (Plugin.pushUsedBy n)) = .ok w' := by
        cases hm : dep.manager.isSome
        · simpa [hm] using h
        · simp only [hm, if_true, addUsedBy, hname, hit] at h
          exact h
      rw [ih _ _ key]
      exact modifyPlugin_names w it (Plugin.pushUsedBy n) (Plugin.pushUsedBy_name n)

theorem loadDependencies_mirror
    (loadRec : Nat → String → World → Except Fault (LoadState × World))
    (hrec : ∀ m x w r w', Mirror w.storage → loadRec m x w = .ok (r, w') → Mirror w'.storage)
    (deps : List String) : ∀ (acc : List String) (w : World) (res : Option (List String))
      (w' : World), Mirror w.storage → loadDependencies loadRec deps acc w = .ok (res, w') →
      Mirror w'.storage := by
  induction deps with
  | nil =>
    intro acc w res w' hM h
    simp only [loadDependencies, Except.ok.injEq, Prod.mk.injEq] at h
    rw [← h.2]
    exact hM
  | cons it rest ih =>
    intro acc w res w' hM h
    simp only [loadDependencies] at h
    split at h
    · cases h
      exact hM
    · split at h
      · cases h
        exact hM
      · split at h
        · cases h
        · rename_i state w1 hload
          have hM1 := hrec _ _ _ _ _ hM hload
          split at h
          · exact ih _ _ _ _ hM1 h
          · cases h
            exact hM1

theorem loadInternal_mirror (env : Env) (fuel : Nat) :
    ∀ (this : Nat) (name : String) (w : World) (r : LoadState) (w' : World),
      Mirror w.storage → loadInternal env fuel this name w = .ok (r, w') →
      Mirror w'.storage := by
  induction fuel with
  | zero =>
    intro this name w r w' _ h
    simp only [loadInternal] at h
    cases h
  | succ fuel ih =>
    intro this name w r w' hM h
    rw [loadInternal] at h
    split at h
    · cases h
    · rename_i plugin hfind
      split at h
      · cases h
        exact hM
      · rename_i hstate
        have hs : plugin.loadState = .NotLoaded := by
          by_contra hc
          exact hstate hc
        split at h
        · cases h
        · rename_i w1 hdeps
          cases h
          exact loadDependencies_mirror _ ih _ _ _ _ _ hM hdeps
        · rename_i deps w1 hdeps
          have hM1 : Mirror w1.storage := loadDependencies_mirror _ ih _ _ _ _ _ hM hdeps
          have hname : plugin.metadata.name = name := World.find_name hfind
          have hext : ∀ m x w r w', loadInternal env fuel m x w = .ok (r, w') → LoadExt w w' :=
            fun m x w r w' h => loadInternal_ext env fuel m x w r w' h
          have hloaded : ∀ m x w w', loadInternal env fuel m x w = .ok (.Loaded, w') →
              ∃ p', w'.find x = some p' ∧ p'.loadState = .Loaded :=
            fun m x w w' h => loadInternal_loaded h
          obtain ⟨hds, hall⟩ := loadDependencies_some _ hext hloaded _ _ _ _ _ hdeps
          have hm : plugin.manager.isSome := hM.owned name plugin hfind (by rw [hs]; decide)
          have hkeep : w1.find name = some plugin := by
            have := (loadDependencies_inProgress _ hext hloaded
              (fun m x w r w' B h1 h2 h3 => loadInternal_inProgress env fuel m x w r w' B h1 h2 h3)
              (fun _ => False) name plugin hs hm plugin.metadata.depends [] [] w
              (some deps) w1 hfind (by simp) (by simp)
              (by intro a ha; cases ha) hdeps).1 name (Or.inr rfl)
            rw [this]
            exact hfind
          rcases (loadModule_cases env this plugin deps w1 r w' h).2 with
            ⟨_, hst, _, _⟩ | ⟨_, module, instancer, initializer, w3, _, _, _, hadd, hw'⟩
          · rw [hst]
            exact hM1
          · obtain ⟨_, _, _, hf3⟩ := addToDependencies_ok _ _ _ _ hadd
            have hn3 := addToDependencies_names _ _ _ _ hadd
            rw [hname] at hw' hf3 hn3
            simp only [List.nil_append] at hds
            refine hM1.load_step name plugin (Plugin.setLoaded module instancer)
              (fun q => ⟨rfl, rfl, rfl⟩) hkeep hs
              (fun d hd => by
                obtain ⟨pd, h1, h2, _⟩ := hall d hd
                exact ⟨pd, h1, h2⟩) ?_ (fun y => ?_)
            · rw [hw', modifyPlugin_names w3 name _ (Plugin.setLoaded_name module instancer)]
              exact hn3
            · show w'.find y = _
              rw [hw', World.find_modifyPlugin _ _ _ _ (Plugin.setLoaded_name module instancer),
                hf3, hds]
              simp only [World.find_emit]
              simp only [World.find]
              by_cases hy : y = name
              · rw [if_pos hy]
                cases hq : w1.storage.find y <;> simp [hy]
              · rw [if_neg hy]
                cases hq : w1.storage.find y <;> simp [hy]

theorem load_mirror {env : Env} {fuel this : Nat} {plugin : String} {w w' : World}
    {r : LoadState} (hM : Mirror w.storage)
    (h : load env fuel this plugin w = .ok (r, w')) : Mirror w'.storage := by
  simp only [load] at h
  split at h
  · exact loadInternal_mirror env fuel _ _ _ _ _ hM h
  · cases h
    exact hM

theorem Reachable.mirror {w : World} (h : Reachable w) : Mirror w.storage := by
  induction h with
  | init files registry w h =>
    exact initializeGlobalPluginStorage_mirror files registry _ _ Mirror.empty h
  | setPluginDirectory env files this directory w w' _ h ih =>
    exact setPluginDirectory_mirror ih h
  | load env fuel this plugin w w' r _ h ih => exact load_mirror ih h
  | unload env this plugin w w' r _ h ih => exact unload_mirror ih h

/-- C15, counterexample: after the static plugins `A`, which declares the dependency `B`, and
`B` have been taken into the storage and a manager has been constructed, `A` is `Static` and
lists `B` in `depends`, while the `usedBy` list of `B` is empty. -/
theorem static_dependency_not_in_usedBy :
    Reachable constructedScene ∧
    (constructedScene.find "A").map (fun p => (p.loadState, p.metadata.depends))
      = some (.Static, ["B"]) ∧
    (constructedScene.find "B").map (fun p => p.metadata.usedBy) = some [] :=
  ⟨Reachable.setPluginDirectory exampleEnv dependentFiles 1 "plugins" staticScene
      constructedScene (Reachable.init dependentFiles staticRegistry staticScene rfl) rfl,
    rfl, rfl⟩

/-- C15, amended: in every storage reached from the drained registry of static plugins
through `setPluginDirectory`, `load` and `unload`, for all records `a` and `b`, the name of
`a` is in `b.usedBy` if and only if the name of `b` is in `a.depends` and `a` is `Loaded`. -/
theorem usedBy_mirrors_depends (w : World) (h : Reachable w) (a b : Plugin)
    (ha : a ∈ w.storage.plugins) (hb : b ∈ w.storage.plugins) :
    a.metadata.name ∈ b.metadata.usedBy
      ↔ b.metadata.name ∈ a.metadata.depends ∧ a.loadState = .Loaded := by
  have hM := h.mirror
  have hfa : w.storage.find a.metadata.name = some a :=
    find?_of_mem_nodup _ hM.names a ha
  have hfb : w.storage.find b.metadata.name = some b :=
    find?_of_mem_nodup _ hM.names b hb
  have hc := hM.counts _ _ a b hfa hfb
  rw [← List.count_pos_iff, hc]
  by_cases hl : a.loadState = .Loaded
  · rw [if_pos hl, List.count_pos_iff]
    exact ⟨fun h => ⟨h, hl⟩, fun h => h.1⟩
  · rw [if_neg hl]
    exact ⟨fun h => absurd h (Nat.lt_irrefl 0), fun h => absurd h.2 hl⟩

/-- C15, amended, at a concrete input: the records of `Q` and of its dependency `P` after
manager `1` has been constructed on the directory `plugins` and has loaded `Q`. -/
theorem usedBy_mirrors_depends_witness :
    loadedQ.metadata.name ∈ loadedP.metadata.usedBy
      ↔ loadedP.metadata.name ∈ loadedQ.metadata.depends ∧ loadedQ.loadState = .Loaded :=
  usedBy_mirrors_depends loadedScene
    (Reachable.load exampleEnv 3 1 "Q" constructedScene loadedScene .Loaded
      (Reachable.setPluginDirectory exampleEnv dependentFiles 1 "plugins" staticScene
        constructedScene (Reachable.init dependentFiles staticRegistry staticScene rfl) rfl)
      rfl)
    loadedQ loadedP (by decide) (by decide)

end PluginManager

namespace Utility

/-! ## Registration of skipped prefixes -/

/-- C31, on the code: `addSkippedPrefix("foo")` is accepted a second time, and the list of
skipped prefixes then holds `foo-` twice: the test for "already added" compares the new
prefix with the stored ones, which carry the dash that is appended after the test. The test
rejects `foo-bar` after `foo`, and a prefix that a registered key begins with is rejected. -/
theorem skipped_prefix_added_twice :
    skippedOf ((Arguments.create.bind (fun a => a.addSkippedPrefix "foo")).bind
      (fun a => a.addSkippedPrefix "foo")) = some ["foo-", "foo-"] ∧
    skippedOf ((Arguments.create.bind (fun a => a.addSkippedPrefix "foo")).bind
      (fun a => a.addSkippedPrefix "foo-bar")) = none ∧
    skippedOf ((Arguments.create.bind (fun a => a.addOption 'x' "foo-x" "")).bind
      (fun a => a.addSkippedPrefix "foo")) = none := by
  decide

/-! ## The separator and a prefixed parser -/

/-- C35, on the code: `addNamedArgument("foo-bar")` is accepted after
`addSkippedPrefix("foo")`, the stored key begins with the skipped prefix `foo-`, and
`prog --foo-bar v` is skipped: the value stays empty and `tryParse` returns `false`. In the
parser `Arguments("P")`, `addOption("a-x")` is accepted after `addSkippedPrefix("P-a")`; the
stored key `P-a-x` begins with the skipped prefix `P-a-`, and `prog --P-a-x v` leaves the
default. -/
theorem declared_key_behind_skipped_key :
    shadowedNamed.skippedPrefixes = ["foo-"] ∧
    shadowedNamed.keys = ["help", "foo-bar"] ∧
    keyHasPrefix "foo-bar" "foo-" = true ∧
    parseSummary shadowedNamed ["prog", "--foo-bar", "v"] ["foo-bar"] []
      = some (false, [some ""], []) ∧
    prefixedShadowed.skippedPrefixes = ["P-a-"] ∧
    prefixedShadowed.keys = ["P-help", "P-a-x"] ∧
    keyHasPrefix "P-a-x" "P-a-" = true ∧
    parseSummary prefixedShadowed ["prog", "--P-a-x", "v"] ["a-x"] []
      = some (true, [some "d"], []) :=
  ⟨rfl, rfl, rfl, rfl, rfl, rfl, rfl, rfl⟩

/-! ## Totality of `tryParse` -/

theorem dispatch_total (a : Arguments) (hwf : a.WellFormed) (st : ParseState)
    (hblen : st.booleans.length = a.booleans.length) (i : Nat) (e : Entry)
    (he : e ∈ a.entries) : ∃ r, Arguments.dispatch st (some (i, e)) = .ok r := by
  simp only [Arguments.dispatch]
  by_cases hty : e.type = .BooleanOption
  · rw [if_pos hty, if_pos (by rw [hblen]; exact hwf.booleanRange e he hty)]
    exact ⟨_, rfl⟩
  · rw [if_neg hty]
    exact ⟨_, rfl⟩

theorem lone_dash {t : String} (hhead : t.data.head? = some '-') (hlen : t.data.length = 1) :
    t = "-" := by
  cases t with
  | mk data =>
    match data, hhead, hlen with
    | [c], hh, _ =>
      simp only [List.head?_cons, Option.some.injEq] at hh
      rw [hh]

theorem round_total (a : Arguments) (hwf : a.WellFormed) (st : ParseState) (t : String)
    (hlen : st.values.length = a.values.length)
    (hblen : st.booleans.length = a.booleans.length)
    (hval : ∀ i e, st.valueFor = some (i, e) → e ∈ a.entries ∧ e.type ≠ .BooleanOption)
    (ht : t ≠ "-") : ∃ r, a.round st t = .ok r := by
  cases hv : st.valueFor with
  | some found =>
    obtain ⟨index, entry⟩ := found
    obtain ⟨hmem, hty⟩ := hval index entry hv
    simp only [Arguments.round, hv]
    rw [if_neg hty, if_pos (by rw [hlen]; exact hwf.valueRange entry hmem hty)]
    exact ⟨_, rfl⟩
  | none =>
    simp only [Arguments.round, hv]
    split
    · rename_i hcond
      split
      · split
        · exact ⟨_, rfl⟩
        · split
          · exact ⟨_, rfl⟩
          · split
            · exact ⟨_, rfl⟩
            · split
              · exact ⟨_, rfl⟩
              · rename_i found hf
                obtain ⟨i, e⟩ := found
                exact dispatch_total a hwf st hblen i e (Arguments.findShort_some hf).2.1
      · rename_i hne2
        split
        · split
          · split
            · exact ⟨_, rfl⟩
            · split
              · exact ⟨_, rfl⟩
              · split
                · split <;> exact ⟨_, rfl⟩
                · split
                  · exact ⟨_, rfl⟩
                  · rename_i found hf
                    obtain ⟨i, e⟩ := found
                    exact dispatch_total a hwf st hblen i e (Arguments.find_some hf).2.1
          · exact ⟨_, rfl⟩
        · rename_i hle
          exfalso
          simp only [Bool.and_eq_true, bne_iff_ne, ne_eq, beq_iff_eq] at hcond
          exact ht (lone_dash hcond.2 (by omega))
    · split
      · exact ⟨_, rfl⟩
      · split
        · exact ⟨_, rfl⟩
        · rename_i index entry hf
          obtain ⟨_, hmem, hty, _⟩ := Arguments.findNextArgument_some hf
          rw [if_pos (by
            rw [hlen]
            exact hwf.valueRange entry hmem (by rw [hty]; decide))]
          exact ⟨_, rfl⟩

theorem round_keeps_waiting (a : Arguments) (st st1 : ParseState) (t : String)
    (h : a.round st t = .ok (.fail st1) ∨ ∃ skip, a.round st t = .ok (.next st1 skip))
    (hval : ∀ i e, st.valueFor = some (i, e) → e ∈ a.entries ∧ e.type ≠ .BooleanOption) :
    ∀ i e, st1.valueFor = some (i, e) → e ∈ a.entries ∧ e.type ≠ .BooleanOption := by
  intro i e hv
  rcases round_state_cases a st st1 t h with h1 | h1 | ⟨_, _, _, _, _, h1⟩ |
    ⟨_, _, hn, _, _, _, h1⟩ | ⟨index, entry, _, hl, hty, h1⟩ | ⟨_, _, hn, _, _, h1⟩
  · subst h1
    exact hval i e hv
  · subst h1
    exact hval i e hv
  · subst h1
    cases hv
  · subst h1
    simp only at hv
    rw [hn] at hv
    cases hv
  · subst h1
    simp only [Option.some.injEq, Prod.mk.injEq] at hv
    obtain ⟨_, rfl⟩ := hv
    exact ⟨hl.token.2.1, hty⟩
  · subst h1
    simp only at hv
    rw [hn] at hv
    cases hv

theorem rounds_total (a : Arguments) (hwf : a.WellFormed) :
    ∀ (tokens : List String) (skip : Bool) (st : ParseState),
      st.values.length = a.values.length → st.booleans.length = a.booleans.length →
      (∀ i e, st.valueFor = some (i, e) → e ∈ a.entries ∧ e.type ≠ .BooleanOption) →
      (∀ t ∈ tokens, t ≠ "-") → ∃ b st', a.rounds tokens skip st = .ok (b, st') := by
  intro tokens
  induction tokens with
  | nil => intro skip st _ _ _ _; exact ⟨true, st, rfl⟩
  | cons t ts ih =>
    intro skip st hlen hblen hval hno
    have hno' : ∀ t' ∈ ts, t' ≠ "-" := fun t' ht' => hno t' (List.mem_cons_of_mem _ ht')
    cases skip with
    | true =>
      simp only [Arguments.rounds]
      exact ih false st hlen hblen hval hno'
    | false =>
      obtain ⟨r, hr⟩ := round_total a hwf st t hlen hblen hval (hno t (List.mem_cons_self _ _))
      simp only [Arguments.rounds, hr]
      cases r with
      | fail st1 => exact ⟨false, st1, rfl⟩
      | next st1 skip1 =>
        have hshape : a.round st t = .ok (.fail st1) ∨
            ∃ skip, a.round st t = .ok (.next st1 skip) := Or.inr ⟨skip1, hr⟩
        obtain ⟨h1, h2, _⟩ := round_lengths a st st1 t hshape
        exact ih skip1 st1 (h1.trans hlen) (h2.trans hblen)
          (round_keeps_waiting a st st1 t hshape hval) hno'

/-- C33, on the code: for every parser built by accepted operations, `tryParse` fails the
internal assertion on the entry found when the first token is `-`, whatever follows; for
an `argv` without such a token `tryParse` returns `true` or `false`. -/
theorem lone_dash_fails_assertion (a : Arguments) (hb : Built a) (arg0 : String)
    (rest tokens : List String) (hno : ∀ t ∈ tokens, t ≠ "-") :
    a.tryParse (arg0 :: "-" :: rest) = .error .assertion ∧
    ∃ status parsed, a.tryParse (arg0 :: tokens) = .ok (status, parsed) := by
  have hwf := hb.wellFormed
  obtain ⟨v, hv, hvlen⟩ := clearValues_ok a.entries a.values hwf.valueRange
  constructor
  · have hround : ∀ st : ParseState, st.valueFor = none → st.optionsAllowed = true →
        a.round st "-" = .error .assertion := by
      intro st hvf hopt
      have hdata : "-".data = ['-'] := rfl
      simp only [Arguments.round, hvf, hopt, hdata]
      rfl
    have h0 := hround
      { values := v, booleans := a.booleans.map (fun _ => false), valueFor := none,
        optionsAllowed := true, nextArgument := 0,
        parsedArguments := List.replicate a.entries.length false } rfl rfl
    simp only [Arguments.tryParse, hv, List.drop_succ_cons, List.drop_zero, Arguments.rounds,
      h0]
  · obtain ⟨b, st', hr⟩ := rounds_total a hwf tokens false
      { values := v, booleans := a.booleans.map (fun _ => false), valueFor := none,
        optionsAllowed := true, nextArgument := 0,
        parsedArguments := List.replicate a.entries.length false }
      hvlen (by simp) (fun i e h => by cases h) hno
    simp only [Arguments.tryParse, hv, List.drop_succ_cons, List.drop_zero, hr]
    split
    · exact ⟨_, _, rfl⟩
    · split <;> exact ⟨_, _, rfl⟩

/-- C33 at a concrete input: `prog - x` and `prog -h x --` on the parser `Arguments()`. -/
theorem lone_dash_fails_assertion_witness :
    plainParser.tryParse ("prog" :: "-" :: ["x"]) = .error .assertion ∧
    ∃ status parsed, plainParser.tryParse ("prog" :: ["-h", "x", "--"])
      = .ok (status, parsed) :=
  lone_dash_fails_assertion plainParser (Built.create plainParser rfl) "prog" ["x"]
    ["-h", "x", "--"] (by decide)

end Utility

namespace PluginManager

/-! ## Termination of a load -/

/-- C36, counterexample: `Q` depends on `A` and on `Missing`, which has no record.
`load("Q")` returns `UnresolvedDependency` after it has loaded `A`; the record of `A` was
`NotLoaded` without a module and is `Loaded` with its module afterwards. -/
theorem failed_load_leaves_dependency_loaded :
    resultState (load exampleEnv 3 1 "Q" chainWorld) = some .UnresolvedDependency ∧
    recordSummary chainWorld "A" = some (.NotLoaded, none, none) ∧
    recordSummary (resultWorld chainWorld (load exampleEnv 3 1 "Q" chainWorld)) "A"
      = some (.Loaded, some 7, some 100) := by
  decide

/-- C36, amended: when `load(n)` returns a state other than `Loaded`, the record of `n` is
what it was, and every record either has the `loadState`, `module` and `instancer` it had
or was `NotLoaded` before the call and is `Loaded` after it (a dependency that the call
loaded before the failure was found); no record is added. -/
theorem failed_load_states (env : Env) (fuel this : Nat) (n : String) (w w' : World)
    (r : LoadState) (h : load env fuel this n w = .ok (r, w')) (hr : r ≠ .Loaded) :
    (∀ found, findWithAlias this n w.storage = some found →
      w'.find found.metadata.name = some found) ∧
    (∀ x p, w.find x = some p → ∃ p', w'.find x = some p' ∧
      ((p'.loadState = p.loadState ∧ p'.module = p.module ∧ p'.instancer = p.instancer) ∨
        (p.loadState = .NotLoaded ∧ p'.loadState = .Loaded))) ∧
    (∀ x, w.find x = none → w'.find x = none) := by
  unfold load at h
  split at h
  · rename_i found hfound
    obtain ⟨hfind, hman⟩ := findWithAlias_some hfound
    have hfind : w.find found.metadata.name = some found := hfind
    have hkeep := loadInternal_keeps_record env fuel this _ w w' r found h hr hfind
      (by simp [hman])
    have hext := loadInternal_ext env fuel _ _ _ _ _ h
    refine ⟨fun f hf => (by rw [hfound] at hf; cases hf; exact hkeep), fun x p hp => ?_,
      hext.missing⟩
    obtain ⟨p', hp', hrel, _⟩ := hext.record x p hp
    exact ⟨p', hp', hrel.state⟩
  · rename_i hnone
    cases h
    refine ⟨fun f hf => ?_, fun x p hp => ⟨p, hp, Or.inl ⟨rfl, rfl, rfl⟩⟩, fun x hx => hx⟩
    rw [hnone] at hf
    cases hf

/-- C36, amended, at a concrete input: `load("Q")` in the storage where `Q` depends on `A`
and on a missing plugin. -/
theorem failed_load_states_witness :
    (∀ found, findWithAlias 1 "Q" chainWorld.storage = some found →
      (resultWorld chainWorld (load exampleEnv 3 1 "Q" chainWorld)).find found.metadata.name
        = some found) ∧
    (∀ x p, chainWorld.find x = some p →
      ∃ p', (resultWorld chainWorld (load exampleEnv 3 1 "Q" chainWorld)).find x = some p' ∧
      ((p'.loadState = p.loadState ∧ p'.module = p.module ∧ p'.instancer = p.instancer) ∨
        (p.loadState = .NotLoaded ∧ p'.loadState = .Loaded))) ∧
    (∀ x, chainWorld.find x = none →
      (resultWorld chainWorld (load exampleEnv 3 1 "Q" chainWorld)).find x = none) :=
  failed_load_states exampleEnv 3 1 "Q" chainWorld
    (resultWorld chainWorld (load exampleEnv 3 1 "Q" chainWorld)) .UnresolvedDependency rfl
    (by decide)

end PluginManager

namespace Utility

/-! ## Behind the separator -/

theorem round_verbatim (a : Arguments) (st : ParseState) (t : String)
    (hplain : a.keyPrefix = "") (hvf : st.valueFor = none)
    (hopt : st.optionsAllowed = false) :
    a.round st t =
      match a.findNextArgument st.nextArgument with
      | none => .ok (.fail st)
      | some (index, entry) =>
        if entry.id < st.values.length then
          .ok (.next { st with values := st.values.set entry.id t,
                               parsedArguments := st.parsedArguments.set index true,
                               nextArgument := index + 1 } false)
        else .error .undefined := by
  simp only [Arguments.round, hvf, hopt, hplain]
  rfl

/-- The token loop of an unprefixed parser once options are no longer allowed: the `i`-th
token goes to the `i`-th positional at or behind the cursor, whatever the token is; the loop
runs to the end exactly when there are enough positionals; nothing else changes. -/
theorem rounds_verbatim (a : Arguments) (hplain : a.keyPrefix = "")
    (hids : ((a.entries.filter (fun e => e.type != .BooleanOption)).map (fun e => e.id)).Nodup)
    (hrange : ∀ e ∈ a.entries, e.type ≠ .BooleanOption → e.id < a.values.length) :
    ∀ (tokens : List String) (pre post : List Entry) (st : ParseState),
      a.entries = pre ++ post → st.valueFor = none → st.optionsAllowed = false →
      st.nextArgument = pre.length → st.values.length = a.values.length →
      ∃ st', a.rounds tokens false st
          = .ok (decide (tokens.length ≤ (post.filter isArgument).length), st') ∧
        st'.booleans = st.booleans ∧ st'.valueFor = none ∧
        (∀ (i : Nat) (e : Entry) (t : String), (post.filter isArgument)[i]? = some e →
          tokens[i]? = some t → st'.values[e.id]? = some t) ∧
        (∀ j : Nat, (∀ e ∈ (post.filter isArgument).take tokens.length, e.id ≠ j) →
          st'.values[j]? = st.values[j]?) := by
  intro tokens
  induction tokens with
  | nil =>
    intro pre post st _ hvf _ _ _
    exact ⟨st, by simp [Arguments.rounds], rfl, hvf, fun i e t _ ht => by simp at ht,
      fun j _ => rfl⟩
  | cons t ts ih =>
    intro pre post st hent hvf hopt hnext hlen
    have hfind : a.findNextArgument st.nextArgument = firstIndex isArgument post pre.length := by
      simp only [Arguments.findNextArgument, hnext, hent, List.drop_left]
    have hround := round_verbatim a st t hplain hvf hopt
    rcases split_at_first isArgument post with hnone | ⟨mid, e, post2, hpost, hmid, he⟩
    · have hfilter : post.filter isArgument = [] := by
        apply List.filter_eq_nil_iff.mpr
        intro x hx
        simp [hnone x hx]
      rw [hfind, firstIndex_none _ post _ hnone] at hround
      refine ⟨st, ?_, rfl, hvf, fun i e t hi _ => ?_, fun j _ => rfl⟩
      · simp [Arguments.rounds, hround, hfilter]
      · rw [hfilter] at hi
        simp at hi
    · have hf : a.findNextArgument st.nextArgument = some (pre.length + mid.length, e) := by
        rw [hfind, hpost]
        exact firstIndex_append _ mid e post2 _ hmid he
      have hemem : e ∈ a.entries := by rw [hent, hpost]; simp
      have hetype : e.type = .Argument := by simpa [isArgument] using he
      have heid : e.id < st.values.length := by
        rw [hlen]
        exact hrange e hemem (by rw [hetype]; decide)
      rw [hf] at hround
      simp only [heid, if_true] at hround
      have hmidf : mid.filter isArgument = [] := by
        apply List.filter_eq_nil_iff.mpr
        intro x hx
        simp [hmid x hx]
      have hfilter : post.filter isArgument = e :: post2.filter isArgument := by
        rw [hpost, List.filter_append, hmidf, List.filter_cons_of_pos he]
        rfl
      have hlater : ∀ x ∈ post2.filter isArgument, x.id ≠ e.id := by
        intro x hx hc
        obtain ⟨hxpost, hxarg⟩ := List.mem_filter.mp hx
        have hxtype : x.type = .Argument := by simpa [isArgument] using hxarg
        have hsplit : a.entries = (pre ++ mid ++ [e]) ++ post2 := by
          rw [hent, hpost]
          simp
        rw [hsplit, List.filter_append, List.map_append] at hids
        have hdisj := (List.nodup_append.mp hids).2.2
        refine hdisj (List.mem_map.mpr ⟨e, List.mem_filter.mpr ⟨by simp, ?_⟩, rfl⟩)
          (List.mem_map.mpr ⟨x, List.mem_filter.mpr ⟨hxpost, ?_⟩, hc⟩)
        · simp [hetype]
        · simp [hxtype]
      obtain ⟨st', h1, h2, h3, h4, h5⟩ :=
        ih (pre ++ mid ++ [e]) post2
          { st with values := st.values.set e.id t,
                    parsedArguments := st.parsedArguments.set (pre.length + mid.length) true,
                    nextArgument := pre.length + mid.length + 1 }
          (by rw [hent, hpost]; simp) hvf hopt (by simp; omega) (by simp [hlen])
      have hkeep : st'.values[e.id]? = some t := by
        rw [h5 e.id (fun x hx => hlater x (List.mem_of_mem_take hx))]
        exact List.getElem?_set_self heid
      refine ⟨st', ?_, h2, h3, fun i x y hx hy => ?_, fun j hj => ?_⟩
      · simp only [Arguments.rounds, hround]
        rw [h1, hfilter]
        simp
      · rw [hfilter] at hx
        cases i with
        | zero =>
          simp only [List.getElem?_cons_zero, Option.some.injEq] at hx hy
          subst hx
          subst hy
          exact hkeep
        | succ k =>
          simp only [List.getElem?_cons_succ] at hx hy
          exact h4 k x y hx hy
      · rw [hfilter] at hj
        simp only [List.length_cons, List.take_succ_cons, List.mem_cons, forall_eq_or_imp] at hj
        rw [h5 j hj.2]
        exact List.getElem?_set_ne hj.1

theorem unfilledFrom_cursor : ∀ (l : List Entry) (parsed : List Bool) (c : Nat),
    parsed.length = l.length →
    (∀ (i : Nat) (e : Entry), l[i]? = some e → isArgument e = true →
      (parsed[i]? = some true ↔ i < c)) →
    unfilledFrom l parsed = (l.drop c).filter isArgument := by
  intro l
  induction l with
  | nil =>
    intro parsed c _ _
    cases parsed <;> simp [unfilledFrom]
  | cons e es ih =>
    intro parsed c hlen h
    cases parsed with
    | nil => simp at hlen
    | cons b bs =>
      have hlen' : bs.length = es.length := by simpa using hlen
      have h0 := h 0 e (by simp)
      simp only [List.getElem?_cons_zero, Option.some.injEq] at h0
      cases c with
      | zero =>
        have hrest := ih bs 0 hlen' (fun i x hx hax => by
          have := h (i + 1) x (by simpa using hx) hax
          simpa using this)
        simp only [unfilledFrom, hrest, List.drop_zero]
        cases hae : isArgument e
        · simp [hae]
        · have hb : b = false := by
            cases b
            · rfl
            · have := (h0 hae).mp rfl
              omega
          simp [hae, hb]
      | succ k =>
        have hrest := ih bs k hlen' (fun i x hx hax => by
          have := h (i + 1) x (by simpa using hx) hax
          simpa using this)
        simp only [unfilledFrom, hrest, List.drop_succ_cons]
        cases hae : isArgument e
        · simp
        · have hb : b = true := (h0 hae).mpr (Nat.succ_pos k)
          simp [hb]

theorem firstIndex_first {p : Entry → Bool} {l : List Entry} {s i : Nat} {e : Entry}
    (h : firstIndex p l s = some (i, e)) :
    ∀ (j : Nat) (x : Entry), s ≤ j → j < i → l[j - s]? = some x → p x = false := by
  induction l generalizing s with
  | nil => cases h
  | cons a l ih =>
    intro j x hsj hji hx
    simp only [firstIndex] at h
    split at h
    · simp only [Option.some.injEq, Prod.mk.injEq] at h
      omega
    · rename_i ha
      by_cases hj : j = s
      · subst hj
        simp only [Nat.sub_self, List.getElem?_cons_zero, Option.some.injEq] at hx
        subst hx
        simpa using ha
      · have hidx : j - s = (j - (s + 1)) + 1 := by omega
        rw [hidx, List.getElem?_cons_succ] at hx
        exact ih h j x (by omega) hji hx

theorem Arguments.findNextArgument_first {a : Arguments} {start i : Nat} {e : Entry}
    (h : a.findNextArgument start = some (i, e)) :
    ∀ (j : Nat) (x : Entry), start ≤ j → j < i → a.entries[j]? = some x →
      isArgument x = false := by
  intro j x hsj hji hx
  refine firstIndex_first h j x hsj hji ?_
  rw [List.getElem?_drop]
  have : start + (j - start) = j := by omega
  rw [this]
  exact hx

/-- One round of the loop on a token that does not address a positional by its key keeps
the cursor of the positional loop in step with the record of the filled entries. -/
theorem round_cursor (a : Arguments) (st st1 : ParseState) (t : String)
    (h : a.round st t = .ok (.fail st1) ∨ ∃ skip, a.round st t = .ok (.next st1 skip))
    (hM : ∀ i e, a.LookedUp t i e → isArgument e = false)
    (hI : st.parsedArguments.length = a.entries.length ∧
      (∀ (i : Nat) (e : Entry), a.entries[i]? = some e → isArgument e = true →
        (st.parsedArguments[i]? = some true ↔ i < st.nextArgument)) ∧
      (∀ (i : Nat) (e : Entry), st.valueFor = some (i, e) →
        a.entries[i]? = some e ∧ isArgument e = false)) :
    st1.parsedArguments.length = a.entries.length ∧
      (∀ (i : Nat) (e : Entry), a.entries[i]? = some e → isArgument e = true →
        (st1.parsedArguments[i]? = some true ↔ i < st1.nextArgument)) ∧
      (∀ (i : Nat) (e : Entry), st1.valueFor = some (i, e) →
        a.entries[i]? = some e ∧ isArgument e = false) := by
  obtain ⟨h1, h2, h3⟩ := hI
  have hother : ∀ (index : Nat) (entry : Entry), a.entries[index]? = some entry →
      isArgument entry = false → ∀ (i : Nat) (e : Entry), a.entries[i]? = some e →
      isArgument e = true →
      ((st.parsedArguments.set index true)[i]? = some true ↔ i < st.nextArgument) := by
    intro index entry hidx hna i e hi hae
    have hne : index ≠ i := by
      intro hc
      subst hc
      rw [hidx] at hi
      cases hi
      rw [hna] at hae
      cases hae
    rw [List.getElem?_set_ne hne]
    exact h2 i e hi hae
  rcases round_state_cases a st st1 t h with hs | hs | ⟨index, entry, hv, _, _, hs⟩ |
    ⟨index, entry, hn, hl, hty, _, hs⟩ | ⟨index, entry, hn, hl, _, hs⟩ |
    ⟨index, entry, hn, hf, _, hs⟩
  · subst hs
    exact ⟨h1, h2, h3⟩
  · subst hs
    exact ⟨h1, h2, h3⟩
  · subst hs
    obtain ⟨hidx, hna⟩ := h3 index entry hv
    exact ⟨by simp [h1], hother index entry hidx hna, fun i e hc => by cases hc⟩
  · subst hs
    have hna : isArgument entry = false := by simp [isArgument, hty]
    refine ⟨by simp [h1], hother index entry hl.token.1 hna, fun i e hc => ?_⟩
    simp only at hc
    rw [hn] at hc
    cases hc
  · subst hs
    refine ⟨h1, h2, fun i e hc => ?_⟩
    simp only [Option.some.injEq, Prod.mk.injEq] at hc
    obtain ⟨rfl, rfl⟩ := hc
    exact ⟨hl.token.1, hM _ _ hl⟩
  · subst hs
    obtain ⟨hidx, _, hty, hle⟩ := Arguments.findNextArgument_some hf
    have hfirst := Arguments.findNextArgument_first hf
    have hlt : index < st.parsedArguments.length := by
      rw [h1]
      exact (List.getElem?_eq_some.mp hidx).1
    refine ⟨by simp [h1], fun i e hi hae => ?_, fun i e hc => ?_⟩
    · by_cases hie : i = index
      · subst hie
        simp only [List.getElem?_set_self hlt, true_iff]
        omega
      · rw [List.getElem?_set_ne (fun hc => hie hc.symm), h2 i e hi hae]
        constructor
        · intro hlt'
          show i < index + 1
          omega
        · intro hlt'
          have hlt' : i < index + 1 := hlt'
          by_contra hge
          have := hfirst i e (by omega) (by omega) hi
          rw [this] at hae
          cases hae
    · simp only at hc
      rw [hn] at hc
      cases hc

/-- In every state that the loop reaches on tokens none of which addresses a positional by
its key, the positionals before the cursor are the filled ones. -/
theorem cursor_marks_filled (a : Arguments) (pre : List String)
    (hkeys : ∀ t ∈ pre, ∀ i e, a.LookedUp t i e → isArgument e = false)
    (st : ParseState) (skip : Bool) (h : a.stateAfter pre = some (st, skip)) :
    st.parsedArguments.length = a.entries.length ∧
    ∀ (i : Nat) (e : Entry), a.entries[i]? = some e → isArgument e = true →
      (st.parsedArguments[i]? = some true ↔ i < st.nextArgument) := by
  simp only [Arguments.stateAfter] at h
  split at h
  · cases h
  · rename_i values hv
    have hr := rounds_append a pre [] _ _ _ _ h
    simp only [List.append_nil] at hr
    have hfin : a.rounds [] skip st = .ok (true, st) := by
      cases skip <;> rfl
    rw [hfin] at hr
    have hinv := rounds_invariant a
      (fun s => s.parsedArguments.length = a.entries.length ∧
        (∀ (i : Nat) (e : Entry), a.entries[i]? = some e → isArgument e = true →
          (s.parsedArguments[i]? = some true ↔ i < s.nextArgument)) ∧
        (∀ (i : Nat) (e : Entry), s.valueFor = some (i, e) →
          a.entries[i]? = some e ∧ isArgument e = false))
      (fun t => ∀ i e, a.LookedUp t i e → isArgument e = false)
      (fun s t s1 hI hM hstep => round_cursor a s s1 t hstep hM hI)
      pre false _ true st hkeys
      ⟨by simp, fun i e _ _ => by
          simp only [List.getElem?_replicate]
          split <;> simp, fun i e hc => by cases hc⟩ hr
    exact ⟨hinv.1, hinv.2.1⟩

/-- C23, counterexample: on the parser with the positionals `input` and `output`, `prog
--input X -- Y Z` gives `input` the value `X` through its key; behind the separator `Y` does
not go to `output`, the next unfilled positional, but to `input`, and `Z` goes to `output`;
`tryParse` returns `true`. -/
theorem separator_refills_positional :
    parseSummary inputOutput ["prog", "--input", "X"] ["input", "output"] ["help"]
      = some (false, [some "X", some ""], [some false]) ∧
    parseSummary inputOutput ["prog", "--input", "X", "--", "Y", "Z"] ["input", "output"]
      ["help"] = some (true, [some "Y", some "Z"], [some false]) :=
  ⟨rfl, rfl⟩

/-- C23, amended: when an unprefixed parser reads the token `--` while it is idle, the loop
returns `true` or `false`, and the `i`-th later token is stored verbatim, whatever it looks
like, in the `i`-th positional at or behind the cursor of the positional loop; the loop
runs to the end exactly when there are as many such positionals as later tokens. No flag
changes, no value is awaited, and no slot other than those of these positionals changes, so
`--` itself is stored nowhere. When the positionals before the cursor are the filled ones,
as they are in every state reached on tokens none of which addresses a positional by its
key, the positionals at or behind the cursor are the unfilled positionals in declaration
order. -/
theorem separator_ends_options (a : Arguments) (hwf : a.WellFormed) (hplain : a.keyPrefix = "")
    (st : ParseState) (hvf : st.valueFor = none) (hopt : st.optionsAllowed = true)
    (hlen : st.values.length = a.values.length) (later : List String) :
    ∃ st', a.rounds ("--" :: later) false st
        = .ok (decide (later.length
            ≤ ((a.entries.drop st.nextArgument).filter isArgument).length), st') ∧
      st'.booleans = st.booleans ∧ st'.valueFor = none ∧
      (∀ (i : Nat) (e : Entry) (t : String),
        ((a.entries.drop st.nextArgument).filter isArgument)[i]? = some e →
        later[i]? = some t → st'.values[e.id]? = some t) ∧
      (∀ j : Nat,
        (∀ e ∈ ((a.entries.drop st.nextArgument).filter isArgument).take later.length,
          e.id ≠ j) →
        st'.values[j]? = st.values[j]?) ∧
      (st.parsedArguments.length = a.entries.length →
        (∀ (i : Nat) (e : Entry), a.entries[i]? = some e → isArgument e = true →
          (st.parsedArguments[i]? = some true ↔ i < st.nextArgument)) →
        (a.entries.drop st.nextArgument).filter isArgument
          = a.unfilled st.parsedArguments) ∧
      (∀ (pre : List String) (skip : Bool), a.stateAfter pre = some (st, skip) →
        (∀ t ∈ pre, ∀ i e, a.LookedUp t i e → isArgument e = false) →
        (a.entries.drop st.nextArgument).filter isArgument
          = a.unfilled st.parsedArguments) := by
  have hlink : st.parsedArguments.length = a.entries.length →
      (∀ (i : Nat) (e : Entry), a.entries[i]? = some e → isArgument e = true →
        (st.parsedArguments[i]? = some true ↔ i < st.nextArgument)) →
      (a.entries.drop st.nextArgument).filter isArgument = a.unfilled st.parsedArguments :=
    fun hp hcur =>
      (unfilledFrom_cursor a.entries st.parsedArguments st.nextArgument hp hcur).symm
  have hrun : ∀ (pre : List String) (skip : Bool), a.stateAfter pre = some (st, skip) →
      (∀ t ∈ pre, ∀ i e, a.LookedUp t i e → isArgument e = false) →
      (a.entries.drop st.nextArgument).filter isArgument = a.unfilled st.parsedArguments :=
    fun pre skip hpre hkeys =>
      hlink (cursor_marks_filled a pre hkeys st skip hpre).1
        (cursor_marks_filled a pre hkeys st skip hpre).2
  by_cases hc : st.nextArgument ≤ a.entries.length
  · obtain ⟨st', h1, h2, h3, h4, h5⟩ :=
      rounds_verbatim a hplain hwf.valueNodup hwf.valueRange later
        (a.entries.take st.nextArgument) (a.entries.drop st.nextArgument)
        { st with optionsAllowed := false } (List.take_append_drop _ _).symm hvf rfl
        (by simp [List.length_take, Nat.min_eq_left hc]) hlen
    refine ⟨st', ?_, h2, h3, h4, h5, hlink, hrun⟩
    simp only [Arguments.rounds, round_separator a st hplain hvf hopt]
    exact h1
  · have hdrop : a.entries.drop st.nextArgument = [] :=
      List.drop_eq_nil_of_le (by omega)
    have hnone : a.findNextArgument st.nextArgument = none := by
      simp only [Arguments.findNextArgument, hdrop]
      rfl
    rw [hdrop]
    have hlink' : st.parsedArguments.length = a.entries.length →
        (∀ (i : Nat) (e : Entry), a.entries[i]? = some e → isArgument e = true →
          (st.parsedArguments[i]? = some true ↔ i < st.nextArgument)) →
        ([] : List Entry).filter isArgument = a.unfilled st.parsedArguments := by
      rw [← hdrop]
      exact hlink
    have hrun' : ∀ (pre : List String) (skip : Bool), a.stateAfter pre = some (st, skip) →
        (∀ t ∈ pre, ∀ i e, a.LookedUp t i e → isArgument e = false) →
        ([] : List Entry).filter isArgument = a.unfilled st.parsedArguments := by
      rw [← hdrop]
      exact hrun
    refine ⟨{ st with optionsAllowed := false }, ?_, rfl, hvf,
      fun i e t hi _ => (by simp at hi), fun j _ => rfl, hlink', hrun'⟩
    simp only [Arguments.rounds, round_separator a st hplain hvf hopt]
    cases later with
    | nil => rfl
    | cons t ts =>
      have hr := round_verbatim a { st with optionsAllowed := false } t hplain hvf rfl
      simp only [hnone] at hr
      simp only [Arguments.rounds, hr]
      simp

/-- C23, amended, at a concrete input: `-- -x --help` on the schema with the positionals
`a` and `b`, before any positional is filled. -/
theorem separator_ends_options_witness :
    ∃ st', twoPositionals.rounds ("--" :: ["-x", "--help"]) false twoPositionalsStart
        = .ok (decide (["-x", "--help"].length
            ≤ ((twoPositionals.entries.drop twoPositionalsStart.nextArgument).filter
                isArgument).length), st') ∧
      st'.booleans = twoPositionalsStart.booleans ∧ st'.valueFor = none ∧
      (∀ (i : Nat) (e : Entry) (t : String),
        ((twoPositionals.entries.drop twoPositionalsStart.nextArgument).filter
          isArgument)[i]? = some e →
        ["-x", "--help"][i]? = some t → st'.values[e.id]? = some t) ∧
      (∀ j : Nat,
        (∀ e ∈ ((twoPositionals.entries.drop twoPositionalsStart.nextArgument).filter
            isArgument).take ["-x", "--help"].length, e.id ≠ j) →
        st'.values[j]? = twoPositionalsStart.values[j]?) ∧
      (twoPositionalsStart.parsedArguments.length = twoPositionals.entries.length →
        (∀ (i : Nat) (e : Entry), twoPositionals.entries[i]? = some e →
          isArgument e = true →
          (twoPositionalsStart.parsedArguments[i]? = some true
            ↔ i < twoPositionalsStart.nextArgument)) →
        (twoPositionals.entries.drop twoPositionalsStart.nextArgument).filter isArgument
          = twoPositionals.unfilled twoPositionalsStart.parsedArguments) ∧
      (∀ (pre : List String) (skip : Bool),
        twoPositionals.stateAfter pre = some (twoPositionalsStart, skip) →
        (∀ t ∈ pre, ∀ i e, twoPositionals.LookedUp t i e → isArgument e = false) →
        (twoPositionals.entries.drop twoPositionalsStart.nextArgument).filter isArgument
          = twoPositionals.unfilled twoPositionalsStart.parsedArguments) :=
  separator_ends_options twoPositionals ⟨by decide, by decide, by decide⟩ rfl
    twoPositionalsStart rfl rfl rfl ["-x", "--help"]

/-! ## A key as the last token -/

theorem firstIndex_exists (p : Entry → Bool) (l : List Entry) (s : Nat) (e : Entry)
    (he : e ∈ l) (hp : p e = true) : ∃ i x, firstIndex p l s = some (i, x) := by
  induction l generalizing s with
  | nil => cases he
  | cons a l ih =>
    simp only [firstIndex]
    split
    · exact ⟨_, _, rfl⟩
    · rename_i ha
      rcases List.mem_cons.mp he with rfl | he
      · exact absurd hp ha
      · exact ih _ he

theorem tryParse_false_of_rounds (a : Arguments) (arg0 : String) (pre last : List String)
    (st st1 : ParseState) (b : Bool) (hidle : a.stateAfter pre = some (st, false))
    (hr : a.rounds last false st = .ok (b, st1))
    (hbad : b = false ∨ st1.valueFor.isSome = true) :
    ∃ parsed, a.tryParse (arg0 :: (pre ++ last)) = .ok (false, parsed) := by
  simp only [Arguments.stateAfter] at hidle
  split at hidle
  · cases hidle
  · rename_i values hv
    simp only [Arguments.tryParse, hv, List.drop_succ_cons, List.drop_zero]
    rw [rounds_append a pre last _ _ _ _ hidle, hr]
    simp only
    rcases hbad with hb | hw
    · subst hb
      exact ⟨_, rfl⟩
    · cases b
      · exact ⟨_, rfl⟩
      · simp only [Bool.not_true, Bool.false_eq_true, if_false, hw, if_true]
        exact ⟨_, rfl⟩

/-- When the last token is the long form `--key` or the short form `-c` of an entry that
takes a value, is read while the parser waits for no value and options are allowed, and the
key is the key of no other entry and not behind a skipped prefix, `tryParse` returns
`false`. -/
theorem key_at_end_returns_false (a : Arguments) (arg0 : String) (pre : List String)
    (st : ParseState) (e : Entry) (t : String)
    (hidle : a.stateAfter pre = some (st, false)) (hvf : st.valueFor = none)
    (hopt : st.optionsAllowed = true) (he : e ∈ a.entries) (hty : e.type ≠ .BooleanOption)
    (hform :
      (t = "--" ++ e.key ∧ e.key.data ≠ [] ∧ (∀ x ∈ a.entries, x.key = e.key → x = e) ∧
        a.skippedPrefix e.key = false ∧
        (a.keyPrefix.data.isEmpty = true ∨ keyHasPrefix e.key a.keyPrefix = true)) ∨
      (t.data = ['-', e.shortKey] ∧ e.shortKey ≠ '-' ∧ a.keyPrefix.data.isEmpty = true ∧
        (∀ x ∈ a.entries, x.shortKey = e.shortKey → x = e))) :
    ∃ parsed, a.tryParse (arg0 :: (pre ++ [t])) = .ok (false, parsed) := by
  have hdisp : ∀ i, Arguments.dispatch st (some (i, e))
      = .ok (.next { st with valueFor := some (i, e) } false) := by
    intro i
    simp only [Arguments.dispatch, if_neg hty]
  have hwait : ∀ i, a.round st t = .ok (.next { st with valueFor := some (i, e) } false) →
      ∃ parsed, a.tryParse (arg0 :: (pre ++ [t])) = .ok (false, parsed) := by
    intro i hr
    refine tryParse_false_of_rounds a arg0 pre [t] st { st with valueFor := some (i, e) } true
      hidle ?_ (Or.inr rfl)
    simp only [Arguments.rounds, hr]
  have hfail : a.round st t = .ok (.fail st) →
      ∃ parsed, a.tryParse (arg0 :: (pre ++ [t])) = .ok (false, parsed) := by
    intro hr
    refine tryParse_false_of_rounds a arg0 pre [t] st st false hidle ?_ (Or.inl rfl)
    simp only [Arguments.rounds, hr]
  rcases hform with ⟨ht, hne, huniq, hskip, hpre⟩ | ⟨ht, hdash, hplain, huniq⟩
  · subst ht
    have hdata : ("--" ++ e.key).data = '-' :: '-' :: e.key.data := by
      rw [String.data_append]
      rfl
    have hlen : 0 < e.key.data.length := List.length_pos.mpr hne
    have h2 : ¬ (e.key.data.length + 1 + 1 = 2) := by omega
    have h3 : e.key.data.length + 1 + 1 > 2 := by omega
    have hkey : String.mk e.key.data = e.key := rfl
    have hnone : a.skippedPrefixes.find? (fun start => keyHasPrefix e.key start) = none := by
      rw [List.find?_eq_none]
      intro x hx
      simp only [Arguments.skippedPrefix, List.any_eq_false] at hskip
      exact hskip x hx
    obtain ⟨i, x, hfind⟩ := firstIndex_exists (fun y => y.key == e.key) a.entries 0 e he
      (by simp)
    have hfind : a.find e.key = some (i, x) := hfind
    have hx : x = e := huniq x (Arguments.find_some hfind).2.1 (Arguments.find_some hfind).2.2
    subst hx
    have hnotpre : (!a.keyPrefix.data.isEmpty && !keyHasPrefix x.key a.keyPrefix) = false := by
      rcases hpre with h | h <;> simp [h]
    by_cases hv : verifyKey x.key = true
    · apply hwait i
      simp only [Arguments.round, hvf, hopt, hdata, List.length_cons, List.head?_cons,
        Bool.true_and, h2, h3, if_true, if_false, List.take_succ_cons, List.take_zero,
        List.drop_succ_cons, List.drop_zero, hkey, hv, Bool.not_true, Bool.false_eq_true,
        hnotpre, hnone, hfind, hdisp, bne_iff_ne, ne_eq, Nat.add_one_ne_zero,
        not_false_eq_true, beq_self_eq_true, Bool.and_self]
      rw [if_pos]
      simp
    · apply hfail
      have hv' : verifyKey x.key = false := by
        cases h : verifyKey x.key
        · rfl
        · exact absurd h hv
      simp only [Arguments.round, hvf, hopt, hdata, List.length_cons, List.head?_cons,
        Bool.true_and, h2, h3, if_true, if_false, List.take_succ_cons, List.take_zero,
        List.drop_succ_cons, List.drop_zero, hkey, hv', Bool.not_false, bne_iff_ne, ne_eq,
        Nat.add_one_ne_zero, not_false_eq_true, beq_self_eq_true, Bool.and_self]
      rw [if_pos]
      simp
  · obtain ⟨i, x, hfind⟩ := firstIndex_exists (fun y => y.shortKey == e.shortKey) a.entries 0 e
      he (by simp)
    have hfind : a.findShort e.shortKey = some (i, x) := hfind
    have hx : x = e := huniq x (Arguments.findShort_some hfind).2.1
      (Arguments.findShort_some hfind).2.2
    subst hx
    have hplainb : (!a.keyPrefix.data.isEmpty) = false := by simp [hplain]
    by_cases hv : verifyShortKey x.shortKey = true
    · apply hwait i
      simp only [Arguments.round, hvf, hopt, ht, List.length_cons, List.length_nil,
        List.head?_cons, Bool.true_and, hplainb, Bool.false_eq_true, if_false,
        List.getD_cons_succ, List.getD_cons_zero, hdash, hv, Bool.not_true, hfind, hdisp]
      simp
    · apply hfail
      have hv' : verifyShortKey x.shortKey = false := by
        cases h : verifyShortKey x.shortKey
        · rfl
        · exact absurd h hv
      simp only [Arguments.round, hvf, hopt, ht, List.length_cons, List.length_nil,
        List.head?_cons, Bool.true_and, hplainb, Bool.false_eq_true, if_false,
        List.getD_cons_succ, List.getD_cons_zero, hdash, hv', Bool.not_false]
      simp

/-- C25, on the code: in the parser `Arguments("P")`, `addOption("a-x")` is accepted after
`addSkippedPrefix("P-a")` and stored as `P-a-x`; on `prog --P-a-x`, whose last token is the
key of this value-taking entry, the token is skipped as an option of the prefix `P-a` and
`tryParse` returns `true`. With a key that is not behind a skipped prefix `tryParse` returns
`false`: `prog --level` on the parser with the option `level`, and `prog -b` on the parser
with the named argument `bar`. -/
theorem last_key_behind_skipped_prefix :
    prefixedShadowed.skippedPrefixes = ["P-a-"] ∧
    prefixedShadowed.entries.map (fun e => (e.type, e.key))
      = [(.BooleanOption, "P-help"), (.Option, "P-a-x")] ∧
    statusOf (prefixedShadowed.tryParse ["prog", "--P-a-x"]) = some true ∧
    statusOf (optionParser.tryParse ["prog", "--level"]) = some false ∧
    statusOf (namedParser.tryParse ["prog", "-b"]) = some false :=
  ⟨rfl, rfl, rfl, rfl, rfl⟩

end Utility

end Corrade
